import Mathlib

/-!
ShellServe: the server-side session engine, its string library and its client start-up.

A shallow embedding of the C sources of ShellServe (`src/src/*.c`) and the
properties of its specification, claim by claim.

Conventions of the embedding

* A byte of C memory is a `UInt8`.  A `char` buffer is the list of the bytes
  stored from the pointer on; a C string read from such a buffer ends at its
  first NUL byte, or at the end of the list (the terminator is then implicit).
* `int` results are `Int`; `NULL` pointers are `none`.
* A computation of the worker process is a `Run`: it returns a value or leaves
  the process through `_exit` (directly, or through `printerr_exit`), in both
  cases with the state of the process.
* The descriptors of a process are an `FdTable`; `pipe`, `dup2` and `close`
  work on it, and a wrapper of syscalls.c whose call fails leaves the process.
* A computation that also works on regular files is an `FRun`: a `Run` that
  carries a `Disk`, the files and the descriptors open on them.
* What the environment decides is a parameter or part of the state: what the
  reads of the socket deliver (`Sys.input`), what `fork()`, `wait()` and
  `accept` return, which paths `execve` can run, how many bytes a `write`
  takes, which names `open` refuses (`Disk.refused`, `Disk.writable`).  A
  local variable that the source reads without having initialised it holds a
  parameter, `junk`.
* Static variables of the source are part of the state threaded through the
  calls: the buffer of `mygetchar`, the `next_token` of `mystrtok` (`Strtok`).
* Where a property is about agreement with a standard function or a format,
  the standard is a definition of its own, named `.._spec`.
* The first part of the file holds the definitions, the second part, from
  "Theorems" on, the lemmas and the theorems of the claims.
-/

namespace ShellServe

/-! ## Bytes and C strings -/

/-- One byte of C memory. -/
abbrev Byte := UInt8

/-- The bytes of a string literal of the source (all of them are ASCII). -/
def ascii (s : String) : List Byte := s.toList.map (fun c => c.toNat.toUInt8)

/-- The C string stored in a buffer: its bytes before the first NUL. -/
def cstr (s : List Byte) : List Byte := s.takeWhile (fun b => b != 0)

/-- The value of a `char` in an arithmetic expression.  `char` is signed on the
    platform the sources are written for (Linux, x86-64, gcc). -/
def charval (b : Byte) : Int :=
  if b.toNat < 128 then (b.toNat : Int) else (b.toNat : Int) - 256

/-- Embeds `mystrcmp` (mystring.c:268).  The loop walks both strings while the
    bytes agree, returns 0 when the common byte is NUL, and otherwise returns the
    difference of the first two distinct bytes.  Reading at the end of a
    list reads the terminator. -/
def mystrcmp : List Byte → List Byte → Int
  | [], [] => 0
  | [], b :: _ => if (0 : Byte) = b then 0 else charval 0 - charval b
  | a :: _, [] => if a = 0 then 0 else charval a - charval 0
  | a :: s, b :: t =>
    if a = b then (if a = 0 then 0 else mystrcmp s t) else charval a - charval b

/-- Embeds `mystrlen` (mystring.c:258): the number of bytes before the first NUL. -/
def mystrlen (s : List Byte) : Nat := (cstr s).length

/-- Embeds `mystrncpy` (mystring.c:243): copies bytes of `src` until `n` are
    copied or a NUL is met, then stores a NUL.  The result is the content of
    `dst` as a C string. -/
def mystrncpy : List Byte → Nat → List Byte
  | [], _ => []
  | _ :: _, 0 => []
  | a :: s, n + 1 => if a = 0 then [] else a :: mystrncpy s n

/-! ## The credential store (clientlogin.c) -/

/-- `USER_MAX` (clientlogin.h:4). -/
def USER_MAX : Nat := 1000

/-- `Credential` (clientlogin.h:7): the two `char[CREDENTIAL_LEN]` buffers. -/
structure Credential where
  username : List Byte
  password : List Byte
  deriving DecidableEq, Repr

/-- The loop of `verifyuser`, at index `i`, over the records from `i` on. -/
def verifyuser.loop (username password : List Byte) : List Credential → Int → Int
  | [], _ => -1
  | c :: rest, i =>
    if mystrcmp username c.username = 0 ∧ mystrcmp password c.password = 0 then i
    else verifyuser.loop username password rest (i + 1)

/-- Embeds `verifyuser` (clientlogin.c:20).  `creds` is `__credentials[0 ..
    __ncredentials)`. -/
def verifyuser (creds : List Credential) (username password : List Byte) : Int :=
  verifyuser.loop username password creds 0

/-- Embeds `get_username_at_index` (clientlogin.c:14); `none` is an index
    outside the loaded table. -/
def get_username_at_index (creds : List Credential) (i : Int) : Option (List Byte) :=
  if i < 0 then none else (creds.get? i.toNat).map Credential.username

/-- The record holds the pair `(username, password)`: both strings are equal. -/
def Credential.holds (c : Credential) (username password : List Byte) : Prop :=
  cstr c.username = cstr username ∧ cstr c.password = cstr password

instance (c : Credential) (u p : List Byte) : Decidable (c.holds u p) := by
  unfold Credential.holds; infer_instance

/-! ## The process and its environment -/

/-- Ghost record of one call of `attempt_login` that returned: the two lines
    the client replied, as C strings, and the index `verifyuser` gave. -/
structure Attempt where
  userline : List Byte
  passline : List Byte
  userindex : Int
  deriving DecidableEq, Repr

/-- What the operating system holds for one worker process, as far as the
    session engine can observe it. -/
structure Sys where
  /-- What the successive `read` calls on the session socket will return, one
      chunk per call; an empty chunk, or no chunk at all, is end of input, or,
      for a read that does not block, nothing there for now. -/
  input : List (List Byte)
  /-- Every byte written so far, oldest first, with the descriptor it went to. -/
  output : List (Int × Byte)
  /-- The descriptors closed so far, oldest first. -/
  closed : List Int
  /-- The static buffer of `mygetchar`: `none` when `n = 0`, and `some rest`
      when `n = rest.length + 1`, with `bufp` pointing at `rest`. -/
  getc : Option (List Byte)
  /-- Ghost record, for stating the properties: the calls of `attempt_login`
      that returned, oldest first. -/
  attempts : List Attempt
  deriving DecidableEq, Repr

/-- How a computation of the worker ends: it returns a value, or the process
    leaves through `_exit` with a status. -/
inductive Outcome (α : Type) where
  | ret (a : α) (s : Sys)
  | exit (code : Int) (s : Sys)
  deriving DecidableEq, Repr

/-- A computation of the worker process. -/
def Run (α : Type) : Type := Sys → Outcome α

/-- Sequencing: what follows runs only when the first part returns. -/
def Run.bind {α β : Type} (m : Run α) (f : α → Run β) : Run β := fun s =>
  match m s with
  | .ret a s1 => f a s1
  | .exit c s1 => .exit c s1

instance : Monad Run where
  pure a := fun s => .ret a s
  bind := Run.bind

/-- The state in which a computation ends. -/
def Outcome.sys {α : Type} : Outcome α → Sys
  | .ret _ s => s
  | .exit _ s => s

/-- Bytes on their way to descriptor `fd`. -/
def tagged (fd : Int) (bytes : List Byte) : List (Int × Byte) :=
  bytes.map (fun b => (fd, b))

/-- The bytes of a record of writes that went to descriptor `fd`. -/
def bytes_to (fd : Int) (out : List (Int × Byte)) : List Byte :=
  out.filterMap (fun e => if e.1 = fd then some e.2 else none)

/-- The bytes written to descriptor `fd`, in order. -/
def Sys.written (s : Sys) (fd : Int) : List Byte := bytes_to fd s.output

/-- The value a computation returned, if it did. -/
def Outcome.result? {α : Type} : Outcome α → Option α
  | .ret a _ => some a
  | .exit _ _ => none

/-- Models `_exit(code)`. -/
def sys_exit {α : Type} (code : Int) : Run α := fun s => .exit code s

/-- Models `write(fd, buf, count)` on a descriptor that accepts all the bytes. -/
def sys_write (fd : Int) (bytes : List Byte) : Run Unit := fun s =>
  .ret () { s with output := s.output ++ tagged fd bytes }

/-- Models `close(fd)`. -/
def sys_close (fd : Int) : Run Unit := fun s =>
  .ret () { s with closed := s.closed ++ [fd] }

/-- Embeds `myread` (syscalls.c:213) on the session socket: the next chunk, cut
    at `nbytes`; what is cut off stays for the next call.  The result is the
    bytes stored in the buffer, `n_read` is their number. -/
def myread (_fd : Int) (nbytes : Nat) : Run (List Byte) := fun s =>
  match s.input with
  | [] => .ret [] s
  | chunk :: rest =>
    if chunk.length ≤ nbytes then .ret chunk { s with input := rest }
    else .ret (chunk.take nbytes) { s with input := chunk.drop nbytes :: rest }

/-- `EOF` (mystring.h:39). -/
def EOF : Int := -1

/-- `__IO_GETCHAR_BUFSIZE` (mystring.c:45). -/
def GETCHAR_BUFSIZE : Nat := 1024

/-- Embeds `mygetchar` (mystring.c:52). -/
def mygetchar (fd : Int) : Run Int := fun s =>
  let refill : Outcome (List Byte) :=
    match s.getc with
    | some rest => .ret rest s
    | none =>
      match myread fd GETCHAR_BUFSIZE s with
      | .ret chunk s1 => if chunk.length = 0 then .exit 1 s1 else .ret chunk s1
      | .exit c s1 => .exit c s1
  match refill with
  | .exit c s1 => .exit c s1
  | .ret [] s1 => .ret EOF { s1 with getc := none }
  | .ret (c :: rest) s1 => .ret (c.toNat : Int) { s1 with getc := some rest }

/-- The conversion of an `int` to `char`: its low eight bits. -/
def toChar (r : Int) : Byte := (r % 256).toNat.toUInt8

/-- Stores `b` at index `i` of a buffer; a store outside the buffer is not
    represented. -/
def poke (buf : List Byte) (i : Nat) (b : Byte) : List Byte := buf.set i b

/-- The loop of `myreadline`: `k` is `read_max - 1 - n_total`, `c` the
    character read last. -/
def myreadline.loop (fd : Int) : Nat → Byte → Nat → List Byte → Run (Nat × List Byte)
  | 0, _, n_total, line => pure (n_total, line)
  | k + 1, c, n_total, line =>
    if charval c ≠ EOF then do
      let r ← mygetchar fd
      myreadline.loop fd k (toChar r) (n_total + 1) (poke line n_total c)
    else pure (n_total, line)

/-- Embeds `myreadline` (mystring.c:71): the characters `mygetchar` delivers are
    stored until one compares equal to `EOF` or `read_max - 1` are stored, then
    `line[n_total - 1]` is set to NUL.  For `n_total = 0` that store falls before
    the buffer.  Returns `n_total` and the buffer.  The callers pass a
    `read_max` of 4095. -/
def myreadline (fd : Int) (line : List Byte) (read_max : Nat) : Run (Nat × List Byte) := do
  let r ← mygetchar fd
  let (n_total, line1) ← myreadline.loop fd (read_max - 1) (toChar r) 0 line
  pure (n_total, if n_total = 0 then line1 else poke line1 (n_total - 1) 0)

/-- Embeds `mymemset` (mystring.c:181) on a buffer at least `n` bytes long. -/
def mymemset (buf : List Byte) (c : Byte) (n : Nat) : List Byte :=
  (buf.take n).map (fun _ => c) ++ buf.drop n

/-- The 32-bit two's complement value of an integer expression. -/
def wrap32 (x : Int) : Int := (x + 2147483648) % 4294967296 - 2147483648

/-- The digit loop of `myitoa`; the digits come out least significant first. -/
def myitoa.digits : Nat → Int → List Byte
  | 0, _ => []
  | k + 1, num =>
    if num ≠ 0 then
      let rem := Int.tmod num 10
      (if rem > 9 then toChar ((rem - 10) + 97) else toChar (rem + 48))
        :: myitoa.digits k (Int.tdiv num 10)
    else []

/-- Embeds `myitoa` (mystring.c:127) for a 32-bit `int`: the string left in
    `str`.  The digit loop runs at most 10 times on such a value. -/
def myitoa (num : Int) : List Byte :=
  if num = 0 then [48]
  else
    let is_negative := decide (num < 0)
    let num1 := if num < 0 then wrap32 (-num) else num
    let str := myitoa.digits 10 num1
    (if is_negative then str ++ [45] else str).reverse

/-- An argument of `myfprintf`. -/
inductive FArg where
  | int (d : Int)
  | str (s : List Byte)
  | chr (c : Int)
  deriving DecidableEq, Repr

/-- The bytes `myfprintf` writes for a format and its arguments
    (mystring.c:85).  The flag says that the byte before was a `%`: then `s`,
    `d` and `c` write the next argument, and any other byte is taken up by the
    next round of the loop as an ordinary one.  Outside that, a byte other than
    `%` is written as it is.  The arguments of the calls in the sources have the
    types their formats ask for; an argument of another type writes nothing. -/
def myfprintf.bytes : Bool → List Byte → List FArg → List Byte
  | _, [], _ => []
  | false, c :: strn, args =>
    if c = 0 then []
    else if c ≠ 37 then c :: myfprintf.bytes false strn args
    else myfprintf.bytes true strn args
  | true, d :: strn, args =>
    if d = 115 then
      match args with
      | FArg.str s :: args1 => cstr s ++ myfprintf.bytes false strn args1
      | _ => myfprintf.bytes false strn args.tail
    else if d = 100 then
      match args with
      | FArg.int n :: args1 => myitoa n ++ myfprintf.bytes false strn args1
      | _ => myfprintf.bytes false strn args.tail
    else if d = 99 then
      match args with
      | FArg.chr ch :: args1 => toChar ch :: myfprintf.bytes false strn args1
      | _ => myfprintf.bytes false strn args.tail
    else if d = 0 then []
    else if d ≠ 37 then d :: myfprintf.bytes false strn args
    else myfprintf.bytes true strn args

/-- Embeds `myfprintf` (mystring.c:85). -/
def myfprintf (fd : Int) (strn : List Byte) (args : List FArg) : Run Unit :=
  sys_write fd (myfprintf.bytes false strn args)

/-- Embeds `fdputs` (mystring.c:331). -/
def fdputs (fd : Int) (s : List Byte) : Run Unit :=
  sys_write fd (cstr s)

/-! ## The session: login and command loop (server_core.c, filetransfer.c) -/

/-- `NETREADMAX` (networktcp.h:34), which is `MAX_DATA_SIZE` (globals.h:35). -/
def NETREADMAX : Nat := 4096

/-- `MAX_USER_NAME` (globals.h:39). -/
def MAX_USER_NAME : Nat := 256

/-- `MAX_LOGIN_ATTEMPTS` (server_core.h:34). -/
def MAX_LOGIN_ATTEMPTS : Nat := 3

/-- `sys_stdout` (syscalls.h:48). -/
def sys_stdout : Int := 1

/-- `greeting` (server_core.c:48). -/
def greeting : List Byte := ascii "Welcome to MyFTP Server!\n"

/-- `prompt` (server_core.c:50). -/
def prompt : List Byte := ascii "server> "

/-- `struct MyIO` (filetransfer.h:39). -/
structure MyIO where
  sockfd : Int
  readfd : Int
  writefd : Int
  buf : List Byte
  bufsize : Nat
  deriving DecidableEq, Repr

/-- `ServerData` (server_core.h:67); `io` is the structure the pointer
    `server->io` refers to. -/
structure ServerData where
  io : MyIO
  bindfd : Int
  greeting : List Byte
  readbuf : List Byte
  runflag : Int
  outfd : Int
  deriving DecidableEq, Repr

/-- `ClientData` (server_core.h:89). -/
structure ClientData where
  clientfd : Int
  clientid : Int
  userindex : Int
  deriving DecidableEq, Repr

/-- Embeds `send_recv_log` (server_core.c:96).  Returns the server with its
    `readbuf` as the call leaves it; the pointer returned is `server->readbuf`. -/
def send_recv_log (send_data : List Byte) (client : ClientData) (server : ServerData) :
    Run ServerData := do
  fdputs client.clientfd send_data
  let readbuf0 := mymemset server.readbuf 0 (NETREADMAX - 1)
  let (_, readbuf1) ← myreadline client.clientfd readbuf0 (NETREADMAX - 1)
  myfprintf server.outfd (ascii "::client %d sent %s\n")
    [FArg.int client.clientid, FArg.str readbuf1]
  pure { server with readbuf := readbuf1 }

/-- Embeds `send_recv_log_io` (server_core.c:83). -/
def send_recv_log_io (send_data : List Byte) (client : ClientData) (server : ServerData) :
    Run ServerData := do
  fdputs server.io.sockfd send_data
  let buf0 := mymemset server.io.buf 0 (server.io.bufsize - 1)
  let (_, buf1) ← myreadline server.io.sockfd buf0 (server.io.bufsize - 1)
  myfprintf server.io.writefd (ascii "::client %d sent %s\n")
    [FArg.int client.clientid, FArg.str buf1]
  pure { server with io := { server.io with buf := buf1 } }

/-- Embeds `send_greeting` (server_core.c:109). -/
def send_greeting (client : ClientData) (server : ServerData) : Run Unit :=
  fdputs client.clientfd server.greeting

/-- The username buffer `get_username_at_index` points to; the records of the
    static table that were never loaded are all zero. -/
def username_at (creds : List Credential) (i : Int) : List Byte :=
  (get_username_at_index creds i).getD []

/-- Embeds `send_login_result` (server_core.c:115). -/
def send_login_result (creds : List Credential) (client : ClientData) (userindex : Int) :
    Run Unit :=
  if userindex ≠ -1 then
    myfprintf client.clientfd (ascii "welcome back %s\n")
      [FArg.str (username_at creds client.userindex)]
  else
    myfprintf client.clientfd (ascii "login failed\n") []

/-- Ghost step: records a call of `attempt_login` that is about to return. -/
def note_attempt (a : Attempt) : Run Unit := fun s =>
  .ret () { s with attempts := s.attempts ++ [a] }

/-- Embeds `attempt_login` (server_core.c:125). -/
def attempt_login (creds : List Credential) (client : ClientData) (server : ServerData) :
    Run (Int × ServerData) := do
  let server1 ← send_recv_log (ascii "Username: ") client server
  let username := mystrncpy server1.readbuf (MAX_USER_NAME - 1)
  let server2 ← send_recv_log (ascii "Password: ") client server1
  let password := mystrncpy server2.readbuf (MAX_USER_NAME - 1)
  let userindex := verifyuser creds username password
  if userindex = -1 then
    myfprintf server2.outfd (ascii "::client %d failed password attempt\n")
      [FArg.int client.clientid]
  note_attempt ⟨cstr server1.readbuf, cstr server2.readbuf, userindex⟩
  pure (userindex, server2)

/-- The loop of `do_login`; `k` is `MAX_LOGIN_ATTEMPTS - nlogin`. -/
def do_login.loop (creds : List Credential) :
    Nat → ClientData → ServerData → Run (ClientData × ServerData)
  | 0, client, server => pure (client, server)
  | k + 1, client, server =>
    if client.userindex = -1 then do
      let (userindex, server1) ← attempt_login creds client server
      do_login.loop creds k { client with userindex := userindex } server1
    else pure (client, server)

/-- Embeds `do_login` (server_core.c:145). -/
def do_login (creds : List Credential) (client : ClientData) (server : ServerData) :
    Run (ClientData × ServerData) := do
  send_greeting client server
  let client0 := { client with userindex := -1 }
  let (client1, server1) ← do_login.loop creds MAX_LOGIN_ATTEMPTS client0 server
  send_login_result creds client1 client1.userindex
  pure (client1, { server1 with runflag := if client1.userindex ≠ -1 then 1 else 0 })

/-- `enum FTPCALLBACK` (filetransfer.h:55). -/
inductive FTPCALLBACK where
  | GET
  | PUT
  | HELP
  | EXIT
  deriving DecidableEq, Repr

/-- The array of handlers `runfiletransfer` is given: each one works on the
    structure `io` points to, and may leave the process. -/
abbrev Callbacks := FTPCALLBACK → MyIO → Run MyIO

/-- Embeds `initiostruct` (filetransfer.c:38) on the buffer `buf` of the
    structure. -/
def initiostruct (sockfd readfd writefd : Int) (buf : List Byte) : MyIO :=
  { sockfd := sockfd, readfd := readfd, writefd := writefd, bufsize := NETREADMAX,
    buf := mymemset buf 0 NETREADMAX }

/-- Embeds `runfiletransfer` (filetransfer.c:244): the flag returned and the
    structure as the handler called, if any, leaves it. -/
def runfiletransfer (io : MyIO) (ftpcallback : Callbacks) : Run (Int × MyIO) :=
  let flag1 := mystrcmp io.buf (ascii "get")
  if flag1 = 0 then do
    let io1 ← ftpcallback FTPCALLBACK.GET io
    pure (flag1, io1)
  else
    let flag2 := mystrcmp io.buf (ascii "put")
    if flag2 = 0 then do
      let io1 ← ftpcallback FTPCALLBACK.PUT io
      pure (flag2, io1)
    else
      let flag3 := mystrcmp io.buf (ascii "help")
      if flag3 = 0 then do
        let io1 ← ftpcallback FTPCALLBACK.HELP io
        pure (flag3, io1)
      else
        let flag4 := mystrcmp io.buf (ascii "exit")
        if flag4 = 0 then do
          let io1 ← ftpcallback FTPCALLBACK.EXIT io
          pure (flag4, io1)
        else pure (flag4, io)

/-- The pipeline engine as `handleclient` sees it: `runcommand(client, readbuf)`
    works on the command buffer, which it returns as it leaves it. -/
abbrev Engine := ClientData → List Byte → Run (List Byte)

/-- The dispatch in the loop of `handleclient` (server_core.c:178-180): the
    pipeline engine runs on the buffer when `runfiletransfer` returns non-zero. -/
def handleclient.dispatch (ftpcallback : Callbacks) (runcommand : Engine)
    (client : ClientData) (server : ServerData) : Run ServerData := do
  let (flag, io1) ← runfiletransfer server.io ftpcallback
  if flag ≠ 0 then do
    let buf1 ← runcommand client io1.buf
    pure { server with io := { io1 with buf := buf1 } }
  else pure { server with io := io1 }

/-- The body of the loop of `handleclient` (server_core.c:176-180). -/
def handleclient.body (ftpcallback : Callbacks) (runcommand : Engine)
    (client : ClientData) (server : ServerData) : Run ServerData := do
  let server1 ← send_recv_log_io prompt client server
  handleclient.dispatch ftpcallback runcommand client server1

/-- The loop of `handleclient`, for at most `fuel` rounds: `none` when the
    loop is still running after them. -/
def handleclient.loop (ftpcallback : Callbacks) (runcommand : Engine) (client : ClientData) :
    Nat → ServerData → Run (Option ServerData)
  | fuel, server =>
    if server.runflag ≠ 0 then
      match fuel with
      | 0 => pure none
      | k + 1 => do
        let server1 ← handleclient.body ftpcallback runcommand client server
        handleclient.loop ftpcallback runcommand client k server1
    else pure (some server)

/-- Embeds `handleclient` (server_core.c:159), its loop run for at most `fuel`
    rounds; `buf` is the memory of the local `io.buf` on entry. -/
def handleclient (ftpcallback : Callbacks) (runcommand : Engine) (fuel : Nat)
    (buf : List Byte) (client : ClientData) (server : ServerData) :
    Run (Option ServerData) :=
  let io := initiostruct client.clientfd sys_stdout sys_stdout buf
  handleclient.loop ftpcallback runcommand client fuel { server with io := io }

/-- Embeds `closeclientfd` (server_core.c:76). -/
def closeclientfd (client : ClientData) (server : ServerData) : Run Unit := do
  sys_close client.clientfd
  myfprintf server.outfd (ascii "::client %d disconnected\n") [FArg.int client.clientid]
  sys_exit 1

/-- The worker: what the child process does in `runserver`
    (server_core.c:192-195), with a `myclose` that succeeds.  `none` when the
    command loop is still running after `fuel` rounds. -/
def worker (creds : List Credential) (ftpcallback : Callbacks) (runcommand : Engine)
    (fuel : Nat) (buf : List Byte) (client : ClientData) (server : ServerData) :
    Run (Option Unit) := do
  sys_close server.bindfd
  let (client1, server1) ← do_login creds client server
  let r ← handleclient ftpcallback runcommand fuel buf client1 server1
  match r with
  | none => pure none
  | some server2 => do
    closeclientfd client1 server2
    pure (some ())

/-! ## The command-line parser (mystring.c, command_handler.c) -/

/-- `MAX_NUM_ARGS` (globals.h:40). -/
def MAX_NUM_ARGS : Nat := 16

/-- `MAX_LINE_SIZE` (globals.h:37). -/
def MAX_LINE_SIZE : Nat := 1024

/-- The byte at index `i` of a buffer; memory past the end of the list is not
    represented and reads as NUL. -/
def peek (buf : List Byte) (i : Nat) : Byte := buf.getD i 0

/-- The number of bytes the loop of `remove_whitespace` steps over, on the
    bytes from the pointer on. -/
def remove_whitespace.skip : List Byte → Nat
  | [] => 0
  | c :: rest =>
    if c ≠ 0 ∧ c ≠ 10 ∧ (c = 32 ∨ c = 9) then remove_whitespace.skip rest + 1 else 0

/-- Embeds `remove_whitespace` (mystring.c:430); pointers into the buffer are
    indices. -/
def remove_whitespace (buf : List Byte) (line : Nat) : Nat :=
  line + remove_whitespace.skip (buf.drop line)

/-- The number of bytes the scanning loop of `mystrtok` steps over: up to a
    NUL or the delimiter. -/
def mystrtok.scan (delim : Byte) : List Byte → Nat
  | [] => 0
  | c :: rest => if c ≠ 0 ∧ c ≠ delim then mystrtok.scan delim rest + 1 else 0

/-- The buffer `mystrtok` works on and its static pointer `next_token`. -/
structure Strtok where
  buf : List Byte
  next_token : Option Nat
  deriving DecidableEq, Repr

/-- Embeds `mystrtok` (mystring.c:447).  `str` is `none` for `NULL` and
    otherwise a pointer into the buffer; the result is `start_token`. -/
def mystrtok (st : Strtok) (str : Option Nat) (delim : Byte) : Option Nat × Strtok :=
  match (match str with
    | some p => some p
    | none => st.next_token) with
  | none => (none, st)
  | some p =>
    let p1 := remove_whitespace st.buf p
    let p2 := p1 + mystrtok.scan delim (st.buf.drop p1)
    if peek st.buf p2 ≠ 0 then
      (some p1, { buf := poke st.buf p2 0, next_token := some (p2 + 1) })
    else if peek st.buf (p2 + 1) = 0 then
      (some p1, { buf := st.buf, next_token := none })
    else
      (some p1, { buf := st.buf, next_token := some (p2 + 1) })

/-- How a run of `parse_commandline` ends in the model. -/
inductive Parsed where
  /-- It returns `argc`, with `argv` as it leaves it. -/
  | ok (argc : Nat) (argv : List (Option (List Byte)))
  /-- The token for `argv_alloc[i]` does not fit the row of `MAX_LINE_SIZE`
      bytes: `mystrcpy` writes past it, which the model does not follow. -/
  | overflow (i : Nat)
  /-- The rounds allowed are used up. -/
  | unfinished
  deriving DecidableEq, Repr

/-- The loop of `parse_commandline`, for at most `fuel` rounds.  `line` is the
    token `mystrtok` returned last, `i` the index; a slot of `argv` holds the
    string of the row of `argv_alloc` it points to.  On an empty token `i` is
    decremented and then incremented by the loop: it stays. -/
def parse_commandline.loop :
    Nat → Strtok → Option Nat → Nat → List (Option (List Byte)) → Parsed
  | 0, _, _, _, _ => Parsed.unfinished
  | fuel + 1, st, line, i, argv =>
    match line with
    | none => Parsed.ok i (argv.set i none)
    | some p =>
      if i < MAX_NUM_ARGS then
        if peek st.buf p = 0 then
          parse_commandline.loop fuel (mystrtok st none 32).2 (mystrtok st none 32).1 i argv
        else if MAX_LINE_SIZE ≤ (cstr (st.buf.drop p)).length then Parsed.overflow i
        else
          parse_commandline.loop fuel (mystrtok st none 32).2 (mystrtok st none 32).1 (i + 1)
            (argv.set i (some (cstr (st.buf.drop p))))
      else Parsed.ok i (argv.set i none)

/-- Embeds `parse_commandline` (command_handler.c:35) on the buffer
    `command_line`; every round moves `next_token` forward, so the loop needs
    no more rounds than the buffer has bytes, and two more. -/
def parse_commandline (argv : List (Option (List Byte))) (command_line : List Byte) :
    Parsed :=
  parse_commandline.loop (command_line.length + 2)
    (mystrtok { buf := command_line, next_token := none } (some 0) 32).2
    (mystrtok { buf := command_line, next_token := none } (some 0) 32).1 0 argv

/-! ## The pipeline parser (pipeline.c) -/

/-- `Pipeline` (pipeline.h:38); `fd_read` and `fd_write` are `fd[READ_END]` and
    `fd[WRITE_END]`.  A slot of `argv` holds the token it points to. -/
structure Pipeline where
  argv : List (Option (List Byte))
  fin : Option (List Byte)
  fout : Option (List Byte)
  argc : Int
  fd_read : Int
  fd_write : Int
  sockfd : Int
  deriving DecidableEq, Repr

/-- Embeds `init_pipeline` (pipeline.c:30). -/
def init_pipeline (fd : Int) : Pipeline :=
  { argc := 0, fin := none, fout := none, argv := List.replicate MAX_NUM_ARGS none,
    fd_read := -1, fd_write := -1, sockfd := fd }

/-- Embeds `init_pipelines` (pipeline.c:49): the array of `MAX_NUM_ARGS` stages
    after each one is initialised. -/
def init_pipelines (fd : Int) : List Pipeline :=
  List.replicate MAX_NUM_ARGS (init_pipeline fd)

/-- The store `pipe[command_count].argv[argument_count] = v`; a store outside
    the array of stages or outside the `argv` of the stage is not represented. -/
def set_argv (pipe : List Pipeline) (command_count argument_count : Nat)
    (v : Option (List Byte)) : List Pipeline :=
  match pipe.get? command_count with
  | none => pipe
  | some p => pipe.set command_count { p with argv := p.argv.set argument_count v }

/-- The store `pipe[command_count].argc = n`. -/
def set_argc (pipe : List Pipeline) (command_count : Nat) (n : Int) : List Pipeline :=
  match pipe.get? command_count with
  | none => pipe
  | some p => pipe.set command_count { p with argc := n }

/-- The loop of `parse_pipeline` over the tokens `argv[i ..]`, followed by the
    last store and the return. -/
def parse_pipeline.loop : List (List Byte) → List Pipeline → Nat → Nat → List Pipeline × Int
  | [], pipe, command_count, argument_count =>
    (set_argv pipe command_count argument_count none, (command_count : Int) + 1)
  | tok :: rest, pipe, command_count, argument_count =>
    if mystrcmp tok (ascii "|") = 0 then
      parse_pipeline.loop rest (set_argv pipe command_count argument_count none)
        (command_count + 1) 0
    else
      parse_pipeline.loop rest
        (set_argc (set_argv pipe command_count argument_count (some tok)) command_count
          ((argument_count : Int) + 1))
        command_count (argument_count + 1)

/-- Embeds `parse_pipeline` (pipeline.c:7) on the first `argc` tokens of `argv`:
    the array of stages as it leaves it, and the value returned. -/
def parse_pipeline (pipe : List Pipeline) (argc : Nat) (argv : List (List Byte)) :
    List Pipeline × Int :=
  parse_pipeline.loop (argv.take argc) pipe 0 0

/-! ## The descriptors of a pipeline stage (pipeline.c, command_handler.c) -/

/-- `sys_stdin` (syscalls.h:47). -/
def sys_stdin : Int := 0

/-- What an open descriptor refers to.  The two ends of a pipe carry the index
    of the stage whose `fd` array `mypipe` filled when it made the pipe. -/
inductive File where
  | stdio (n : Nat)
  | listen
  | socket
  | pipe_read (k : Nat)
  | pipe_write (k : Nat)
  deriving DecidableEq, Repr

/-- The descriptor table of a process: entry `fd` is `none` when descriptor
    `fd` is not open; descriptors past the end of the list are not open. -/
abbrev FdTable := List (Option File)

/-- What descriptor `fd` refers to, if it is open. -/
def FdTable.get (t : FdTable) (fd : Int) : Option File :=
  if fd < 0 then none else t.getD fd.toNat none

/-- The table with descriptor `fd` made to refer to `f`. -/
def FdTable.put : FdTable → Nat → Option File → FdTable
  | [], 0, f => [f]
  | [], fd + 1, f => none :: FdTable.put [] fd f
  | _ :: t, 0, f => f :: t
  | e :: t, fd + 1, f => e :: FdTable.put t fd f

/-- The lowest descriptor that is not open. -/
def FdTable.lowest_free : FdTable → Nat
  | [] => 0
  | none :: _ => 0
  | some _ :: t => FdTable.lowest_free t + 1

/-- Models `pipe(pipefd)`: the read end and then the write end of a new pipe
    each take the lowest descriptor that is not open.  Returns `pipefd[0]`,
    `pipefd[1]` and the table. -/
def sys_pipe (t : FdTable) (k : Nat) : Nat × Nat × FdTable :=
  (t.lowest_free,
    (t.put t.lowest_free (some (File.pipe_read k))).lowest_free,
    (t.put t.lowest_free (some (File.pipe_read k))).put
      (t.put t.lowest_free (some (File.pipe_read k))).lowest_free
      (some (File.pipe_write k)))

/-- Embeds `mydup2` (syscalls.c:233): `dup2` fails on a source that is not open
    or a negative target, and `mydup2` then leaves the process (`none`);
    otherwise the target refers to what the source refers to. -/
def mydup2 (t : FdTable) (oldfd newfd : Int) : Option FdTable :=
  match t.get oldfd with
  | none => none
  | some f =>
    if newfd < 0 then none
    else if oldfd = newfd then some t
    else some (t.put newfd.toNat (some f))

/-- The stores of `mypipe(pipe[i].fd)`; a stage outside the array is not
    represented. -/
def set_fd (pipe : List Pipeline) (i : Nat) (r w : Int) : List Pipeline :=
  match pipe.get? i with
  | none => pipe
  | some p => pipe.set i { p with fd_read := r, fd_write := w }

/-- The loop of `init_pipesfd`: `k` is `npipes - i`. -/
def init_pipesfd.loop : Nat → Nat → List Pipeline → FdTable → List Pipeline × FdTable
  | 0, _, pipe, t => (pipe, t)
  | k + 1, i, pipe, t =>
    init_pipesfd.loop k (i + 1)
      (set_fd pipe i ((sys_pipe t i).1 : Nat) ((sys_pipe t i).2.1 : Nat)) (sys_pipe t i).2.2

/-- Embeds `init_pipesfd` (pipeline.c:57): one pipe per stage. -/
def init_pipesfd (pipe : List Pipeline) (npipes : Nat) (t : FdTable) :
    List Pipeline × FdTable :=
  init_pipesfd.loop npipes 0 pipe t

/-- Embeds `dup2_not_first_command` (command_handler.c:67); `none` when the
    process leaves. -/
def dup2_not_first_command (pipe : List Pipeline) (i : Nat) (t : FdTable) : Option FdTable :=
  match pipe.get? (i - 1) with
  | none => none
  | some p => mydup2 t p.fd_read sys_stdin

/-- Embeds `dup2_not_last_command` (command_handler.c:74). -/
def dup2_not_last_command (pipe : List Pipeline) (i : Nat) (t : FdTable) : Option FdTable :=
  match pipe.get? i with
  | none => none
  | some p => mydup2 t p.fd_write sys_stdout

/-- Embeds `dup2_last_command` (command_handler.c:81). -/
def dup2_last_command (pipe : List Pipeline) (i : Nat) (t : FdTable) : Option FdTable :=
  match pipe.get? i with
  | none => none
  | some p => mydup2 t p.sockfd sys_stdout

/-- Embeds `do_dup2_command` (command_handler.c:88).  `npipes` is a `size_t`:
    `npipes - 1` is taken modulo 2^64. -/
def do_dup2_command (pipe : List Pipeline) (npipes : Nat) (i : Nat) (t : FdTable) :
    Option FdTable :=
  match (if i ≠ 0 then dup2_not_first_command pipe i t else some t) with
  | none => none
  | some t1 =>
    if i < (npipes + 2 ^ 64 - 1) % 2 ^ 64 then dup2_not_last_command pipe i t1
    else dup2_last_command pipe i t1

/-! ## Vocabulary of the statements -/

/-- Two states with the same record of writes, closes and attempts. -/
def Sys.sameLog (s s1 : Sys) : Prop :=
  s1.output = s.output ∧ s1.closed = s.closed ∧ s1.attempts = s.attempts

/-- At least `k` chunks are waiting on the socket and none of them is empty. -/
def Sys.fed (k : Nat) (s : Sys) : Prop :=
  k ≤ s.input.length ∧ ∀ c ∈ s.input, c ≠ []

/-- The username `attempt_login` verifies: the reply cut at 255 bytes. -/
def Attempt.username (a : Attempt) : List Byte := mystrncpy a.userline (MAX_USER_NAME - 1)

/-- The password `attempt_login` verifies: the reply cut at 255 bytes. -/
def Attempt.password (a : Attempt) : List Byte := mystrncpy a.passline (MAX_USER_NAME - 1)

/-- The log line for a reply of client `id`. -/
def sent_line (id : Int) (reply : List Byte) : List Byte :=
  ascii "::client " ++ (myitoa id ++ (ascii " sent " ++ (reply ++ ascii "\n")))

/-- The log line for a failed attempt of client `id`. -/
def failed_line (id : Int) : List Byte :=
  ascii "::client " ++ (myitoa id ++ ascii " failed password attempt\n")

/-- What one attempt leaves in the log. -/
def Attempt.log (id : Int) (a : Attempt) : List Byte :=
  sent_line id a.userline ++ sent_line id a.passline ++
    (if a.userindex = -1 then failed_line id else [])

/-- What one attempt sends to the client. -/
def attempt_prompts : List Byte := ascii "Username: " ++ ascii "Password: "

/-- The last message of the login, for the final user index. -/
def login_result (creds : List Credential) (userindex : Int) : List Byte :=
  if userindex ≠ -1 then
    ascii "welcome back " ++ (cstr (username_at creds userindex) ++ ascii "\n")
  else ascii "login failed\n"

/-- What one attempt writes, to the client and to the log, in order. -/
def Attempt.output (client : ClientData) (outfd : Int) (a : Attempt) : List (Int × Byte) :=
  tagged client.clientfd (ascii "Username: ") ++
    tagged outfd (sent_line client.clientid a.userline) ++
    tagged client.clientfd (ascii "Password: ") ++
    tagged outfd (sent_line client.clientid a.passline) ++
    tagged outfd (if a.userindex = -1 then failed_line client.clientid else [])

/-- The attempts `att` of a login limited to `k` attempts, ending with the user
    index `u`: at most `k` of them, each one the verification of its two
    replies, all failed but possibly the last, whose result is `u`; and when
    `u` is -1 all `k` were made. -/
def LoginTrace (creds : List Credential) (k : Nat) (att : List Attempt) (u : Int) : Prop :=
  att.length ≤ k ∧
  (∀ a ∈ att, a.userindex = verifyuser creds a.username a.password) ∧
  (∀ a ∈ att.dropLast, a.userindex = -1) ∧
  u = (att.getLast?.map Attempt.userindex).getD (-1) ∧
  (u = -1 → att.length = k) ∧
  (0 < k → att ≠ [])

/-! ## Concrete sessions, for the examples -/

/-- A credential table with the record of scenario 1. -/
def example_creds : List Credential := [⟨ascii "alice", ascii "secret"⟩]

/-- Client 1 on descriptor 4. -/
def example_client : ClientData := { clientfd := 4, clientid := 1, userindex := 0 }

/-- The server as `initserver` leaves it, listening on descriptor 3 and logging
    to the standard output. -/
def example_server : ServerData :=
  { io := { sockfd := 0, readfd := 0, writefd := 0, buf := [], bufsize := 0 },
    bindfd := 3, greeting := greeting, readbuf := List.replicate (NETREADMAX + 1) 0,
    runflag := 1, outfd := sys_stdout }

/-- A fresh process whose client will send the given chunks. -/
def example_sys (input : List (List Byte)) : Sys :=
  { input := input, output := [], closed := [], getc := none, attempts := [] }

/-- Three attempts as "bob" with the same password text. -/
def three_attempts (password : String) : List (List Byte) :=
  [ascii "bob\n", ascii password ++ ascii "\n", ascii "bob\n", ascii password ++ ascii "\n",
   ascii "bob\n", ascii password ++ ascii "\n"]

/-- The reserved verb a handler answers to. -/
def FTPCALLBACK.verb : FTPCALLBACK → List Byte
  | .GET => ascii "get"
  | .PUT => ascii "put"
  | .HELP => ascii "help"
  | .EXIT => ascii "exit"

/-- Handlers for the examples: each one writes its verb to descriptor 9. -/
def example_callbacks : Callbacks := fun v io => do
  sys_write 9 v.verb
  pure io

/-- An engine for the examples: it writes the command to descriptor 8. -/
def example_engine : Engine := fun _ buf => do
  sys_write 8 (cstr buf)
  pure buf

/-- An I/O structure whose buffer holds the given command. -/
def example_io (command : String) : MyIO :=
  { sockfd := 4, readfd := 1, writefd := 1, buf := ascii command ++ [0, 0], bufsize := 4096 }

/-- The tokens C7 describes: the non-empty maximal substrings of the line
    that contain neither a space nor a tab. -/
def whitespace_tokens (line : List Byte) : List (List Byte) :=
  (line.splitOnP (fun b => b == 32 || b == 9)).filter (fun t => t ≠ [])

/-- The tokens the parser yields: the maximal substrings of the line without a
    space, each without its leading tabs, those that are not empty. -/
def space_tokens (line : List Byte) : List (List Byte) :=
  ((line.splitOn 32).map (List.dropWhile (fun b => b == 9))).filter (fun t => t ≠ [])

/-- The array `argv` after the tokens `ts` are stored from index `i` on and
    `NULL` after the last one. -/
def fill (argv : List (Option (List Byte))) (i : Nat) :
    List (List Byte) → List (Option (List Byte))
  | [] => argv.set i none
  | t :: ts => fill (argv.set i (some t)) (i + 1) ts

/-- What the loop of `parse_commandline` is to do after a call of `mystrtok`
    that has the bytes `r` of the line to scan, with `f` rounds left. -/
def ParseLoopSpec (f : Nat) : Prop :=
  ∀ (r pre rest tok : List Byte) (start i : Nat) (argv : List (Option (List Byte))),
    (0 : Byte) ∉ r → r.length + 3 ≤ f →
    cstr ((pre ++ (r ++ 0 :: 0 :: rest)).drop start) = tok →
    (peek (pre ++ (r ++ 0 :: 0 :: rest)) start = 0 ↔ tok = []) →
    (∀ t ∈ ((if tok = [] then [] else [tok]) ++ space_tokens r).take (MAX_NUM_ARGS - i),
      t.length < MAX_LINE_SIZE) →
    parse_commandline.loop f
        { buf := pre ++ (r ++ 0 :: 0 :: rest), next_token := some pre.length }
        (some start) i argv =
      Parsed.ok
        (i + (((if tok = [] then [] else [tok]) ++ space_tokens r).take
          (MAX_NUM_ARGS - i)).length)
        (fill argv i (((if tok = [] then [] else [tok]) ++ space_tokens r).take
          (MAX_NUM_ARGS - i)))

/-- The token is the stage separator: its string is "|". -/
def is_bar (t : List Byte) : Bool := cstr t == ascii "|"

/-- The segments of a token vector between the separators "|". -/
def segments (argv : List (List Byte)) : List (List (List Byte)) :=
  argv.splitOnP is_bar

/-- A stage as `init_pipeline` leaves it but for the tokens `toks` stored in
    `argv`, in order and followed by `NULL`, and their number in `argc`. -/
def stage_of (fd : Int) (toks : List (List Byte)) : Pipeline :=
  { init_pipeline fd with
    argv := toks.map some ++ List.replicate (MAX_NUM_ARGS - toks.length) none
    argc := toks.length }

/-- The token list of a stage: the entries of `argv` before the first `NULL`. -/
def Pipeline.tokens (p : Pipeline) : List (List Byte) :=
  (p.argv.takeWhile Option.isSome).filterMap id

/-- The descriptors of a worker: standard input, output and error, the
    listening socket closed, the client socket on descriptor 4. -/
def example_fds : FdTable :=
  [some (File.stdio 0), some (File.stdio 1), some (File.stdio 2), none, some File.socket]

/-- An `argv` array of 32 slots, none of them `NULL`. -/
def example_argv : List (Option (List Byte)) := List.replicate 32 (some (ascii "?"))

/-! ## Running a pipeline (pipeline.c, command_handler.c, syscalls.c) -/

/-- `sys_stderr` (syscalls.h:49). -/
def sys_stderr : Int := 2

/-- `printerr_exit` (syscalls.h:52): the message goes to the standard error
    and the process leaves with status 1. -/
def printerr_exit {α : Type} (msg : List Byte) : Run α := do
  fdputs sys_stderr msg
  sys_exit 1

/-- What a wrapper of syscalls.c does with the outcome of its call: `none` is
    the call failing, and the wrapper then leaves through `printerr_exit`. -/
def or_exit {α : Type} (msg : List Byte) : Option α → Run α
  | some a => pure a
  | none => printerr_exit msg

/-- Models `close(fd)` on the descriptor table; on a descriptor that is not
    open the call fails and the table stays as it is. -/
def FdTable.close (t : FdTable) (fd : Int) : FdTable :=
  if t.get fd = none then t else t.put fd.toNat none

/-- Embeds `myclose` (syscalls.c:253) on the descriptor table: `close` fails
    on a descriptor that is not open, and `myclose` then leaves the process
    (`none`). -/
def myclose (t : FdTable) (fd : Int) : Option FdTable :=
  if t.get fd = none then none else some (t.close fd)

/-- The loop of `close_pipes`: `k` is `npipes - j`. -/
def close_pipes.loop (pipe : List Pipeline) : Nat → Nat → FdTable → Option FdTable
  | 0, _, t => some t
  | k + 1, j, t =>
    match pipe.get? j with
    | none => none
    | some p =>
      match myclose t p.fd_read with
      | none => none
      | some t1 =>
        match myclose t1 p.fd_write with
        | none => none
        | some t2 => close_pipes.loop pipe k (j + 1) t2

/-- Embeds `close_pipes` (pipeline.c:68); `none` when a `myclose` leaves the
    process. -/
def close_pipes (pipe : List Pipeline) (npipes : Nat) (t : FdTable) : Option FdTable :=
  close_pipes.loop pipe npipes 0 t

/-- Embeds `dup2_and_close` (command_handler.c:96).  The last `close` is the
    plain system call, whose result is not looked at. -/
def dup2_and_close (pipe : List Pipeline) (npipes i : Nat) (t : FdTable) : Run FdTable := do
  let t1 ← or_exit (ascii "dup2() error\n") (do_dup2_command pipe npipes i t)
  let t2 ← or_exit (ascii "close() error\n") (close_pipes pipe npipes t1)
  match pipe.get? i with
  | none => pure t2
  | some p => pure (t2.close p.sockfd)

/-- Embeds `mystrcpy` (mystring.c:232): the destination afterwards, as a C
    string. -/
def mystrcpy (src : List Byte) : List Byte := cstr src

/-- Embeds `mystrcat` (mystring.c:217): the destination afterwards, as a C
    string. -/
def mystrcat (dest src : List Byte) : List Byte := cstr dest ++ cstr src

/-- Embeds `myfork` (syscalls.c:169); `pid` is what `fork()` returns to the
    process that runs this code: -1 when no child could be made, 0 in the
    child, the child's number in the parent. -/
def myfork (pid : Int) : Run Int :=
  if pid = -1 then printerr_exit (ascii "fork() error") else pure pid

/-- How `run_pipeline` ends for a process that runs it and does not leave
    through `_exit`: it returns with its descriptors in some state, or its
    image is replaced by the program `command` with the descriptors it has
    then, or it is stopped at an access through a null `argv[0]`. -/
inductive Ended where
  | returned (t : FdTable)
  | exec (command : List Byte) (argv : List (Option (List Byte))) (t : FdTable)
  | fault
  deriving DecidableEq, Repr

/-- The `argv` array of stage `i`. -/
def stage_argv (pipe : List Pipeline) (i : Nat) : List (Option (List Byte)) :=
  ((pipe.get? i).map (fun p => p.argv)).getD []

/-- The local `command` of `myexecve` (syscalls.c:182-185) when `execve` is
    called. -/
def myexecve.command (pathname : List Byte) : List Byte :=
  mystrcat (mystrcpy (ascii "/usr/bin/")) pathname

/-- Embeds `myexecve` (syscalls.c:179): the path handed to `execve` is
    `command`; `can_exec` tells which paths `execve` can run. -/
def myexecve (can_exec : List Byte → Bool) (pathname : Option (List Byte))
    (argv : List (Option (List Byte))) (t : FdTable) : Run Ended :=
  match pathname with
  | none => pure Ended.fault
  | some name =>
    if can_exec (myexecve.command name) then
      pure (Ended.exec (myexecve.command name) argv t)
    else printerr_exit (ascii "execve error()\n")

/-- The loop of `run_pipeline` that makes the children (pipeline.c:84-91), `k`
    is `npipes - i`; `forks i` is what the `fork()` of round `i` returns to the
    process that runs this code.  `none` when the loop ends, which it does in
    the parent only. -/
def run_pipeline.spawn (forks : Nat → Int) (can_exec : List Byte → Bool)
    (pipe : List Pipeline) (npipes : Nat) (t : FdTable) : Nat → Nat → Run (Option Ended)
  | 0, _ => pure none
  | k + 1, i => do
    let pid ← myfork (forks i)
    if pid = 0 then do
      let t1 ← dup2_and_close pipe npipes i t
      let e ← myexecve can_exec ((stage_argv pipe i).getD 0 none) (stage_argv pipe i) t1
      pure (some e)
    else run_pipeline.spawn forks can_exec pipe npipes t k (i + 1)

/-- The part of `run_pipeline` (pipeline.c:77) before its last loop, for one
    process, on its descriptor table `t`: the pipes are made, the children are
    made, and the parent closes the pipes (pipeline.c:82-92).  `mypipe` is
    taken to succeed, and the lines `printf` writes are not represented. -/
def run_pipeline.spawned (forks : Nat → Int) (can_exec : List Byte → Bool)
    (pipe : List Pipeline) (npipes : Nat) (t : FdTable) : Run Ended := do
  let r ← run_pipeline.spawn forks can_exec (init_pipesfd pipe npipes t).1 npipes
    (init_pipesfd pipe npipes t).2 npipes 0
  match r with
  | some e => pure e
  | none => do
    let t2 ← or_exit (ascii "close() error\n")
      (close_pipes (init_pipesfd pipe npipes t).1 npipes (init_pipesfd pipe npipes t).2)
    pure (Ended.returned t2)

/-- Embeds `mywait` (syscalls.c:192); `pid` is what `wait()` returns to the
    process: the number of a child that ended, or -1 when the call fails, as
    it does when no child is left to wait for (the handler of `SIGCHLD` has
    taken them) or when a signal interrupts it. -/
def mywait (pid : Int) : Run Int :=
  if pid = -1 then printerr_exit (ascii "wait() error\n") else pure pid

/-- The last loop of `run_pipeline` (pipeline.c:95-97), `k` is `npipes - i`;
    `waits i` is what the `wait()` of round `i` returns. -/
def run_pipeline.wait (waits : Nat → Int) : Nat → Nat → Run Unit
  | 0, _ => pure ()
  | k + 1, i => do
    let _ ← mywait (waits i)
    run_pipeline.wait waits k (i + 1)

/-- Embeds `run_pipeline` (pipeline.c:77) for one process, on its descriptor
    table `t`: the part before the last loop, and then, in the parent, which
    alone gets there, the `npipes` calls of `mywait`. -/
def run_pipeline (forks waits : Nat → Int) (can_exec : List Byte → Bool)
    (pipe : List Pipeline) (npipes : Nat) (t : FdTable) : Run Ended := do
  let e ← run_pipeline.spawned forks can_exec pipe npipes t
  match e with
  | Ended.returned t2 => do
    run_pipeline.wait waits npipes 0
    pure (Ended.returned t2)
  | _ => pure e

/-- The result of `fork()` in every round for the parent of a pipeline. -/
def parent_forks : Nat → Int := fun i => 1000 + i

/-- The result of `fork()` in every round for the child made for stage `i`:
    what its parent saw before, then 0. -/
def child_forks (i : Nat) : Nat → Int := fun j => if j = i then 0 else 1000 + j

/-- The descriptors a process has when `run_pipeline` ends for it. -/
def Ended.table : Ended → Option FdTable
  | .returned t => some t
  | .exec _ _ t => some t
  | .fault => none

/-- A pipeline of stages that each hold a command name. -/
def example_pipe (fd : Int) : List Pipeline :=
  List.replicate MAX_NUM_ARGS { init_pipeline fd with argv := [some (ascii "cat"), none] }

/-- Whether a file is an end of a pipe. -/
def File.is_pipe : File → Bool
  | File.pipe_read _ => true
  | File.pipe_write _ => true
  | _ => false

/-- Whether no descriptor of the table refers to an end of a pipe. -/
def FdTable.pipe_free (t : FdTable) : Bool :=
  t.all (fun e => match e with
    | some f => !f.is_pipe
    | none => true)

/-! ## Paths (vocabulary of the statements) -/

/-- The byte `/`. -/
def slash : Byte := 47

/-- The components of a path: the pieces between its `/` bytes. -/
def components (path : List Byte) : List (List Byte) := path.splitOn slash

/-- One step of the resolution of a path, on the components kept so far, the
    last one first: an empty component and `.` are dropped, `..` drops the
    component before it (at the root there is none to drop). -/
def resolve.step (kept : List (List Byte)) (c : List Byte) : List (List Byte) :=
  if c = [] ∨ c = ascii "." then kept
  else if c = ascii ".." then kept.tail
  else c :: kept

/-- The components of an absolute path after `.` and `..` are resolved. -/
def resolve (path : List Byte) : List (List Byte) :=
  ((components path).foldl resolve.step []).reverse

/-- The absolute path after `.` and `..` are resolved. -/
def resolved_path (path : List Byte) : List Byte :=
  ((resolve path).map (fun c => slash :: c)).flatten

/-- Whether an absolute path names a file inside `/usr/bin`. -/
def inside_usr_bin (path : List Byte) : Prop :=
  ascii "/usr/bin/" <+: resolved_path path

instance (path : List Byte) : Decidable (inside_usr_bin path) := by
  unfold inside_usr_bin
  infer_instance

/-- A pipeline whose stages each hold the command name `../../bin/sh`. -/
def dotdot_pipe (fd : Int) : List Pipeline :=
  List.replicate MAX_NUM_ARGS
    { init_pipeline fd with argv := [some (ascii "../../bin/sh"), none] }

/-! ## The supervisor (server_core.c, networktcp.c) -/

/-- Embeds `myaccept` (networktcp.c:153); `accepted` is what `accept` returns. -/
def myaccept (accepted : Int) (bindfd : Int) : Run Int :=
  if accepted = -1 then do
    sys_close bindfd
    printerr_exit (ascii "accept error")
  else pure accepted

/-- Embeds `acceptandforkclient` (server_core.c:63).  `clientid` is the static
    counter on entry, `accepted` what `accept` returns and `pid` what `fork()`
    returns.  Returns what `myfork` returns, the client and the counter. -/
def acceptandforkclient (clientid accepted pid : Int) (client : ClientData)
    (server : ServerData) : Run (Int × ClientData × Int) := do
  let fd ← myaccept accepted server.bindfd
  myfprintf server.outfd (ascii "::client %d connected\n") [FArg.int (wrap32 (clientid + 1))]
  let r ← myfork pid
  pure (r, { client with clientfd := fd, clientid := wrap32 (clientid + 1) },
    wrap32 (clientid + 1))

/-- One round of the loop of `runserver` (server_core.c:190-198) for the
    process that runs it, with a `myclose` that succeeds: the child becomes the
    worker, the parent closes the client socket.  `none` when the command loop
    of the worker is still running after `fuel` rounds. -/
def runserver.body (creds : List Credential) (ftpcallback : Callbacks) (runcommand : Engine)
    (fuel : Nat) (buf : List Byte) (clientid accepted pid : Int) (client : ClientData)
    (server : ServerData) : Run (Option (ClientData × Int)) := do
  let (r, client1, clientid1) ← acceptandforkclient clientid accepted pid client server
  if r = 0 then do
    let w ← worker creds ftpcallback runcommand fuel buf client1 server
    match w with
    | none => pure none
    | some _ => do
      sys_close client1.clientfd
      pure (some (client1, clientid1))
  else do
    sys_close client1.clientfd
    pure (some (client1, clientid1))

/-- The result of `fork()` in every round for a process that cannot make
    another one. -/
def failing_forks : Nat → Int := fun _ => -1

/-- The result of `wait()` in every round for a worker whose children the
    handler of `SIGCHLD` has taken already: no child is left to wait for. -/
def reaped_waits : Nat → Int := fun _ => -1

/-- The result of `wait()` in every round for a worker that finds its
    children: the number of the child made in that round. -/
def child_waits : Nat → Int := fun i => 1000 + i

/-! ## The file-transfer handlers (filetransfer.c) -/

/-- `commandlist` (filetransfer.c:36). -/
def commandlist : List Byte := ascii "put\nget\ndel\nhelp\n"

/-- Embeds `mysckwrite` (syscalls.c:112) on a descriptor that takes all the
    bytes at the first `Write`: the first `count` bytes of `buf` are written
    and `count` is returned. -/
def mysckwrite (sck : Int) (buf : List Byte) (count : Nat) : Run Nat :=
  if 0 < count then do
    sys_write sck (buf.take count)
    pure count
  else pure 0

/-- Embeds `serverhandlehelp` (filetransfer.c:96); returns the structure as it
    leaves it. -/
def serverhandlehelp (io : MyIO) : Run MyIO := do
  myfprintf io.readfd (ascii "client:: help\n") []
  let _ ← mysckwrite io.sockfd commandlist (mystrlen commandlist)
  pure io

/-- A handler called `k` times in a row on the same structure. -/
def repeated (handler : MyIO → Run MyIO) : Nat → MyIO → Run MyIO
  | 0, io => pure io
  | k + 1, io => do
    let io1 ← handler io
    repeated handler k io1

/-- The buffer after the bytes `bytes` are stored from index `n` on. -/
def store (line : List Byte) (n : Nat) : List Byte → List Byte
  | [] => line
  | b :: bs => store (poke line n b) (n + 1) bs

/-! ## Regular files (syscalls.c) -/

/-- The working directory of the server and the descriptors of the worker, as
    far as the file-transfer handlers can observe them. -/
structure Disk where
  /-- Name and content of every regular file of the directory that the worker
      may read and write; the first entry of a name counts. -/
  files : List (List Byte × List Byte)
  /-- The descriptors open on a regular file, each with the name of the file
      and its offset; the first entry of a descriptor counts. -/
  opened : List (Int × List Byte × Nat)
  /-- The descriptors open on something else: terminal, socket, pipe. -/
  busy : List Int
  /-- The other names in use in the directory, on which `open` fails: its
      subdirectories, and the files the worker has no right to open. -/
  refused : List (List Byte) := []
  /-- Whether the worker has the right to make files in the directory. -/
  writable : Bool := true
  deriving DecidableEq, Repr

/-- The content of the file `name`, if there is one. -/
def Disk.content (d : Disk) (name : List Byte) : Option (List Byte) :=
  (d.files.find? (fun e => e.1 = name)).map (fun e => e.2)

/-- The file and offset of descriptor `fd`, if it is open on a regular file. -/
def Disk.lookup (d : Disk) (fd : Int) : Option (List Byte × Nat) :=
  (d.opened.find? (fun e => e.1 = fd)).map (fun e => e.2)

/-- The first candidate from `c` on that is not in `used`, among `k` of them. -/
def lowest_unused (used : List Int) : Nat → Nat → Nat
  | 0, c => c
  | k + 1, c => if (c : Int) ∈ used then lowest_unused used k (c + 1) else c

/-- The descriptor the next `open` returns: the lowest one that is not open. -/
def Disk.fresh (d : Disk) : Int :=
  (lowest_unused (d.busy ++ d.opened.map (fun e => e.1))
    ((d.busy ++ d.opened.map (fun e => e.1)).length + 1) 0 : Nat)

/-- A computation of the worker that also works on regular files. -/
def FRun (α : Type) : Type := Disk → Run (α × Disk)

/-- Sequencing for `FRun`. -/
def FRun.bind {α β : Type} (m : FRun α) (f : α → FRun β) : FRun β := fun d s =>
  match m d s with
  | .ret (a, d1) s1 => f a d1 s1
  | .exit c s1 => .exit c s1

instance : Monad FRun where
  pure a := fun d s => .ret (a, d) s
  bind := FRun.bind

/-- A computation that does not touch the regular files. -/
def FRun.lift {α : Type} (m : Run α) : FRun α := fun d s =>
  match m s with
  | .ret a s1 => .ret (a, d) s1
  | .exit c s1 => .exit c s1

/-- `O_RDONLY` (fcntl.h, Linux). -/
def O_RDONLY : Nat := 0

/-- `O_RDWR` (fcntl.h, Linux). -/
def O_RDWR : Nat := 2

/-- `O_CREAT` (fcntl.h, Linux): octal 100. -/
def O_CREAT : Nat := 64

/-- `O_TRUNC` (fcntl.h, Linux): octal 1000. -/
def O_TRUNC : Nat := 512

/-- Whether the flag bit `bit`, a power of two, is set in `flags`. -/
def has_flag (flags bit : Nat) : Bool := flags / bit % 2 = 1

/-- `NAME_MAX` (limits.h, Linux): the longest name a file can have. -/
def NAME_MAX : Nat := 255

/-- Whether `open` can make a file under `name` in the directory of the disk:
    the name is not empty, has no `/` (it would name a file of another
    directory, and the disk holds none), is not `.` or `..` (the directory
    itself and its parent) and has at most `NAME_MAX` bytes. -/
def creatable (name : List Byte) : Bool :=
  decide (name ≠ [] ∧ slash ∉ name ∧ name ≠ ascii "." ∧ name ≠ ascii ".." ∧
    name.length ≤ NAME_MAX)

/-- Whether `open` can make a file under `name` on this disk: the directory
    can hold the name, the name is not in use for something else, and the
    worker has the right to make files. -/
def Disk.can_create (d : Disk) (name : List Byte) : Bool :=
  creatable name && decide (name ∉ d.refused) && d.writable

/-- Models `open(pathname, flags, mode)` on the directory of the disk: a file
    that is there is opened at offset 0, emptied first under `O_TRUNC`; one
    that is not there is made empty under `O_CREAT` when a file can be made
    under that name (`Disk.can_create`); otherwise the call fails (-1), as it
    does for a name that is not there without `O_CREAT`, and under `O_CREAT`
    for the empty name, a name with a `/`, `.`, `..`, a name of more than
    `NAME_MAX` bytes, the name of a subdirectory or of a file the worker may
    not open, and in a directory where the worker may not make files. -/
def sys_open (pathname : List Byte) (flags : Nat) : FRun Int := fun d s =>
  match d.content (cstr pathname) with
  | some _ =>
    .ret (d.fresh,
      { d with
        files := if has_flag flags O_TRUNC then (cstr pathname, []) :: d.files else d.files,
        opened := (d.fresh, cstr pathname, 0) :: d.opened }) s
  | none =>
    if has_flag flags O_CREAT ∧ d.can_create (cstr pathname) = true then
      .ret (d.fresh,
        { d with
          files := (cstr pathname, []) :: d.files,
          opened := (d.fresh, cstr pathname, 0) :: d.opened }) s
    else .ret (-1, d) s

/-- Embeds `myopenfile` (syscalls.c:68). -/
def myopenfile (pathname : List Byte) (mode : Nat) : FRun Int := do
  let fd ← sys_open pathname mode
  if fd = -1 then FRun.lift (printerr_exit (ascii "open() error\n")) else pure fd

/-- Embeds `myopen` (syscalls.c:261). -/
def myopen (pathname : List Byte) (flags : Nat) (_mode : Nat) : FRun Int := do
  let fd ← sys_open pathname flags
  if fd = -1 then FRun.lift (printerr_exit (ascii "open() error\n")) else pure fd

/-- Models `Read` (syscalls.c:55), that is `read(fd, buf, count)`: on a
    descriptor open on a regular file the bytes from its offset on, at most
    `count` of them, and the offset moves past them; on any other descriptor
    what `myread` delivers.  Returns the bytes read. -/
def Read (fd : Int) (count : Nat) : FRun (List Byte) := fun d s =>
  match d.lookup fd with
  | some (name, pos) =>
    .ret ((((d.content name).getD []).drop pos).take count,
      { d with opened :=
          (fd, name, pos + ((((d.content name).getD []).drop pos).take count).length)
            :: d.opened }) s
  | none => FRun.lift (myread fd count) d s

/-- The content of a file after `bytes` are written at offset `pos` of the
    content `c`. -/
def overwrite (c : List Byte) (pos : Nat) (bytes : List Byte) : List Byte :=
  c.take pos ++ bytes ++ c.drop (pos + bytes.length)

/-- Models `Write` (syscalls.c:61), that is `write(fd, buf, count)` taking
    all the bytes: on a descriptor open on a regular file they replace what
    the file holds from its offset on, the file growing as needed, and the
    offset moves past them; on any other descriptor they are written as
    `sys_write` does.  Returns their number. -/
def Write (fd : Int) (bytes : List Byte) : FRun Nat := fun d s =>
  match d.lookup fd with
  | some (name, pos) =>
    .ret (bytes.length,
      { d with
        files := (name, overwrite ((d.content name).getD []) pos bytes) :: d.files,
        opened := (fd, name, pos + bytes.length) :: d.opened }) s
  | none => FRun.lift (do sys_write fd bytes; pure bytes.length) d s

/-- Models the plain `close(fd)` of the handlers, whose outcome is not looked
    at: a descriptor open on a regular file is not open any more. -/
def close_file (fd : Int) : FRun Unit := fun d s =>
  .ret ((), { d with opened := d.opened.filter (fun e => e.1 ≠ fd) })
    { s with closed := s.closed ++ [fd] }

/-! ## Moving bytes between socket and file (syscalls.c, networktcp.c, filetransfer.c) -/

/-- Models `do_poll` (client_core.c:37): `poll` returns once a `read` of the
    socket would not block; what the reads deliver is what `Sys.input` lists. -/
def do_poll (_sockfd : Int) : Run Unit := pure ()

/-- The loop of `mysckread`: `acc` holds the `total_read` bytes read so far.  A
    `Read` that delivers nothing, at end of input or because the socket has
    nothing for now, ends the loop. -/
def mysckread.loop (sck : Int) (count : Nat) : Nat → List Byte → Run (List Byte)
  | 0, acc => pure acc
  | k + 1, acc =>
    if acc.length < count then do
      let got ← myread sck (count - acc.length)
      if got.length = 0 then pure acc
      else mysckread.loop sck count k (acc ++ got)
    else pure acc

/-- Embeds `mysckread` (syscalls.c:78) on a socket, with `fcntl` succeeding:
    the bytes read, which are stored from the start of the buffer on.  Every
    round but the last adds a byte, so `count + 1` rounds are enough. -/
def mysckread (sck : Int) (count : Nat) : Run (List Byte) :=
  mysckread.loop sck count (count + 1) []

/-- The loop of `readsocket_writefd`, for at most `fuel` rounds.  Returns
    `total_written` and the buffer, `none` when the loop is still running. -/
def readsocket_writefd.loop (sockfd : Int) (sizebuf : Nat) (writefd : Int) :
    Nat → Nat → List Byte → FRun (Option (Nat × List Byte))
  | 0, _, _ => pure none
  | k + 1, total_written, buf => do
    let got ← FRun.lift (mysckread sockfd (sizebuf - 1))
    if 0 < got.length then do
      let nwritten ← Write writefd got
      let buf1 := mymemset (store buf 0 got) 0 sizebuf
      readsocket_writefd.loop sockfd sizebuf writefd k nwritten buf1
    else pure (some (total_written, buf))

/-- Embeds `readsocket_writefd` (networktcp.c:170).  `total_written` is not
    initialised in the source: `junk` is the value it holds on entry. -/
def readsocket_writefd (junk fuel : Nat) (sockfd : Int) (buf : List Byte) (sizebuf : Nat)
    (writefd : Int) : FRun (Option (Nat × List Byte)) :=
  readsocket_writefd.loop sockfd sizebuf writefd fuel junk buf

/-- The loop of `readfd_writesocket`, for at most `fuel` rounds; `myread` is
    `read` with an exit when it fails, and `read` is `Read` here. -/
def readfd_writesocket.loop (sockfd : Int) (sizebuf : Nat) (readfd : Int) (eofflag : Int) :
    Nat → Nat → List Byte → FRun (Option (Nat × List Byte))
  | 0, _, _ => pure none
  | k + 1, total_sent, buf => do
    let got ← Read readfd (sizebuf - 1)
    if 0 < got.length then do
      let nwritten ← FRun.lift (mysckwrite sockfd got got.length)
      let buf1 := mymemset (store buf 0 got) 0 sizebuf
      if eofflag = 0 then pure (some (nwritten, store buf 0 got))
      else readfd_writesocket.loop sockfd sizebuf readfd eofflag k nwritten buf1
    else pure (some (total_sent, buf))

/-- Embeds `readfd_writesocket` (networktcp.c:189).  `total_sent` is not
    initialised in the source: `junk` is the value it holds on entry. -/
def readfd_writesocket (junk fuel : Nat) (sockfd : Int) (buf : List Byte) (sizebuf : Nat)
    (readfd : Int) (eofflag : Int) : FRun (Option (Nat × List Byte)) :=
  readfd_writesocket.loop sockfd sizebuf readfd eofflag fuel junk buf

/-- Embeds `openfile_getfd_fromclient` (filetransfer.c:48): the descriptor and
    the structure as it is left. -/
def openfile_getfd_fromclient (io : MyIO) (flags mode : Nat) : FRun (Int × MyIO) := do
  FRun.lift (myfprintf io.sockfd (ascii "filename: ") [])
  FRun.lift (do_poll io.sockfd)
  let (_, line) ← FRun.lift (myreadline io.sockfd io.buf (io.bufsize - 1))
  let fd ← if mode = 0 then myopenfile line flags else myopen line flags mode
  pure (fd, { io with buf := line })

/-- Embeds `sendfile_tosocket` (filetransfer.c:59), its `goto` loop run for at
    most `fuel` rounds: `none` when it is still running after them. -/
def sendfile_tosocket (junk : Nat) : Nat → MyIO → FRun (Option MyIO)
  | 0, _ => pure none
  | k + 1, io => do
    let r ← readfd_writesocket junk (k + 1) io.sockfd io.buf NETREADMAX io.readfd 0
    match r with
    | none => pure none
    | some (nread, buf1) =>
      if nread = NETREADMAX - 1 then sendfile_tosocket junk k { io with buf := buf1 }
      else pure (some { io with buf := buf1 })

/-- Embeds `readbytes_fromsocket` (filetransfer.c:150), its `goto` loop run for
    at most `fuel` rounds: `none` when it is still running after them. -/
def readbytes_fromsocket (junk : Nat) (szmax : Nat) : Nat → MyIO → FRun (Option MyIO)
  | 0, _ => pure none
  | k + 1, io => do
    FRun.lift (do_poll io.sockfd)
    let r ← readsocket_writefd junk (k + 1) io.sockfd io.buf io.bufsize io.writefd
    match r with
    | none => pure none
    | some (bytesread, buf1) =>
      if bytesread = szmax then
        readbytes_fromsocket junk szmax k { io with buf := mymemset buf1 0 io.bufsize }
      else do
        let _ ← FRun.lift (mysckwrite io.sockfd [10, 0] 2)
        pure (some { io with buf := buf1 })

/-- Embeds `closereadfd_restoreoldfd` (filetransfer.c:166). -/
def closereadfd_restoreoldfd (oldfd : Int) (io : MyIO) : FRun MyIO := do
  close_file io.readfd
  pure { io with readfd := oldfd }

/-- Embeds `closewritefd_restoreoldfd` (filetransfer.c:173). -/
def closewritefd_restoreoldfd (oldfd : Int) (io : MyIO) : FRun MyIO := do
  close_file io.writefd
  pure { io with writefd := oldfd }

/-- Embeds `serverhandleget` (filetransfer.c:72); `none` when the sending is
    still running after `fuel` rounds. -/
def serverhandleget (junk fuel : Nat) (io : MyIO) : FRun (Option MyIO) := do
  let oldfd := io.readfd
  FRun.lift (myfprintf io.writefd (ascii "client:: get\n") [])
  let (fd, io1) ← openfile_getfd_fromclient io O_RDONLY 0
  let r ← sendfile_tosocket junk fuel { io1 with readfd := fd }
  match r with
  | none => pure none
  | some io2 => do
    let (_, line) ← FRun.lift (myreadline io2.sockfd io2.buf (io2.bufsize - 1))
    let io3 ← closereadfd_restoreoldfd oldfd { io2 with buf := line }
    pure (some io3)

/-- The access bits `S_IRUSR | S_IWUSR | S_IRGRP | S_IWGRP | S_IROTH | S_IWOTH`
    (sys/stat.h): octal 666. -/
def mode_rw_all : Nat := 438

/-- Embeds `serverhandleput` (filetransfer.c:86); `none` when the receiving is
    still running after `fuel` rounds. -/
def serverhandleput (junk fuel : Nat) (io : MyIO) : FRun (Option MyIO) := do
  let oldfd := io.writefd
  FRun.lift (myfprintf io.writefd (ascii "client:: put\n") [])
  let (fd, io1) ← openfile_getfd_fromclient io (O_CREAT + O_RDWR) mode_rw_all
  let r ← readbytes_fromsocket junk (NETREADMAX - 1) fuel { io1 with writefd := fd }
  match r with
  | none => pure none
  | some io2 => do
    let io3 ← closewritefd_restoreoldfd oldfd io2
    pure (some io3)

/-- A disk with the file `old.txt`, the standard descriptors and the client
    socket on descriptor 4. -/
def example_disk : Disk :=
  { files := [(ascii "old.txt", ascii "0123456789")], opened := [], busy := [0, 1, 2, 4] }

/-- The context `handleclient` makes for a client on descriptor 4. -/
def server_io : MyIO := initiostruct 4 sys_stdout sys_stdout (List.replicate 4096 0)

/-- Reads of the socket that each deliver something. -/
def Chunks (cs : List (List Byte)) : Prop := ∀ c ∈ cs, c ≠ []

/-- A disk with the file `b.bin` of 4095 bytes `a`, open for reading on
    descriptor 5 at its start. -/
def block_disk : Disk :=
  { files := [(ascii "b.bin", List.replicate 4095 97)], opened := [(5, ascii "b.bin", 0)],
    busy := [0, 1, 2, 4] }

/-- Whether two I/O contexts have the same descriptors and capacity. -/
def MyIO.same_descriptors (a b : MyIO) : Prop :=
  a.sockfd = b.sockfd ∧ a.readfd = b.readfd ∧ a.writefd = b.writefd ∧ a.bufsize = b.bufsize

/-! ## String comparison and conversion (mystring.c) -/

/-- Embeds `mystrncmp` (mystring.c:280).  `n` is a `size_t` of 64 bits, and
    `--n` is taken before the test: the counter of the next round is
    `n - 1` modulo `2 ^ 64`.  The loop goes on while that counter is positive
    and the two bytes are equal and not NUL; the difference of the bytes it
    stops at is returned.  Reading at the end of a list reads the terminator. -/
def mystrncmp : List Byte → List Byte → Nat → Int
  | [], [], _ => charval 0 - charval 0
  | [], b :: _, _ => charval 0 - charval b
  | a :: _, [], _ => charval a - charval 0
  | a :: s, b :: t, n =>
    if 0 < (n + 2 ^ 64 - 1) % 2 ^ 64 ∧ a ≠ 0 ∧ b ≠ 0 ∧ a = b then
      mystrncmp s t ((n + 2 ^ 64 - 1) % 2 ^ 64)
    else charval a - charval b

/-- The sign of what standard `strcmp` returns, as the C standard defines it:
    0 for equal strings, otherwise the order of the first two differing
    bytes, compared as `unsigned char`. -/
def strcmp_spec : List Byte → List Byte → Int
  | [], [] => 0
  | [], b :: _ => if b = 0 then 0 else -1
  | a :: _, [] => if a = 0 then 0 else 1
  | a :: s, b :: t =>
    if a = b then (if a = 0 then 0 else strcmp_spec s t)
    else if a.toNat < b.toNat then -1 else 1

/-- The sign of what standard `strncmp` returns: as `strcmp_spec`, on the first
    `n` bytes of the two strings only. -/
def strncmp_spec : List Byte → List Byte → Nat → Int
  | _, _, 0 => 0
  | [], [], _ + 1 => 0
  | [], b :: _, _ + 1 => if b = 0 then 0 else -1
  | a :: _, [], _ + 1 => if a = 0 then 0 else 1
  | a :: s, b :: t, n + 1 =>
    if a = b then (if a = 0 then 0 else strncmp_spec s t n)
    else if a.toNat < b.toNat then -1 else 1

/-- The decimal digits of a natural number, most significant first, without
    leading zeros; `0` is the one digit `0`. -/
def decimal (n : Nat) : List Byte := (Nat.toDigits 10 n).map (fun c => c.toNat.toUInt8)

/-- The decimal representation of an integer: a minus sign exactly when it is
    negative, then the digits of its absolute value. -/
def itoa_spec (num : Int) : List Byte :=
  if num < 0 then 45 :: decimal num.natAbs else decimal num.natAbs

/-- Reads a decimal representation back: the digits as a natural number. -/
def read_digits (s : List Byte) : Nat :=
  s.foldl (fun acc b => 10 * acc + (b.toNat - 48)) 0

/-- Reads a decimal representation back, with its sign. -/
def read_decimal : List Byte → Int
  | 45 :: s => -(read_digits s : Int)
  | s => (read_digits s : Int)

/-- `INT_MIN` of a 32-bit `int`. -/
def INT_MIN : Int := -2147483648

/-! ## The writes of the pipeline parser (pipeline.c) -/

/-- The stores `parse_pipeline` (pipeline.c:7) makes into
    `pipe[command_count].argv[argument_count]`, in the order it makes them, each
    as the pair of the two indices: one for every token, a NULL or the token,
    and the NULL after the loop. -/
def parse_pipeline.stores : List (List Byte) → Nat → Nat → List (Nat × Nat)
  | [], command_count, argument_count => [(command_count, argument_count)]
  | tok :: rest, command_count, argument_count =>
    if mystrcmp tok (ascii "|") = 0 then
      (command_count, argument_count) :: parse_pipeline.stores rest (command_count + 1) 0
    else
      (command_count, argument_count) ::
        parse_pipeline.stores rest command_count (argument_count + 1)

/-- A store of `parse_pipeline` falls inside the array of `MAX_NUM_ARGS`
    stages that `runcommand` declares and inside the `argv` of
    `MAX_NUM_ARGS` slots of the stage. -/
def in_bounds (w : Nat × Nat) : Bool := decide (w.1 < MAX_NUM_ARGS) && decide (w.2 < MAX_NUM_ARGS)

/-- The tokens `parse_commandline` left in `argv[0 .. argc)`. -/
def tokens_of : Parsed → List (List Byte)
  | Parsed.ok argc argv => (argv.take argc).map (fun t => t.getD [])
  | _ => []

/-! ## The client's server address (client_core.c) -/

/-- `DEFAULT_PORT` (client_core.h:30). -/
def DEFAULT_PORT : List Byte := ascii "1234"

/-- `DEFAULT_IP` (client_core.h:31). -/
def DEFAULT_IP : List Byte := ascii "127.0.0.1"

/-- The two arguments `initclient` (client_core.c:56) passes to
    `do_connect_server`: the address and the port.  `argv` is the vector `main`
    received, `argv[argc]` being NULL; `none` is NULL. -/
def initclient.address (argc : Int) (argv : List (Option (List Byte))) :
    Option (List Byte) × Option (List Byte) :=
  (if argc = 2 then argv.getD 1 none else some DEFAULT_IP,
   if argc = 2 then argv.getD 2 none else some DEFAULT_PORT)

/-- Embeds `initclient` (client_core.c:56) on the buffer `buf` of the
    structure; `do_connect_server` is the parameter `connect`, which gives the
    descriptor of the connected socket or leaves the process. -/
def initclient (connect : Option (List Byte) → Option (List Byte) → Run Int)
    (argc : Int) (argv : List (Option (List Byte))) (buf : List Byte) : Run MyIO := do
  let sockfd ← connect (initclient.address argc argv).1 (initclient.address argc argv).2
  pure (initiostruct sockfd sys_stdin sys_stdout (mymemset buf 0 NETREADMAX))

/-- The vector `main` receives for a command line: the words, then NULL. -/
def main_argv (words : List String) : List (Option (List Byte)) :=
  words.map (fun w => some (ascii w)) ++ [none]

/-! ## Writing to a socket that takes the bytes in parts (syscalls.c) -/

/-- Embeds `syserrorexit` (syscalls.c:44). -/
def syserrorexit {α : Type} (err : List Byte) (sck : Int) (errnum : Int) : Run α := do
  fdputs sys_stderr err
  if sck ≠ -1 then sys_close sck
  sys_exit errnum

/-- Models `Write` (syscalls.c:61), that is `write(fd, buf, count)`, on a
    descriptor that takes the first `n` of the bytes: they are written and
    `n` is returned. -/
def sys_write_some (fd : Int) (bytes : List Byte) (n : Nat) : Run Nat := fun s =>
  .ret n { s with output := s.output ++ tagged fd (bytes.take n) }

/-- The loop of `mysckwrite` (syscalls.c:118) on a descriptor whose `write`
    behaves as `w` says: `w k r` is what the call number `k` returns when it is
    handed `r` bytes, `none` for -1 and `some n` for `n` bytes taken (never
    more than it was handed: a larger `n` counts as `r`).  `total` bytes are
    written so far.  Every round that goes on adds to `total`, so `count`
    rounds and one more are enough. -/
def mysckwrite.loop (w : Nat → Nat → Option Nat) (sck : Int) (buf : List Byte) (count : Nat) :
    Nat → Nat → Nat → Run Nat
  | 0, _, total => pure total
  | fuel + 1, k, total =>
    if total < count then
      match w k (count - total) with
      | none => syserrorexit (ascii "write error") sck 1
      | some n => do
        let nwritten ←
          sys_write_some sck ((buf.drop total).take (count - total)) (min n (count - total))
        if nwritten = 0 then pure total
        else mysckwrite.loop w sck buf count fuel (k + 1) (total + nwritten)
    else pure total

/-- Embeds `mysckwrite` (syscalls.c:112) on a descriptor whose `write` behaves
    as `w` says; `mysckwrite` above is the case of a `write` that takes all it
    is handed. -/
def mysckwrite.with_writes (w : Nat → Nat → Option Nat) (sck : Int) (buf : List Byte)
    (count : Nat) : Run Nat :=
  mysckwrite.loop w sck buf count (count + 1) 0 0

/-- The bytes the reads of a socket deliver before one of them delivers
    nothing, because the socket would block or the input is at its end. -/
def delivered (input : List (List Byte)) : List Byte :=
  (input.takeWhile (fun c => !c.isEmpty)).flatten

/-! ## Loading the credentials (clientlogin.c) -/

/-- `__MAXREAD` (clientlogin.c:10). -/
def MAXREAD : Nat := 1024

/-- `CREDENTIAL_LEN` (clientlogin.h): the size of each field of a record. -/
def CREDENTIAL_LEN : Nat := 256

/-- The store `mystrncpy(__credentials[index].username, token, __MAXREAD-1)`. -/
def set_username (creds : List Credential) (index : Nat) (v : List Byte) : List Credential :=
  match creds.get? index with
  | none => creds
  | some c => creds.set index { c with username := v }

/-- The store `mystrncpy(__credentials[index].password, token, __MAXREAD-1)`. -/
def set_password (creds : List Credential) (index : Nat) (v : List Byte) : List Credential :=
  match creds.get? index with
  | none => creds
  | some c => creds.set index { c with password := v }

/-- Embeds `load_user_and_password` (clientlogin.c:31) on the tokenizer state
    `st` (the buffer and the static `next_token` of `mystrtok`) and the array
    `creds`; `line` is an index into the buffer.  `none` is a token that does
    not fit the field of `CREDENTIAL_LEN` bytes: `mystrncpy` copies up to
    `__MAXREAD - 1` bytes and writes past it, which the model does not
    follow. -/
def load_user_and_password (st : Strtok) (creds : List Credential) (line : Nat) (index : Nat) :
    Option (Strtok × List Credential) :=
  match mystrtok st (some line) 32 with
  | (none, st1) => some (st1, creds)
  | (some token, st1) =>
    if CREDENTIAL_LEN ≤ (mystrncpy (st1.buf.drop token) (MAXREAD - 1)).length then none
    else
      match mystrtok st1 none 32 with
      | (none, st2) =>
        some (st2, set_username creds index (mystrncpy (st1.buf.drop token) (MAXREAD - 1)))
      | (some token2, st2) =>
        if CREDENTIAL_LEN ≤ (mystrncpy (st2.buf.drop token2) (MAXREAD - 1)).length then none
        else
          some (st2, set_password
            (set_username creds index (mystrncpy (st1.buf.drop token) (MAXREAD - 1))) index
            (mystrncpy (st2.buf.drop token2) (MAXREAD - 1)))

/-- The `for` loop of `load_credentials` (clientlogin.c:57): `k` is
    `USER_MAX - i`, `line` the line `mystrtok` returned last.  Gives the
    tokenizer state, `i` and the array when the loop ends, or the index of a
    record with a token that does not fit. -/
def load_credentials.lines :
    Nat → Strtok → Option Nat → Nat → List Credential →
      Except Nat (Strtok × Nat × List Credential)
  | 0, st, _, i, creds => .ok (st, i, creds)
  | _ + 1, st, none, i, creds => .ok (st, i, creds)
  | k + 1, st, some line, i, creds =>
    match load_user_and_password st creds line i with
    | none => .error i
    | some (st1, creds1) =>
      load_credentials.lines k (mystrtok st1 none 10).2 (mystrtok st1 none 10).1 (i + 1) creds1

/-- How `load_credentials` ends. -/
inductive Loaded where
  /-- It returned: the array `__credentials` and `__ncredentials`. -/
  | ok (creds : List Credential) (ncredentials : Int)
  /-- A token of the record `index` does not fit its field. -/
  | overflow (index : Nat)
  /-- The rounds allowed are used up. -/
  | unfinished
  deriving DecidableEq, Repr

/-- The `while` loop of `load_credentials` (clientlogin.c:54), for at most
    `fuel` reads, and what follows it.  `st.buf` is `buffer`, `i` the
    variable `i`, which every read that delivers something sets to 0 again. -/
def load_credentials.chunks (fd : Int) :
    Nat → Strtok → Int → List Credential → FRun Loaded
  | 0, _, _, _ => pure Loaded.unfinished
  | fuel + 1, st, i, creds => do
    let got ← Read fd (MAXREAD - 10)
    if 0 < got.length then
      match load_credentials.lines USER_MAX
          (mystrtok { st with buf := poke (overwrite st.buf 0 got) got.length 0 } (some 0) 10).2
          (mystrtok { st with buf := poke (overwrite st.buf 0 got) got.length 0 } (some 0) 10).1
          0 creds with
      | .error index => pure (Loaded.overflow index)
      | .ok (st1, i1, creds1) => load_credentials.chunks fd fuel st1 (i1 : Int) creds1
    else do
      close_file fd
      pure (Loaded.ok creds i)

/-- Embeds `load_credentials` (clientlogin.c:45) at the start of the server:
    `__credentials` is zeroed, `next_token` is NULL.  `junk` is the last byte of
    `buffer`, which `mymemset` leaves as it was, and `junk_i` the value of the
    local `i` before it is first assigned. -/
def load_credentials (junk : Byte) (junk_i : Int) (fuel : Nat) (filename : List Byte) :
    FRun Loaded := do
  let fd ← myopen filename O_RDONLY 0
  load_credentials.chunks fd fuel
    { buf := mymemset (List.replicate (MAXREAD - 1) 0 ++ [junk]) 0 (MAXREAD - 1),
      next_token := none }
    junk_i (List.replicate USER_MAX { username := [], password := [] })

/-- The records `verifyuser` looks at: `__credentials[0 .. __ncredentials)`. -/
def Loaded.store : Loaded → List Credential
  | Loaded.ok creds n => creds.take n.toNat
  | _ => []

/-- A disk with the one file `credentials.txt` and the standard descriptors
    and the listening socket open. -/
def creds_disk (content : List Byte) : Disk :=
  { files := [(ascii "credentials.txt", content)], opened := [], busy := [0, 1, 2, 3] }

/-- What `load_credentials` ends with on a credential file with the content
    `content`, if it returns within `content.length + 1` reads. -/
def loaded_from (content : List Byte) : Option Loaded :=
  match load_credentials 0 0 (content.length + 1) (ascii "credentials.txt")
      (creds_disk content) (example_sys []) with
  | .ret (r, _) _ => some r
  | .exit _ _ => none

/-- A line of a credential file: user name, one space, password, newline. -/
def credential_line (username password : List Byte) : List Byte :=
  username ++ [32] ++ password ++ [10]

/-- A field of a credential line as the format has it: not empty, shorter
    than `CREDENTIAL_LEN`, and free of NUL, space, tab and newline. -/
def Field (f : List Byte) : Prop :=
  f ≠ [] ∧ f.length < CREDENTIAL_LEN ∧ ∀ b ∈ f, b ≠ 0 ∧ b ≠ 32 ∧ b ≠ 9 ∧ b ≠ 10

/-- The credential file with one line for each of the records. -/
def credential_file (recs : List Credential) : List Byte :=
  (recs.map (fun c => credential_line c.username c.password)).flatten

/-! ## Theorems -/

/-! ### Lemmas on the string primitives -/

theorem charval_injective {a b : Byte} (h : charval a = charval b) : a = b := by
  unfold charval at h
  have ha := a.toNat_lt
  have hb := b.toNat_lt
  apply UInt8.ext
  split_ifs at h <;> omega

theorem charval_sub_ne_zero {a b : Byte} (h : a ≠ b) : charval a - charval b ≠ 0 := by
  intro h0
  exact h (charval_injective (by omega))

theorem cstr_nil : cstr [] = [] := rfl

theorem cstr_cons (a : Byte) (s : List Byte) :
    cstr (a :: s) = if a = 0 then [] else a :: cstr s := by
  unfold cstr
  by_cases h : a = 0 <;> simp [List.takeWhile_cons, h]

/-- The comparison is 0 exactly when the two C strings are equal. -/
theorem mystrcmp_eq_zero_iff (s t : List Byte) : mystrcmp s t = 0 ↔ cstr s = cstr t := by
  induction s generalizing t with
  | nil =>
    cases t with
    | nil => simp [mystrcmp]
    | cons b t =>
      by_cases hb : b = 0
      · subst hb; simp [mystrcmp, cstr_cons, cstr_nil]
      · have hb2 : ¬ (0 : Byte) = b := fun h => hb h.symm
        have := charval_sub_ne_zero hb2
        simp [mystrcmp, cstr_cons, cstr_nil, hb, hb2, this]
  | cons a s ih =>
    cases t with
    | nil =>
      by_cases ha : a = 0
      · subst ha; simp [mystrcmp, cstr_cons, cstr_nil]
      · have := charval_sub_ne_zero ha
        simp [mystrcmp, cstr_cons, cstr_nil, ha, this]
    | cons b t =>
      by_cases hab : a = b
      · subst hab
        by_cases ha : a = 0
        · subst ha; simp [mystrcmp, cstr_cons]
        · simp [mystrcmp, cstr_cons, ha, ih t]
      · have := charval_sub_ne_zero hab
        by_cases ha : a = 0
        · subst ha
          have hb : ¬ b = 0 := fun h => hab h.symm
          simp [mystrcmp, cstr_cons, hab, this, hb]
        · by_cases hb : b = 0
          · subst hb; simp [mystrcmp, cstr_cons, hab, this, ha]
          · simp [mystrcmp, cstr_cons, hab, this, ha, hb]

/-! ### C1: `verifyuser` -/

theorem verifyuser_test_iff (c : Credential) (u p : List Byte) :
    (mystrcmp u c.username = 0 ∧ mystrcmp p c.password = 0) ↔ c.holds u p := by
  unfold Credential.holds
  rw [mystrcmp_eq_zero_iff, mystrcmp_eq_zero_iff]
  constructor <;> rintro ⟨h1, h2⟩ <;> exact ⟨h1.symm, h2.symm⟩

/-- The loop started at index `i ≥ 0` returns -1 when no remaining record holds
    the pair, and otherwise `i + j` for the first position `j` that does. -/
theorem verifyuser_loop_spec (u p : List Byte) (creds : List Credential) (i : Int)
    (hi : 0 ≤ i) :
    (verifyuser.loop u p creds i = -1 ↔ ∀ c ∈ creds, ¬ c.holds u p) ∧
    (verifyuser.loop u p creds i ≠ -1 →
      ∃ j : Nat, verifyuser.loop u p creds i = i + j ∧ j < creds.length ∧
        (∃ c, creds.get? j = some c ∧ c.holds u p) ∧
        ∀ k < j, ∀ c, creds.get? k = some c → ¬ c.holds u p) := by
  induction creds generalizing i with
  | nil => simp [verifyuser.loop]
  | cons c rest ih =>
    by_cases hc : c.holds u p
    · have ht := (verifyuser_test_iff c u p).mpr hc
      have hv : verifyuser.loop u p (c :: rest) i = i := by
        simp only [verifyuser.loop]; rw [if_pos ht]
      rw [hv]
      refine ⟨?_, ?_⟩
      · constructor
        · intro h; omega
        · intro h; exact absurd hc (h c (List.mem_cons_self _ _))
      · intro _
        exact ⟨0, by simp, by simp, ⟨c, by simp, hc⟩, by intro k hk; omega⟩
    · have ht : ¬ (mystrcmp u c.username = 0 ∧ mystrcmp p c.password = 0) :=
        fun h => hc ((verifyuser_test_iff c u p).mp h)
      have hv : verifyuser.loop u p (c :: rest) i = verifyuser.loop u p rest (i + 1) := by
        simp only [verifyuser.loop]; rw [if_neg ht]
      rw [hv]
      obtain ⟨ih1, ih2⟩ := ih (i + 1) (by omega)
      refine ⟨?_, ?_⟩
      · rw [ih1]
        constructor
        · intro h d hd
          rcases List.mem_cons.mp hd with rfl | hd
          · exact hc
          · exact h d hd
        · intro h d hd
          exact h d (List.mem_cons_of_mem _ hd)
      · intro hne
        obtain ⟨j, hj, hlt, ⟨d, hd, hdh⟩, hmin⟩ := ih2 hne
        refine ⟨j + 1, ?_, by simpa using hlt, ⟨d, by simpa using hd, hdh⟩, ?_⟩
        · rw [hj]; push_cast; ring
        · intro k hk e he
          cases k with
          | zero =>
            simp at he; subst he; exact hc
          | succ k =>
            exact hmin k (by omega) e (by simpa using he)

/-- C1. For every credential table of k records (k ≤ 1000) and every pair
    (username, password): `verifyuser` returns -1 exactly when no record holds
    both that username and that password; otherwise it returns an index `i` with
    `0 ≤ i < k` whose record holds the pair, and no record before `i` does (it is
    the smallest such index). -/
theorem verifyuser_spec (creds : List Credential) (u p : List Byte)
    (hk : creds.length ≤ USER_MAX) :
    (verifyuser creds u p = -1 ↔ ∀ c ∈ creds, ¬ c.holds u p) ∧
    (verifyuser creds u p ≠ -1 →
      ∃ i : Nat, verifyuser creds u p = (i : Int) ∧ i < creds.length ∧
        (∃ c, creds.get? i = some c ∧ c.holds u p) ∧
        ∀ k < i, ∀ c, creds.get? k = some c → ¬ c.holds u p) := by
  have _ := hk
  obtain ⟨h1, h2⟩ := verifyuser_loop_spec u p creds 0 (le_refl _)
  refine ⟨h1, ?_⟩
  intro hne
  obtain ⟨j, hj, rest⟩ := h2 hne
  exact ⟨j, by unfold verifyuser; rw [hj]; simp, rest⟩

/-- Witness for C1: a table holding the pair ("alice", "secret") at indices 1
    and 2; the bound is met and index 1, the first, is returned. -/
theorem verifyuser_spec_witness :
    [(⟨ascii "bob", ascii "hunter2"⟩ : Credential), ⟨ascii "alice", ascii "secret"⟩,
        ⟨ascii "alice", ascii "secret"⟩].length ≤ USER_MAX ∧
    verifyuser [⟨ascii "bob", ascii "hunter2"⟩, ⟨ascii "alice", ascii "secret"⟩,
        ⟨ascii "alice", ascii "secret"⟩] (ascii "alice") (ascii "secret") = 1 ∧
    (verifyuser [⟨ascii "bob", ascii "hunter2"⟩, ⟨ascii "alice", ascii "secret"⟩,
        ⟨ascii "alice", ascii "secret"⟩] (ascii "alice") (ascii "secret") = -1 ↔
      ∀ c ∈ [(⟨ascii "bob", ascii "hunter2"⟩ : Credential), ⟨ascii "alice", ascii "secret"⟩,
          ⟨ascii "alice", ascii "secret"⟩], ¬ c.holds (ascii "alice") (ascii "secret")) :=
  ⟨by decide, by decide,
   (verifyuser_spec [⟨ascii "bob", ascii "hunter2"⟩, ⟨ascii "alice", ascii "secret"⟩,
        ⟨ascii "alice", ascii "secret"⟩] (ascii "alice") (ascii "secret") (by decide)).1⟩

/-! ### The worker's computations -/

@[simp] theorem Run.pure_apply {α : Type} (a : α) (s : Sys) :
    (pure a : Run α) s = Outcome.ret a s := rfl

@[simp] theorem Run.bind_apply {α β : Type} (m : Run α) (f : α → Run β) (s : Sys) :
    (m >>= f) s = match m s with
      | .ret a s1 => f a s1
      | .exit c s1 => .exit c s1 := rfl

theorem Sys.sameLog_refl (s : Sys) : s.sameLog s := ⟨rfl, rfl, rfl⟩

theorem Sys.sameLog_trans {a b c : Sys} (h1 : a.sameLog b) (h2 : b.sameLog c) :
    a.sameLog c :=
  ⟨h2.1.trans h1.1, h2.2.1.trans h1.2.1, h2.2.2.trans h1.2.2⟩

theorem toChar_EOF : charval (toChar EOF) = EOF := by decide

/-- With characters left in its buffer `mygetchar` does not read. -/
theorem mygetchar_some (fd : Int) (s : Sys) (rest : List Byte) (h : s.getc = some rest) :
    ∃ r s1, mygetchar fd s = .ret r s1 ∧ s1.input = s.input ∧ s.sameLog s1 ∧
      (charval (toChar r) ≠ EOF → s1.getc ≠ none) := by
  cases rest with
  | nil =>
    refine ⟨EOF, { s with getc := none }, ?_, rfl, ⟨rfl, rfl, rfl⟩, ?_⟩
    · simp [mygetchar, h]
    · intro hc; exact absurd toChar_EOF hc
  | cons c rest =>
    refine ⟨(c.toNat : Int), { s with getc := some rest }, ?_, rfl, ⟨rfl, rfl, rfl⟩, ?_⟩
    · simp [mygetchar, h]
    · intro _; simp

/-- A `read` always returns; it delivers a byte when input is waiting. -/
theorem myread_spec (fd : Int) (n : Nat) (s : Sys) :
    ∃ chunk s1, myread fd n s = .ret chunk s1 ∧ s.sameLog s1 ∧ s1.getc = s.getc ∧
      ∀ k, s.fed (k + 1) → 0 < n → chunk ≠ [] ∧ s1.fed k := by
  unfold myread
  cases hi : s.input with
  | nil =>
    refine ⟨[], s, rfl, s.sameLog_refl, rfl, ?_⟩
    intro k hk; simp [Sys.fed, hi] at hk
  | cons chunk rest =>
    by_cases hl : chunk.length ≤ n
    · refine ⟨chunk, { s with input := rest }, by simp [hl], ⟨rfl, rfl, rfl⟩, rfl, ?_⟩
      intro k hk _
      simp only [Sys.fed, hi, List.length_cons, List.mem_cons, forall_eq_or_imp] at hk
      exact ⟨hk.2.1, by show k ≤ rest.length; omega, hk.2.2⟩
    · refine ⟨chunk.take n, { s with input := chunk.drop n :: rest }, by simp [hl],
        ⟨rfl, rfl, rfl⟩, rfl, ?_⟩
      intro k hk hn
      simp only [Sys.fed, hi, List.length_cons, List.mem_cons, forall_eq_or_imp] at hk
      refine ⟨?_, ?_, ?_⟩
      · intro h0
        have := congrArg List.length h0
        rw [List.length_take, List.length_nil] at this
        omega
      · show k ≤ (chunk.drop n :: rest).length
        simp only [List.length_cons]; omega
      · intro c hc
        rcases List.mem_cons.mp hc with rfl | hc
        · intro h0
          have := congrArg List.length h0
          rw [List.length_drop, List.length_nil] at this
          omega
        · exact hk.2.2 c hc

/-- With an empty buffer `mygetchar` reads: it leaves the process at end of
    input, and otherwise returns the first byte read. -/
theorem mygetchar_none (fd : Int) (s : Sys) (h : s.getc = none) :
    ∃ chunk s1, myread fd GETCHAR_BUFSIZE s = .ret chunk s1 ∧
      mygetchar fd s = (match chunk with
        | [] => .exit 1 s1
        | c :: rest => .ret (c.toNat : Int) { s1 with getc := some rest }) := by
  obtain ⟨chunk, s1, h1, _⟩ := myread_spec fd GETCHAR_BUFSIZE s
  refine ⟨chunk, s1, h1, ?_⟩
  unfold mygetchar
  rw [h]
  simp only [h1]
  cases chunk with
  | nil => simp
  | cons c rest => simp

/-- In any case `mygetchar` writes nothing. -/
theorem mygetchar_sameLog (fd : Int) (s : Sys) : s.sameLog (mygetchar fd s).sys := by
  cases hg : s.getc with
  | some rest =>
    obtain ⟨r, s1, h1, _, h3, _⟩ := mygetchar_some fd s rest hg
    rw [h1]; exact h3
  | none =>
    obtain ⟨chunk, s1, h1, h2⟩ := mygetchar_none fd s hg
    obtain ⟨chunk2, s2, h3, h4, _⟩ := myread_spec fd GETCHAR_BUFSIZE s
    rw [h1] at h3
    cases h3
    rw [h2]
    cases chunk with
    | nil => exact h4
    | cons c rest => exact h4

/-- With input waiting `mygetchar` returns. -/
theorem mygetchar_fed (fd : Int) (s : Sys) (k : Nat)
    (h : s.getc ≠ none ∧ s.fed k ∨ s.fed (k + 1)) :
    ∃ r s1, mygetchar fd s = .ret r s1 ∧ s.sameLog s1 ∧ s1.fed k ∧
      (charval (toChar r) ≠ EOF → s1.getc ≠ none) := by
  cases hg : s.getc with
  | some rest =>
    obtain ⟨r, s1, h1, h2, h3, h4⟩ := mygetchar_some fd s rest hg
    refine ⟨r, s1, h1, h3, ?_, h4⟩
    have hk : s.fed k := by
      rcases h with h | h
      · exact h.2
      · exact ⟨by have := h.1; omega, h.2⟩
    simpa [Sys.fed, h2] using hk
  | none =>
    have hk : s.fed (k + 1) := by
      rcases h with h | h
      · exact absurd hg h.1
      · exact h
    obtain ⟨chunk, s1, h1, h2⟩ := mygetchar_none fd s hg
    obtain ⟨chunk2, s2, h3, h4, _, h5⟩ := myread_spec fd GETCHAR_BUFSIZE s
    rw [h1] at h3
    cases h3
    obtain ⟨h6, h7⟩ := h5 k hk (by decide)
    cases chunk with
    | nil => exact absurd rfl h6
    | cons c rest =>
      exact ⟨_, _, h2, h4, h7, by intro _; simp⟩

/-- Started on a character that is `EOF`, or with characters left in the
    buffer of `mygetchar`, the loop of `myreadline` returns without reading. -/
theorem myreadline_loop_spec (fd : Int) (k : Nat) (c : Byte) (n : Nat) (line : List Byte)
    (s : Sys) (h : charval c ≠ EOF → s.getc ≠ none) :
    ∃ a s1, myreadline.loop fd k c n line s = .ret a s1 ∧ s.sameLog s1 ∧
      s1.input = s.input := by
  induction k generalizing c n line s with
  | zero => exact ⟨(n, line), s, rfl, s.sameLog_refl, rfl⟩
  | succ k ih =>
    by_cases hc : charval c ≠ EOF
    · obtain ⟨rest, hg⟩ := Option.ne_none_iff_exists'.mp (h hc)
      obtain ⟨r, s1, h1, h2, h3, h4⟩ := mygetchar_some fd s rest hg
      obtain ⟨a, s2, h5, h6, h7⟩ := ih (toChar r) (n + 1) (poke line n c) s1 h4
      refine ⟨a, s2, ?_, Sys.sameLog_trans h3 h6, h7.trans h2⟩
      simp only [myreadline.loop, if_pos hc, Run.bind_apply, h1, h5]
    · refine ⟨(n, line), s, ?_, s.sameLog_refl, rfl⟩
      simp only [myreadline.loop, if_neg hc, Run.pure_apply]

/-- Reading a line writes nothing, whether it returns or not. -/
theorem myreadline_sameLog (fd : Int) (line : List Byte) (n : Nat) (s : Sys) :
    s.sameLog (myreadline fd line n s).sys := by
  have h0 := mygetchar_sameLog fd s
  unfold myreadline
  simp only [Run.bind_apply]
  cases hg : mygetchar fd s with
  | exit c s1 => rw [hg] at h0; exact h0
  | ret r s1 =>
    rw [hg] at h0
    have h4 : charval (toChar r) ≠ EOF → s1.getc ≠ none := by
      cases hs : s.getc with
      | some rest =>
        obtain ⟨r2, s2, e1, _, _, e4⟩ := mygetchar_some fd s rest hs
        rw [hg] at e1; cases e1; exact e4
      | none =>
        obtain ⟨chunk, s2, _, e2⟩ := mygetchar_none fd s hs
        rw [hg] at e2
        cases chunk with
        | nil => cases e2
        | cons c rest => cases e2; intro _; simp
    obtain ⟨a, s2, h5, h6, _⟩ := myreadline_loop_spec fd (n - 1) (toChar r) 0 line s1 h4
    simp only [h5]
    exact Sys.sameLog_trans h0 h6

/-- With a chunk waiting, reading a line returns and takes at most that chunk. -/
theorem myreadline_fed (fd : Int) (line : List Byte) (n : Nat) (s : Sys) (k : Nat)
    (h : s.fed (k + 1)) :
    ∃ a s1, myreadline fd line n s = .ret a s1 ∧ s1.fed k := by
  obtain ⟨r, s1, h1, _, h3, h4⟩ := mygetchar_fed fd s k (Or.inr h)
  obtain ⟨⟨nt, l1⟩, s2, h5, _, h7⟩ := myreadline_loop_spec fd (n - 1) (toChar r) 0 line s1 h4
  refine ⟨(nt, if nt = 0 then l1 else poke l1 (nt - 1) 0), s2, ?_,
    by simpa [Sys.fed, h7] using h3⟩
  unfold myreadline
  simp only [Run.bind_apply, h1, h5, Run.pure_apply]

/-! ### The formats of the log and of the replies -/

theorem fmt_sent (id : Int) (rb : List Byte) :
    myfprintf.bytes false (ascii "::client %d sent %s\n") [FArg.int id, FArg.str rb] =
      sent_line id (cstr rb) := rfl

theorem fmt_failed (id : Int) :
    myfprintf.bytes false (ascii "::client %d failed password attempt\n") [FArg.int id] =
      failed_line id := rfl

theorem fmt_welcome (u : List Byte) :
    myfprintf.bytes false (ascii "welcome back %s\n") [FArg.str u] =
      ascii "welcome back " ++ (cstr u ++ ascii "\n") := rfl

theorem fmt_login_failed :
    myfprintf.bytes false (ascii "login failed\n") [] = ascii "login failed\n" := rfl

theorem fmt_disconnected (id : Int) :
    myfprintf.bytes false (ascii "::client %d disconnected\n") [FArg.int id] =
      ascii "::client " ++ (myitoa id ++ ascii " disconnected\n") := rfl

/-! ### One exchange with the client -/

/-- What `send_recv_log` does: it sends the prompt, then either the read leaves
    the process (no input is waiting), or the line read is logged and kept. -/
theorem send_recv_log_cases (data : List Byte) (client : ClientData) (server : ServerData)
    (s : Sys) :
    (∃ rb s1, send_recv_log data client server s = .ret { server with readbuf := rb } s1 ∧
      s1.output = s.output ++ tagged client.clientfd (cstr data) ++
        tagged server.outfd (sent_line client.clientid (cstr rb)) ∧
      s1.closed = s.closed ∧ s1.attempts = s.attempts ∧ ∀ k, s.fed (k + 1) → s1.fed k) ∨
    (∃ c s1, send_recv_log data client server s = .exit c s1 ∧
      s1.output = s.output ++ tagged client.clientfd (cstr data) ∧
      s1.closed = s.closed ∧ s1.attempts = s.attempts ∧ ∀ k, ¬ s.fed (k + 1)) := by
  have hlog := myreadline_sameLog client.clientfd (mymemset server.readbuf 0 (NETREADMAX - 1))
    (NETREADMAX - 1) { s with output := s.output ++ tagged client.clientfd (cstr data) }
  have hfed := myreadline_fed client.clientfd (mymemset server.readbuf 0 (NETREADMAX - 1))
    (NETREADMAX - 1) { s with output := s.output ++ tagged client.clientfd (cstr data) }
  unfold send_recv_log fdputs sys_write myfprintf sys_write
  simp only [Run.bind_apply]
  cases hr : myreadline client.clientfd (mymemset server.readbuf 0 (NETREADMAX - 1))
    (NETREADMAX - 1) { s with output := s.output ++ tagged client.clientfd (cstr data) } with
  | ret a s1 =>
    obtain ⟨nt, rb⟩ := a
    rw [hr] at hlog
    left
    refine ⟨rb, _, rfl, ?_, hlog.2.1, hlog.2.2, ?_⟩
    · simp only [fmt_sent]
      rw [show s1.output = _ from hlog.1]
    · intro k hk
      obtain ⟨a2, s2, h2, h3⟩ := hfed k hk
      rw [hr] at h2
      cases h2
      exact h3
  | exit c s1 =>
    rw [hr] at hlog
    right
    refine ⟨c, s1, rfl, hlog.1, hlog.2.1, hlog.2.2, ?_⟩
    intro k hk
    obtain ⟨a2, s2, h2, _⟩ := hfed k hk
    rw [hr] at h2
    cases h2

theorem mystrncpy_cstr (s : List Byte) (n : Nat) : mystrncpy (cstr s) n = mystrncpy s n := by
  induction s generalizing n with
  | nil => rfl
  | cons a s ih =>
    rw [cstr_cons]
    by_cases ha : a = 0
    · subst ha
      cases n <;> simp [mystrncpy]
    · rw [if_neg ha]
      cases n with
      | zero => simp [mystrncpy]
      | succ n => simp [mystrncpy, ha, ih n]

/-- What `attempt_login` does: two exchanges, the verification of the two
    replies cut at 255 bytes, and the failure line when it gives -1; or the
    process leaves in one of the two reads. -/
theorem attempt_login_cases (creds : List Credential) (client : ClientData)
    (server : ServerData) (s : Sys) :
    (∃ a rb s1,
      attempt_login creds client server s = .ret (a.userindex, { server with readbuf := rb }) s1 ∧
      a.userindex = verifyuser creds a.username a.password ∧
      s1.attempts = s.attempts ++ [a] ∧
      s1.output = s.output ++ (tagged client.clientfd (ascii "Username: ") ++
        tagged server.outfd (sent_line client.clientid a.userline) ++
        tagged client.clientfd (ascii "Password: ") ++
        tagged server.outfd (sent_line client.clientid a.passline) ++
        tagged server.outfd (if a.userindex = -1 then failed_line client.clientid else [])) ∧
      s1.closed = s.closed ∧ ∀ k, s.fed (k + 2) → s1.fed k) ∨
    (∃ c s1, attempt_login creds client server s = .exit c s1 ∧
      s1.attempts = s.attempts ∧ s1.closed = s.closed ∧ ∀ k, ¬ s.fed (k + 2)) := by
  unfold attempt_login
  simp only [Run.bind_apply]
  rcases send_recv_log_cases (ascii "Username: ") client server s with
    ⟨rb1, s1, h1, o1, c1, a1, f1⟩ | ⟨c, s1, h1, o1, c1, a1, f1⟩
  · rw [h1]
    simp only []
    rcases send_recv_log_cases (ascii "Password: ") client { server with readbuf := rb1 } s1 with
      ⟨rb2, s2, h2, o2, c2, a2, f2⟩ | ⟨c, s2, h2, o2, c2, a2, f2⟩
    · rw [h2]
      simp only []
      left
      refine ⟨⟨cstr rb1, cstr rb2, verifyuser creds (mystrncpy rb1 (MAX_USER_NAME - 1))
          (mystrncpy rb2 (MAX_USER_NAME - 1))⟩, rb2,
        { s2 with
          output := s2.output ++ tagged server.outfd
            (if verifyuser creds (mystrncpy rb1 (MAX_USER_NAME - 1))
              (mystrncpy rb2 (MAX_USER_NAME - 1)) = -1 then failed_line client.clientid else [])
          attempts := s2.attempts ++ [⟨cstr rb1, cstr rb2, verifyuser creds
            (mystrncpy rb1 (MAX_USER_NAME - 1)) (mystrncpy rb2 (MAX_USER_NAME - 1))⟩] },
        ?_, ?_, ?_, ?_, ?_, ?_⟩
      · by_cases hv : verifyuser creds (mystrncpy rb1 (MAX_USER_NAME - 1))
            (mystrncpy rb2 (MAX_USER_NAME - 1)) = -1
        · simp only [hv, if_true, myfprintf, sys_write, note_attempt, Run.bind_apply,
            Run.pure_apply, fmt_failed]
        · simp only [hv, if_false, note_attempt, Run.bind_apply, Run.pure_apply, tagged,
            List.map_nil, List.append_nil]
      · simp only [Attempt.username, Attempt.password, mystrncpy_cstr]
      · simp only [a2, a1]
      · simp only [o2, o1, List.append_assoc]
        rfl
      · simp only [c2, c1]
      · intro k hk
        exact f2 k (f1 (k + 1) hk)
    · rw [h2]
      right
      refine ⟨c, s2, rfl, a2.trans a1, c2.trans c1, ?_⟩
      intro k hk
      exact f2 k (f1 (k + 1) hk)
  · rw [h1]
    right
    refine ⟨c, s1, rfl, a1, c1, ?_⟩
    intro k hk
    exact f1 (k + 1) hk

/-! ### The login loop -/

theorem attempt_output_eq (client : ClientData) (outfd : Int) (a : Attempt) :
    tagged client.clientfd (ascii "Username: ") ++
        tagged outfd (sent_line client.clientid a.userline) ++
        tagged client.clientfd (ascii "Password: ") ++
        tagged outfd (sent_line client.clientid a.passline) ++
        tagged outfd (if a.userindex = -1 then failed_line client.clientid else []) =
      a.output client outfd := rfl

/-- Once a user index is set the loop of `do_login` makes no attempt. -/
theorem do_login_loop_done (creds : List Credential) (k : Nat) (client : ClientData)
    (server : ServerData) (s : Sys) (h : client.userindex ≠ -1) :
    do_login.loop creds k client server s = .ret (client, server) s := by
  cases k with
  | zero => rfl
  | succ k => simp only [do_login.loop, if_neg h, Run.pure_apply]

/-- The loop of `do_login`, entered with no user index and `k` attempts left. -/
theorem do_login_loop_cases (creds : List Credential) (k : Nat) (client : ClientData)
    (server : ServerData) (s : Sys) (h : client.userindex = -1) :
    (∃ att u rb s1,
      do_login.loop creds k client server s =
        .ret ({ client with userindex := u }, { server with readbuf := rb }) s1 ∧
      LoginTrace creds k att u ∧
      s1.attempts = s.attempts ++ att ∧
      s1.output = s.output ++ (att.map (Attempt.output client server.outfd)).flatten ∧
      s1.closed = s.closed ∧ ∀ j, s.fed (j + 2 * k) → s1.fed j) ∨
    (∃ c s1 att, do_login.loop creds k client server s = .exit c s1 ∧
      s1.attempts = s.attempts ++ att ∧ att.length < k ∧ s1.closed = s.closed ∧
      ∀ j, ¬ s.fed (j + 2 * k)) := by
  induction k generalizing client server s with
  | zero =>
    left
    refine ⟨[], -1, server.readbuf, s, ?_, ?_, by simp, by simp, rfl, ?_⟩
    · simp only [do_login.loop, Run.pure_apply, ← h]
    · exact ⟨le_refl _, by simp, by simp, by simp, by simp, by simp⟩
    · intro j hj; simpa using hj
  | succ k ih =>
    simp only [do_login.loop, if_pos h, Run.bind_apply]
    rcases attempt_login_cases creds client server s with
      ⟨a, rb, s1, h1, v1, a1, o1, c1, f1⟩ | ⟨c, s1, h1, a1, c1, f1⟩
    · rw [h1]
      simp only []
      by_cases hu : a.userindex = -1
      · rcases ih { client with userindex := a.userindex } { server with readbuf := rb } s1 hu with
          ⟨att, u, rb2, s2, h2, t2, a2, o2, c2, f2⟩ | ⟨c, s2, att, h2, a2, l2, c2, f2⟩
        · left
          refine ⟨a :: att, u, rb2, s2, h2, ?_, ?_, ?_, ?_, ?_⟩
          · obtain ⟨t21, t22, t23, t24, t25, t26⟩ := t2
            refine ⟨by simp only [List.length_cons]; omega, ?_, ?_, ?_, ?_, by simp⟩
            · intro b hb
              rcases List.mem_cons.mp hb with rfl | hb
              · exact v1
              · exact t22 b hb
            · intro b hb
              cases att with
              | nil => simp at hb
              | cons b0 att =>
                rw [List.dropLast_cons_of_ne_nil (by simp)] at hb
                rcases List.mem_cons.mp hb with rfl | hb
                · exact hu
                · exact t23 b hb
            · cases att with
              | nil => simpa [hu] using t24
              | cons b0 att => rw [List.getLast?_cons_cons]; exact t24
            · intro hu1
              simp only [List.length_cons, t25 hu1]
          · rw [a2, a1]; simp
          · rw [o2, o1, attempt_output_eq]
            simp only [List.map_cons, List.flatten_cons, List.append_assoc]
            rfl
          · rw [c2, c1]
          · intro j hj
            exact f2 j (f1 (j + 2 * k) (by rw [show j + 2 * k + 2 = j + 2 * (k + 1) by ring]; exact hj))
        · right
          refine ⟨c, s2, a :: att, h2, ?_, by simp only [List.length_cons]; omega, c2.trans c1, ?_⟩
          · rw [a2, a1]; simp
          · intro j hj
            exact f2 j (f1 (j + 2 * k) (by rw [show j + 2 * k + 2 = j + 2 * (k + 1) by ring]; exact hj))
      · left
        refine ⟨[a], a.userindex, rb, s1, ?_, ?_, a1, ?_, c1, ?_⟩
        · exact do_login_loop_done creds k _ _ s1 hu
        · exact ⟨by simp, by intro b hb; rw [List.mem_singleton.mp hb]; exact v1, by simp,
            by simp, fun h0 => absurd h0 hu, by simp⟩
        · rw [o1, attempt_output_eq]; simp
        · intro j hj
          have := f1 (j + 2 * k) (by rw [show j + 2 * k + 2 = j + 2 * (k + 1) by ring]; exact hj)
          exact ⟨by have := this.1; omega, this.2⟩
    · rw [h1]
      right
      refine ⟨c, s1, [], rfl, by simp [a1], by simp, c1, ?_⟩
      intro j hj
      exact f1 (j + 2 * k) (by rw [show j + 2 * k + 2 = j + 2 * (k + 1) by ring]; exact hj)

theorem send_login_result_apply (creds : List Credential) (client : ClientData) (s : Sys) :
    send_login_result creds client client.userindex s =
      .ret ()
        { s with output := s.output ++ tagged client.clientfd (login_result creds client.userindex) } := by
  unfold send_login_result login_result
  by_cases h : client.userindex ≠ -1
  · simp only [if_pos h, myfprintf, sys_write, fmt_welcome]
  · simp only [if_neg h, myfprintf, sys_write, fmt_login_failed]

/-- What `do_login` does: the greeting, the attempts, the result message and
    the run flag; or the process leaves in one of the reads. -/
theorem do_login_cases (creds : List Credential) (client : ClientData) (server : ServerData)
    (s : Sys) :
    (∃ att u rb s1,
      do_login creds client server s =
        .ret ({ client with userindex := u },
          { server with readbuf := rb, runflag := if u ≠ -1 then 1 else 0 }) s1 ∧
      LoginTrace creds MAX_LOGIN_ATTEMPTS att u ∧
      s1.attempts = s.attempts ++ att ∧
      s1.output = s.output ++ tagged client.clientfd (cstr server.greeting) ++
        (att.map (Attempt.output client server.outfd)).flatten ++
        tagged client.clientfd (login_result creds u) ∧
      s1.closed = s.closed ∧ ∀ j, s.fed (j + 6) → s1.fed j) ∨
    (∃ c s1 att, do_login creds client server s = .exit c s1 ∧
      s1.attempts = s.attempts ++ att ∧ att.length < MAX_LOGIN_ATTEMPTS ∧
      s1.closed = s.closed ∧ ∀ j, ¬ s.fed (j + 6)) := by
  unfold do_login send_greeting fdputs sys_write
  simp only [Run.bind_apply]
  rcases do_login_loop_cases creds MAX_LOGIN_ATTEMPTS { client with userindex := -1 } server
      { s with output := s.output ++ tagged client.clientfd (cstr server.greeting) } rfl with
    ⟨att, u, rb, s1, h1, t1, a1, o1, c1, f1⟩ | ⟨c, s1, att, h1, a1, l1, c1, f1⟩
  · left
    rw [h1]
    simp only []
    refine ⟨att, u, rb,
      { s1 with output := s1.output ++ tagged client.clientfd (login_result creds u) },
      ?_, t1, ?_, ?_, ?_, ?_⟩
    · rw [send_login_result_apply]
      rfl
    · exact a1
    · simp only [o1]
      rfl
    · exact c1
    · intro j hj
      exact f1 j hj
  · right
    rw [h1]
    exact ⟨c, s1, att, rfl, a1, l1, c1, fun j hj => f1 j hj⟩

/-! ### The bytes on each descriptor -/

theorem bytes_to_append (fd : Int) (a b : List (Int × Byte)) :
    bytes_to fd (a ++ b) = bytes_to fd a ++ bytes_to fd b := by
  simp [bytes_to, List.filterMap_append]

theorem bytes_to_tagged_same (fd : Int) (b : List Byte) : bytes_to fd (tagged fd b) = b := by
  induction b with
  | nil => rfl
  | cons x b ih =>
    simp only [bytes_to, tagged, List.map_cons, List.filterMap_cons] at ih ⊢
    simp [ih]

theorem bytes_to_tagged_other {fd fd1 : Int} (h : fd1 ≠ fd) (b : List Byte) :
    bytes_to fd (tagged fd1 b) = [] := by
  induction b with
  | nil => rfl
  | cons x b ih =>
    simp only [bytes_to, tagged, List.map_cons, List.filterMap_cons] at ih ⊢
    simp [ih, h]

/-- Of what one attempt writes, the client receives the two prompts. -/
theorem attempt_output_client (client : ClientData) (outfd : Int) (a : Attempt)
    (h : client.clientfd ≠ outfd) :
    bytes_to client.clientfd (a.output client outfd) = attempt_prompts := by
  simp only [Attempt.output, bytes_to_append, bytes_to_tagged_same,
    bytes_to_tagged_other (Ne.symm h), attempt_prompts, List.append_nil]

/-- Of what one attempt writes, the log receives the two replies and, when the
    attempt failed, the failure line. -/
theorem attempt_output_log (client : ClientData) (outfd : Int) (a : Attempt)
    (h : client.clientfd ≠ outfd) :
    bytes_to outfd (a.output client outfd) = a.log client.clientid := by
  simp only [Attempt.output, bytes_to_append, bytes_to_tagged_same,
    bytes_to_tagged_other h, Attempt.log, List.nil_append, List.append_nil]

theorem attempts_output_client (client : ClientData) (outfd : Int) (att : List Attempt)
    (h : client.clientfd ≠ outfd) :
    bytes_to client.clientfd (att.map (Attempt.output client outfd)).flatten =
      (List.replicate att.length attempt_prompts).flatten := by
  induction att with
  | nil => rfl
  | cons a att ih =>
    simp only [List.map_cons, List.flatten_cons, bytes_to_append, ih,
      attempt_output_client client outfd a h, List.length_cons, List.replicate_succ]

theorem attempts_output_log (client : ClientData) (outfd : Int) (att : List Attempt)
    (h : client.clientfd ≠ outfd) :
    bytes_to outfd (att.map (Attempt.output client outfd)).flatten =
      (att.map (Attempt.log client.clientid)).flatten := by
  induction att with
  | nil => rfl
  | cons a att ih =>
    simp only [List.map_cons, List.flatten_cons, bytes_to_append, ih,
      attempt_output_log client outfd a h]

/-- A result of `verifyuser` other than -1 is the index of a record that holds
    the pair. -/
theorem verifyuser_index (creds : List Credential) (u p : List Byte)
    (h : verifyuser creds u p ≠ -1) :
    ∃ c, creds.get? (verifyuser creds u p).toNat = some c ∧ c.holds u p ∧
      username_at creds (verifyuser creds u p) = c.username := by
  obtain ⟨j, hj, _, ⟨c, hc, hh⟩, _⟩ := (verifyuser_loop_spec u p creds 0 (le_refl _)).2 h
  have hv : verifyuser creds u p = (j : Int) := by unfold verifyuser; rw [hj]; simp
  refine ⟨c, by rw [hv]; simpa using hc, hh, ?_⟩
  rw [hv]
  have hj0 : ¬ ((j : Int) < 0) := by omega
  simp only [username_at, get_username_at_index, if_neg hj0, Int.toNat_ofNat, hc,
    Option.map_some', Option.getD_some]

/-! ### C2: the attempts of `do_login` -/

theorem cstr_greeting : cstr greeting = greeting := by decide

/-- With six chunks waiting on the socket `do_login` returns. -/
theorem do_login_returns (creds : List Credential) (client : ClientData) (server : ServerData)
    (s : Sys) (h : s.fed 6) : ∃ r s1, do_login creds client server s = .ret r s1 := by
  rcases do_login_cases creds client server s with
    ⟨att, u, rb, s1, h1, _⟩ | ⟨c, s1, att, _, _, _, _, f1⟩
  · exact ⟨_, s1, h1⟩
  · exact absurd (by simpa using h) (f1 0)

/-- C2. For every sequence of client replies `do_login` makes at most 3 login
    attempts (in every run, also one the client abandons).  When it returns,
    the attempts it made are each the verification of the two replies read, all
    of them failed except possibly the last one, the user index of the client
    is the result of the last one, and it is -1 only after 3 attempts: so it
    makes exactly j attempts when the j-th is the first to succeed and exactly
    3 when none succeeds.  The run flag is 1 when the user index is not -1 and
    0 otherwise.  With six chunks of input waiting the call does return. -/
theorem do_login_attempts (creds : List Credential) (client : ClientData)
    (server : ServerData) (s : Sys) :
    (∃ att, (do_login creds client server s).sys.attempts = s.attempts ++ att ∧
      att.length ≤ MAX_LOGIN_ATTEMPTS) ∧
    (∀ c1 srv1 s1, do_login creds client server s = .ret (c1, srv1) s1 →
      ∃ att last, s1.attempts = s.attempts ++ att ∧ att.length ≤ MAX_LOGIN_ATTEMPTS ∧
        (∀ a ∈ att, a.userindex = verifyuser creds a.username a.password) ∧
        (∀ a ∈ att.dropLast, a.userindex = -1) ∧
        att.getLast? = some last ∧ c1.userindex = last.userindex ∧
        (c1.userindex = -1 → att.length = MAX_LOGIN_ATTEMPTS) ∧
        srv1.runflag = (if c1.userindex ≠ -1 then 1 else 0)) ∧
    (s.fed 6 → ∃ r s1, do_login creds client server s = .ret r s1) := by
  refine ⟨?_, ?_, do_login_returns creds client server s⟩
  · rcases do_login_cases creds client server s with
      ⟨att, u, rb, s1, h1, t1, a1, _⟩ | ⟨c, s1, att, h1, a1, l1, _⟩
    · exact ⟨att, by rw [h1]; exact a1, t1.1⟩
    · exact ⟨att, by rw [h1]; exact a1, le_of_lt l1⟩
  · intro c1 srv1 s1 hret
    rcases do_login_cases creds client server s with
      ⟨att, u, rb, s2, h1, t1, a1, _⟩ | ⟨c, s2, att, h1, _⟩
    · rw [h1] at hret
      cases hret
      obtain ⟨t11, t12, t13, t14, t15, t16⟩ := t1
      have hne : att ≠ [] := t16 (by decide)
      obtain ⟨last, hlast⟩ : ∃ last, att.getLast? = some last := by
        cases hl : att.getLast? with
        | none => exact absurd (List.getLast?_eq_none_iff.mp hl) hne
        | some last => exact ⟨last, rfl⟩
      refine ⟨att, last, a1, t11, t12, t13, hlast, ?_, t15, rfl⟩
      simp only [t14, hlast, Option.map_some', Option.getD_some]
    · rw [h1] at hret
      cases hret

/-- Witness for C2: six chunks are waiting, so the login returns; here the
    second attempt is the first to succeed, two attempts are made and the user
    index is 0. -/
theorem do_login_attempts_witness :
    (example_sys [ascii "alice\n", ascii "wrong\n", ascii "alice\n", ascii "secret\n",
        ascii "x\n", ascii "y\n"]).fed 6 ∧
    (∃ r s1, do_login example_creds example_client example_server
      (example_sys [ascii "alice\n", ascii "wrong\n", ascii "alice\n", ascii "secret\n",
        ascii "x\n", ascii "y\n"]) = .ret r s1) ∧
    (do_login example_creds example_client example_server
      (example_sys [ascii "alice\n", ascii "wrong\n", ascii "alice\n", ascii "secret\n",
        ascii "x\n", ascii "y\n"])).sys.attempts =
      [⟨ascii "alice", ascii "wrong", -1⟩, ⟨ascii "alice", ascii "secret", 0⟩] :=
  ⟨by unfold Sys.fed; decide,
   (do_login_attempts example_creds example_client example_server
      (example_sys [ascii "alice\n", ascii "wrong\n", ascii "alice\n", ascii "secret\n",
        ascii "x\n", ascii "y\n"])).2.2 (by unfold Sys.fed; decide),
   by decide!⟩

/-! ### C3: what the login writes to the log -/

/-- Counterexample to C3: two logins of client 1 that differ only in the
    password text sent ("hunter2" against "hunter3"), each failing its three
    attempts, leave different logs, and the password text is in the log. -/
theorem do_login_logs_password :
    ((do_login example_creds example_client example_server
        (example_sys (three_attempts "hunter2"))).sys.attempts.map Attempt.userindex
      = [-1, -1, -1]) ∧
    ((do_login example_creds example_client example_server
        (example_sys (three_attempts "hunter3"))).sys.attempts.map Attempt.userindex
      = [-1, -1, -1]) ∧
    (do_login example_creds example_client example_server
        (example_sys (three_attempts "hunter2"))).sys.written sys_stdout =
      ascii ("::client 1 sent bob\n::client 1 sent hunter2\n" ++
        "::client 1 failed password attempt\n" ++
        "::client 1 sent bob\n::client 1 sent hunter2\n" ++
        "::client 1 failed password attempt\n" ++
        "::client 1 sent bob\n::client 1 sent hunter2\n" ++
        "::client 1 failed password attempt\n") ∧
    (do_login example_creds example_client example_server
        (example_sys (three_attempts "hunter2"))).sys.written sys_stdout ≠
      (do_login example_creds example_client example_server
        (example_sys (three_attempts "hunter3"))).sys.written sys_stdout := by
  decide!

/-- C3, amended. The password is logged.  When `do_login` returns, what it
    wrote to the log sink is, attempt after attempt, the line
    "::client N sent " with the username reply, the line "::client N sent " with
    the password reply, and, when the attempt failed, the line
    "::client N failed password attempt"; nothing else.  With six chunks of
    input waiting the call does return. -/
theorem do_login_log (creds : List Credential) (client : ClientData) (server : ServerData)
    (s : Sys) (hfd : client.clientfd ≠ server.outfd) :
    (∀ c1 srv1 s1, do_login creds client server s = .ret (c1, srv1) s1 →
      ∃ att, s1.attempts = s.attempts ++ att ∧
        s1.written server.outfd = s.written server.outfd ++
          (att.map (fun a =>
            sent_line client.clientid a.userline ++ sent_line client.clientid a.passline ++
              (if a.userindex = -1 then failed_line client.clientid else []))).flatten) ∧
    (s.fed 6 → ∃ r s1, do_login creds client server s = .ret r s1) := by
  refine ⟨?_, do_login_returns creds client server s⟩
  intro c1 srv1 s1 hret
  rcases do_login_cases creds client server s with
    ⟨att, u, rb, s2, h1, t1, a1, o1, _⟩ | ⟨c, s2, att, h1, _⟩
  · rw [h1] at hret
    cases hret
    refine ⟨att, a1, ?_⟩
    simp only [Sys.written, o1, bytes_to_append, bytes_to_tagged_other hfd,
      attempts_output_log client server.outfd att hfd, List.append_nil]
    rfl
  · rw [h1] at hret
    cases hret

/-- Witness for C3, amended: client 1 on descriptor 4, the log on descriptor 1,
    six chunks waiting. -/
theorem do_login_log_witness :
    example_client.clientfd ≠ example_server.outfd ∧
    ∃ r s1, do_login example_creds example_client example_server
      (example_sys (three_attempts "hunter2")) = .ret r s1 :=
  ⟨by decide,
   (do_login_log example_creds example_client example_server
      (example_sys (three_attempts "hunter2")) (by decide)).2 (by unfold Sys.fed; decide)⟩

/-! ### C5: what the login sends to the client -/

/-- C5. For every credential table and every sequence of client replies, when
    `do_login` returns the bytes it wrote to the client socket are exactly the
    greeting "Welcome to MyFTP Server!\n", then "Username: " followed by
    "Password: " once per attempt made, then "welcome back <username>\n" with
    the stored username of the record the last attempt matched, or
    "login failed\n" when no attempt succeeded.  With six chunks of input
    waiting the call does return. -/
theorem do_login_socket (creds : List Credential) (client : ClientData) (server : ServerData)
    (s : Sys) (hfd : client.clientfd ≠ server.outfd) (hg : server.greeting = greeting) :
    (∀ c1 srv1 s1, do_login creds client server s = .ret (c1, srv1) s1 →
      ∃ att tail, s1.attempts = s.attempts ++ att ∧
        s1.written client.clientfd = s.written client.clientfd ++
          (ascii "Welcome to MyFTP Server!\n" ++
            ((List.replicate att.length (ascii "Username: " ++ ascii "Password: ")).flatten ++
              tail)) ∧
        (c1.userindex = -1 → tail = ascii "login failed\n") ∧
        (c1.userindex ≠ -1 → ∃ last c, att.getLast? = some last ∧
          creds.get? c1.userindex.toNat = some c ∧ c.holds last.username last.password ∧
          tail = ascii "welcome back " ++ (cstr c.username ++ ascii "\n"))) ∧
    (s.fed 6 → ∃ r s1, do_login creds client server s = .ret r s1) := by
  refine ⟨?_, do_login_returns creds client server s⟩
  intro c1 srv1 s1 hret
  rcases do_login_cases creds client server s with
    ⟨att, u, rb, s2, h1, t1, a1, o1, _⟩ | ⟨c, s2, att, h1, _⟩
  · rw [h1] at hret
    cases hret
    refine ⟨att, login_result creds u, a1, ?_, ?_, ?_⟩
    · simp only [Sys.written, o1, bytes_to_append, bytes_to_tagged_same,
        attempts_output_client client server.outfd att hfd, hg, cstr_greeting,
        List.append_assoc]
      rfl
    · intro hu
      simp only [login_result]
      rw [if_neg (fun h => h hu)]
    · intro hu
      obtain ⟨_, t12, _, t14, _, _⟩ := t1
      cases hl : att.getLast? with
      | none => simp [t14, hl] at hu
      | some last =>
        have hu2 : u = last.userindex := by simp [t14, hl]
        have hv := t12 last (List.mem_of_getLast?_eq_some hl)
        have hne : verifyuser creds last.username last.password ≠ -1 := by
          rw [← hv, ← hu2]; exact hu
        obtain ⟨c, hc1, hc2, hc3⟩ := verifyuser_index creds last.username last.password hne
        refine ⟨last, c, rfl, ?_, hc2, ?_⟩
        · show creds.get? u.toNat = some c
          rw [hu2, hv]; exact hc1
        · simp only [login_result, hu, ne_eq, not_false_eq_true, if_true]
          rw [hu2, hv, hc3]
  · rw [h1] at hret
    cases hret

/-- Witness for C5: scenario 1 of the specification; the two hypotheses hold,
    the login returns, and the client has received the bytes the scenario
    lists. -/
theorem do_login_socket_witness :
    example_client.clientfd ≠ example_server.outfd ∧
    example_server.greeting = greeting ∧
    (∃ r s1, do_login example_creds example_client example_server
      (example_sys [ascii "alice\n", ascii "secret\n", ascii "ls\n", ascii "ls\n",
        ascii "ls\n", ascii "ls\n"]) = .ret r s1) ∧
    (do_login example_creds example_client example_server
      (example_sys [ascii "alice\n", ascii "secret\n"])).sys.written 4 =
      ascii "Welcome to MyFTP Server!\nUsername: Password: welcome back alice\n" :=
  ⟨by decide, by decide,
   (do_login_socket example_creds example_client example_server
      (example_sys [ascii "alice\n", ascii "secret\n", ascii "ls\n", ascii "ls\n",
        ascii "ls\n", ascii "ls\n"]) (by decide) (by decide)).2 (by unfold Sys.fed; decide),
   by decide!⟩

/-! ### C4: the worker after a failed login -/

/-- With the run flag at 0 the loop of `handleclient` returns at once, for
    any number of rounds allowed. -/
theorem handleclient_loop_stopped (cb : Callbacks) (engine : Engine) (client : ClientData)
    (fuel : Nat) (server : ServerData) (s : Sys) (h : server.runflag = 0) :
    handleclient.loop cb engine client fuel server s = .ret (some server) s := by
  cases fuel <;> simp [handleclient.loop, h]

/-- C4. An unauthenticated session never reaches the command loop.  When the
    login of the worker returns and every attempt it made has failed, then three
    attempts were made, the user index is -1 and the run flag 0; `handleclient`
    returns in the state in which it was entered, whatever the handlers and the
    pipeline engine are and however many rounds are allowed: its loop body does
    not run, so no prompt is sent, no handler is called and no pipeline is run;
    and the worker ends through `_exit(1)` of `closeclientfd`, having only closed
    the client socket and logged the disconnection after the login. -/
theorem worker_login_failed (creds : List Credential) (cb : Callbacks) (engine : Engine)
    (fuel : Nat) (buf : List Byte) (client : ClientData) (server : ServerData) (s : Sys)
    (hret : (do_login creds client server
      { s with closed := s.closed ++ [server.bindfd] }).result?.isSome = true)
    (hfail : ∀ a ∈ (do_login creds client server
      { s with closed := s.closed ++ [server.bindfd] }).sys.attempts.drop s.attempts.length,
      a.userindex = -1) :
    ∃ c1 srv1 s1,
      do_login creds client server { s with closed := s.closed ++ [server.bindfd] } =
        .ret (c1, srv1) s1 ∧
      s1.attempts.length = s.attempts.length + 3 ∧
      c1.userindex = -1 ∧ srv1.runflag = 0 ∧
      handleclient cb engine fuel buf c1 srv1 s1 =
        .ret (some { srv1 with io := initiostruct c1.clientfd sys_stdout sys_stdout buf }) s1 ∧
      worker creds cb engine fuel buf client server s =
        .exit 1 { s1 with
          closed := s1.closed ++ [client.clientfd]
          output := s1.output ++ tagged server.outfd
            (ascii "::client " ++ (myitoa client.clientid ++ ascii " disconnected\n")) } := by
  rcases do_login_cases creds client server { s with closed := s.closed ++ [server.bindfd] } with
    ⟨att, u, rb, s1, h1, t1, a1, _⟩ | ⟨c, s1, att, h1, _⟩
  · obtain ⟨t11, t12, t13, t14, t15, t16⟩ := t1
    have hatt : (do_login creds client server
        { s with closed := s.closed ++ [server.bindfd] }).sys.attempts.drop s.attempts.length
        = att := by
      rw [h1]
      show s1.attempts.drop s.attempts.length = att
      rw [a1]
      show (s.attempts ++ att).drop s.attempts.length = att
      simp
    rw [hatt] at hfail
    have hu : u = -1 := by
      cases hl : att.getLast? with
      | none => simp [t14, hl]
      | some last =>
        have := hfail last (List.mem_of_getLast?_eq_some hl)
        simp [t14, hl, this]
    subst hu
    have hlen : att.length = 3 := t15 rfl
    have hhc : handleclient cb engine fuel buf { client with userindex := -1 }
        { server with readbuf := rb, runflag := if (-1 : Int) ≠ -1 then 1 else 0 } s1 =
        .ret (some { ({ server with readbuf := rb, runflag := if (-1 : Int) ≠ -1 then 1 else 0 } :
          ServerData) with io := initiostruct client.clientfd sys_stdout sys_stdout buf }) s1 := by
      unfold handleclient
      exact handleclient_loop_stopped cb engine _ fuel _ s1 (by simp)
    refine ⟨_, _, s1, h1, ?_, rfl, by simp, hhc, ?_⟩
    · rw [a1]
      show (s.attempts ++ att).length = s.attempts.length + 3
      simp [hlen]
    · unfold worker
      simp only [Run.bind_apply, sys_close]
      rw [h1]
      simp only []
      rw [hhc]
      simp only [closeclientfd, Run.bind_apply, sys_close, myfprintf, sys_write, sys_exit,
        fmt_disconnected]
  · rw [h1] at hret
    simp [Outcome.result?] at hret

/-- Witness for C4: client 1 fails its three attempts; the worker closes
    descriptor 3 (listening socket) and then 4 (client socket), and nothing is
    written to descriptors 8 and 9, where the example handlers and engine
    write. -/
theorem worker_login_failed_witness :
    (∃ c1 srv1 s1,
      do_login example_creds example_client example_server
        { example_sys (three_attempts "hunter2") with
          closed := (example_sys (three_attempts "hunter2")).closed ++
            [example_server.bindfd] } = .ret (c1, srv1) s1 ∧
      s1.attempts.length = (example_sys (three_attempts "hunter2")).attempts.length + 3 ∧
      c1.userindex = -1) ∧
    (worker example_creds example_callbacks example_engine 5 [] example_client
      example_server (example_sys (three_attempts "hunter2"))).sys.closed = [3, 4] ∧
    (worker example_creds example_callbacks example_engine 5 [] example_client
      example_server (example_sys (three_attempts "hunter2"))).sys.written 9 = [] ∧
    (worker example_creds example_callbacks example_engine 5 [] example_client
      example_server (example_sys (three_attempts "hunter2"))).sys.written 8 = [] := by
  refine ⟨?_, by decide!, by decide!, by decide!⟩
  obtain ⟨c1, srv1, s1, h1, h2, h3, _⟩ :=
    worker_login_failed example_creds example_callbacks example_engine 5 [] example_client
      example_server (example_sys (three_attempts "hunter2")) (by decide!) (by decide!)
  exact ⟨c1, srv1, s1, h1, h2, h3⟩

/-! ### C6: the dispatch on the command buffer -/

theorem mystrcmp_verb (buf : List Byte) (v : FTPCALLBACK) :
    mystrcmp buf v.verb = 0 ↔ cstr buf = v.verb := by
  rw [mystrcmp_eq_zero_iff]
  cases v <;> exact Iff.of_eq (congrArg _ (by decide))

/-- What `runfiletransfer` does on a buffer that holds a verb. -/
theorem runfiletransfer_verb (io : MyIO) (cb : Callbacks) (s : Sys) (v : FTPCALLBACK)
    (h : cstr io.buf = v.verb) :
    runfiletransfer io cb s =
      (match cb v io s with
        | .ret io1 s1 => .ret (0, io1) s1
        | .exit c s1 => .exit c s1) := by
  have hg := mystrcmp_verb io.buf FTPCALLBACK.GET
  have hp := mystrcmp_verb io.buf FTPCALLBACK.PUT
  have hh := mystrcmp_verb io.buf FTPCALLBACK.HELP
  have he := mystrcmp_verb io.buf FTPCALLBACK.EXIT
  simp only [FTPCALLBACK.verb] at hg hp hh he
  unfold runfiletransfer
  cases v with
  | GET =>
    have h0 := hg.mpr h
    simp only [h0, if_true, Run.bind_apply, Run.pure_apply]
    cases cb FTPCALLBACK.GET io s <;> rfl
  | PUT =>
    have h0 := hp.mpr h
    have h1 : ¬ mystrcmp io.buf (ascii "get") = 0 := by
      rw [hg, h]; decide
    simp only [h0, h1, if_true, if_false, Run.bind_apply, Run.pure_apply]
    cases cb FTPCALLBACK.PUT io s <;> rfl
  | HELP =>
    have h0 := hh.mpr h
    have h1 : ¬ mystrcmp io.buf (ascii "get") = 0 := by
      rw [hg, h]; decide
    have h2 : ¬ mystrcmp io.buf (ascii "put") = 0 := by
      rw [hp, h]; decide
    simp only [h0, h1, h2, if_true, if_false, Run.bind_apply, Run.pure_apply]
    cases cb FTPCALLBACK.HELP io s <;> rfl
  | EXIT =>
    have h0 := he.mpr h
    have h1 : ¬ mystrcmp io.buf (ascii "get") = 0 := by
      rw [hg, h]; decide
    have h2 : ¬ mystrcmp io.buf (ascii "put") = 0 := by
      rw [hp, h]; decide
    have h3 : ¬ mystrcmp io.buf (ascii "help") = 0 := by
      rw [hh, h]; decide
    simp only [h0, h1, h2, h3, if_true, if_false, Run.bind_apply, Run.pure_apply]
    cases cb FTPCALLBACK.EXIT io s <;> rfl

/-- What `runfiletransfer` does on a buffer that holds no verb. -/
theorem runfiletransfer_other (io : MyIO) (cb : Callbacks) (s : Sys)
    (h : ∀ v : FTPCALLBACK, cstr io.buf ≠ v.verb) :
    mystrcmp io.buf (ascii "exit") ≠ 0 ∧
    runfiletransfer io cb s = .ret (mystrcmp io.buf (ascii "exit"), io) s := by
  have h1 : ¬ mystrcmp io.buf (ascii "get") = 0 :=
    fun h0 => h FTPCALLBACK.GET ((mystrcmp_verb io.buf FTPCALLBACK.GET).mp h0)
  have h2 : ¬ mystrcmp io.buf (ascii "put") = 0 :=
    fun h0 => h FTPCALLBACK.PUT ((mystrcmp_verb io.buf FTPCALLBACK.PUT).mp h0)
  have h3 : ¬ mystrcmp io.buf (ascii "help") = 0 :=
    fun h0 => h FTPCALLBACK.HELP ((mystrcmp_verb io.buf FTPCALLBACK.HELP).mp h0)
  have h4 : ¬ mystrcmp io.buf (ascii "exit") = 0 :=
    fun h0 => h FTPCALLBACK.EXIT ((mystrcmp_verb io.buf FTPCALLBACK.EXIT).mp h0)
  refine ⟨h4, ?_⟩
  unfold runfiletransfer
  simp only [h1, h2, h3, h4, if_false, Run.pure_apply]

/-- C6. For every command buffer: when its string is byte for byte "get",
    "put", "help" or "exit", `runfiletransfer` does what the handler for that
    verb does, called once on the structure, and then returns 0; for every
    other string it changes nothing and returns a non-zero value.  The dispatch
    of `handleclient` then does what the pipeline engine does on the buffer in
    the second case, and only what the handler does in the first: the engine
    runs exactly when the value returned is not 0. -/
theorem runfiletransfer_dispatch (cb : Callbacks) (engine : Engine) (client : ClientData)
    (server : ServerData) (s : Sys) :
    (∀ v : FTPCALLBACK, cstr server.io.buf = v.verb →
      runfiletransfer server.io cb s =
        (match cb v server.io s with
          | .ret io1 s1 => .ret (0, io1) s1
          | .exit c s1 => .exit c s1) ∧
      handleclient.dispatch cb engine client server s =
        (match cb v server.io s with
          | .ret io1 s1 => .ret { server with io := io1 } s1
          | .exit c s1 => .exit c s1)) ∧
    ((∀ v : FTPCALLBACK, cstr server.io.buf ≠ v.verb) →
      (∃ flag, flag ≠ 0 ∧ runfiletransfer server.io cb s = .ret (flag, server.io) s) ∧
      handleclient.dispatch cb engine client server s =
        (match engine client server.io.buf s with
          | .ret buf1 s1 => .ret { server with io := { server.io with buf := buf1 } } s1
          | .exit c s1 => .exit c s1)) := by
  refine ⟨?_, ?_⟩
  · intro v hv
    have h1 := runfiletransfer_verb server.io cb s v hv
    refine ⟨h1, ?_⟩
    unfold handleclient.dispatch
    simp only [Run.bind_apply, h1]
    cases cb v server.io s with
    | ret io1 s1 => simp
    | exit c s1 => simp
  · intro hv
    obtain ⟨h0, h1⟩ := runfiletransfer_other server.io cb s hv
    refine ⟨⟨_, h0, h1⟩, ?_⟩
    unfold handleclient.dispatch
    simp only [Run.bind_apply, h1, h0, ne_eq, not_false_eq_true, if_true]
    cases engine client server.io.buf s with
    | ret buf1 s1 => simp
    | exit c s1 => simp

/-- Witness for C6: on "help" the handler for `help` alone runs (it writes
    "help" to descriptor 9 and the engine nothing to descriptor 8); on
    "help me", a verb followed by an argument, the engine alone runs. -/
theorem runfiletransfer_dispatch_witness :
    cstr (example_io "help").buf = FTPCALLBACK.HELP.verb ∧
    handleclient.dispatch example_callbacks example_engine example_client
      { example_server with io := example_io "help" } (example_sys []) =
      (match example_callbacks FTPCALLBACK.HELP (example_io "help") (example_sys []) with
        | .ret io1 s1 => .ret { example_server with io := io1 } s1
        | .exit c s1 => .exit c s1) ∧
    (handleclient.dispatch example_callbacks example_engine example_client
      { example_server with io := example_io "help" } (example_sys [])).sys.output =
      tagged 9 (ascii "help") ∧
    (∀ v : FTPCALLBACK, cstr (example_io "help me").buf ≠ v.verb) ∧
    (handleclient.dispatch example_callbacks example_engine example_client
      { example_server with io := example_io "help me" } (example_sys [])).sys.output =
      tagged 8 (ascii "help me") :=
  ⟨by decide,
   ((runfiletransfer_dispatch example_callbacks example_engine example_client
      { example_server with io := example_io "help" } (example_sys [])).1
      FTPCALLBACK.HELP (by decide)).2,
   by decide!,
   by intro v; cases v <;> decide,
   by decide!⟩

/-! ### C7: the tokens of a command line -/

theorem space_tokens_cons_space (r : List Byte) : space_tokens (32 :: r) = space_tokens r := by
  simp [space_tokens, List.splitOn, List.splitOnP_cons]

theorem space_tokens_cons_tab (r : List Byte) : space_tokens (9 :: r) = space_tokens r := by
  unfold space_tokens List.splitOn
  rw [List.splitOnP_cons]
  have h9 : ((9 : Byte) == 32) = false := by decide
  simp only [h9, Bool.false_eq_true, if_false]
  cases h : List.splitOnP (fun x => x == 32) r with
  | nil => rfl
  | cons p ps => simp [List.modifyHead, List.dropWhile]

theorem space_tokens_ws (ws r : List Byte) (h : ∀ b ∈ ws, b = 32 ∨ b = 9) :
    space_tokens (ws ++ r) = space_tokens r := by
  induction ws with
  | nil => rfl
  | cons b ws ih =>
    have hb := h b (List.mem_cons_self _ _)
    have ih2 := ih (fun c hc => h c (List.mem_cons_of_mem _ hc))
    rcases hb with rfl | rfl
    · rw [List.cons_append, space_tokens_cons_space, ih2]
    · rw [List.cons_append, space_tokens_cons_tab, ih2]

theorem dropWhile_tab_eq (tok : List Byte) (h : tok.head? ≠ some 9) :
    tok.dropWhile (fun b => b == 9) = tok := by
  cases tok with
  | nil => rfl
  | cons a t =>
    have h9 : (a == 9) = false := by
      rw [beq_eq_false_iff_ne]
      exact fun h0 => h (by simp [h0])
    simp only [List.dropWhile_cons, h9, Bool.false_eq_true, if_false]

theorem space_tokens_last (tok : List Byte) (h32 : (32 : Byte) ∉ tok)
    (hhead : tok.head? ≠ some 9) :
    space_tokens tok = if tok = [] then [] else [tok] := by
  unfold space_tokens List.splitOn
  rw [List.splitOnP_eq_single]
  · simp only [List.map_cons, List.map_nil, dropWhile_tab_eq tok hhead]
    by_cases ht : tok = [] <;> simp [ht]
  · intro x hx hx2
    rw [beq_iff_eq] at hx2
    exact h32 (hx2 ▸ hx)

theorem space_tokens_first (tok r3 : List Byte) (h32 : (32 : Byte) ∉ tok)
    (hhead : tok.head? ≠ some 9) :
    space_tokens (tok ++ 32 :: r3) = (if tok = [] then [] else [tok]) ++ space_tokens r3 := by
  unfold space_tokens List.splitOn
  rw [List.splitOnP_first]
  · simp only [List.map_cons, dropWhile_tab_eq tok hhead]
    by_cases ht : tok = [] <;> simp [ht]
  · intro x hx hx2
    rw [beq_iff_eq] at hx2
    exact h32 (hx2 ▸ hx)
  · decide

theorem skip_append (ws : List Byte) (c : Byte) (y : List Byte)
    (hws : ∀ b ∈ ws, b = 32 ∨ b = 9) (hc : c ≠ 32 ∧ c ≠ 9) :
    remove_whitespace.skip (ws ++ c :: y) = ws.length := by
  induction ws with
  | nil =>
    have : ¬ (c ≠ 0 ∧ c ≠ 10 ∧ (c = 32 ∨ c = 9)) := by
      rintro ⟨_, _, h | h⟩
      · exact hc.1 h
      · exact hc.2 h
    simp only [List.nil_append, remove_whitespace.skip, if_neg this, List.length_nil]
  | cons b ws ih =>
    have hb : b ≠ 0 ∧ b ≠ 10 ∧ (b = 32 ∨ b = 9) := by
      rcases h : hws b (List.mem_cons_self _ _) with rfl | rfl <;> decide
    have ih2 := ih (fun d hd => hws d (List.mem_cons_of_mem _ hd))
    rw [List.cons_append]
    simp only [remove_whitespace.skip, if_pos hb, List.length_cons, ih2]

theorem scan_append (tok : List Byte) (c : Byte) (y : List Byte)
    (h0 : (0 : Byte) ∉ tok) (h32 : (32 : Byte) ∉ tok) (hc : c = 0 ∨ c = 32) :
    mystrtok.scan 32 (tok ++ c :: y) = tok.length := by
  induction tok with
  | nil =>
    have : ¬ (c ≠ 0 ∧ c ≠ 32) := by
      rintro ⟨h1, h2⟩
      rcases hc with h | h
      · exact h1 h
      · exact h2 h
    simp only [List.nil_append, mystrtok.scan, if_neg this, List.length_nil]
  | cons b tok ih =>
    have hb : b ≠ 0 ∧ b ≠ 32 :=
      ⟨fun h => h0 (h ▸ List.mem_cons_self _ _), fun h => h32 (h ▸ List.mem_cons_self _ _)⟩
    have ih2 := ih (fun h => h0 (List.mem_cons_of_mem _ h))
      (fun h => h32 (List.mem_cons_of_mem _ h))
    rw [List.cons_append]
    simp only [mystrtok.scan, if_pos hb, List.length_cons, ih2]

/-- A string splits into leading spaces and tabs and the rest. -/
theorem ws_decomp (r : List Byte) :
    ∃ ws r1, r = ws ++ r1 ∧ (∀ b ∈ ws, b = 32 ∨ b = 9) ∧
      ∀ c, r1.head? = some c → c ≠ 32 ∧ c ≠ 9 := by
  induction r with
  | nil => exact ⟨[], [], rfl, by simp, by simp⟩
  | cons a r ih =>
    by_cases ha : a = 32 ∨ a = 9
    · obtain ⟨ws, r1, h1, h2, h3⟩ := ih
      refine ⟨a :: ws, r1, by rw [h1]; rfl, ?_, h3⟩
      intro b hb
      rcases List.mem_cons.mp hb with rfl | hb
      · exact ha
      · exact h2 b hb
    · refine ⟨[], a :: r, rfl, by simp, ?_⟩
      intro c hc
      simp only [List.head?_cons, Option.some.injEq] at hc
      subst hc
      exact ⟨fun h => ha (Or.inl h), fun h => ha (Or.inr h)⟩

/-- A string splits at its first space, if it has one. -/
theorem space_decomp (r1 : List Byte) :
    ∃ tok, (32 : Byte) ∉ tok ∧ (r1 = tok ∨ ∃ r3, r1 = tok ++ 32 :: r3) := by
  induction r1 with
  | nil => exact ⟨[], by simp, Or.inl rfl⟩
  | cons a r1 ih =>
    by_cases ha : a = 32
    · exact ⟨[], by simp, Or.inr ⟨r1, by rw [ha]; rfl⟩⟩
    · obtain ⟨tok, h1, h2⟩ := ih
      refine ⟨a :: tok, ?_, ?_⟩
      · intro h
        rcases List.mem_cons.mp h with h | h
        · exact ha h.symm
        · exact h1 h
      · rcases h2 with h2 | ⟨r3, h2⟩
        · exact Or.inl (by rw [h2])
        · exact Or.inr ⟨r3, by rw [h2]; rfl⟩

theorem peek_at (a : List Byte) (c : Byte) (y : List Byte) : peek (a ++ c :: y) a.length = c := by
  induction a with
  | nil => rfl
  | cons b a ih => simpa [peek] using ih

theorem peek_at_succ (a : List Byte) (c d : Byte) (y : List Byte) :
    peek (a ++ c :: d :: y) (a.length + 1) = d := by
  have := peek_at (a ++ [c]) d y
  simpa using this

theorem poke_at (a : List Byte) (c b : Byte) (y : List Byte) :
    poke (a ++ c :: y) a.length b = a ++ b :: y := by
  simp [poke]

theorem drop_at (a y : List Byte) : (a ++ y).drop a.length = y := by
  simp

theorem cstr_at (tok : List Byte) (y : List Byte) (h0 : (0 : Byte) ∉ tok) :
    cstr (tok ++ 0 :: y) = tok := by
  induction tok with
  | nil => simp [cstr_cons]
  | cons a tok ih =>
    have ha : a ≠ 0 := fun h => h0 (h ▸ List.mem_cons_self _ _)
    rw [List.cons_append, cstr_cons, if_neg ha, ih (fun h => h0 (List.mem_cons_of_mem _ h))]

/-- The first two steps of `mystrtok` on a buffer that holds, from the pointer
    on, spaces and tabs, then a token up to a byte `c` that is NUL or a space. -/
theorem mystrtok_scan (pre ws tok : List Byte) (c : Byte) (y : List Byte)
    (hws : ∀ b ∈ ws, b = 32 ∨ b = 9) (h0 : (0 : Byte) ∉ tok) (h32 : (32 : Byte) ∉ tok)
    (hhead : ∀ d, tok.head? = some d → d ≠ 32 ∧ d ≠ 9) (hc : c = 0 ∨ (c = 32 ∧ tok ≠ [])) :
    remove_whitespace (pre ++ (ws ++ (tok ++ c :: y))) pre.length = (pre ++ ws).length ∧
    (pre ++ ws).length +
      mystrtok.scan 32 ((pre ++ (ws ++ (tok ++ c :: y))).drop (pre ++ ws).length) =
        (pre ++ (ws ++ tok)).length := by
  have h1 : remove_whitespace (pre ++ (ws ++ (tok ++ c :: y))) pre.length =
      (pre ++ ws).length := by
    unfold remove_whitespace
    rw [drop_at, List.length_append]
    congr 1
    cases tok with
    | nil =>
      rcases hc with rfl | ⟨_, h⟩
      · exact skip_append ws 0 y hws (by decide)
      · exact absurd rfl h
    | cons a t => exact skip_append ws a (t ++ c :: y) hws (hhead a rfl)
  refine ⟨h1, ?_⟩
  have h2 : (pre ++ (ws ++ (tok ++ c :: y))).drop (pre ++ ws).length = tok ++ c :: y := by
    rw [← List.append_assoc, drop_at]
  rw [h2, scan_append tok c y h0 h32 (hc.imp id And.left)]
  simp only [List.length_append]
  omega

/-- `mystrtok` on the last token of the line: it returns the token and sets
    `next_token` to `NULL`. -/
theorem mystrtok_end (pre ws tok rest : List Byte) (nt str : Option Nat)
    (hp : (match str with
      | some p => some p
      | none => nt) = some pre.length)
    (hws : ∀ b ∈ ws, b = 32 ∨ b = 9) (h0 : (0 : Byte) ∉ tok) (h32 : (32 : Byte) ∉ tok)
    (hhead : ∀ d, tok.head? = some d → d ≠ 32 ∧ d ≠ 9) :
    mystrtok { buf := pre ++ (ws ++ (tok ++ 0 :: 0 :: rest)), next_token := nt } str 32 =
      (some (pre ++ ws).length,
        { buf := pre ++ (ws ++ (tok ++ 0 :: 0 :: rest)), next_token := none }) := by
  obtain ⟨h1, h2⟩ := mystrtok_scan pre ws tok 0 (0 :: rest) hws h0 h32 hhead (Or.inl rfl)
  have h3 : peek (pre ++ (ws ++ (tok ++ 0 :: 0 :: rest))) (pre ++ (ws ++ tok)).length = 0 := by
    have := peek_at (pre ++ (ws ++ tok)) 0 (0 :: rest)
    simpa using this
  have h4 : peek (pre ++ (ws ++ (tok ++ 0 :: 0 :: rest))) ((pre ++ (ws ++ tok)).length + 1)
      = 0 := by
    have := peek_at_succ (pre ++ (ws ++ tok)) 0 0 rest
    simpa using this
  unfold mystrtok
  simp only [hp, h1, h2, h3, h4, ne_eq, not_true_eq_false, if_false, if_true]

/-- `mystrtok` on a token followed by a space: it returns the token, writes a
    NUL over the space and leaves `next_token` after it. -/
theorem mystrtok_mid (pre ws tok r3 : List Byte) (nt str : Option Nat)
    (hp : (match str with
      | some p => some p
      | none => nt) = some pre.length)
    (hws : ∀ b ∈ ws, b = 32 ∨ b = 9) (h0 : (0 : Byte) ∉ tok) (h32 : (32 : Byte) ∉ tok)
    (hhead : ∀ d, tok.head? = some d → d ≠ 32 ∧ d ≠ 9) (hne : tok ≠ []) :
    mystrtok { buf := pre ++ (ws ++ (tok ++ 32 :: r3)), next_token := nt } str 32 =
      (some (pre ++ ws).length,
        { buf := pre ++ (ws ++ (tok ++ 0 :: r3)),
          next_token := some (pre ++ (ws ++ (tok ++ [0]))).length }) := by
  obtain ⟨h1, h2⟩ := mystrtok_scan pre ws tok 32 r3 hws h0 h32 hhead (Or.inr ⟨rfl, hne⟩)
  have h3 : peek (pre ++ (ws ++ (tok ++ 32 :: r3))) (pre ++ (ws ++ tok)).length = 32 := by
    have := peek_at (pre ++ (ws ++ tok)) 32 r3
    simpa using this
  have h4 : poke (pre ++ (ws ++ (tok ++ 32 :: r3))) (pre ++ (ws ++ tok)).length 0 =
      pre ++ (ws ++ (tok ++ 0 :: r3)) := by
    have := poke_at (pre ++ (ws ++ tok)) 32 0 r3
    simpa using this
  have h5 : (pre ++ (ws ++ tok)).length + 1 = (pre ++ (ws ++ (tok ++ [0]))).length := by
    simp only [List.length_append, List.length_cons, List.length_nil]
    omega
  have h6 : ¬ ((32 : Byte) = 0) := by decide
  unfold mystrtok
  simp only [hp, h1, h2, h3, h4, h5, ne_eq, h6, not_false_eq_true, if_true]

theorem token_read (a tok y : List Byte) (h0 : (0 : Byte) ∉ tok) :
    cstr ((a ++ (tok ++ 0 :: y)).drop a.length) = tok ∧
    (peek (a ++ (tok ++ 0 :: y)) a.length = 0 ↔ tok = []) := by
  refine ⟨by rw [drop_at, cstr_at tok y h0], ?_⟩
  cases tok with
  | nil => simp [peek_at]
  | cons b t =>
    have hb : b ≠ 0 := fun h => h0 (h ▸ List.mem_cons_self _ _)
    rw [List.cons_append, peek_at]
    simp [hb]

/-- One round of the loop of `parse_commandline` on the token `tok`. -/
theorem parse_loop_round (fuel : Nat) (st : Strtok) (start i : Nat)
    (argv : List (Option (List Byte))) (tok : List Byte)
    (htok : cstr (st.buf.drop start) = tok) (hpeek : peek st.buf start = 0 ↔ tok = []) :
    parse_commandline.loop (fuel + 1) st (some start) i argv =
      if i < MAX_NUM_ARGS then
        if tok = [] then
          parse_commandline.loop fuel (mystrtok st none 32).2 (mystrtok st none 32).1 i argv
        else if MAX_LINE_SIZE ≤ tok.length then Parsed.overflow i
        else
          parse_commandline.loop fuel (mystrtok st none 32).2 (mystrtok st none 32).1 (i + 1)
            (argv.set i (some tok))
      else Parsed.ok i (argv.set i none) := by
  simp only [parse_commandline.loop, htok]
  by_cases ht : tok = []
  · simp only [hpeek.mpr ht, ht, if_true]
  · have : ¬ peek st.buf start = 0 := fun h => ht (hpeek.mp h)
    simp only [this, ht, if_false]

/-- The loop of `parse_commandline` on the last token of the line. -/
theorem parse_loop_last (fuel : Nat) (buf : List Byte) (start i : Nat)
    (argv : List (Option (List Byte))) (tok : List Byte) (hfuel : 2 ≤ fuel)
    (htok : cstr (buf.drop start) = tok) (hpeek : peek buf start = 0 ↔ tok = [])
    (hlen : ∀ t ∈ (if tok = [] then [] else [tok]).take (MAX_NUM_ARGS - i),
      t.length < MAX_LINE_SIZE) :
    parse_commandline.loop fuel { buf := buf, next_token := none } (some start) i argv =
      Parsed.ok (i + ((if tok = [] then [] else [tok]).take (MAX_NUM_ARGS - i)).length)
        (fill argv i ((if tok = [] then [] else [tok]).take (MAX_NUM_ARGS - i))) := by
  obtain ⟨f, rfl⟩ : ∃ f, fuel = f + 2 := ⟨fuel - 2, by omega⟩
  rw [parse_loop_round (f + 1) _ start i argv tok htok hpeek]
  have hnone : mystrtok { buf := buf, next_token := none } none 32 =
      (none, { buf := buf, next_token := none }) := rfl
  by_cases hi : i < MAX_NUM_ARGS
  · obtain ⟨d, hd⟩ : ∃ d, MAX_NUM_ARGS - i = d + 1 := ⟨MAX_NUM_ARGS - i - 1, by omega⟩
    by_cases ht : tok = []
    · simp only [hi, ht, if_true, hnone, parse_commandline.loop, List.take_nil, fill,
        List.length_nil, Nat.add_zero]
    · have hl : tok.length < MAX_LINE_SIZE := by
        apply hlen
        simp [ht, hd]
      have hl2 : ¬ MAX_LINE_SIZE ≤ tok.length := by omega
      simp only [hi, ht, hl2, if_true, if_false, hnone, parse_commandline.loop, hd,
        List.take_succ_cons, List.take_nil, fill, List.length_cons, List.length_nil]
  · have h0 : MAX_NUM_ARGS - i = 0 := by omega
    simp only [hi, if_false, h0, List.take_zero, fill, List.length_nil, Nat.add_zero]

/-- A call of `mystrtok` on the bytes `r` still to be scanned, followed by the
    loop: the tokens of `r` are stored from index `j` on. -/
theorem parse_next (f : Nat) (ih : ParseLoopSpec f) (r pre rest : List Byte)
    (nt str : Option Nat)
    (hp : (match str with
      | some p => some p
      | none => nt) = some pre.length)
    (h0 : (0 : Byte) ∉ r) (hf : r.length + 3 ≤ f + 1)
    (j : Nat) (argv1 : List (Option (List Byte)))
    (hl : ∀ t ∈ (space_tokens r).take (MAX_NUM_ARGS - j), t.length < MAX_LINE_SIZE) :
    parse_commandline.loop f
      (mystrtok { buf := pre ++ (r ++ 0 :: 0 :: rest), next_token := nt } str 32).2
      (mystrtok { buf := pre ++ (r ++ 0 :: 0 :: rest), next_token := nt } str 32).1 j argv1 =
    Parsed.ok (j + ((space_tokens r).take (MAX_NUM_ARGS - j)).length)
      (fill argv1 j ((space_tokens r).take (MAX_NUM_ARGS - j))) := by
  obtain ⟨ws, r1, hr, hws, hhead⟩ := ws_decomp r
  obtain ⟨tok1, h32, hr1⟩ := space_decomp r1
  have h01 : (0 : Byte) ∉ tok1 := by
    intro h
    apply h0
    rw [hr]
    rcases hr1 with hr1 | ⟨r3, hr1⟩ <;> rw [hr1] <;> simp [h]
  have hhead1 : ∀ d, tok1.head? = some d → d ≠ 32 ∧ d ≠ 9 := by
    intro d hd
    apply hhead d
    cases tok1 with
    | nil => simp at hd
    | cons a t =>
      simp only [List.head?_cons, Option.some.injEq] at hd
      rcases hr1 with hr1 | ⟨r3, hr1⟩ <;> rw [hr1] <;> simp [hd]
  have hhead9 : tok1.head? ≠ some 9 := fun h => (hhead1 9 h).2 rfl
  rcases hr1 with hr1 | ⟨r3, hr1⟩
  · -- the last token of the line
    have hbuf : pre ++ (r ++ 0 :: 0 :: rest) = pre ++ (ws ++ (tok1 ++ 0 :: 0 :: rest)) := by
      rw [hr, hr1]; simp
    have hsp : space_tokens r = if tok1 = [] then [] else [tok1] := by
      rw [hr, hr1, space_tokens_ws ws tok1 hws, space_tokens_last tok1 h32 hhead9]
    rw [hbuf, mystrtok_end pre ws tok1 rest nt str hp hws h01 h32 hhead1]
    simp only []
    have hrd := token_read (pre ++ ws) tok1 (0 :: rest) h01
    rw [List.append_assoc] at hrd
    rw [hsp] at hl ⊢
    exact parse_loop_last f _ _ j argv1 tok1 (by omega) hrd.1 hrd.2 hl
  · -- a token followed by a space
    have hne : tok1 ≠ [] := by
      intro h
      have := (hhead 32 (by rw [hr1, h]; rfl)).1
      exact this rfl
    have hbuf : pre ++ (r ++ 0 :: 0 :: rest) =
        pre ++ (ws ++ (tok1 ++ 32 :: (r3 ++ 0 :: 0 :: rest))) := by
      rw [hr, hr1]; simp
    have hsp : space_tokens r = (if tok1 = [] then [] else [tok1]) ++ space_tokens r3 := by
      rw [hr, hr1, space_tokens_ws ws _ hws, space_tokens_first tok1 r3 h32 hhead9]
    have h03 : (0 : Byte) ∉ r3 := by
      intro h
      apply h0
      rw [hr, hr1]
      simp [h]
    have hlen3 : r3.length + 3 ≤ f := by
      have : r.length = ws.length + (tok1.length + (r3.length + 1)) := by
        rw [hr, hr1]; simp
      omega
    rw [hbuf, mystrtok_mid pre ws tok1 (r3 ++ 0 :: 0 :: rest) nt str hp
      hws h01 h32 hhead1 hne]
    simp only []
    have hrd := token_read (pre ++ ws) tok1 (r3 ++ 0 :: 0 :: rest) h01
    have hb2 : pre ++ (ws ++ (tok1 ++ 0 :: (r3 ++ 0 :: 0 :: rest))) =
        (pre ++ (ws ++ (tok1 ++ [0]))) ++ (r3 ++ 0 :: 0 :: rest) := by simp
    rw [List.append_assoc, hb2] at hrd
    rw [hb2, hsp]
    rw [hsp] at hl
    exact ih r3 (pre ++ (ws ++ (tok1 ++ [0]))) rest tok1 _ j argv1 h03 hlen3 hrd.1 hrd.2 hl

/-- The loop of `parse_commandline` with the token `tok` in hand and the bytes
    `r` of the line still to be scanned: it stores `tok`, when it is not empty,
    and the tokens of `r`, up to index 16. -/
theorem parse_loop_spec (fuel : Nat) : ParseLoopSpec fuel := by
  induction fuel with
  | zero => intro r pre rest tok start i argv _ hf; omega
  | succ f ih =>
    intro r pre rest tok start i argv h0 hf htok hpeek hlen
    rw [parse_loop_round f _ start i argv tok htok hpeek]
    by_cases hi : i < MAX_NUM_ARGS
    swap
    · have hz : MAX_NUM_ARGS - i = 0 := by omega
      simp only [hi, if_false, hz, List.take_zero, fill, List.length_nil, Nat.add_zero]
    have hrec := fun j argv1 hl =>
      parse_next f ih r pre rest (some pre.length) none rfl h0 hf j argv1 hl
    obtain ⟨d, hd⟩ : ∃ d, MAX_NUM_ARGS - i = d + 1 := ⟨MAX_NUM_ARGS - i - 1, by omega⟩
    by_cases ht : tok = []
    · simp only [hi, ht, if_true, List.nil_append] at hlen ⊢
      exact hrec i argv hlen
    · simp only [ht, if_false, List.singleton_append] at hlen ⊢
      have hl : tok.length < MAX_LINE_SIZE := by
        apply hlen
        rw [hd]
        simp
      have hl2 : ¬ MAX_LINE_SIZE ≤ tok.length := by omega
      have hd2 : MAX_NUM_ARGS - (i + 1) = d := by omega
      have hl3 : ∀ t ∈ (space_tokens r).take (MAX_NUM_ARGS - (i + 1)),
          t.length < MAX_LINE_SIZE := by
        intro t ht2
        apply hlen
        rw [hd, List.take_succ_cons]
        rw [hd2] at ht2
        exact List.mem_cons_of_mem _ ht2
      simp only [hi, hl2, if_true, if_false]
      rw [hrec (i + 1) _ hl3, hd, List.take_succ_cons, hd2]
      simp only [fill, List.length_cons]
      congr 1
      omega

theorem fill_eq (ts : List (List Byte)) :
    ∀ (argv : List (Option (List Byte))) (i : Nat), i + ts.length < argv.length →
      fill argv i ts = argv.take i ++ (ts.map some ++ none :: argv.drop (i + ts.length + 1)) := by
  induction ts with
  | nil =>
    intro argv i h
    simp only [fill, List.map_nil, List.nil_append, List.length_nil, Nat.add_zero]
    rw [List.set_eq_take_append_cons_drop]
    simp only [List.length_nil, Nat.add_zero] at h
    rw [if_pos h]
  | cons t ts ih =>
    intro argv i h
    simp only [List.length_cons] at h
    have h2 : i < argv.length := by omega
    simp only [fill]
    rw [ih (argv.set i (some t)) (i + 1) (by rw [List.length_set]; omega)]
    rw [List.set_eq_take_append_cons_drop, if_pos h2]
    have e1 : (argv.take i ++ some t :: argv.drop (i + 1)).take (i + 1) =
        argv.take i ++ [some t] := by
      rw [List.take_append_eq_append_take]
      simp [List.length_take, Nat.min_eq_left (le_of_lt h2)]
    have e2 : (argv.take i ++ some t :: argv.drop (i + 1)).drop (i + 1 + ts.length + 1) =
        argv.drop (i + (ts.length + 1) + 1) := by
      rw [List.drop_append_eq_append_drop]
      simp only [List.length_take, Nat.min_eq_left (le_of_lt h2)]
      have e3 : i + 1 + ts.length + 1 - i = (ts.length + 1) + 1 := by omega
      rw [e3, List.drop_succ_cons, List.drop_drop]
      have e4 : List.drop (i + 1 + ts.length + 1) (List.take i argv) = [] := by
        apply List.drop_eq_nil_of_le
        rw [List.length_take]
        omega
      rw [e4, List.nil_append]
      congr 1
      omega
    rw [e1, e2]
    simp [List.length_cons]

/-- Counterexample to C7: in "a\tb" the tab separates two substrings free of
    spaces and tabs, "a" and "b", but `parse_commandline` returns 1 and yields the
    single token "a\tb"; and the copy of a token of 1024 bytes runs past its row
    of `argv_alloc`, which the model reports as `overflow`. -/
theorem parse_commandline_tab :
    whitespace_tokens (ascii "a\tb") = [ascii "a", ascii "b"] ∧
    parse_commandline example_argv (ascii "a\tb" ++ [0, 0]) =
      Parsed.ok 1 (some (ascii "a\tb") :: none :: example_argv.drop 2) ∧
    parse_commandline example_argv (ascii "a\tb" ++ [0, 0]) ≠
      Parsed.ok ((whitespace_tokens (ascii "a\tb")).take MAX_NUM_ARGS).length
        (((whitespace_tokens (ascii "a\tb")).take MAX_NUM_ARGS).map some ++
          none :: example_argv.drop
            (((whitespace_tokens (ascii "a\tb")).take MAX_NUM_ARGS).length + 1)) ∧
    parse_commandline example_argv (List.replicate 1024 97 ++ [0, 0]) = Parsed.overflow 0 := by
  decide!

/-- C7, amended. For every command line, a NUL-terminated buffer followed by
    at least one more NUL byte, whose tokens are shorter than the 1024 bytes of
    a row of `argv_alloc`: `parse_commandline` yields, in order, the strings
    obtained by cutting the line at its spaces and taking the leading tabs off
    each piece, those that are not empty (a tab inside a piece or at its end
    stays in the token), up to the first 16 of them; it stores `NULL` after the
    last one, leaves the rest of `argv` as it was, and returns their number, the
    count of those strings capped at 16. -/
theorem parse_commandline_tokens (line rest : List Byte) (argv : List (Option (List Byte)))
    (h0 : (0 : Byte) ∉ line) (hargv : MAX_NUM_ARGS < argv.length)
    (hlen : ∀ t ∈ (space_tokens line).take MAX_NUM_ARGS, t.length < MAX_LINE_SIZE) :
    parse_commandline argv (line ++ 0 :: 0 :: rest) =
      Parsed.ok ((space_tokens line).take MAX_NUM_ARGS).length
        (((space_tokens line).take MAX_NUM_ARGS).map some ++
          none :: argv.drop (((space_tokens line).take MAX_NUM_ARGS).length + 1)) ∧
    ((space_tokens line).take MAX_NUM_ARGS).length =
      min (space_tokens line).length MAX_NUM_ARGS := by
  refine ⟨?_, by rw [List.length_take, Nat.min_comm]⟩
  unfold parse_commandline
  have h := parse_next ((line ++ 0 :: 0 :: rest).length + 2)
    (parse_loop_spec _) line [] rest none (some 0) rfl h0
    (by simp only [List.length_append, List.length_cons]; omega) 0 argv hlen
  simp only [List.nil_append, Nat.sub_zero, Nat.zero_add] at h
  rw [h, fill_eq _ argv 0 (by
    have := List.length_take_le MAX_NUM_ARGS (space_tokens line)
    omega)]
  simp

/-- Witness for C7, amended: the line "ls -l | wc\t -l \t " with blanks around;
    the fourth token keeps its tab. -/
theorem parse_commandline_tokens_witness :
    (0 : Byte) ∉ ascii "  ls   -l | wc\t -l  \t " ∧
    MAX_NUM_ARGS < example_argv.length ∧
    space_tokens (ascii "  ls   -l | wc\t -l  \t ") =
      [ascii "ls", ascii "-l", ascii "|", ascii "wc\t", ascii "-l"] ∧
    parse_commandline example_argv (ascii "  ls   -l | wc\t -l  \t " ++ 0 :: 0 :: []) =
      Parsed.ok ((space_tokens (ascii "  ls   -l | wc\t -l  \t ")).take MAX_NUM_ARGS).length
        (((space_tokens (ascii "  ls   -l | wc\t -l  \t ")).take MAX_NUM_ARGS).map some ++
          none :: example_argv.drop
            (((space_tokens (ascii "  ls   -l | wc\t -l  \t ")).take MAX_NUM_ARGS).length + 1)) :=
  ⟨by decide, by decide, by decide!,
   (parse_commandline_tokens (ascii "  ls   -l | wc\t -l  \t ") [] example_argv
      (by decide) (by decide) (by decide!)).1⟩

/-! ### C8: the number of stages -/

theorem cstr_bar : cstr (ascii "|") = ascii "|" := by decide

theorem mystrcmp_bar (tok : List Byte) : mystrcmp tok (ascii "|") = 0 ↔ is_bar tok = true := by
  rw [mystrcmp_eq_zero_iff, cstr_bar, is_bar, beq_iff_eq]

theorem parse_pipeline_loop_count (rest : List (List Byte)) :
    ∀ (pipe : List Pipeline) (cc ac : Nat),
      (parse_pipeline.loop rest pipe cc ac).2 = (cc : Int) + 1 + (rest.countP is_bar : Nat) := by
  induction rest with
  | nil => intro pipe cc ac; simp [parse_pipeline.loop]
  | cons tok rest ih =>
    intro pipe cc ac
    by_cases hb : is_bar tok = true
    · have h0 := (mystrcmp_bar tok).mpr hb
      simp only [parse_pipeline.loop, h0, if_true, ih, List.countP_cons_of_pos _ _ hb]
      push_cast
      ring
    · have h0 : ¬ mystrcmp tok (ascii "|") = 0 := fun h => hb ((mystrcmp_bar tok).mp h)
      simp only [parse_pipeline.loop, h0, if_false, ih, List.countP_cons_of_neg _ _ hb]

/-- C8. For every argv vector and every number `argc` of its tokens,
    `parse_pipeline` returns 1 + (the number of tokens among the first `argc`
    whose string is "|"), whatever the array of stages holds; in particular
    it returns 1 for an empty vector and never less than 1. -/
theorem parse_pipeline_count (pipe : List Pipeline) (argc : Nat) (argv : List (List Byte)) :
    (parse_pipeline pipe argc argv).2 = 1 + ((argv.take argc).countP is_bar : Nat) ∧
    (parse_pipeline pipe argv.length argv).2 = 1 + (argv.countP is_bar : Nat) ∧
    (parse_pipeline pipe 0 []).2 = 1 ∧
    1 ≤ (parse_pipeline pipe argc argv).2 := by
  have h := parse_pipeline_loop_count (argv.take argc) pipe 0 0
  have h2 := parse_pipeline_loop_count (argv.take argv.length) pipe 0 0
  rw [List.take_length] at h2
  refine ⟨?_, ?_, by simp [parse_pipeline, parse_pipeline.loop], ?_⟩
  · unfold parse_pipeline; rw [h]; push_cast; ring
  · unfold parse_pipeline; rw [List.take_length, h2]; push_cast; ring
  · unfold parse_pipeline; rw [h]; push_cast; omega

/-! ### C9: the stages -/

theorem stage_of_nil (fd : Int) : stage_of fd [] = init_pipeline fd := rfl

theorem get?_at (done : List Pipeline) (p : Pipeline) (fresh : List Pipeline) :
    (done ++ p :: fresh).get? done.length = some p := by
  induction done with
  | nil => rfl
  | cons a d ih => simpa using ih

theorem set_at (done : List Pipeline) (p q : Pipeline) (fresh : List Pipeline) :
    (done ++ p :: fresh).set done.length q = done ++ q :: fresh := by
  simp

theorem set_argv_at (done : List Pipeline) (p : Pipeline) (fresh : List Pipeline) (ac : Nat)
    (v : Option (List Byte)) :
    set_argv (done ++ p :: fresh) done.length ac v =
      done ++ { p with argv := p.argv.set ac v } :: fresh := by
  unfold set_argv
  rw [get?_at]
  simp only []
  rw [set_at]

theorem set_argc_at (done : List Pipeline) (p : Pipeline) (fresh : List Pipeline) (n : Int) :
    set_argc (done ++ p :: fresh) done.length n = done ++ { p with argc := n } :: fresh := by
  unfold set_argc
  rw [get?_at]
  simp only []
  rw [set_at]

theorem set_null_at_end (l : List (Option (List Byte))) (k : Nat) :
    (l ++ List.replicate k none).set l.length none = l ++ List.replicate k none := by
  induction l with
  | nil => cases k <;> rfl
  | cons a l ih => simp only [List.cons_append, List.length_cons, List.set_cons_succ, ih]

theorem stage_set_null (fd : Int) (cur : List (List Byte)) :
    ({ stage_of fd cur with argv := (stage_of fd cur).argv.set cur.length none } : Pipeline) =
      stage_of fd cur := by
  have h := set_null_at_end (cur.map some) (MAX_NUM_ARGS - cur.length)
  rw [List.length_map] at h
  simp only [stage_of, h]

theorem stage_push (fd : Int) (cur : List (List Byte)) (tok : List Byte)
    (h : cur.length < MAX_NUM_ARGS) :
    ({ ({ stage_of fd cur with
          argv := (stage_of fd cur).argv.set cur.length (some tok) } : Pipeline) with
        argc := (cur.length : Int) + 1 } : Pipeline) = stage_of fd (cur ++ [tok]) := by
  obtain ⟨d, hd⟩ : ∃ d, MAX_NUM_ARGS - cur.length = d + 1 :=
    ⟨MAX_NUM_ARGS - cur.length - 1, by omega⟩
  have hd2 : MAX_NUM_ARGS - (cur ++ [tok]).length = d := by
    rw [List.length_append, List.length_singleton]; omega
  have h1 : (cur.map some ++ List.replicate (d + 1) none).set cur.length (some tok) =
      (cur ++ [tok]).map some ++ List.replicate d none := by
    clear hd hd2 h
    induction cur with
    | nil => rfl
    | cons a cur ih =>
      simp only [List.map_cons, List.cons_append, List.length_cons, List.set_cons_succ, ih]
  have hd3 : MAX_NUM_ARGS - (cur.length + 1) = d := by omega
  simp only [stage_of, hd, hd3, h1, List.length_append, List.length_singleton]
  congr 1

theorem segments_cons (tok : List Byte) (rest : List (List Byte)) :
    segments (tok :: rest) =
      if is_bar tok = true then [] :: segments rest
      else (segments rest).modifyHead (List.cons tok) := by
  unfold segments
  rw [List.splitOnP_cons]

/-- The loop of `parse_pipeline` on an array whose stage `done.length` holds the
    tokens `cur` and whose later stages are fresh: the stage receives the first
    segment of the remaining tokens and the next stages the other segments. -/
theorem parse_pipeline_loop_spec (fd : Int) (rest : List (List Byte)) :
    ∀ (done : List Pipeline) (cur : List (List Byte)) (m : Nat) (s0 : List (List Byte))
      (ss : List (List (List Byte))),
      segments rest = s0 :: ss → (cur ++ s0).length < MAX_NUM_ARGS →
      (∀ s ∈ ss, s.length < MAX_NUM_ARGS) → ss.length ≤ m →
      parse_pipeline.loop rest
          (done ++ stage_of fd cur :: List.replicate m (init_pipeline fd))
          done.length cur.length =
        (done ++ stage_of fd (cur ++ s0) ::
            (ss.map (stage_of fd) ++ List.replicate (m - ss.length) (init_pipeline fd)),
          ((done.length + 1 + ss.length : Nat) : Int)) := by
  induction rest with
  | nil =>
    intro done cur m s0 ss hseg _ _ _
    have : s0 = [] ∧ ss = [] := by
      simp only [segments, List.splitOnP_nil, List.cons.injEq] at hseg
      exact ⟨hseg.1.symm, hseg.2.symm⟩
    obtain ⟨rfl, rfl⟩ := this
    simp only [parse_pipeline.loop, set_argv_at, stage_set_null, List.append_nil, List.map_nil,
      List.nil_append, List.length_nil, Nat.sub_zero, Nat.add_zero]
    push_cast
    rfl
  | cons tok rest ih =>
    intro done cur m s0 ss hseg hcur hss hm
    rw [segments_cons] at hseg
    by_cases hb : is_bar tok = true
    · have h0 := (mystrcmp_bar tok).mpr hb
      rw [if_pos hb] at hseg
      obtain ⟨rfl, hss2⟩ := List.cons.inj hseg
      cases hs : segments rest with
      | nil => exact absurd hs (List.splitOnP_ne_nil _ _)
      | cons s1 ss1 =>
        rw [hs] at hss2
        subst hss2
        obtain ⟨m1, rfl⟩ : ∃ m1, m = m1 + 1 := ⟨m - 1, by simp at hm; omega⟩
        have hpipe : done ++ stage_of fd cur :: List.replicate (m1 + 1) (init_pipeline fd) =
            (done ++ [stage_of fd cur]) ++
              stage_of fd [] :: List.replicate m1 (init_pipeline fd) := by
          simp [List.replicate_succ, stage_of_nil]
        have hih := ih (done ++ [stage_of fd cur]) [] m1 s1 ss1 hs
          (by simpa using hss s1 (List.mem_cons_self _ _))
          (fun s h => hss s (List.mem_cons_of_mem _ h))
          (by simp at hm; omega)
        simp only [List.length_append, List.length_singleton, List.length_nil,
          List.nil_append] at hih
        simp only [parse_pipeline.loop, h0, if_true, set_argv_at, stage_set_null]
        rw [hpipe, hih]
        simp only [List.append_nil, List.map_cons, List.length_cons, List.append_assoc,
          List.singleton_append, List.cons_append, Nat.add_sub_add_right]
        congr 2
        omega
    · have h0 : ¬ mystrcmp tok (ascii "|") = 0 := fun h => hb ((mystrcmp_bar tok).mp h)
      rw [if_neg hb] at hseg
      cases hs : segments rest with
      | nil => exact absurd hs (List.splitOnP_ne_nil _ _)
      | cons s1 ss1 =>
        rw [hs] at hseg
        simp only [List.modifyHead_cons, List.cons.injEq] at hseg
        obtain ⟨rfl, rfl⟩ := hseg
        have hlt : cur.length < MAX_NUM_ARGS := by
          simp only [List.length_append, List.length_cons] at hcur
          omega
        have hih := ih done (cur ++ [tok]) m s1 ss1 hs
          (by simpa using hcur) hss hm
        simp only [List.length_append, List.length_singleton] at hih
        simp only [parse_pipeline.loop, h0, if_false, set_argv_at, set_argc_at]
        rw [stage_push fd cur tok hlt, hih]
        simp

theorem tokens_of_argv (s : List (List Byte)) (k : Nat) :
    List.filterMap id (List.takeWhile Option.isSome
      (List.map some s ++ List.replicate k (none : Option (List Byte)))) = s := by
  induction s with
  | nil => cases k <;> simp [List.replicate_succ, List.takeWhile]
  | cons c s ih =>
    simp only [List.map_cons, List.cons_append, List.takeWhile_cons, Option.isSome_some,
      if_true, List.filterMap_cons, id, ih]

theorem tokens_stage_of (fd : Int) (s : List (List Byte)) : (stage_of fd s).tokens = s :=
  tokens_of_argv s _

/-- Joining the segments with the token "|" gives the vector back, token by
    token as C strings. -/
theorem intercalate_segments (argv : List (List Byte)) :
    (List.intercalate [ascii "|"] (segments argv)).map cstr = argv.map cstr := by
  induction argv with
  | nil => rfl
  | cons t rest ih =>
    rw [segments_cons]
    cases hs : segments rest with
    | nil => exact absurd hs (List.splitOnP_ne_nil _ _)
    | cons s1 ss1 =>
      rw [hs] at ih
      by_cases hb : is_bar t = true
      · have ht : cstr t = ascii "|" := by simpa [is_bar] using hb
        rw [if_pos hb]
        simp only [List.intercalate, List.intersperse, List.flatten, List.nil_append,
          List.map_cons, List.singleton_append] at ih ⊢
        rw [ht, cstr_bar, ← ih]
      · rw [if_neg hb]
        simp only [List.modifyHead_cons]
        cases ss1 with
        | nil =>
          simp only [List.intercalate, List.intersperse, List.flatten, List.append_nil,
            List.map_cons] at ih ⊢
          rw [ih]
        | cons s2 ss2 =>
          simp only [List.intercalate, List.intersperse, List.flatten, List.cons_append,
            List.map_cons] at ih ⊢
          rw [ih]

/-- C9. For every token vector with at most 16 stages and at most 15 tokens
    per stage, applied to a stage array freshly initialised by
    `init_pipelines`: `parse_pipeline` returns the number of segments of the
    vector between "|" separators; stage k is as `init_pipeline` left it but
    for its `argv`, which holds the tokens of the k-th segment in their order
    followed by `NULL`, and its `argc`, which is that segment's length; the
    stages after the last segment are untouched; and joining the token lists of
    the stages with "|" between them gives back the input vector. -/
theorem parse_pipeline_stages (fd : Int) (argv : List (List Byte))
    (hst : (segments argv).length ≤ MAX_NUM_ARGS)
    (htok : ∀ s ∈ segments argv, s.length ≤ MAX_NUM_ARGS - 1) :
    parse_pipeline (init_pipelines fd) argv.length argv =
      ((segments argv).map (stage_of fd) ++
          List.replicate (MAX_NUM_ARGS - (segments argv).length) (init_pipeline fd),
        ((segments argv).length : Int)) ∧
    (∀ k s, (segments argv).get? k = some s →
      ∃ p, (parse_pipeline (init_pipelines fd) argv.length argv).1.get? k = some p ∧
        p.tokens = s ∧ p.argv.take (s.length + 1) = s.map some ++ [none] ∧
        p.argc = (s.length : Int)) ∧
    (List.intercalate [ascii "|"]
      (((parse_pipeline (init_pipelines fd) argv.length argv).1.take
        (segments argv).length).map Pipeline.tokens)).map cstr = argv.map cstr := by
  have h16 : MAX_NUM_ARGS = 16 := rfl
  have hmain : parse_pipeline (init_pipelines fd) argv.length argv =
      ((segments argv).map (stage_of fd) ++
          List.replicate (MAX_NUM_ARGS - (segments argv).length) (init_pipeline fd),
        ((segments argv).length : Int)) := by
    unfold parse_pipeline
    rw [List.take_length]
    cases hs : segments argv with
    | nil => exact absurd hs (List.splitOnP_ne_nil _ _)
    | cons s0 ss =>
      rw [hs] at hst htok
      have h := parse_pipeline_loop_spec fd argv [] [] (MAX_NUM_ARGS - 1) s0 ss hs
        (by
          have := htok s0 (List.mem_cons_self _ _)
          simp only [List.nil_append]
          omega)
        (fun s h => by
          have := htok s (List.mem_cons_of_mem _ h)
          omega)
        (by simp only [List.length_cons] at hst; omega)
      simp only [List.nil_append, List.length_nil, stage_of_nil, Nat.zero_add] at h
      have hinit : init_pipelines fd =
          init_pipeline fd :: List.replicate (MAX_NUM_ARGS - 1) (init_pipeline fd) := rfl
      rw [hinit, h]
      simp only [List.map_cons, List.cons_append, List.length_cons, Prod.mk.injEq]
      refine ⟨?_, by push_cast; ring⟩
      congr 3
      omega
  refine ⟨hmain, ?_, ?_⟩
  · intro k s hk
    refine ⟨stage_of fd s, ?_, tokens_stage_of fd s, ?_, rfl⟩
    · rw [hmain]
      simp only []
      have hlt : k < (segments argv).length := by
        rw [List.get?_eq_some] at hk
        exact hk.1
      rw [List.get?_eq_getElem?, List.getElem?_append_left (by simpa using hlt)]
      rw [List.get?_eq_getElem?] at hk
      simp [hk]
    · have hs := htok s (List.get?_mem hk)
      obtain ⟨d, hd⟩ : ∃ d, MAX_NUM_ARGS - s.length = d + 1 :=
        ⟨MAX_NUM_ARGS - s.length - 1, by omega⟩
      simp only [stage_of, hd, List.replicate_succ]
      rw [List.take_append_eq_append_take]
      simp
  · rw [hmain]
    simp only []
    rw [List.take_left' (by simp), List.map_map]
    have : (Pipeline.tokens ∘ stage_of fd) = id := by
      funext s
      exact tokens_stage_of fd s
    rw [this, List.map_id]
    exact intercalate_segments argv

/-- Witness for C9: the command "ls -l | wc -l" has two stages of two tokens. -/
theorem parse_pipeline_stages_witness :
    (segments [ascii "ls", ascii "-l", ascii "|", ascii "wc", ascii "-l"]).length
      ≤ MAX_NUM_ARGS ∧
    segments [ascii "ls", ascii "-l", ascii "|", ascii "wc", ascii "-l"] =
      [[ascii "ls", ascii "-l"], [ascii "wc", ascii "-l"]] ∧
    parse_pipeline (init_pipelines 4)
        [ascii "ls", ascii "-l", ascii "|", ascii "wc", ascii "-l"].length
        [ascii "ls", ascii "-l", ascii "|", ascii "wc", ascii "-l"] =
      ((segments [ascii "ls", ascii "-l", ascii "|", ascii "wc", ascii "-l"]).map (stage_of 4) ++
        List.replicate
          (MAX_NUM_ARGS - (segments [ascii "ls", ascii "-l", ascii "|", ascii "wc",
            ascii "-l"]).length)
          (init_pipeline 4),
        ((segments [ascii "ls", ascii "-l", ascii "|", ascii "wc", ascii "-l"]).length : Int)) :=
  ⟨by decide, by decide,
   (parse_pipeline_stages 4 [ascii "ls", ascii "-l", ascii "|", ascii "wc", ascii "-l"]
      (by decide) (by decide)).1⟩

/-! ### C10: the descriptors of a stage -/

theorem getD_put (t : FdTable) : ∀ (n : Nat) (f : Option File) (m : Nat),
    (FdTable.put t n f).getD m none = if m = n then f else t.getD m none := by
  induction t with
  | nil =>
    intro n
    induction n with
    | zero =>
      intro f m
      cases m <;> simp [FdTable.put]
    | succ n ih =>
      intro f m
      cases m with
      | zero => simp [FdTable.put]
      | succ m =>
        have := ih f m
        simp only [List.getD_nil] at this
        show (none :: FdTable.put [] n f).getD (m + 1) none = _
        rw [List.getD_cons_succ, this]
        simp
  | cons e t ih =>
    intro n f m
    cases n with
    | zero => cases m <;> simp [FdTable.put]
    | succ n =>
      cases m with
      | zero => simp [FdTable.put]
      | succ m =>
        show (e :: FdTable.put t n f).getD (m + 1) none = _
        rw [List.getD_cons_succ, ih n f m, List.getD_cons_succ]
        simp

theorem getD_lowest_free (t : FdTable) : t.getD t.lowest_free none = none := by
  induction t with
  | nil => rfl
  | cons e t ih =>
    cases e with
    | none => rfl
    | some f => simpa [FdTable.lowest_free] using ih

theorem get_put (t : FdTable) (n : Nat) (f : Option File) (fd : Int) :
    (t.put n f).get fd = if fd = (n : Int) then f else t.get fd := by
  unfold FdTable.get
  by_cases h : fd < 0
  · have : ¬ fd = (n : Int) := by omega
    simp only [h, if_true, this, if_false]
  · simp only [h, if_false, getD_put]
    have : (fd.toNat = n) ↔ (fd = (n : Int)) := by omega
    by_cases h2 : fd = (n : Int)
    · simp [h2]
    · have h3 : ¬ fd.toNat = n := fun h4 => h2 (this.mp h4)
      simp [h2, h3]

theorem get_lowest_free (t : FdTable) : t.get (t.lowest_free : Int) = none := by
  unfold FdTable.get
  have h : ¬ ((t.lowest_free : Int) < 0) := by omega
  simp only [h, if_false, Int.toNat_ofNat, getD_lowest_free]

/-- What `pipe` does to the table: the two new descriptors refer to the two
    ends, every descriptor that was open refers to what it did, and with
    descriptor 0 open neither of the new ones is 0. -/
theorem sys_pipe_spec (t : FdTable) (k : Nat) :
    (sys_pipe t k).2.2.get ((sys_pipe t k).1 : Int) = some (File.pipe_read k) ∧
    (sys_pipe t k).2.2.get ((sys_pipe t k).2.1 : Int) = some (File.pipe_write k) ∧
    (∀ fd f, t.get fd = some f → (sys_pipe t k).2.2.get fd = some f) ∧
    (t.get 0 ≠ none → ((sys_pipe t k).2.1 : Int) ≠ 0) := by
  have hr := get_lowest_free t
  have hw := get_lowest_free (t.put t.lowest_free (some (File.pipe_read k)))
  have h1 : (t.put t.lowest_free (some (File.pipe_read k))).get (t.lowest_free : Int) =
      some (File.pipe_read k) := by
    rw [get_put]; simp
  have hne : ((t.put t.lowest_free (some (File.pipe_read k))).lowest_free : Int) ≠
      (t.lowest_free : Int) := by
    intro h
    rw [h, h1] at hw
    cases hw
  have hpres : ∀ fd f, t.get fd = some f →
      (t.put t.lowest_free (some (File.pipe_read k))).get fd = some f := by
    intro fd f hf
    rw [get_put]
    have : ¬ fd = (t.lowest_free : Int) := by
      intro h
      rw [h, hr] at hf
      cases hf
    rw [if_neg this, hf]
  have hpres2 : ∀ fd f, (t.put t.lowest_free (some (File.pipe_read k))).get fd = some f →
      (sys_pipe t k).2.2.get fd = some f := by
    intro fd f hf
    show ((t.put t.lowest_free (some (File.pipe_read k))).put _ _).get fd = some f
    rw [get_put]
    have : ¬ fd = ((t.put t.lowest_free (some (File.pipe_read k))).lowest_free : Int) := by
      intro h
      rw [h, hw] at hf
      cases hf
    rw [if_neg this, hf]
  refine ⟨hpres2 _ _ h1, ?_, fun fd f hf => hpres2 fd f (hpres fd f hf), ?_⟩
  · show ((t.put t.lowest_free (some (File.pipe_read k))).put _ _).get _ = _
    rw [get_put]
    exact if_pos rfl
  · intro h0 hz
    cases h : t.get 0 with
    | none => exact h0 h
    | some f =>
      have := hpres 0 f h
      show False
      have hz2 : ((t.put t.lowest_free (some (File.pipe_read k))).lowest_free : Int) = 0 := hz
      rw [hz2, this] at hw
      cases hw

theorem set_fd_length (pipe : List Pipeline) (i : Nat) (r w : Int) :
    (set_fd pipe i r w).length = pipe.length := by
  unfold set_fd
  cases pipe.get? i <;> simp

theorem set_fd_get?_ne (pipe : List Pipeline) (i j : Nat) (r w : Int) (h : j ≠ i) :
    (set_fd pipe i r w).get? j = pipe.get? j := by
  unfold set_fd
  cases pipe.get? i with
  | none => rfl
  | some p => simp [List.getElem?_set, Ne.symm h]

theorem set_fd_get?_eq (pipe : List Pipeline) (i : Nat) (r w : Int) (p : Pipeline)
    (h : pipe.get? i = some p) :
    (set_fd pipe i r w).get? i = some { p with fd_read := r, fd_write := w } := by
  unfold set_fd
  rw [h]
  have hlt : i < pipe.length := by
    rw [List.get?_eq_some] at h
    exact h.1
  simp [List.getElem?_set, hlt]

/-- What the loop of `init_pipesfd` does from stage `i` on, for `k` stages. -/
theorem init_pipesfd_loop_spec (k : Nat) :
    ∀ (i : Nat) (pipe : List Pipeline) (t : FdTable), i + k ≤ pipe.length →
      (init_pipesfd.loop k i pipe t).1.length = pipe.length ∧
      (∀ fd f, t.get fd = some f → (init_pipesfd.loop k i pipe t).2.get fd = some f) ∧
      (∀ j, j < i → (init_pipesfd.loop k i pipe t).1.get? j = pipe.get? j) ∧
      (∀ j p0, pipe.get? j = some p0 →
        ∃ p, (init_pipesfd.loop k i pipe t).1.get? j = some p ∧ p.sockfd = p0.sockfd) ∧
      (∀ j, i ≤ j → j < i + k →
        ∃ p, (init_pipesfd.loop k i pipe t).1.get? j = some p ∧
          (init_pipesfd.loop k i pipe t).2.get p.fd_read = some (File.pipe_read j) ∧
          (init_pipesfd.loop k i pipe t).2.get p.fd_write = some (File.pipe_write j) ∧
          (t.get 0 ≠ none → p.fd_write ≠ 0)) := by
  induction k with
  | zero =>
    intro i pipe t _
    refine ⟨rfl, fun fd f h => h, fun j _ => rfl, fun j p0 h => ⟨p0, h, rfl⟩, ?_⟩
    intro j h1 h2
    omega
  | succ k ih =>
    intro i pipe t hlen
    obtain ⟨s1, s2, s3, s4⟩ := sys_pipe_spec t i
    have hlen1 := set_fd_length pipe i ((sys_pipe t i).1 : Nat) ((sys_pipe t i).2.1 : Nat)
    obtain ⟨p0, hp0⟩ : ∃ p0, pipe.get? i = some p0 := by
      have : i < pipe.length := by omega
      exact ⟨pipe.get ⟨i, this⟩, List.get?_eq_get this⟩
    have hset := set_fd_get?_eq pipe i ((sys_pipe t i).1 : Nat) ((sys_pipe t i).2.1 : Nat) p0 hp0
    obtain ⟨i1, i2, i3, i4, i5⟩ := ih (i + 1)
      (set_fd pipe i ((sys_pipe t i).1 : Nat) ((sys_pipe t i).2.1 : Nat)) (sys_pipe t i).2.2
      (by rw [hlen1]; omega)
    simp only [init_pipesfd.loop]
    refine ⟨i1.trans hlen1, fun fd f h => i2 fd f (s3 fd f h), ?_, ?_, ?_⟩
    · intro j hj
      rw [i3 j (by omega), set_fd_get?_ne pipe i j _ _ (by omega)]
    · intro j q hq
      by_cases hji : j = i
      · subst hji
        rw [hp0] at hq
        cases hq
        obtain ⟨p, hp, hs⟩ := i4 j _ hset
        exact ⟨p, hp, hs⟩
      · exact i4 j q (by rw [set_fd_get?_ne pipe i j _ _ hji]; exact hq)
    · intro j h1 h2
      by_cases hji : j = i
      · subst hji
        refine ⟨_, (i3 j (by omega)).trans hset, ?_, ?_, ?_⟩
        · exact i2 _ _ s1
        · exact i2 _ _ s2
        · exact s4
      · obtain ⟨p, hp, hr, hw, hz⟩ := i5 j (by omega) (by omega)
        refine ⟨p, hp, hr, hw, ?_⟩
        intro h0
        apply hz
        cases h : t.get 0 with
        | none => exact absurd h h0
        | some f => rw [s3 0 f h]; simp

theorem mydup2_spec (t : FdTable) (oldfd newfd : Int) (f : File) (h : t.get oldfd = some f)
    (hn : 0 ≤ newfd) :
    ∃ t1, mydup2 t oldfd newfd = some t1 ∧ t1.get newfd = some f ∧
      ∀ fd, fd ≠ newfd → t1.get fd = t.get fd := by
  unfold mydup2
  rw [h]
  have hn2 : ¬ newfd < 0 := by omega
  by_cases he : oldfd = newfd
  · refine ⟨t, by simp [hn2, he], by rw [← he]; exact h, fun _ _ => rfl⟩
  · refine ⟨t.put newfd.toNat (some f), by simp [hn2, he], ?_, ?_⟩
    · rw [get_put]
      have : newfd = (newfd.toNat : Int) := by omega
      rw [if_pos this]
    · intro fd hfd
      rw [get_put]
      have : ¬ fd = (newfd.toNat : Int) := by omega
      rw [if_neg this]

/-- C10. For every pipeline of n ≥ 1 stages and every stage index i < n, in a
    process whose standard input is open and whose client socket is another
    descriptor: after `init_pipesfd` has made the pipes, the rewiring of
    `do_dup2_command` succeeds and makes the standard output of the stage the
    write end of pipe i when i < n-1 and the client socket when i = n-1, and,
    when i > 0, makes its standard input the read end of pipe i-1. -/
theorem do_dup2_command_wiring (t0 : FdTable) (pipe0 : List Pipeline) (sockfd : Int)
    (n i : Nat) (hn : 1 ≤ n) (hlen : pipe0.length = MAX_NUM_ARGS) (hn16 : n ≤ MAX_NUM_ARGS)
    (hi : i < n) (hsock : ∀ p ∈ pipe0, p.sockfd = sockfd)
    (hin : t0.get sys_stdin ≠ none) (hs : t0.get sockfd = some File.socket)
    (hs0 : sockfd ≠ sys_stdin) :
    ∃ t1, do_dup2_command (init_pipesfd pipe0 n t0).1 n i (init_pipesfd pipe0 n t0).2 = some t1 ∧
      t1.get sys_stdout = (if i < n - 1 then some (File.pipe_write i) else some File.socket) ∧
      (0 < i → t1.get sys_stdin = some (File.pipe_read (i - 1))) := by
  have h16 : MAX_NUM_ARGS = 16 := rfl
  obtain ⟨_, f2, _, f4, f5⟩ := init_pipesfd_loop_spec n 0 pipe0 t0 (by omega)
  have hwrap : (n + 2 ^ 64 - 1) % 2 ^ 64 = n - 1 := by omega
  unfold init_pipesfd
  unfold do_dup2_command
  rw [hwrap]
  -- the standard input
  have step1 : ∃ t1, (if i ≠ 0 then
        dup2_not_first_command (init_pipesfd.loop n 0 pipe0 t0).1 i
          (init_pipesfd.loop n 0 pipe0 t0).2
      else some (init_pipesfd.loop n 0 pipe0 t0).2) = some t1 ∧
      (0 < i → t1.get sys_stdin = some (File.pipe_read (i - 1))) ∧
      (∀ fd, fd ≠ sys_stdin → t1.get fd = (init_pipesfd.loop n 0 pipe0 t0).2.get fd) ∧
      (i = 0 → t1 = (init_pipesfd.loop n 0 pipe0 t0).2) := by
    by_cases h0 : i = 0
    · subst h0
      exact ⟨_, by simp, fun h => absurd h (lt_irrefl 0), fun _ _ => rfl, fun _ => rfl⟩
    · obtain ⟨q, hq, hqr, _, _⟩ := f5 (i - 1) (Nat.zero_le _) (by omega)
      obtain ⟨t1, d1, d2, d3⟩ := mydup2_spec _ q.fd_read sys_stdin _ hqr (le_refl _)
      refine ⟨t1, ?_, fun _ => d2, d3, fun h => absurd h h0⟩
      simp only [h0, ne_eq, not_false_eq_true, if_true, dup2_not_first_command, hq, d1]
  obtain ⟨t1, e1, e2, e3, e4⟩ := step1
  rw [e1]
  simp only []
  have hout : sys_stdout ≠ sys_stdin := by decide
  by_cases hlast : i < n - 1
  · -- a stage before the last one writes into its pipe
    obtain ⟨p, hp, _, hpw, hpz⟩ := f5 i (Nat.zero_le _) (by omega)
    have hsrc : t1.get p.fd_write = some (File.pipe_write i) := by
      rw [e3 _ (hpz hin)]; exact hpw
    obtain ⟨t2, d1, d2, d3⟩ := mydup2_spec t1 p.fd_write sys_stdout _ hsrc (by decide)
    refine ⟨t2, ?_, ?_, ?_⟩
    · simp only [hlast, if_true, dup2_not_last_command, hp, d1]
    · rw [if_pos hlast]; exact d2
    · intro h
      rw [d3 _ (Ne.symm hout)]
      exact e2 h
  · -- the last stage writes to the client socket
    obtain ⟨p0, hp0⟩ : ∃ p0, pipe0.get? i = some p0 := by
      have : i < pipe0.length := by omega
      exact ⟨pipe0.get ⟨i, this⟩, List.get?_eq_get this⟩
    obtain ⟨p, hp, hps⟩ := f4 i p0 hp0
    have hps2 : p.sockfd = sockfd := by
      rw [hps]; exact hsock p0 (List.get?_mem hp0)
    have hsrc : t1.get p.sockfd = some File.socket := by
      rw [hps2, e3 _ hs0]; exact f2 _ _ hs
    obtain ⟨t2, d1, d2, d3⟩ := mydup2_spec t1 p.sockfd sys_stdout _ hsrc (by decide)
    refine ⟨t2, ?_, ?_, ?_⟩
    · simp only [hlast, if_false, dup2_last_command, hp, d1]
    · rw [if_neg hlast]; exact d2
    · intro h
      rw [d3 _ (Ne.symm hout)]
      exact e2 h

/-- Witness for C10: stage 1 of a pipeline of three stages in a worker with its
    standard descriptors open and the client socket on descriptor 4; its output
    is the write end of pipe 1 and its input the read end of pipe 0. -/
theorem do_dup2_command_wiring_witness :
    (∃ t1, do_dup2_command (init_pipesfd (init_pipelines 4) 3 example_fds).1 3 1
        (init_pipesfd (init_pipelines 4) 3 example_fds).2 = some t1 ∧
      t1.get sys_stdout = (if 1 < 3 - 1 then some (File.pipe_write 1) else some File.socket) ∧
      (0 < 1 → t1.get sys_stdin = some (File.pipe_read (1 - 1)))) ∧
    (do_dup2_command (init_pipesfd (init_pipelines 4) 3 example_fds).1 3 2
        (init_pipesfd (init_pipelines 4) 3 example_fds).2).map
      (fun t => (t.get sys_stdin, t.get sys_stdout)) =
      some (some (File.pipe_read 1), some File.socket) :=
  ⟨do_dup2_command_wiring example_fds (init_pipelines 4) 4 3 1 (by decide) (by decide)
      (by decide) (by decide) (by decide) (by decide) (by decide) (by decide),
   by decide⟩

/-! ### C11, C12: the descriptors of the processes of a pipeline -/

theorem close_get (t : FdTable) (fd x : Int) :
    (t.close fd).get x = if x = fd then none else t.get x := by
  unfold FdTable.close
  by_cases h : t.get fd = none
  · rw [if_pos h]
    by_cases hx : x = fd
    · rw [if_pos hx, hx, h]
    · rw [if_neg hx]
  · rw [if_neg h, get_put]
    have hfd : 0 ≤ fd := by
      by_contra hneg
      apply h
      unfold FdTable.get
      rw [if_pos (by omega)]
    have : (x = ((fd.toNat : Nat) : Int)) ↔ x = fd := by omega
    by_cases hx : x = fd
    · rw [if_pos (this.mpr hx), if_pos hx]
    · rw [if_neg (fun h1 => hx (this.mp h1)), if_neg hx]

theorem myclose_open (t : FdTable) (fd : Int) (h : t.get fd ≠ none) :
    myclose t fd = some (t.close fd) := by
  unfold myclose
  rw [if_neg h]

/-- The loop of `close_pipes` on a table in which the two descriptors of every
    stage it visits refer to the two ends of the pipe of that stage: it closes
    them all and nothing else. -/
theorem close_pipes_loop_spec (pipe : List Pipeline) (k : Nat) :
    ∀ (j : Nat) (t : FdTable),
      (∀ m, j ≤ m → m < j + k → ∃ p, pipe.get? m = some p ∧
        t.get p.fd_read = some (File.pipe_read m) ∧
        t.get p.fd_write = some (File.pipe_write m)) →
      ∃ t1, close_pipes.loop pipe k j t = some t1 ∧
        (∀ m p, j ≤ m → m < j + k → pipe.get? m = some p →
          t1.get p.fd_read = none ∧ t1.get p.fd_write = none) ∧
        (∀ fd, (∀ m p, j ≤ m → m < j + k → pipe.get? m = some p →
          fd ≠ p.fd_read ∧ fd ≠ p.fd_write) → t1.get fd = t.get fd) ∧
        (∀ fd, t1.get fd = none ∨ t1.get fd = t.get fd) := by
  induction k with
  | zero =>
    intro j t _
    refine ⟨t, rfl, ?_, fun _ _ => rfl, fun _ => Or.inr rfl⟩
    intro m p h1 h2
    omega
  | succ k ih =>
    intro j t h
    obtain ⟨p, hp, hr, hw⟩ := h j (le_refl _) (by omega)
    have c1 : myclose t p.fd_read = some (t.close p.fd_read) :=
      myclose_open _ _ (by rw [hr]; simp)
    have hne : p.fd_write ≠ p.fd_read := by
      intro e
      rw [e, hr] at hw
      cases hw
    have hw1 : (t.close p.fd_read).get p.fd_write = some (File.pipe_write j) := by
      rw [close_get, if_neg hne, hw]
    have c2 : myclose (t.close p.fd_read) p.fd_write =
        some ((t.close p.fd_read).close p.fd_write) :=
      myclose_open _ _ (by rw [hw1]; simp)
    have hrest : ∀ m, j + 1 ≤ m → m < j + 1 + k → ∃ q, pipe.get? m = some q ∧
        ((t.close p.fd_read).close p.fd_write).get q.fd_read = some (File.pipe_read m) ∧
        ((t.close p.fd_read).close p.fd_write).get q.fd_write = some (File.pipe_write m) := by
      intro m h1 h2
      obtain ⟨q, hq, qr, qw⟩ := h m (by omega) (by omega)
      have hmj : m ≠ j := by omega
      have n1 : q.fd_read ≠ p.fd_read := by
        intro e; rw [e, hr] at qr; injection qr with e2; injection e2 with e3; exact hmj e3.symm
      have n2 : q.fd_read ≠ p.fd_write := by
        intro e; rw [e, hw] at qr; cases qr
      have n3 : q.fd_write ≠ p.fd_read := by
        intro e; rw [e, hr] at qw; cases qw
      have n4 : q.fd_write ≠ p.fd_write := by
        intro e; rw [e, hw] at qw; injection qw with e2; injection e2 with e3; exact hmj e3.symm
      refine ⟨q, hq, ?_, ?_⟩
      · rw [close_get, if_neg n2, close_get, if_neg n1, qr]
      · rw [close_get, if_neg n4, close_get, if_neg n3, qw]
    obtain ⟨t1, e1, a1, a2, a3⟩ := ih (j + 1) _ hrest
    refine ⟨t1, ?_, ?_, ?_, ?_⟩
    · simp only [close_pipes.loop, hp, c1, c2]
      exact e1
    · intro m q h1 h2 hq
      by_cases hmj : m = j
      · subst hmj
        rw [hp] at hq
        cases hq
        have b1 : ((t.close p.fd_read).close p.fd_write).get p.fd_read = none := by
          rw [close_get, if_neg hne.symm, close_get, if_pos rfl]
        have b2 : ((t.close p.fd_read).close p.fd_write).get p.fd_write = none := by
          rw [close_get, if_pos rfl]
        constructor
        · rcases a3 p.fd_read with x | x
          · exact x
          · rw [x, b1]
        · rcases a3 p.fd_write with x | x
          · exact x
          · rw [x, b2]
      · exact a1 m q (by omega) (by omega) hq
    · intro fd hfd
      obtain ⟨f1, f2⟩ := hfd j p (le_refl _) (by omega) hp
      rw [a2 fd (fun m q h1 h2 hq => hfd m q (by omega) (by omega) hq)]
      rw [close_get, if_neg f2, close_get, if_neg f1]
    · intro fd
      rcases a3 fd with x | x
      · exact Or.inl x
      · rw [x, close_get]
        by_cases g1 : fd = p.fd_write
        · left; rw [if_pos g1]
        · rw [if_neg g1, close_get]
          by_cases g2 : fd = p.fd_read
          · left; rw [if_pos g2]
          · right; rw [if_neg g2]

theorem sys_pipe_fresh (t : FdTable) (k : Nat) :
    t.get ((sys_pipe t k).1 : Int) = none ∧ t.get ((sys_pipe t k).2.1 : Int) = none ∧
    ∀ fd, fd ≠ ((sys_pipe t k).1 : Int) → fd ≠ ((sys_pipe t k).2.1 : Int) →
      (sys_pipe t k).2.2.get fd = t.get fd := by
  have hr := get_lowest_free t
  have hw := get_lowest_free (t.put t.lowest_free (some (File.pipe_read k)))
  refine ⟨hr, ?_, ?_⟩
  · show t.get ((t.put t.lowest_free (some (File.pipe_read k))).lowest_free : Int) = none
    rw [get_put] at hw
    by_cases e : ((t.put t.lowest_free (some (File.pipe_read k))).lowest_free : Int) =
        (t.lowest_free : Int)
    · rw [if_pos e] at hw
      cases hw
    · rw [if_neg e] at hw
      exact hw
  · intro fd h1 h2
    have h1 : fd ≠ (t.lowest_free : Int) := h1
    have h2 : fd ≠ ((t.put t.lowest_free (some (File.pipe_read k))).lowest_free : Int) := h2
    show ((t.put t.lowest_free (some (File.pipe_read k))).put
      (t.put t.lowest_free (some (File.pipe_read k))).lowest_free
      (some (File.pipe_write k))).get fd = t.get fd
    rw [get_put, if_neg h2, get_put, if_neg h1]

/-- The descriptors `init_pipesfd` stores were not open before, and every
    descriptor it opens is stored. -/
theorem init_pipesfd_loop_fresh (k : Nat) :
    ∀ (i : Nat) (pipe : List Pipeline) (t : FdTable), i + k ≤ pipe.length →
      (∀ j, i ≤ j → j < i + k →
        ∃ p, (init_pipesfd.loop k i pipe t).1.get? j = some p ∧
          t.get p.fd_read = none ∧ t.get p.fd_write = none) ∧
      (∀ fd, (init_pipesfd.loop k i pipe t).2.get fd = t.get fd ∨
        ∃ j p, i ≤ j ∧ j < i + k ∧ (init_pipesfd.loop k i pipe t).1.get? j = some p ∧
          (fd = p.fd_read ∨ fd = p.fd_write)) := by
  induction k with
  | zero =>
    intro i pipe t _
    refine ⟨?_, fun fd => Or.inl rfl⟩
    intro j h1 h2
    omega
  | succ k ih =>
    intro i pipe t hlen
    obtain ⟨r1, r2, r3⟩ := sys_pipe_fresh t i
    obtain ⟨_, _, s3, _⟩ := sys_pipe_spec t i
    have hlen1 := set_fd_length pipe i ((sys_pipe t i).1 : Nat) ((sys_pipe t i).2.1 : Nat)
    obtain ⟨p0, hp0⟩ : ∃ p0, pipe.get? i = some p0 := by
      have : i < pipe.length := by omega
      exact ⟨pipe.get ⟨i, this⟩, List.get?_eq_get this⟩
    have hset := set_fd_get?_eq pipe i ((sys_pipe t i).1 : Nat) ((sys_pipe t i).2.1 : Nat) p0 hp0
    obtain ⟨_, _, i3, _, _⟩ := init_pipesfd_loop_spec k (i + 1)
      (set_fd pipe i ((sys_pipe t i).1 : Nat) ((sys_pipe t i).2.1 : Nat)) (sys_pipe t i).2.2
      (by rw [hlen1]; omega)
    obtain ⟨a1, a2⟩ := ih (i + 1)
      (set_fd pipe i ((sys_pipe t i).1 : Nat) ((sys_pipe t i).2.1 : Nat)) (sys_pipe t i).2.2
      (by rw [hlen1]; omega)
    have hnone : ∀ fd, (sys_pipe t i).2.2.get fd = none → t.get fd = none := by
      intro fd h
      cases e : t.get fd with
      | none => rfl
      | some f => rw [s3 fd f e] at h; cases h
    simp only [init_pipesfd.loop]
    have hi := (i3 i (by omega)).trans hset
    refine ⟨?_, ?_⟩
    · intro j h1 h2
      by_cases hji : j = i
      · subst hji
        exact ⟨_, hi, r1, r2⟩
      · obtain ⟨p, hp, b1, b2⟩ := a1 j (by omega) (by omega)
        exact ⟨p, hp, hnone _ b1, hnone _ b2⟩
    · intro fd
      rcases a2 fd with x | ⟨j, p, h1, h2, hp, hfd⟩
      · by_cases g1 : fd = ((sys_pipe t i).1 : Int)
        · right
          exact ⟨i, _, le_refl _, by omega, hi, Or.inl g1⟩
        · by_cases g2 : fd = ((sys_pipe t i).2.1 : Int)
          · right
            exact ⟨i, _, le_refl _, by omega, hi, Or.inr g2⟩
          · left
            rw [x]
            exact r3 fd g1 g2
      · right
        exact ⟨j, p, by omega, by omega, hp, hfd⟩

/-- What `do_dup2_command` does for stage `i` on a table in which the stored
    descriptors of every stage refer to the ends of its pipe and are not
    descriptor 0: descriptors 0 and 1 are set, the others stay. -/
theorem do_dup2_command_frame (pipe : List Pipeline) (n i : Nat) (t : FdTable) (sockfd : Int)
    (hn : n ≤ MAX_NUM_ARGS) (hi : i < n)
    (hlab : ∀ m, m < n → ∃ p, pipe.get? m = some p ∧
      t.get p.fd_read = some (File.pipe_read m) ∧
      t.get p.fd_write = some (File.pipe_write m) ∧
      p.fd_write ≠ sys_stdin ∧ p.sockfd = sockfd)
    (hs : t.get sockfd = some File.socket) (hs0 : sockfd ≠ sys_stdin) :
    ∃ t2, do_dup2_command pipe n i t = some t2 ∧
      t2.get sys_stdin = (if 0 < i then some (File.pipe_read (i - 1)) else t.get sys_stdin) ∧
      t2.get sys_stdout = (if i < n - 1 then some (File.pipe_write i) else some File.socket) ∧
      ∀ fd, fd ≠ sys_stdin → fd ≠ sys_stdout → t2.get fd = t.get fd := by
  have h16 : MAX_NUM_ARGS = 16 := rfl
  have hwrap : (n + 2 ^ 64 - 1) % 2 ^ 64 = n - 1 := by omega
  unfold do_dup2_command
  rw [hwrap]
  have step1 : ∃ t1, (if i ≠ 0 then dup2_not_first_command pipe i t else some t) = some t1 ∧
      t1.get sys_stdin = (if 0 < i then some (File.pipe_read (i - 1)) else t.get sys_stdin) ∧
      (∀ fd, fd ≠ sys_stdin → t1.get fd = t.get fd) := by
    by_cases h0 : i = 0
    · subst h0
      exact ⟨t, by simp, by simp, fun _ _ => rfl⟩
    · obtain ⟨q, hq, hqr, _, _, _⟩ := hlab (i - 1) (by omega)
      obtain ⟨t1, d1, d2, d3⟩ := mydup2_spec _ q.fd_read sys_stdin _ hqr (le_refl _)
      refine ⟨t1, ?_, ?_, d3⟩
      · simp only [h0, ne_eq, not_false_eq_true, if_true, dup2_not_first_command, hq, d1]
      · rw [if_pos (by omega)]; exact d2
  obtain ⟨t1, e1, e2, e3⟩ := step1
  rw [e1]
  simp only []
  have hout : sys_stdout ≠ sys_stdin := by decide
  obtain ⟨p, hp, _, hpw, hpz, hps⟩ := hlab i hi
  by_cases hlast : i < n - 1
  · have hsrc : t1.get p.fd_write = some (File.pipe_write i) := by
      rw [e3 _ hpz]; exact hpw
    obtain ⟨t2, d1, d2, d3⟩ := mydup2_spec t1 p.fd_write sys_stdout _ hsrc (by decide)
    refine ⟨t2, ?_, ?_, ?_, ?_⟩
    · simp only [hlast, if_true, dup2_not_last_command, hp, d1]
    · rw [d3 _ (Ne.symm hout)]; exact e2
    · rw [if_pos hlast]; exact d2
    · intro fd f0 f1
      rw [d3 fd f1, e3 fd f0]
  · have hsrc : t1.get p.sockfd = some File.socket := by
      rw [hps, e3 _ hs0]; exact hs
    obtain ⟨t2, d1, d2, d3⟩ := mydup2_spec t1 p.sockfd sys_stdout _ hsrc (by decide)
    refine ⟨t2, ?_, ?_, ?_, ?_⟩
    · simp only [hlast, if_false, dup2_last_command, hp, d1]
    · rw [d3 _ (Ne.symm hout)]; exact e2
    · rw [if_neg hlast]; exact d2
    · intro fd f0 f1
      rw [d3 fd f1, e3 fd f0]

/-- The `argv` arrays of the stages are not touched by `init_pipesfd`. -/
theorem init_pipesfd_loop_argv (k : Nat) :
    ∀ (i : Nat) (pipe : List Pipeline) (t : FdTable) (j : Nat),
      stage_argv (init_pipesfd.loop k i pipe t).1 j = stage_argv pipe j := by
  induction k with
  | zero => intro i pipe t j; rfl
  | succ k ih =>
    intro i pipe t j
    simp only [init_pipesfd.loop]
    rw [ih]
    unfold stage_argv set_fd
    cases h : pipe.get? i with
    | none => rfl
    | some p =>
      simp only []
      by_cases hji : j = i
      · subst hji
        have hlt : j < pipe.length := by
          rw [List.get?_eq_some] at h
          exact h.1
        simp [List.getElem?_set, hlt]
        rw [List.get?_eq_getElem?, List.getElem?_eq_getElem hlt] at h
        cases h
        rfl
      · have : ∀ q : Pipeline, (pipe.set i q).get? j = pipe.get? j := by
          intro q
          simp [List.getElem?_set, Ne.symm hji]
        rw [this]

/-- The labels, the freshness and the socket of the stages after
    `init_pipesfd`, in a worker whose standard input and output are open. -/
theorem init_pipesfd_labels (t0 : FdTable) (pipe0 : List Pipeline) (sockfd : Int) (n : Nat)
    (hlen : pipe0.length = MAX_NUM_ARGS) (hn16 : n ≤ MAX_NUM_ARGS)
    (hsock : ∀ p ∈ pipe0, p.sockfd = sockfd)
    (hin : t0.get sys_stdin ≠ none) (hout : t0.get sys_stdout ≠ none) :
    ∀ m, m < n → ∃ p, (init_pipesfd pipe0 n t0).1.get? m = some p ∧
      (init_pipesfd pipe0 n t0).2.get p.fd_read = some (File.pipe_read m) ∧
      (init_pipesfd pipe0 n t0).2.get p.fd_write = some (File.pipe_write m) ∧
      p.sockfd = sockfd ∧ t0.get p.fd_read = none ∧ t0.get p.fd_write = none ∧
      p.fd_read ≠ sys_stdin ∧ p.fd_write ≠ sys_stdin ∧
      p.fd_read ≠ sys_stdout ∧ p.fd_write ≠ sys_stdout := by
  intro m hm
  obtain ⟨_, _, _, f4, f5⟩ := init_pipesfd_loop_spec n 0 pipe0 t0 (by omega)
  obtain ⟨g1, _⟩ := init_pipesfd_loop_fresh n 0 pipe0 t0 (by omega)
  obtain ⟨p, hp, hr, hw, _⟩ := f5 m (Nat.zero_le _) (by omega)
  obtain ⟨p1, hp1, b1, b2⟩ := g1 m (Nat.zero_le _) (by omega)
  rw [hp] at hp1
  cases hp1
  obtain ⟨p0, hp0⟩ : ∃ p0, pipe0.get? m = some p0 := by
    have : m < pipe0.length := by omega
    exact ⟨pipe0.get ⟨m, this⟩, List.get?_eq_get this⟩
  obtain ⟨p2, hp2, hps⟩ := f4 m p0 hp0
  rw [hp] at hp2
  cases hp2
  refine ⟨p, hp, hr, hw, ?_, b1, b2, ?_, ?_, ?_, ?_⟩
  · rw [hps]; exact hsock p0 (List.get?_mem hp0)
  · intro e; rw [e] at b1; exact hin b1
  · intro e; rw [e] at b2; exact hin b2
  · intro e; rw [e] at b1; exact hout b1
  · intro e; rw [e] at b2; exact hout b2

theorem or_exit_some {α : Type} (msg : List Byte) (a : α) (s : Sys) :
    or_exit msg (some a) s = Outcome.ret a s := rfl

/-- The descriptors of the child made for stage `i` when `dup2_and_close`
    returns: those of the worker before the pipes were made, with the standard
    input and output rewired and the client socket closed. -/
theorem dup2_and_close_child (t0 : FdTable) (pipe0 : List Pipeline) (sockfd : Int)
    (n i : Nat) (s : Sys) (hlen : pipe0.length = MAX_NUM_ARGS) (hn16 : n ≤ MAX_NUM_ARGS)
    (hi : i < n) (hsock : ∀ p ∈ pipe0, p.sockfd = sockfd)
    (hin : t0.get sys_stdin ≠ none) (hout : t0.get sys_stdout ≠ none)
    (hs : t0.get sockfd = some File.socket)
    (hs0 : sockfd ≠ sys_stdin) (hs1 : sockfd ≠ sys_stdout) :
    ∃ t, dup2_and_close (init_pipesfd pipe0 n t0).1 n i (init_pipesfd pipe0 n t0).2 s =
        Outcome.ret t s ∧
      t.get sys_stdin = (if 0 < i then some (File.pipe_read (i - 1)) else t0.get sys_stdin) ∧
      t.get sys_stdout = (if i < n - 1 then some (File.pipe_write i) else some File.socket) ∧
      ∀ fd, fd ≠ sys_stdin → fd ≠ sys_stdout →
        t.get fd = if fd = sockfd then none else t0.get fd := by
  have lab := init_pipesfd_labels t0 pipe0 sockfd n hlen hn16 hsock hin hout
  obtain ⟨_, f2, _, _, _⟩ := init_pipesfd_loop_spec n 0 pipe0 t0 (by omega)
  obtain ⟨_, g2⟩ := init_pipesfd_loop_fresh n 0 pipe0 t0 (by omega)
  have hs1t : (init_pipesfd pipe0 n t0).2.get sockfd = some File.socket := f2 _ _ hs
  have h0 : (init_pipesfd pipe0 n t0).2.get sys_stdin = t0.get sys_stdin := by
    cases e : t0.get sys_stdin with
    | none => exact absurd e hin
    | some f => exact f2 _ _ e
  obtain ⟨t2, d1, d2, d3, d4⟩ := do_dup2_command_frame (init_pipesfd pipe0 n t0).1 n i
    (init_pipesfd pipe0 n t0).2 sockfd hn16 hi
    (fun m hm => by
      obtain ⟨p, hp, a, b, c, _, _, _, e, _, _⟩ := lab m hm
      exact ⟨p, hp, a, b, e, c⟩) hs1t hs0
  obtain ⟨t3, c1, c2, c3, _⟩ := close_pipes_loop_spec (init_pipesfd pipe0 n t0).1 n 0 t2
    (fun m _ hm => by
      obtain ⟨p, hp, a, b, _, _, _, e1, e2, e3, e4⟩ := lab m (by omega)
      exact ⟨p, hp, by rw [d4 _ e1 e3]; exact a, by rw [d4 _ e2 e4]; exact b⟩)
  obtain ⟨pi, hpi, _, _, hps, _⟩ := lab i hi
  have hstd : ∀ fd, (fd = sys_stdin ∨ fd = sys_stdout) → t3.get fd = t2.get fd := by
    intro fd hfd
    apply c3
    intro m p _ hm hp
    obtain ⟨q, hq, _, _, _, _, _, e1, e2, e3, e4⟩ := lab m (by omega)
    rw [hp] at hq
    cases hq
    rcases hfd with x | x
    · rw [x]; exact ⟨Ne.symm e1, Ne.symm e2⟩
    · rw [x]; exact ⟨Ne.symm e3, Ne.symm e4⟩
  refine ⟨t3.close sockfd, ?_, ?_, ?_, ?_⟩
  · unfold dup2_and_close
    show ((or_exit (ascii "dup2() error\n") (do_dup2_command _ n i _)).bind _) s = _
    unfold Run.bind
    rw [d1, or_exit_some]
    simp only []
    show ((or_exit (ascii "close() error\n") (close_pipes _ n t2)).bind _) s = _
    unfold Run.bind close_pipes
    rw [c1, or_exit_some]
    simp only [hpi, hps]
    rfl
  · rw [close_get, if_neg (Ne.symm hs0), hstd _ (Or.inl rfl), d2]
    by_cases hi0 : 0 < i
    · rw [if_pos hi0, if_pos hi0]
    · rw [if_neg hi0, if_neg hi0, h0]
  · rw [close_get, if_neg (Ne.symm hs1), hstd _ (Or.inr rfl), d3]
  · intro fd f0 f1
    rw [close_get]
    by_cases hfs : fd = sockfd
    · rw [if_pos hfs, if_pos hfs]
    · rw [if_neg hfs, if_neg hfs]
      rcases g2 fd with x | ⟨m, p, _, hm, hp, hfd⟩
      · by_cases hrec : ∀ m p, 0 ≤ m → m < 0 + n →
            (init_pipesfd pipe0 n t0).1.get? m = some p → fd ≠ p.fd_read ∧ fd ≠ p.fd_write
        · rw [c3 fd hrec, d4 fd f0 f1]
          exact x
        · have hex : ∃ m p, m < n ∧ (init_pipesfd pipe0 n t0).1.get? m = some p ∧
              (fd = p.fd_read ∨ fd = p.fd_write) := by
            by_contra hno
            apply hrec
            intro m p _ hm hp
            constructor
            · intro e; exact hno ⟨m, p, by omega, hp, Or.inl e⟩
            · intro e; exact hno ⟨m, p, by omega, hp, Or.inr e⟩
          obtain ⟨m, p, hm, hp, hfd⟩ := hex
          obtain ⟨q, hq, _, _, _, b1, b2, _⟩ := lab m hm
          rw [hp] at hq
          cases hq
          obtain ⟨k1, k2⟩ := c2 m p (Nat.zero_le _) (by omega) hp
          rcases hfd with e | e
          · rw [e, k1, b1]
          · rw [e, k2, b2]
      · obtain ⟨q, hq, _, _, _, b1, b2, _⟩ := lab m (by omega)
        have hp1 : (init_pipesfd pipe0 n t0).1.get? m = some p := hp
        rw [hp1] at hq
        cases hq
        obtain ⟨k1, k2⟩ := c2 m p (Nat.zero_le _) (by omega) hp1
        rcases hfd with e | e
        · rw [e, k1, b1]
        · rw [e, k2, b2]

/-- The descriptors of the parent when `close_pipes` is done: those it had
    before the pipes were made. -/
theorem close_pipes_parent (t0 : FdTable) (pipe0 : List Pipeline) (sockfd : Int) (n : Nat)
    (hlen : pipe0.length = MAX_NUM_ARGS) (hn16 : n ≤ MAX_NUM_ARGS)
    (hsock : ∀ p ∈ pipe0, p.sockfd = sockfd)
    (hin : t0.get sys_stdin ≠ none) (hout : t0.get sys_stdout ≠ none) :
    ∃ t, close_pipes (init_pipesfd pipe0 n t0).1 n (init_pipesfd pipe0 n t0).2 = some t ∧
      (∀ fd, t.get fd = t0.get fd) ∧
      (∀ m p, m < n → (init_pipesfd pipe0 n t0).1.get? m = some p →
        t.get p.fd_read = none ∧ t.get p.fd_write = none) := by
  have lab := init_pipesfd_labels t0 pipe0 sockfd n hlen hn16 hsock hin hout
  obtain ⟨_, g2⟩ := init_pipesfd_loop_fresh n 0 pipe0 t0 (by omega)
  obtain ⟨t3, c1, c2, c3, _⟩ := close_pipes_loop_spec (init_pipesfd pipe0 n t0).1 n 0
    (init_pipesfd pipe0 n t0).2
    (fun m _ hm => by
      obtain ⟨p, hp, a, b, _⟩ := lab m (by omega)
      exact ⟨p, hp, a, b⟩)
  refine ⟨t3, c1, ?_, fun m p hm hp => c2 m p (Nat.zero_le _) (by omega) hp⟩
  intro fd
  have hrecd : ∀ m p, m < n → (init_pipesfd pipe0 n t0).1.get? m = some p →
      (fd = p.fd_read ∨ fd = p.fd_write) → t3.get fd = t0.get fd := by
    intro m p hm hp hfd
    obtain ⟨q, hq, _, _, _, b1, b2, _⟩ := lab m hm
    rw [hp] at hq
    cases hq
    obtain ⟨k1, k2⟩ := c2 m p (Nat.zero_le _) (by omega) hp
    rcases hfd with e | e
    · rw [e, k1, b1]
    · rw [e, k2, b2]
  rcases g2 fd with x | ⟨m, p, _, hm, hp, hfd⟩
  · by_cases hrec : ∀ m p, 0 ≤ m → m < 0 + n →
        (init_pipesfd pipe0 n t0).1.get? m = some p → fd ≠ p.fd_read ∧ fd ≠ p.fd_write
    · rw [c3 fd hrec]
      exact x
    · have hex : ∃ m p, m < n ∧ (init_pipesfd pipe0 n t0).1.get? m = some p ∧
          (fd = p.fd_read ∨ fd = p.fd_write) := by
        by_contra hno
        apply hrec
        intro m p _ hm hp
        constructor
        · intro e; exact hno ⟨m, p, by omega, hp, Or.inl e⟩
        · intro e; exact hno ⟨m, p, by omega, hp, Or.inr e⟩
      obtain ⟨m, p, hm, hp, hfd⟩ := hex
      exact hrecd m p hm hp hfd
  · exact hrecd m p (by omega) hp hfd

theorem pipe_free_get (t : FdTable) (h : t.pipe_free = true) (fd : Int) (f : File)
    (hf : t.get fd = some f) : f.is_pipe = false := by
  unfold FdTable.get at hf
  by_cases hneg : fd < 0
  · rw [if_pos hneg] at hf; cases hf
  · rw [if_neg hneg] at hf
    have hmem : some f ∈ t := by
      rw [List.getD_eq_getElem?_getD] at hf
      cases e : t[fd.toNat]? with
      | none => rw [e] at hf; cases hf
      | some x =>
        rw [e] at hf
        simp only [Option.getD_some] at hf
        rw [hf] at e
        exact List.getElem?_mem e
    unfold FdTable.pipe_free at h
    rw [List.all_eq_true] at h
    have := h _ hmem
    simpa using this

theorem myfork_ok (pid : Int) (s : Sys) (h : pid ≠ -1) : myfork pid s = Outcome.ret pid s := by
  unfold myfork
  rw [if_neg h]
  rfl

/-- What `myfork` does when `fork()` fails: the message and `_exit(1)`. -/
theorem myfork_failed (s : Sys) :
    myfork (-1) s = Outcome.exit 1
      { s with output := s.output ++ tagged sys_stderr (ascii "fork() error") } := by
  rfl

theorem mystrcat_usr_bin (name : List Byte) :
    myexecve.command name = ascii "/usr/bin/" ++ cstr name := by
  have h : cstr (cstr (ascii "/usr/bin/")) = ascii "/usr/bin/" := by decide
  unfold myexecve.command mystrcat mystrcpy
  rw [h]

/-- In the parent the loop that makes the children ends and does nothing else. -/
theorem spawn_parent (forks : Nat → Int) (can_exec : List Byte → Bool) (pipe : List Pipeline)
    (npipes : Nat) (t : FdTable) (s : Sys) (hf : ∀ j, forks j ≠ 0 ∧ forks j ≠ -1) (k : Nat) :
    ∀ i, run_pipeline.spawn forks can_exec pipe npipes t k i s = Outcome.ret none s := by
  induction k with
  | zero => intro i; rfl
  | succ k ih =>
    intro i
    unfold run_pipeline.spawn
    simp only [Run.bind_apply, myfork_ok _ _ (hf i).2, (hf i).1, if_false]
    exact ih (i + 1)

/-- In the child made in round `i` the loop runs `dup2_and_close` and
    `myexecve` for stage `i`. -/
theorem spawn_child (forks : Nat → Int) (can_exec : List Byte → Bool) (pipe : List Pipeline)
    (npipes : Nat) (t : FdTable) (s : Sys) (i : Nat)
    (hf : ∀ j, j < i → forks j ≠ 0 ∧ forks j ≠ -1) (h0 : forks i = 0) (k : Nat) :
    ∀ i0, i0 ≤ i → i < i0 + k →
      run_pipeline.spawn forks can_exec pipe npipes t k i0 s =
        (do
          let t1 ← dup2_and_close pipe npipes i t
          let e ← myexecve can_exec ((stage_argv pipe i).getD 0 none) (stage_argv pipe i) t1
          pure (some e)) s := by
  induction k with
  | zero => intro i0 h1 h2; omega
  | succ k ih =>
    intro i0 h1 h2
    unfold run_pipeline.spawn
    by_cases e : i0 = i
    · subst e
      have hne : (0 : Int) ≠ -1 := by decide
      simp only [Run.bind_apply, h0, myfork_ok _ _ hne, if_true]
    · have hlt : i0 < i := by omega
      simp only [Run.bind_apply, myfork_ok _ _ (hf i0 hlt).2, (hf i0 hlt).1, if_false]
      exact ih (i0 + 1) (by omega) (by omega)

/-- A process that reaches `execve` does not get to the last loop of
    `run_pipeline`. -/
theorem run_pipeline_exec (forks waits : Nat → Int) (can_exec : List Byte → Bool)
    (pipe : List Pipeline) (n : Nat) (t : FdTable) (s : Sys) (c : List Byte)
    (a : List (Option (List Byte))) (t1 : FdTable) (s1 : Sys)
    (h : run_pipeline.spawned forks can_exec pipe n t s = Outcome.ret (Ended.exec c a t1) s1) :
    run_pipeline forks waits can_exec pipe n t s = Outcome.ret (Ended.exec c a t1) s1 := by
  unfold run_pipeline
  simp only [Run.bind_apply, h]
  rfl

/-- A process that leaves before the last loop of `run_pipeline` leaves
    `run_pipeline` so. -/
theorem run_pipeline_exit (forks waits : Nat → Int) (can_exec : List Byte → Bool)
    (pipe : List Pipeline) (n : Nat) (t : FdTable) (s : Sys) (c : Int) (s1 : Sys)
    (h : run_pipeline.spawned forks can_exec pipe n t s = Outcome.exit c s1) :
    run_pipeline forks waits can_exec pipe n t s = Outcome.exit c s1 := by
  unfold run_pipeline
  simp only [Run.bind_apply, h]

/-- The parent goes on to the last loop of `run_pipeline`. -/
theorem run_pipeline_returned (forks waits : Nat → Int) (can_exec : List Byte → Bool)
    (pipe : List Pipeline) (n : Nat) (t : FdTable) (s : Sys) (t1 : FdTable) (s1 : Sys)
    (h : run_pipeline.spawned forks can_exec pipe n t s = Outcome.ret (Ended.returned t1) s1) :
    run_pipeline forks waits can_exec pipe n t s =
      match run_pipeline.wait waits n 0 s1 with
      | .ret _ s2 => Outcome.ret (Ended.returned t1) s2
      | .exit c s2 => Outcome.exit c s2 := by
  unfold run_pipeline
  simp only [Run.bind_apply, h]
  cases run_pipeline.wait waits n 0 s1 <;> rfl

/-- When every `wait()` gives a child, the last loop of `run_pipeline` ends
    and changes nothing. -/
theorem wait_all (waits : Nat → Int) (s : Sys) (k : Nat) :
    ∀ i, (∀ j, i ≤ j → j < i + k → waits j ≠ -1) →
      run_pipeline.wait waits k i s = Outcome.ret () s := by
  induction k with
  | zero => intro i _; rfl
  | succ k ih =>
    intro i h
    unfold run_pipeline.wait mywait
    have h1 := h i (Nat.le_refl i) (by omega)
    simp only [Run.bind_apply, if_neg h1, Run.pure_apply]
    exact ih (i + 1) (fun j a b => h j (by omega) (by omega))

/-- When a `wait()` fails, the last loop of `run_pipeline` leaves the process
    through `printerr_exit`. -/
theorem wait_failed (waits : Nat → Int) (s : Sys) (k : Nat) :
    ∀ i, (∃ j, i ≤ j ∧ j < i + k ∧ waits j = -1) →
      run_pipeline.wait waits k i s = Outcome.exit 1
        { s with output := s.output ++ tagged sys_stderr (ascii "wait() error\n") } := by
  induction k with
  | zero => intro i ⟨j, a, b, _⟩; omega
  | succ k ih =>
    intro i ⟨j, a, b, c⟩
    unfold run_pipeline.wait mywait
    by_cases h1 : waits i = -1
    · simp only [Run.bind_apply, if_pos h1]
      rfl
    · simp only [Run.bind_apply, if_neg h1, Run.pure_apply]
      have hij : i ≠ j := fun e => h1 (e ▸ c)
      exact ih (i + 1) ⟨j, by omega, by omega, c⟩

/-- The process made for stage `i` of a pipeline: `run_pipeline` ends for it
    in `execve` of `/usr/bin/` followed by the command name, with the
    descriptors `dup2_and_close` leaves. -/
theorem run_pipeline_child (t0 : FdTable) (pipe0 : List Pipeline) (sockfd : Int)
    (n i : Nat) (forks waits : Nat → Int) (can_exec : List Byte → Bool) (name : List Byte)
    (s : Sys)
    (hlen : pipe0.length = MAX_NUM_ARGS) (hn16 : n ≤ MAX_NUM_ARGS)
    (hi : i < n) (hsock : ∀ p ∈ pipe0, p.sockfd = sockfd)
    (hin : t0.get sys_stdin ≠ none) (hout : t0.get sys_stdout ≠ none)
    (hs : t0.get sockfd = some File.socket)
    (hs0 : sockfd ≠ sys_stdin) (hs1 : sockfd ≠ sys_stdout)
    (hf : ∀ j, j < i → forks j ≠ 0 ∧ forks j ≠ -1) (h0 : forks i = 0)
    (hname : (stage_argv pipe0 i).getD 0 none = some name)
    (hx : can_exec (ascii "/usr/bin/" ++ cstr name) = true) :
    ∃ t, run_pipeline forks waits can_exec pipe0 n t0 s =
        Outcome.ret (Ended.exec (ascii "/usr/bin/" ++ cstr name) (stage_argv pipe0 i) t) s ∧
      t.get sys_stdin = (if 0 < i then some (File.pipe_read (i - 1)) else t0.get sys_stdin) ∧
      t.get sys_stdout = (if i < n - 1 then some (File.pipe_write i) else some File.socket) ∧
      ∀ fd, fd ≠ sys_stdin → fd ≠ sys_stdout →
        t.get fd = if fd = sockfd then none else t0.get fd := by
  obtain ⟨t, ht, a1, a2, a3⟩ := dup2_and_close_child t0 pipe0 sockfd n i s hlen hn16 hi hsock
    hin hout hs hs0 hs1
  refine ⟨t, ?_, a1, a2, a3⟩
  have hargv : stage_argv (init_pipesfd pipe0 n t0).1 i = stage_argv pipe0 i :=
    init_pipesfd_loop_argv n 0 pipe0 t0 i
  apply run_pipeline_exec
  unfold run_pipeline.spawned
  simp only [Run.bind_apply]
  rw [spawn_child forks can_exec _ n _ s i hf h0 n 0 (Nat.zero_le _) (by omega)]
  simp only [Run.bind_apply, ht, hargv, hname, myexecve, mystrcat_usr_bin, hx, if_true,
    Run.pure_apply]

/-- C11 (as amended). For every pipeline of n ≥ 1 stages run in a worker whose
    standard input and output are open and whose client socket is another
    descriptor: the process made for stage 0 reaches `execve` of its command,
    and its standard input then refers to what the standard input of the
    worker referred to before the pipeline was run; the rewiring does not touch
    it. -/
theorem run_pipeline_stage0_stdin (t0 : FdTable) (pipe0 : List Pipeline) (sockfd : Int)
    (n : Nat) (forks waits : Nat → Int) (can_exec : List Byte → Bool) (name : List Byte)
    (s : Sys)
    (hn : 1 ≤ n) (hlen : pipe0.length = MAX_NUM_ARGS) (hn16 : n ≤ MAX_NUM_ARGS)
    (hsock : ∀ p ∈ pipe0, p.sockfd = sockfd)
    (hin : t0.get sys_stdin ≠ none) (hout : t0.get sys_stdout ≠ none)
    (hs : t0.get sockfd = some File.socket)
    (hs0 : sockfd ≠ sys_stdin) (hs1 : sockfd ≠ sys_stdout)
    (h0 : forks 0 = 0)
    (hname : (stage_argv pipe0 0).getD 0 none = some name)
    (hx : can_exec (ascii "/usr/bin/" ++ cstr name) = true) :
    ∃ t, run_pipeline forks waits can_exec pipe0 n t0 s =
        Outcome.ret (Ended.exec (ascii "/usr/bin/" ++ cstr name) (stage_argv pipe0 0) t) s ∧
      t.get sys_stdin = t0.get sys_stdin := by
  obtain ⟨t, ht, a1, _, _⟩ := run_pipeline_child t0 pipe0 sockfd n 0 forks waits can_exec name s
    hlen hn16 (by omega) hsock hin hout hs hs0 hs1 (fun j hj => absurd hj (Nat.not_lt_zero j))
    h0 hname hx
  exact ⟨t, ht, by simpa using a1⟩

/-- Witness for C11: stage 0 of a pipeline of two stages in a worker with its
    standard descriptors open and the client socket on descriptor 4. -/
theorem run_pipeline_stage0_stdin_witness :
    ∃ t, run_pipeline (child_forks 0) reaped_waits (fun _ => true) (example_pipe 4) 2
        example_fds (example_sys []) =
        Outcome.ret (Ended.exec (ascii "/usr/bin/" ++ cstr (ascii "cat"))
          (stage_argv (example_pipe 4) 0) t) (example_sys []) ∧
      t.get sys_stdin = example_fds.get sys_stdin :=
  run_pipeline_stage0_stdin example_fds (example_pipe 4) 4 2 (child_forks 0) reaped_waits
    (fun _ => true)
    (ascii "cat") (example_sys []) (by decide) (by decide) (by decide) (by decide) (by decide)
    (by decide) (by decide) (by decide) (by decide) (by decide) (by decide) rfl

/-- C11 as the claim states it fails: in a worker whose standard input is the
    standard input of the server and whose client socket is descriptor 4, the
    process made for stage 0 of a pipeline of two stages runs its command with
    the standard input of the server, not the client socket. -/
theorem run_pipeline_stage0_not_socket :
    ∃ t, run_pipeline (child_forks 0) reaped_waits (fun _ => true) (example_pipe 4) 2
        example_fds (example_sys []) =
        Outcome.ret (Ended.exec (ascii "/usr/bin/cat") [some (ascii "cat"), none] t)
          (example_sys []) ∧
      t.get sys_stdin = some (File.stdio 0) ∧ t.get sys_stdin ≠ some File.socket :=
  ⟨[some (File.stdio 0), some (File.pipe_write 0), some (File.stdio 2), none, none, none,
      none, none], by decide, by decide, by decide⟩

/-- C12. For every pipeline of n stages run by `run_pipeline` in a worker whose
    standard input and output are open, whose client socket is another
    descriptor and none of whose descriptors refers to a pipe: the parent, once
    all the children are made, has closed the read end and the write end of
    every pipe it made, so that none of its descriptors refers to a pipe, and
    what is left of `run_pipeline` for it is the waiting, whatever the calls of
    `wait()` return: it returns with those descriptors when every `wait()`
    gives a child, and leaves through `wait() error` when one fails; and the
    process made for any stage i reaches `execve` having closed both
    descriptors of every pipe, so that the only descriptors of it that refer
    to a pipe are its standard input and output. -/
theorem run_pipeline_closes_pipes (t0 : FdTable) (pipe0 : List Pipeline) (sockfd : Int)
    (n : Nat) (can_exec : List Byte → Bool) (s : Sys)
    (hlen : pipe0.length = MAX_NUM_ARGS) (hn16 : n ≤ MAX_NUM_ARGS)
    (hsock : ∀ p ∈ pipe0, p.sockfd = sockfd)
    (hin : t0.get sys_stdin ≠ none) (hout : t0.get sys_stdout ≠ none)
    (hs : t0.get sockfd = some File.socket)
    (hs0 : sockfd ≠ sys_stdin) (hs1 : sockfd ≠ sys_stdout)
    (hfree : t0.pipe_free = true) :
    (∀ forks waits : Nat → Int, (∀ j, forks j ≠ 0 ∧ forks j ≠ -1) →
      ∃ t, run_pipeline.spawned forks can_exec pipe0 n t0 s =
          Outcome.ret (Ended.returned t) s ∧
        (∀ m p, m < n → (init_pipesfd pipe0 n t0).1.get? m = some p →
          t.get p.fd_read = none ∧ t.get p.fd_write = none) ∧
        (∀ fd f, t.get fd = some f → f.is_pipe = false) ∧
        ((∀ j, j < n → waits j ≠ -1) →
          run_pipeline forks waits can_exec pipe0 n t0 s = Outcome.ret (Ended.returned t) s) ∧
        ((∃ j, j < n ∧ waits j = -1) →
          run_pipeline forks waits can_exec pipe0 n t0 s = Outcome.exit 1
            { s with output := s.output ++ tagged sys_stderr (ascii "wait() error\n") })) ∧
    (∀ (forks waits : Nat → Int) (i : Nat) (name : List Byte), i < n →
      (∀ j, j < i → forks j ≠ 0 ∧ forks j ≠ -1) → forks i = 0 →
      (stage_argv pipe0 i).getD 0 none = some name →
      can_exec (ascii "/usr/bin/" ++ cstr name) = true →
      ∃ t, run_pipeline forks waits can_exec pipe0 n t0 s =
          Outcome.ret (Ended.exec (ascii "/usr/bin/" ++ cstr name) (stage_argv pipe0 i) t) s ∧
        (∀ m p, m < n → (init_pipesfd pipe0 n t0).1.get? m = some p →
          t.get p.fd_read = none ∧ t.get p.fd_write = none) ∧
        (∀ fd f, t.get fd = some f → f.is_pipe = true →
          fd = sys_stdin ∨ fd = sys_stdout)) := by
  have lab := init_pipesfd_labels t0 pipe0 sockfd n hlen hn16 hsock hin hout
  constructor
  · intro forks waits hf
    obtain ⟨t, ht, a1, a2⟩ := close_pipes_parent t0 pipe0 sockfd n hlen hn16 hsock hin hout
    have hsp : run_pipeline.spawned forks can_exec pipe0 n t0 s =
        Outcome.ret (Ended.returned t) s := by
      unfold run_pipeline.spawned
      simp only [Run.bind_apply, spawn_parent forks can_exec _ n _ s hf n 0, ht, or_exit_some,
        Run.pure_apply]
    refine ⟨t, hsp, a2, ?_, ?_, ?_⟩
    · intro fd f hfd
      rw [a1 fd] at hfd
      exact pipe_free_get t0 hfree fd f hfd
    · intro hw
      rw [run_pipeline_returned forks waits can_exec pipe0 n t0 s t s hsp,
        wait_all waits s n 0 (fun j _ b => hw j (by omega))]
    · intro ⟨j, hj, hw⟩
      rw [run_pipeline_returned forks waits can_exec pipe0 n t0 s t s hsp,
        wait_failed waits s n 0 ⟨j, Nat.zero_le _, by omega, hw⟩]
  · intro forks waits i name hi hf h0 hname hx
    obtain ⟨t, ht, _, _, a3⟩ := run_pipeline_child t0 pipe0 sockfd n i forks waits can_exec name
      s hlen hn16 hi hsock hin hout hs hs0 hs1 hf h0 hname hx
    have hother : ∀ fd, fd ≠ sys_stdin → fd ≠ sys_stdout →
        t.get fd = none ∨ t.get fd = t0.get fd := by
      intro fd f0 f1
      rw [a3 fd f0 f1]
      by_cases e : fd = sockfd
      · left; rw [if_pos e]
      · right; rw [if_neg e]
    refine ⟨t, ht, ?_, ?_⟩
    · intro m p hm hp
      obtain ⟨q, hq, _, _, _, b1, b2, e1, e2, e3, e4⟩ := lab m hm
      rw [hp] at hq
      cases hq
      constructor
      · rcases hother _ e1 e3 with x | x
        · exact x
        · rw [x]; exact b1
      · rcases hother _ e2 e4 with x | x
        · exact x
        · rw [x]; exact b2
    · intro fd f hfd hpipe
      by_contra hno
      have f0 : fd ≠ sys_stdin := fun e => hno (Or.inl e)
      have f1 : fd ≠ sys_stdout := fun e => hno (Or.inr e)
      rcases hother fd f0 f1 with x | x
      · rw [x] at hfd; cases hfd
      · rw [x] at hfd
        have := pipe_free_get t0 hfree fd f hfd
        rw [this] at hpipe
        cases hpipe

theorem parent_forks_ok : ∀ j, parent_forks j ≠ 0 ∧ parent_forks j ≠ -1 := by
  intro j
  unfold parent_forks
  constructor <;> omega

theorem child_waits_ok : ∀ j, child_waits j ≠ -1 := by
  intro j
  unfold child_waits
  omega

/-- Witness for C12: a pipeline of three stages in a worker with its standard
    descriptors open and the client socket on descriptor 4: the parent, which
    returns when every `wait()` gives a child and leaves through
    `wait() error` when the handler of `SIGCHLD` has taken the children, and
    the process made for stage 1. -/
theorem run_pipeline_closes_pipes_witness :
    (∃ t, run_pipeline.spawned parent_forks (fun _ => true) (example_pipe 4) 3 example_fds
        (example_sys []) = Outcome.ret (Ended.returned t) (example_sys []) ∧
      (∀ m p, m < 3 → (init_pipesfd (example_pipe 4) 3 example_fds).1.get? m = some p →
        t.get p.fd_read = none ∧ t.get p.fd_write = none) ∧
      (∀ fd f, t.get fd = some f → f.is_pipe = false) ∧
      run_pipeline parent_forks child_waits (fun _ => true) (example_pipe 4) 3 example_fds
        (example_sys []) = Outcome.ret (Ended.returned t) (example_sys []) ∧
      run_pipeline parent_forks reaped_waits (fun _ => true) (example_pipe 4) 3 example_fds
        (example_sys []) = Outcome.exit 1
          { example_sys [] with
            output := (example_sys []).output ++ tagged sys_stderr (ascii "wait() error\n") }) ∧
    (∃ t, run_pipeline (child_forks 1) reaped_waits (fun _ => true) (example_pipe 4) 3
        example_fds (example_sys []) =
        Outcome.ret (Ended.exec (ascii "/usr/bin/" ++ cstr (ascii "cat"))
          (stage_argv (example_pipe 4) 1) t) (example_sys []) ∧
      (∀ m p, m < 3 → (init_pipesfd (example_pipe 4) 3 example_fds).1.get? m = some p →
        t.get p.fd_read = none ∧ t.get p.fd_write = none) ∧
      (∀ fd f, t.get fd = some f → f.is_pipe = true → fd = sys_stdin ∨ fd = sys_stdout)) := by
  have h := run_pipeline_closes_pipes example_fds (example_pipe 4) 4 3 (fun _ => true)
    (example_sys []) (by decide) (by decide) (by decide) (by decide) (by decide) (by decide)
    (by decide) (by decide) (by decide)
  obtain ⟨t, a1, a2, a3, a4, _⟩ := h.1 parent_forks child_waits parent_forks_ok
  obtain ⟨t1, b1, _, _, _, b5⟩ := h.1 parent_forks reaped_waits parent_forks_ok
  have e : t1 = t := by
    rw [a1] at b1
    injection b1 with b1 _
    injection b1 with b1
    exact b1.symm
  subst e
  exact ⟨⟨t1, a1, a2, a3, a4 (fun j _ => child_waits_ok j), b5 ⟨0, by decide, rfl⟩⟩,
    h.2 (child_forks 1) reaped_waits 1 (ascii "cat") (by decide)
      (fun j hj => by
        have : j = 0 := by omega
        subst this
        decide) (by decide) (by decide) rfl⟩

/-! ### C13: the path handed to `execve` -/

theorem components_usr_bin (a : List Byte) (h : slash ∉ a) :
    components (ascii "/usr/bin/" ++ a) = [[], ascii "usr", ascii "bin", a] := by
  have hsingle : List.splitOnP (fun x => x == slash) a = [a] := by
    rw [List.splitOnP_eq_single]
    intro x hx
    simp only [beq_iff_eq]
    intro e
    exact h (e ▸ hx)
  have e0 : ascii "/usr/bin/" ++ a =
      (47 : Byte) :: 117 :: 115 :: 114 :: 47 :: 98 :: 105 :: 110 :: 47 :: a := by
    have : ascii "/usr/bin/" = [(47 : Byte), 117, 115, 114, 47, 98, 105, 110, 47] := by decide
    rw [this]
    rfl
  have p1 : ((47 : Byte) == slash) = true := by decide
  have p2 : ((117 : Byte) == slash) = false := by decide
  have p3 : ((115 : Byte) == slash) = false := by decide
  have p4 : ((114 : Byte) == slash) = false := by decide
  have p5 : ((98 : Byte) == slash) = false := by decide
  have p6 : ((105 : Byte) == slash) = false := by decide
  have p7 : ((110 : Byte) == slash) = false := by decide
  have u : ascii "usr" = [(117 : Byte), 115, 114] := by decide
  have b : ascii "bin" = [(98 : Byte), 105, 110] := by decide
  unfold components List.splitOn
  rw [e0, u, b]
  simp only [List.splitOnP_cons, p1, p2, p3, p4, p5, p6, p7, hsingle, if_true, if_false,
    List.modifyHead_cons, Bool.false_eq_true]

/-- Where the command name has no `/` and is not empty, `.` or `..`, the path
    resolves to itself. -/
theorem resolved_usr_bin (a : List Byte) (h : slash ∉ a) (h0 : a ≠ [])
    (h1 : a ≠ ascii ".") (h2 : a ≠ ascii "..") :
    resolved_path (ascii "/usr/bin/" ++ a) = ascii "/usr/bin/" ++ a := by
  unfold resolved_path resolve
  rw [components_usr_bin a h]
  have s1 : resolve.step [] [] = [] := by decide
  have s2 : resolve.step [] (ascii "usr") = [ascii "usr"] := by decide
  have s3 : resolve.step [ascii "usr"] (ascii "bin") = [ascii "bin", ascii "usr"] := by decide
  have s4 : resolve.step [ascii "bin", ascii "usr"] a = [a, ascii "bin", ascii "usr"] := by
    unfold resolve.step
    rw [if_neg (by
      intro e
      rcases e with e | e
      · exact h0 e
      · exact h1 e), if_neg h2]
  simp only [List.foldl_cons, List.foldl_nil, s1, s2, s3, s4]
  have e : ascii "/usr/bin/" = slash :: (ascii "usr" ++ (slash :: (ascii "bin" ++ [slash]))) := by
    decide
  rw [e]
  simp [List.flatten]

/-- C13 as the claim states it fails: for the command name `../../bin/sh` the
    process made for the stage runs `execve` on `/usr/bin/../../bin/sh`, which
    resolves to `/bin/sh`, a file outside `/usr/bin`. -/
theorem myexecve_outside_usr_bin :
    (∃ t, run_pipeline (child_forks 0) reaped_waits (fun _ => true) (dotdot_pipe 4) 1
        example_fds (example_sys []) =
        Outcome.ret (Ended.exec (ascii "/usr/bin/../../bin/sh")
          [some (ascii "../../bin/sh"), none] t) (example_sys [])) ∧
    resolved_path (ascii "/usr/bin/../../bin/sh") = ascii "/bin/sh" ∧
    ¬ inside_usr_bin (ascii "/usr/bin/../../bin/sh") :=
  ⟨⟨[some (File.stdio 0), some File.socket, some (File.stdio 2), none, none, none],
    by decide⟩, by decide, by decide⟩

/-- C13 (as amended). For every first token `argv[0]` that has no `/` byte and
    is not empty, `.` or `..`: the path `myexecve` hands to `execve`,
    `/usr/bin/` followed by `argv[0]`, resolves to itself and names a file
    inside `/usr/bin`; and whenever `myexecve` ends in `execve`, it is of that
    path. -/
theorem myexecve_inside_usr_bin (can_exec : List Byte → Bool) (name : List Byte)
    (argv : List (Option (List Byte))) (t : FdTable) (s : Sys)
    (h : slash ∉ cstr name) (h0 : cstr name ≠ [])
    (h1 : cstr name ≠ ascii ".") (h2 : cstr name ≠ ascii "..") :
    myexecve.command name = ascii "/usr/bin/" ++ cstr name ∧
    resolved_path (myexecve.command name) = myexecve.command name ∧
    inside_usr_bin (myexecve.command name) ∧
    ∀ e s1, myexecve can_exec (some name) argv t s = Outcome.ret e s1 →
      e = Ended.exec (myexecve.command name) argv t := by
  have hr := resolved_usr_bin (cstr name) h h0 h1 h2
  refine ⟨mystrcat_usr_bin name, ?_, ?_, ?_⟩
  · rw [mystrcat_usr_bin, hr]
  · unfold inside_usr_bin
    rw [mystrcat_usr_bin, hr]
    exact List.prefix_append _ _
  · intro e s1 he
    unfold myexecve at he
    simp only [] at he
    by_cases hx : can_exec (myexecve.command name) = true
    · rw [if_pos hx] at he
      cases he
      rfl
    · rw [if_neg hx] at he
      cases he

/-- Witness for C13: the command name `ls`. -/
theorem myexecve_inside_usr_bin_witness :
    myexecve.command (ascii "ls") = ascii "/usr/bin/" ++ cstr (ascii "ls") ∧
    resolved_path (myexecve.command (ascii "ls")) = myexecve.command (ascii "ls") ∧
    inside_usr_bin (myexecve.command (ascii "ls")) ∧
    ∀ e s1, myexecve (fun _ => true) (some (ascii "ls")) [some (ascii "ls"), none] example_fds
        (example_sys []) = Outcome.ret e s1 →
      e = Ended.exec (myexecve.command (ascii "ls")) [some (ascii "ls"), none] example_fds :=
  myexecve_inside_usr_bin (fun _ => true) (ascii "ls") [some (ascii "ls"), none] example_fds
    (example_sys []) (by decide) (by decide) (by decide) (by decide)

/-! ### C14: a failing fork -/

/-- When `fork()` fails in the supervisor, the round ends in `_exit(1)` after
    the log line and the message; the client socket is not closed. -/
theorem runserver_body_fork_failed (creds : List Credential) (ftpcallback : Callbacks)
    (runcommand : Engine) (fuel : Nat) (buf : List Byte) (clientid accepted : Int)
    (client : ClientData) (server : ServerData) (s : Sys) (ha : accepted ≠ -1) :
    runserver.body creds ftpcallback runcommand fuel buf clientid accepted (-1) client server s =
      Outcome.exit 1 { s with output := (s.output ++ tagged server.outfd
        (myfprintf.bytes false (ascii "::client %d connected\n")
          [FArg.int (wrap32 (clientid + 1))])) ++ tagged sys_stderr (ascii "fork() error") } := by
  unfold runserver.body acceptandforkclient myaccept
  simp only [Run.bind_apply, if_neg ha, Run.pure_apply, myfprintf, sys_write, myfork_failed]

/-- When `fork()` fails in round `k` of `run_pipeline`, the process ends in
    `_exit(1)` after the message; no pipe is closed and nothing is returned. -/
theorem run_pipeline_fork_failed (forks waits : Nat → Int) (can_exec : List Byte → Bool)
    (pipe : List Pipeline) (n : Nat) (t : FdTable) (s : Sys) (k : Nat) (hk : k < n)
    (hf : ∀ j, j < k → forks j ≠ 0 ∧ forks j ≠ -1) (hfail : forks k = -1) :
    run_pipeline forks waits can_exec pipe n t s =
      Outcome.exit 1
        { s with output := s.output ++ tagged sys_stderr (ascii "fork() error") } := by
  have hspawn : ∀ (m i0 : Nat) (p1 : List Pipeline) (t1 : FdTable), i0 ≤ k → k < i0 + m →
      run_pipeline.spawn forks can_exec p1 n t1 m i0 s = Outcome.exit 1
        { s with output := s.output ++ tagged sys_stderr (ascii "fork() error") } := by
    intro m
    induction m with
    | zero => intro i0 p1 t1 h1 h2; omega
    | succ m ih =>
      intro i0 p1 t1 h1 h2
      unfold run_pipeline.spawn
      by_cases e : i0 = k
      · subst e
        simp only [Run.bind_apply, hfail, myfork_failed]
      · have hlt : i0 < k := by omega
        simp only [Run.bind_apply, myfork_ok _ _ (hf i0 hlt).2, (hf i0 hlt).1, if_false]
        exact ih (i0 + 1) p1 t1 (by omega) (by omega)
  apply run_pipeline_exit
  unfold run_pipeline.spawned
  simp only [Run.bind_apply, hspawn n 0 _ _ (Nat.zero_le _) (by omega)]

/-- C14 as the claim states it fails: when `fork()` fails in the supervisor the
    round ends in `_exit(1)` with the client socket not closed, and when it
    fails for the first stage of a pipeline `run_pipeline` ends in `_exit(1)`
    and returns nothing. -/
theorem fork_failure_terminates :
    (∃ s1, runserver.body example_creds example_callbacks example_engine 1 [] 0 4 (-1)
        example_client example_server (example_sys []) = Outcome.exit 1 s1 ∧
      s1.closed = [] ∧ s1.written sys_stderr = ascii "fork() error") ∧
    (∃ s1, run_pipeline failing_forks reaped_waits (fun _ => true) (example_pipe 4) 2
        example_fds (example_sys []) = Outcome.exit 1 s1 ∧
      s1.closed = [] ∧ s1.written sys_stderr = ascii "fork() error") :=
  ⟨⟨_, runserver_body_fork_failed example_creds example_callbacks example_engine 1 [] 0 4
      example_client example_server (example_sys []) (by decide), by decide, by decide⟩,
   ⟨_, run_pipeline_fork_failed failing_forks reaped_waits (fun _ => true) (example_pipe 4) 2
      example_fds
      (example_sys []) 0 (by decide) (fun j hj => absurd hj (Nat.not_lt_zero j)) rfl,
    by decide, by decide⟩⟩

/-- C14 (as amended). A fork failure terminates the process that asked for the
    fork: `myfork` writes `fork() error` to the standard error and leaves with
    status 1.  When `fork()` fails in the supervisor, the round of `runserver`
    ends so after the log line of the connection, the client socket not
    closed; when `fork()` fails for a stage of a pipeline whose earlier stages
    were made, `run_pipeline` ends so, no pipe closed and nothing returned to
    the command loop. -/
theorem fork_failure_exits (creds : List Credential) (ftpcallback : Callbacks)
    (runcommand : Engine) (fuel : Nat) (buf : List Byte) (clientid accepted : Int)
    (client : ClientData) (server : ServerData) (forks waits : Nat → Int)
    (can_exec : List Byte → Bool) (pipe : List Pipeline) (n k : Nat) (t : FdTable) (s : Sys)
    (ha : accepted ≠ -1) (hk : k < n)
    (hf : ∀ j, j < k → forks j ≠ 0 ∧ forks j ≠ -1) (hfail : forks k = -1) :
    myfork (-1) s = Outcome.exit 1
      { s with output := s.output ++ tagged sys_stderr (ascii "fork() error") } ∧
    runserver.body creds ftpcallback runcommand fuel buf clientid accepted (-1) client server s =
      Outcome.exit 1 { s with output := (s.output ++ tagged server.outfd
        (myfprintf.bytes false (ascii "::client %d connected\n")
          [FArg.int (wrap32 (clientid + 1))])) ++ tagged sys_stderr (ascii "fork() error") } ∧
    run_pipeline forks waits can_exec pipe n t s = Outcome.exit 1
      { s with output := s.output ++ tagged sys_stderr (ascii "fork() error") } :=
  ⟨myfork_failed s,
   runserver_body_fork_failed creds ftpcallback runcommand fuel buf clientid accepted client
     server s ha,
   run_pipeline_fork_failed forks waits can_exec pipe n t s k hk hf hfail⟩

/-- Witness for C14: the supervisor with a client accepted on descriptor 4, and
    a pipeline of three stages whose second `fork()` fails. -/
theorem fork_failure_exits_witness :
    myfork (-1) (example_sys []) = Outcome.exit 1
      { example_sys [] with
        output := (example_sys []).output ++ tagged sys_stderr (ascii "fork() error") } ∧
    runserver.body example_creds example_callbacks example_engine 1 [] 0 4 (-1) example_client
        example_server (example_sys []) =
      Outcome.exit 1 { example_sys [] with output := ((example_sys []).output ++
        tagged example_server.outfd (myfprintf.bytes false (ascii "::client %d connected\n")
          [FArg.int (wrap32 (0 + 1))])) ++ tagged sys_stderr (ascii "fork() error") } ∧
    run_pipeline (fun j => if j = 1 then -1 else 1000) reaped_waits (fun _ => true)
        (example_pipe 4) 3 example_fds (example_sys []) = Outcome.exit 1
      { example_sys [] with
        output := (example_sys []).output ++ tagged sys_stderr (ascii "fork() error") } :=
  fork_failure_exits example_creds example_callbacks example_engine 1 [] 0 4 example_client
    example_server (fun j => if j = 1 then -1 else 1000) reaped_waits (fun _ => true)
    (example_pipe 4) 3 1
    example_fds (example_sys []) (by decide) (by decide)
    (fun j hj => by
      have : j = 0 := by omega
      subst this
      decide) (by decide)

/-! ### C19: help -/

theorem help_log_bytes :
    myfprintf.bytes false (ascii "client:: help\n") [] = ascii "client:: help\n" := by decide

/-- One call of `serverhandlehelp`: the log line goes to the read descriptor
    and the command list to the socket. -/
theorem serverhandlehelp_apply (io : MyIO) (s : Sys) :
    serverhandlehelp io s = Outcome.ret io
      { s with output := (s.output ++ tagged io.readfd (ascii "client:: help\n")) ++
          tagged io.sockfd commandlist } := by
  have hlen : mystrlen commandlist = 17 := by decide
  have htake : commandlist.take 17 = commandlist := by decide
  unfold serverhandlehelp mysckwrite myfprintf sys_write
  simp only [Run.bind_apply, hlen, help_log_bytes, htake, Run.pure_apply]
  rfl

theorem repeated_help (k : Nat) : ∀ (io : MyIO) (s : Sys), io.readfd ≠ io.sockfd →
    ∃ s1, repeated serverhandlehelp k io s = Outcome.ret io s1 ∧
      s1.written io.sockfd = s.written io.sockfd ++ (List.replicate k commandlist).flatten := by
  induction k with
  | zero =>
    intro io s _
    exact ⟨s, rfl, by simp⟩
  | succ k ih =>
    intro io s hne
    obtain ⟨s1, h1, h2⟩ := ih io _ hne
    refine ⟨s1, ?_, ?_⟩
    · unfold repeated
      simp only [Run.bind_apply, serverhandlehelp_apply]
      exact h1
    · rw [h2]
      unfold Sys.written
      simp only [bytes_to_append, bytes_to_tagged_same, bytes_to_tagged_other hne,
        List.replicate_succ, List.flatten_cons, List.append_nil, List.append_assoc,
        List.nil_append]

/-- C19 (as amended). For every I/O context whose read descriptor, where the
    handler writes its log line, is not the client socket, whatever its buffer
    holds: `serverhandlehelp` returns the context as it
    was, having written to the client socket exactly the 17 bytes
    `put\nget\ndel\nhelp\n`; and `k` calls in a row return the context as it
    was, having written `k` copies of those bytes to the socket and nothing
    else. -/
theorem serverhandlehelp_idempotent (io : MyIO) (s : Sys) (k : Nat)
    (hne : io.readfd ≠ io.sockfd) :
    commandlist = ascii "put\nget\ndel\nhelp\n" ∧ commandlist.length = 17 ∧
    (∃ s1, serverhandlehelp io s = Outcome.ret io s1 ∧
      s1.written io.sockfd = s.written io.sockfd ++ commandlist) ∧
    (∃ s1, repeated serverhandlehelp k io s = Outcome.ret io s1 ∧
      s1.written io.sockfd = s.written io.sockfd ++ (List.replicate k commandlist).flatten) := by
  refine ⟨rfl, by decide, ?_, repeated_help k io s hne⟩
  refine ⟨_, serverhandlehelp_apply io s, ?_⟩
  unfold Sys.written
  simp only [bytes_to_append, bytes_to_tagged_same, bytes_to_tagged_other hne,
    List.append_nil, List.append_assoc, List.nil_append]

/-- Witness for C19: the context of a worker, socket on descriptor 4 and log
    on the standard output,
    the buffer holding the command, three calls. -/
theorem serverhandlehelp_idempotent_witness :
    commandlist = ascii "put\nget\ndel\nhelp\n" ∧ commandlist.length = 17 ∧
    (∃ s1, serverhandlehelp (example_io "help") (example_sys []) = Outcome.ret (example_io "help") s1 ∧
      s1.written (example_io "help").sockfd = (example_sys []).written (example_io "help").sockfd ++ commandlist) ∧
    (∃ s1, repeated serverhandlehelp 3 (example_io "help") (example_sys []) = Outcome.ret (example_io "help") s1 ∧
      s1.written (example_io "help").sockfd =
        (example_sys []).written (example_io "help").sockfd ++ (List.replicate 3 commandlist).flatten) :=
  serverhandlehelp_idempotent (example_io "help") (example_sys []) 3 (by decide)

/-- C19 as the claim states it fails: in a context whose read descriptor is
    the client socket itself, `serverhandlehelp` writes 31 bytes to the socket,
    its log line `client:: help` and then the command list, not the 17 bytes
    of the list alone. -/
theorem serverhandlehelp_log_on_socket :
    ∃ s1, serverhandlehelp { example_io "help" with readfd := 4 } (example_sys []) =
        Outcome.ret { example_io "help" with readfd := 4 } s1 ∧
      s1.written 4 = ascii "client:: help\nput\nget\ndel\nhelp\n" ∧
      s1.written 4 ≠ (example_sys []).written 4 ++ commandlist :=
  ⟨_, serverhandlehelp_apply _ _, by decide, by decide⟩

/-! ### C20: reading a line -/

theorem toChar_toNat (c : Byte) : toChar (c.toNat : Int) = c := by
  unfold toChar
  apply UInt8.ext
  have h := c.toNat_lt
  have e : ((c.toNat : Int) % 256).toNat = c.toNat := by omega
  rw [e]
  simp [Nat.toUInt8, UInt8.ofNat, UInt8.toNat]

theorem mygetchar_buffered (fd : Int) (s : Sys) (c : Byte) (rest : List Byte)
    (h : s.getc = some (c :: rest)) :
    mygetchar fd s = Outcome.ret (c.toNat : Int) { s with getc := some rest } := by
  unfold mygetchar
  simp only [h]

theorem mygetchar_drained (fd : Int) (s : Sys) (h : s.getc = some []) :
    mygetchar fd s = Outcome.ret EOF { s with getc := none } := by
  unfold mygetchar
  simp only [h]

/-- The loop of `myreadline` started on the character `c` with the bytes
    `rest` left in the buffer of `mygetchar`, none of them comparing equal to
    `EOF`: all of them are stored. -/
theorem myreadline_loop_store (fd : Int) (rest : List Byte) :
    ∀ (k : Nat) (c : Byte) (n : Nat) (line : List Byte) (s : Sys),
      s.getc = some rest → (∀ b ∈ c :: rest, charval b ≠ EOF) → rest.length + 1 ≤ k →
      myreadline.loop fd k c n line s =
        Outcome.ret (n + rest.length + 1, store line n (c :: rest)) { s with getc := none } := by
  induction rest with
  | nil =>
    intro k c n line s hg hb hk
    obtain ⟨k1, rfl⟩ : ∃ k1, k = k1 + 1 := ⟨k - 1, by simp at hk; omega⟩
    have hc : charval c ≠ EOF := hb c (List.mem_cons_self _ _)
    simp only [myreadline.loop, if_pos hc, Run.bind_apply, mygetchar_drained fd s hg]
    cases k1 with
    | zero => rfl
    | succ k2 =>
      simp only [myreadline.loop, toChar_EOF, ne_eq, not_true_eq_false, if_false,
        Run.pure_apply]
      rfl
  | cons d rest ih =>
    intro k c n line s hg hb hk
    obtain ⟨k1, rfl⟩ : ∃ k1, k = k1 + 1 := ⟨k - 1, by simp at hk; omega⟩
    have hc : charval c ≠ EOF := hb c (List.mem_cons_self _ _)
    simp only [myreadline.loop, if_pos hc, Run.bind_apply, mygetchar_buffered fd s d rest hg,
      toChar_toNat]
    rw [ih k1 d (n + 1) (poke line n c) { s with getc := some rest } rfl
      (fun b hb1 => hb b (List.mem_cons_of_mem _ hb1)) (by simp at hk; omega)]
    simp only [List.length_cons, store]
    congr 2
    omega

theorem store_length (bytes : List Byte) : ∀ (line : List Byte) (n : Nat),
    (store line n bytes).length = line.length := by
  induction bytes with
  | nil => intro line n; rfl
  | cons b bs ih =>
    intro line n
    simp only [store, ih, poke, List.length_set]

/-- The buffer after bytes are stored inside it. -/
theorem store_eq (bytes : List Byte) : ∀ (line : List Byte) (n : Nat),
    n + bytes.length ≤ line.length →
    store line n bytes = line.take n ++ (bytes ++ line.drop (n + bytes.length)) := by
  induction bytes with
  | nil =>
    intro line n _
    simp [store]
  | cons b bs ih =>
    intro line n h
    simp only [List.length_cons] at h
    have hn : n < line.length := by omega
    simp only [store]
    rw [ih (poke line n b) (n + 1) (by simp only [poke, List.length_set]; omega)]
    simp only [poke, List.length_cons]
    rw [List.set_eq_take_append_cons_drop, if_pos hn]
    have hl : (List.take n line).length = n := by
      rw [List.length_take]; omega
    have e1 : List.take (n + 1) (List.take n line ++ b :: List.drop (n + 1) line) =
        List.take n line ++ [b] := by
      rw [List.take_append_eq_append_take, hl]
      simp
    have e2 : List.drop (n + 1 + bs.length) (List.take n line ++ b :: List.drop (n + 1) line) =
        List.drop (n + (bs.length + 1)) line := by
      rw [List.drop_append_eq_append_drop, hl]
      have z : List.drop (n + 1 + bs.length) (List.take n line) = [] := by
        apply List.drop_eq_nil_of_le
        rw [hl]; omega
      rw [z]
      have y : n + 1 + bs.length - n = bs.length + 1 := by omega
      rw [y]
      simp only [List.nil_append, List.drop_succ_cons, List.drop_drop]
      congr 1
      omega
    rw [e1, e2]
    simp

/-- What `myreadline` does with one `read` that delivers the bytes `pre` and
    then `d`, none of them comparing equal to `EOF`, when they fit: all of them
    are taken as the line and the last one is replaced by NUL. -/
theorem myreadline_chunk (fd : Int) (line : List Byte) (read_max : Nat) (pre : List Byte)
    (d : Byte) (rest : List (List Byte)) (s : Sys)
    (hg : s.getc = none) (hin : s.input = (pre ++ [d]) :: rest)
    (h1 : pre.length + 1 ≤ GETCHAR_BUFSIZE) (h2 : pre.length + 1 ≤ read_max - 1)
    (h3 : pre.length + 1 ≤ line.length) (hb : ∀ b ∈ pre ++ [d], charval b ≠ EOF) :
    myreadline fd line read_max s =
      Outcome.ret (pre.length + 1, pre ++ 0 :: line.drop (pre.length + 1))
        { s with input := rest, getc := none } := by
  obtain ⟨c, cs, hc⟩ : ∃ c cs, pre ++ [d] = c :: cs := by
    cases pre with
    | nil => exact ⟨d, [], rfl⟩
    | cons a as => exact ⟨a, as ++ [d], rfl⟩
  have hlen : cs.length = pre.length := by
    have := congrArg List.length hc
    simp at this
    omega
  have hread : myread fd GETCHAR_BUFSIZE s = Outcome.ret (c :: cs) { s with input := rest } := by
    unfold myread
    rw [hin, hc]
    have : (c :: cs).length ≤ GETCHAR_BUFSIZE := by
      simp only [List.length_cons, hlen]; exact h1
    simp only [this, if_true]
  have hget : mygetchar fd s =
      Outcome.ret (c.toNat : Int) { s with input := rest, getc := some cs } := by
    unfold mygetchar
    simp only [hg, hread]
    rfl
  have hloop := myreadline_loop_store fd cs (read_max - 1) c 0 line
    { s with input := rest, getc := some cs } rfl (by rw [← hc]; exact hb) (by omega)
  unfold myreadline
  simp only [Run.bind_apply, hget, toChar_toNat, hloop, Run.pure_apply]
  have hn : 0 + cs.length + 1 = pre.length + 1 := by omega
  rw [hn, ← hc, store_eq _ _ _ (by simp; omega)]
  simp only [Nat.add_one_ne_zero, if_false, List.take_zero, List.nil_append,
    Nat.add_sub_cancel, List.length_append, List.length_singleton, Nat.zero_add,
    List.append_assoc, List.singleton_append]
  have : poke (pre ++ d :: List.drop (pre.length + 1) line) pre.length 0 =
      pre ++ 0 :: List.drop (pre.length + 1) line := poke_at pre d 0 _
  rw [this]

/-- C20 as the claim states it fails: when one read delivers `ab`, a newline
    and then `cd` and a newline, `myreadline` leaves `ab\ncd` in the buffer, not
    `ab`, and what came after the first newline is not there for the next
    call, which takes the next read. -/
theorem myreadline_takes_whole_read :
    ∃ s1 s2, myreadline 4 (List.replicate 16 0) 15 (example_sys [ascii "ab\ncd\n", ascii "ef\n"]) =
        Outcome.ret (6, ascii "ab\ncd" ++ List.replicate 11 0) s1 ∧
      cstr (ascii "ab\ncd" ++ List.replicate 11 0) ≠ ascii "ab" ∧
      myreadline 4 (List.replicate 16 0) 15 s1 =
        Outcome.ret (3, ascii "ef" ++ List.replicate 14 0) s2 :=
  ⟨example_sys [ascii "ef\n"], example_sys [], by decide, by decide, by decide⟩

/-- C20 (as amended). `myreadline` takes what one read of at most 1024 bytes
    delivers as the line and replaces its last byte by NUL.  With nothing left
    of earlier reads, for a line L followed by a newline that a read delivers
    with nothing after it, no byte of L being 0xFF and L with its newline
    fitting the read, the limit and the buffer: the buffer afterwards holds
    exactly L and then NUL, the count returned is the length of L plus one,
    and the next call takes the next read.  When the same read delivers further
    bytes `more` and `d` after that newline, the buffer holds L, the newline and
    `more` and then NUL, and the next call takes the next read all the same. -/
theorem myreadline_line (fd : Int) (line : List Byte) (read_max : Nat) (L more : List Byte)
    (d : Byte) (rest : List (List Byte)) (s : Sys)
    (hL : ∀ b ∈ L, b ≠ 255) (hm : ∀ b ∈ more, b ≠ 255) (hd : d ≠ 255)
    (h1 : L.length + more.length + 2 ≤ GETCHAR_BUFSIZE)
    (h2 : L.length + more.length + 2 ≤ read_max - 1)
    (h3 : L.length + more.length + 2 ≤ line.length) :
    myreadline fd line read_max { s with input := (L ++ [10]) :: rest, getc := none } =
      Outcome.ret (L.length + 1, L ++ 0 :: line.drop (L.length + 1))
        { s with input := rest, getc := none } ∧
    myreadline fd line read_max
        { s with input := (L ++ [10] ++ more ++ [d]) :: rest, getc := none } =
      Outcome.ret (L.length + more.length + 2,
        L ++ [10] ++ more ++ 0 :: line.drop (L.length + more.length + 2))
        { s with input := rest, getc := none } := by
  have hne : ∀ b : Byte, b ≠ 255 → charval b ≠ EOF := by
    intro b hb e
    apply hb
    apply charval_injective
    rw [e]
    decide
  have h10 : (10 : Byte) ≠ 255 := by decide
  constructor
  · refine myreadline_chunk fd line read_max L 10 rest _ rfl rfl (by omega) (by omega)
      (by omega) ?_
    intro b hb
    rcases List.mem_append.mp hb with x | x
    · exact hne b (hL b x)
    · rw [List.mem_singleton.mp x]; exact hne _ h10
  · have hlen : (L ++ [10] ++ more).length = L.length + more.length + 1 := by
      simp; omega
    have := myreadline_chunk fd line read_max (L ++ [10] ++ more) d rest
      { s with input := (L ++ [10] ++ more ++ [d]) :: rest, getc := none } rfl rfl
      (by rw [hlen]; omega) (by rw [hlen]; omega) (by rw [hlen]; omega) (by
        intro b hb
        simp only [List.mem_append, List.mem_singleton] at hb
        rcases hb with ((x | x) | x) | x
        · exact hne b (hL b x)
        · rw [x]; exact hne _ h10
        · exact hne b (hm b x)
        · rw [x]; exact hne _ hd)
    rw [this, hlen]

/-- Witness for C20: the read delivers `bob` and a newline, and in the other
    case `bob`, a newline, `pw` and a newline. -/
theorem myreadline_line_witness :
    myreadline 4 (List.replicate 16 0) 15
        { example_sys [] with input := (ascii "bob" ++ [10]) :: [ascii "x\n"], getc := none } =
      Outcome.ret ((ascii "bob").length + 1,
        ascii "bob" ++ 0 :: (List.replicate 16 0).drop ((ascii "bob").length + 1))
        { example_sys [] with input := [ascii "x\n"], getc := none } ∧
    myreadline 4 (List.replicate 16 0) 15
        { example_sys [] with
          input := (ascii "bob" ++ [10] ++ ascii "pw" ++ [10]) :: [ascii "x\n"], getc := none } =
      Outcome.ret ((ascii "bob").length + (ascii "pw").length + 2,
        ascii "bob" ++ [10] ++ ascii "pw" ++
          0 :: (List.replicate 16 0).drop ((ascii "bob").length + (ascii "pw").length + 2))
        { example_sys [] with input := [ascii "x\n"], getc := none } :=
  myreadline_line 4 (List.replicate 16 0) 15 (ascii "bob") (ascii "pw") 10 [ascii "x\n"]
    (example_sys []) (by decide) (by decide) (by decide) (by decide) (by decide) (by decide)

/-! ### Computations on files -/

@[simp] theorem FRun.pure_run {α : Type} (a : α) (d : Disk) (s : Sys) :
    (pure a : FRun α) d s = Outcome.ret (a, d) s := rfl

@[simp] theorem FRun.bind_run {α β : Type} (m : FRun α) (f : α → FRun β) (d : Disk)
    (s : Sys) :
    (m >>= f) d s = match m d s with
      | .ret p s1 => f p.1 p.2 s1
      | .exit c s1 => .exit c s1 := by
  show FRun.bind m f d s = _
  unfold FRun.bind
  cases m d s with
  | ret p s1 => rfl
  | exit c s1 => rfl

@[simp] theorem FRun.lift_apply {α : Type} (m : Run α) (d : Disk) (s : Sys) :
    FRun.lift m d s = match m s with
      | .ret a s1 => .ret (a, d) s1
      | .exit c s1 => .exit c s1 := rfl

theorem lowest_unused_spec (used : List Int) (k : Nat) :
    ∀ c, ((lowest_unused used k c : Nat) : Int) ∉ used ∨
      ∀ j, j < k → ((c + j : Nat) : Int) ∈ used := by
  induction k with
  | zero =>
    intro c
    right
    intro j hj
    omega
  | succ k ih =>
    intro c
    unfold lowest_unused
    by_cases h : (c : Int) ∈ used
    · rw [if_pos h]
      rcases ih (c + 1) with x | x
      · exact Or.inl x
      · right
        intro j hj
        cases j with
        | zero => exact h
        | succ j =>
          have := x j (by omega)
          have e : c + 1 + j = c + (j + 1) := by omega
          rw [e] at this
          exact this
    · rw [if_neg h]
      exact Or.inl h

/-- The descriptor `open` returns is not open. -/
theorem fresh_unused (d : Disk) : d.fresh ∉ d.busy ++ d.opened.map (fun e => e.1) := by
  unfold Disk.fresh
  rcases lowest_unused_spec (d.busy ++ d.opened.map (fun e => e.1))
      ((d.busy ++ d.opened.map (fun e => e.1)).length + 1) 0 with x | x
  · exact x
  · exfalso
    have hnd : ((List.range ((d.busy ++ d.opened.map (fun e => e.1)).length + 1)).map
        (fun j : Nat => (j : Int))).Nodup :=
      (List.nodup_range _).map (fun a b h => by simpa using h)
    have hsub : (List.range ((d.busy ++ d.opened.map (fun e => e.1)).length + 1)).map
        (fun j : Nat => (j : Int)) ⊆ d.busy ++ d.opened.map (fun e => e.1) := by
      intro y hy
      obtain ⟨j, hj, rfl⟩ := List.mem_map.mp hy
      have := x j (List.mem_range.mp hj)
      simpa using this
    have := (List.subperm_of_subset hnd hsub).length_le
    simp only [List.length_map, List.length_range] at this
    omega

theorem fresh_not_busy (d : Disk) (fd : Int) (h : fd ∈ d.busy) : d.fresh ≠ fd := by
  intro e
  apply fresh_unused d
  rw [e]
  exact List.mem_append_left _ h

theorem lookup_none_of_not_mem (d : Disk) (fd : Int)
    (h : fd ∉ d.opened.map (fun e => e.1)) : d.lookup fd = none := by
  unfold Disk.lookup
  rw [Option.map_eq_none', List.find?_eq_none]
  intro e he hfd
  apply h
  simp only [decide_eq_true_eq] at hfd
  rw [← hfd]
  exact List.mem_map_of_mem _ he

theorem lookup_fresh (d : Disk) : d.lookup d.fresh = none :=
  lookup_none_of_not_mem d _ (fun h => fresh_unused d (List.mem_append_right _ h))

/-! ### Reading the socket without blocking -/

theorem myread_cons (fd : Int) (n : Nat) (s : Sys) (c : List Byte) (more : List (List Byte))
    (h : s.input = c :: more) :
    myread fd n s = if c.length ≤ n then Outcome.ret c { s with input := more }
      else Outcome.ret (c.take n) { s with input := c.drop n :: more } := by
  unfold myread
  rw [h]

theorem myread_nil (fd : Int) (n : Nat) (s : Sys) (more : List (List Byte))
    (h : s.input = [] :: more) :
    myread fd n s = Outcome.ret [] { s with input := more } := by
  rw [myread_cons fd n s [] more h]
  simp

/-- With `count` bytes or more on their way, `mysckread` takes `count` of them
    and leaves the others, in reads that each deliver something. -/
theorem mysckread_loop_full (sck : Int) (count : Nat) (cs : List (List Byte)) :
    ∀ (acc : List Byte) (k : Nat) (rest : List (List Byte)) (s : Sys), Chunks cs →
      s.input = cs ++ rest → count ≤ cs.flatten.length + acc.length → acc.length ≤ count →
      count + 1 ≤ k + acc.length →
      ∃ cs1, Chunks cs1 ∧ cs1.flatten = cs.flatten.drop (count - acc.length) ∧
        mysckread.loop sck count k acc s =
          Outcome.ret (acc ++ cs.flatten.take (count - acc.length))
            { s with input := cs1 ++ rest } := by
  induction cs with
  | nil =>
    intro acc k rest s _ hin h1 h2 _
    simp only [List.flatten_nil, List.length_nil, Nat.zero_add] at h1
    have hfull : ¬ acc.length < count := by omega
    refine ⟨[], by intro c hc; exact absurd hc (List.not_mem_nil c), by simp, ?_⟩
    have hs : { s with input := [] ++ rest } = s := by
      rw [← hin]
    rw [hs]
    cases k with
    | zero => simp [mysckread.loop]
    | succ k => simp [mysckread.loop, hfull]
  | cons c cs ih =>
    intro acc k rest s hch hin h1 h2 hk
    have hc : c ≠ [] := hch c (List.mem_cons_self _ _)
    have hcl : 0 < c.length := List.length_pos.mpr hc
    have hch1 : Chunks cs := fun x hx => hch x (List.mem_cons_of_mem _ hx)
    by_cases hfull : acc.length < count
    · obtain ⟨k1, rfl⟩ : ∃ k1, k = k1 + 1 := ⟨k - 1, by omega⟩
      have hin1 : s.input = c :: (cs ++ rest) := by rw [hin]; rfl
      by_cases hfit : c.length ≤ count - acc.length
      · obtain ⟨cs1, a1, a2, a3⟩ := ih (acc ++ c) k1 rest { s with input := cs ++ rest } hch1 rfl
          (by simp only [List.flatten_cons, List.length_append] at h1 ⊢; omega)
          (by simp only [List.length_append]; omega)
          (by simp only [List.length_append]; omega)
        refine ⟨cs1, a1, ?_, ?_⟩
        · rw [a2]
          simp only [List.flatten_cons, List.length_append]
          rw [List.drop_append_eq_append_drop]
          have z : List.drop (count - acc.length) c = [] :=
            List.drop_eq_nil_of_le hfit
          rw [z, List.nil_append]
          congr 1
          omega
        · have hgot : ¬ c.length = 0 := by omega
          simp only [mysckread.loop, hfull, if_true, Run.bind_apply,
            myread_cons sck _ s c _ hin1, hfit, hgot, if_false]
          rw [a3]
          simp only [List.flatten_cons, List.length_append, List.append_assoc]
          congr 2
          rw [List.take_append_eq_append_take]
          have z : List.take (count - acc.length) c = c := List.take_of_length_le hfit
          rw [z]
          congr 2
          omega
      · have hlt : count - acc.length < c.length := by omega
        have hm : 0 < count - acc.length := by omega
        refine ⟨c.drop (count - acc.length) :: cs, ?_, ?_, ?_⟩
        · intro x hx
          rcases List.mem_cons.mp hx with e | e
          · rw [e]
            intro z
            have := congrArg List.length z
            simp only [List.length_drop, List.length_nil] at this
            omega
          · exact hch1 x e
        · simp only [List.flatten_cons]
          rw [List.drop_append_of_le_length (by omega)]
        · have hgot : ¬ (c.take (count - acc.length)).length = 0 := by
            rw [List.length_take]; omega
          have hdone : ¬ (acc ++ c.take (count - acc.length)).length < count := by
            simp only [List.length_append, List.length_take]; omega
          simp only [mysckread.loop, hfull, if_true, Run.bind_apply,
            myread_cons sck _ s c _ hin1, hfit, if_false, hgot]
          have e : (c :: cs).flatten.take (count - acc.length) = c.take (count - acc.length) := by
            simp only [List.flatten_cons]
            rw [List.take_append_of_le_length (by omega)]
          rw [e]
          cases k1 with
          | zero => simp only [mysckread.loop, Run.pure_apply]; rfl
          | succ k2 => simp only [mysckread.loop, hdone, if_false, Run.pure_apply]; rfl
    · have e0 : count - acc.length = 0 := by omega
      refine ⟨c :: cs, hch, by rw [e0]; rfl, ?_⟩
      rw [e0]
      have hs : { s with input := (c :: cs) ++ rest } = s := by rw [← hin]
      rw [hs]
      cases k with
      | zero => simp [mysckread.loop]
      | succ k => simp [mysckread.loop, hfull]

/-- With less than `count` bytes on their way and then a read that delivers
    nothing, `mysckread` takes them all and that read. -/
theorem mysckread_loop_short (sck : Int) (count : Nat) (cs : List (List Byte)) :
    ∀ (acc : List Byte) (k : Nat) (rest : List (List Byte)) (s : Sys), Chunks cs →
      s.input = cs ++ [] :: rest → cs.flatten.length + acc.length < count →
      count + 1 ≤ k + acc.length →
      mysckread.loop sck count k acc s =
        Outcome.ret (acc ++ cs.flatten) { s with input := rest } := by
  induction cs with
  | nil =>
    intro acc k rest s _ hin h1 hk
    simp only [List.flatten_nil, List.length_nil, Nat.zero_add] at h1
    obtain ⟨k1, rfl⟩ : ∃ k1, k = k1 + 1 := ⟨k - 1, by omega⟩
    simp only [mysckread.loop, h1, if_true, Run.bind_apply, myread_nil sck _ s rest hin,
      List.length_nil, Run.pure_apply, List.flatten_nil, List.append_nil]
  | cons c cs ih =>
    intro acc k rest s hch hin h1 hk
    have hc : c ≠ [] := hch c (List.mem_cons_self _ _)
    have hcl : 0 < c.length := List.length_pos.mpr hc
    have hch1 : Chunks cs := fun x hx => hch x (List.mem_cons_of_mem _ hx)
    simp only [List.flatten_cons, List.length_append] at h1
    have hfull : acc.length < count := by omega
    obtain ⟨k1, rfl⟩ : ∃ k1, k = k1 + 1 := ⟨k - 1, by omega⟩
    have hin1 : s.input = c :: (cs ++ [] :: rest) := by rw [hin]; rfl
    have hfit : c.length ≤ count - acc.length := by omega
    have hgot : ¬ c.length = 0 := by omega
    simp only [mysckread.loop, hfull, if_true, Run.bind_apply,
      myread_cons sck _ s c _ hin1, hfit, hgot, if_false]
    rw [ih (acc ++ c) k1 rest { s with input := cs ++ [] :: rest } hch1 rfl
      (by simp only [List.length_append]; omega)
      (by simp only [List.length_append]; omega)]
    simp only [List.flatten_cons, List.append_assoc]

/-! ### Writing a file -/

theorem overwrite_overwrite (c : List Byte) (pos : Nat) (y z : List Byte) (h : pos ≤ c.length) :
    overwrite (overwrite c pos y) (pos + y.length) z = overwrite c pos (y ++ z) := by
  unfold overwrite
  have hl : (List.take pos c).length = pos := by rw [List.length_take]; omega
  have hl2 : (List.take pos c ++ y).length = pos + y.length := by
    rw [List.length_append, hl]
  have e1 : List.take (pos + y.length) (List.take pos c ++ y ++ List.drop (pos + y.length) c) =
      List.take pos c ++ y := by
    rw [List.take_append_of_le_length (by rw [hl2])]
    rw [List.take_of_length_le (by rw [hl2])]
  have e2 : List.drop (pos + y.length + z.length)
      (List.take pos c ++ y ++ List.drop (pos + y.length) c) =
      List.drop (pos + (y ++ z).length) c := by
    rw [List.drop_append_eq_append_drop, hl2]
    rw [List.drop_eq_nil_of_le (by rw [hl2]; omega)]
    simp only [List.nil_append, List.drop_drop, List.length_append]
    congr 1
    omega
  rw [e1, e2]
  simp only [List.append_assoc]

theorem overwrite_length (c : List Byte) (pos : Nat) (y : List Byte) (h : pos ≤ c.length) :
    pos + y.length ≤ (overwrite c pos y).length := by
  unfold overwrite
  simp only [List.length_append, List.length_take, List.length_drop]
  omega

theorem overwrite_nil (c : List Byte) (pos : Nat) : overwrite c pos [] = c := by
  unfold overwrite
  simp

theorem lookup_cons (d : Disk) (fd : Int) (e : List Byte × Nat) (files : List (List Byte × List Byte)) :
    Disk.lookup { d with files := files, opened := (fd, e) :: d.opened } fd = some e := by
  simp [Disk.lookup]

theorem content_cons (d : Disk) (name c : List Byte) (opened : List (Int × List Byte × Nat)) :
    Disk.content { d with files := (name, c) :: d.files, opened := opened } name = some c := by
  simp [Disk.content]

/-- What `Write` does on a descriptor open on a file. -/
theorem Write_file (fd : Int) (bytes : List Byte) (d : Disk) (s : Sys) (name : List Byte)
    (pos : Nat) (c : List Byte) (h1 : d.lookup fd = some (name, pos))
    (h2 : d.content name = some c) :
    ∃ d1, Write fd bytes d s = Outcome.ret (bytes.length, d1) s ∧
      d1.lookup fd = some (name, pos + bytes.length) ∧
      d1.content name = some (overwrite c pos bytes) := by
  have hw : Write fd bytes d s = Outcome.ret (bytes.length,
      { d with
        files := (name, overwrite c pos bytes) :: d.files,
        opened := (fd, name, pos + bytes.length) :: d.opened }) s := by
    unfold Write
    simp only [h1, h2, Option.getD_some]
  exact ⟨_, hw, lookup_cons d fd _ _, content_cons d name _ _⟩

theorem mymemset_length (buf : List Byte) (c : Byte) (n : Nat) :
    (mymemset buf c n).length = buf.length := by
  unfold mymemset
  simp only [List.length_append, List.length_map, List.length_take, List.length_drop]
  omega

theorem chunks_nil : Chunks [] := by
  intro c hc
  exact absurd hc (List.not_mem_nil c)

/-- The loop of `readsocket_writefd` on a payload that arrives in reads that
    each deliver something, followed by two that deliver nothing, its length
    `n` full blocks and a last one of `r` bytes: all of it is written at the
    offset of the file, and `r` is returned. -/
theorem readsocket_loop_spec (sockfd : Int) (sizebuf : Nat) (wfd : Int) (name : List Byte)
    (r : Nat) (h0 : 0 < r) (hr : r < sizebuf - 1) (n : Nat) :
    ∀ (cs : List (List Byte)) (tw : Nat) (buf : List Byte) (fuel : Nat) (d : Disk) (s : Sys)
      (pos : Nat) (c : List Byte) (tail : List (List Byte)),
      Chunks cs → s.input = cs ++ [] :: [] :: tail →
      cs.flatten.length = (sizebuf - 1) * n + r →
      d.lookup wfd = some (name, pos) → d.content name = some c → pos ≤ c.length →
      n + 2 ≤ fuel →
      ∃ d1 buf1, readsocket_writefd.loop sockfd sizebuf wfd fuel tw buf d s =
          Outcome.ret (some (r, buf1), d1) { s with input := tail } ∧
        d1.lookup wfd = some (name, pos + cs.flatten.length) ∧
        d1.content name = some (overwrite c pos cs.flatten) ∧
        buf1.length = buf.length := by
  induction n with
  | zero =>
    intro cs tw buf fuel d s pos c tail hch hin hlen hl hc hpos hfuel
    simp only [Nat.mul_zero, Nat.zero_add] at hlen
    obtain ⟨k, rfl⟩ : ∃ k, fuel = k + 2 := ⟨fuel - 2, by omega⟩
    have hread := mysckread_loop_short sockfd (sizebuf - 1) cs [] (sizebuf - 1 + 1)
      ([] :: tail) s hch hin (by simp only [List.length_nil]; omega)
      (by simp only [List.length_nil]; omega)
    simp only [List.nil_append] at hread
    obtain ⟨d1, w1, w2, w3⟩ := Write_file wfd cs.flatten d { s with input := [] :: tail } name
      pos c hl hc
    have hread2 := mysckread_loop_short sockfd (sizebuf - 1) [] [] (sizebuf - 1 + 1)
      tail { s with input := [] :: tail } chunks_nil rfl
      (by simp only [List.flatten_nil, List.length_nil]; omega)
      (by simp only [List.length_nil]; omega)
    simp only [List.nil_append, List.flatten_nil] at hread2
    have hpos1 : 0 < cs.flatten.length := by omega
    refine ⟨d1, mymemset (store buf 0 cs.flatten) 0 sizebuf, ?_, w2, w3, ?_⟩
    · simp only [readsocket_writefd.loop, FRun.bind_run, FRun.lift_apply, mysckread, hread,
        hpos1, if_true, w1, hread2, List.length_nil, Nat.lt_irrefl, if_false, FRun.pure_run]
      rw [hlen]
    · rw [mymemset_length, store_length]
  | succ n ih =>
    intro cs tw buf fuel d s pos c tail hch hin hlen hl hc hpos hfuel
    obtain ⟨k, rfl⟩ : ∃ k, fuel = k + 1 := ⟨fuel - 1, by omega⟩
    have hbig : sizebuf - 1 ≤ cs.flatten.length := by
      rw [hlen, Nat.mul_succ]; omega
    obtain ⟨cs1, a1, a2, a3⟩ := mysckread_loop_full sockfd (sizebuf - 1) cs [] (sizebuf - 1 + 1)
      ([] :: [] :: tail) s hch hin (by simp only [List.length_nil]; omega)
      (by simp only [List.length_nil]; omega) (by simp only [List.length_nil]; omega)
    simp only [List.nil_append, List.length_nil, Nat.sub_zero] at a2 a3
    have hgl : (cs.flatten.take (sizebuf - 1)).length = sizebuf - 1 := by
      rw [List.length_take]; omega
    obtain ⟨d1, w1, w2, w3⟩ := Write_file wfd (cs.flatten.take (sizebuf - 1)) d
      { s with input := cs1 ++ [] :: [] :: tail } name pos c hl hc
    have hlen1 : cs1.flatten.length = (sizebuf - 1) * n + r := by
      rw [a2, List.length_drop, hlen, Nat.mul_succ]; omega
    obtain ⟨d2, buf2, b1, b2, b3, b4⟩ := ih cs1 (cs.flatten.take (sizebuf - 1)).length
      (mymemset (store buf 0 (cs.flatten.take (sizebuf - 1))) 0 sizebuf) k d1
      { s with input := cs1 ++ [] :: [] :: tail } (pos + (cs.flatten.take (sizebuf - 1)).length)
      (overwrite c pos (cs.flatten.take (sizebuf - 1))) tail a1 rfl hlen1 w2 w3
      (overwrite_length c pos _ hpos) (by omega)
    have hpos1 : 0 < (cs.flatten.take (sizebuf - 1)).length := by omega
    refine ⟨d2, buf2, ?_, ?_, ?_, ?_⟩
    · simp only [readsocket_writefd.loop, FRun.bind_run, FRun.lift_apply, mysckread, a3,
        hpos1, if_true, w1]
      exact b1
    · rw [b2, a2, List.length_drop, hgl]
      congr 2
      omega
    · rw [b3, overwrite_overwrite c pos _ _ hpos, a2, List.take_append_drop]
    · rw [b4, mymemset_length, store_length]

/-! ### Sending a file -/

/-- What `Read` does on a descriptor open on a file. -/
theorem Read_file (fd : Int) (count : Nat) (d : Disk) (s : Sys) (name : List Byte)
    (pos : Nat) (c : List Byte) (h1 : d.lookup fd = some (name, pos))
    (h2 : d.content name = some c) :
    ∃ d1, Read fd count d s = Outcome.ret ((c.drop pos).take count, d1) s ∧
      d1.lookup fd = some (name, pos + ((c.drop pos).take count).length) ∧
      d1.content name = some c := by
  have hr : Read fd count d s = Outcome.ret ((c.drop pos).take count,
      { d with
        opened := (fd, name, pos + ((c.drop pos).take count).length) :: d.opened }) s := by
    unfold Read
    simp only [h1, h2, Option.getD_some]
  refine ⟨_, hr, ?_, ?_⟩
  · simp [Disk.lookup]
  · simpa [Disk.content] using h2

theorem mysckwrite_all (sck : Int) (bytes : List Byte) (s : Sys) (h : bytes ≠ []) :
    mysckwrite sck bytes bytes.length s =
      Outcome.ret bytes.length { s with output := s.output ++ tagged sck bytes } := by
  have hl : 0 < bytes.length := List.length_pos.mpr h
  unfold mysckwrite sys_write
  simp only [hl, if_true, Run.bind_apply, List.take_length, Run.pure_apply]

/-- One call of `readfd_writesocket` with `eofflag` 0 on a file that has bytes
    left: a block of them goes to the socket and its length is returned. -/
theorem readfd_writesocket_block (junk k : Nat) (sockfd : Int) (buf : List Byte)
    (sizebuf : Nat) (rfd : Int) (d : Disk) (s : Sys) (name : List Byte) (pos : Nat)
    (c : List Byte) (h1 : d.lookup rfd = some (name, pos)) (h2 : d.content name = some c)
    (hne : (c.drop pos).take (sizebuf - 1) ≠ []) :
    ∃ d1, readfd_writesocket junk (k + 1) sockfd buf sizebuf rfd 0 d s =
        Outcome.ret (some (((c.drop pos).take (sizebuf - 1)).length,
          store buf 0 ((c.drop pos).take (sizebuf - 1))), d1)
          { s with output := s.output ++ tagged sockfd ((c.drop pos).take (sizebuf - 1)) } ∧
      d1.lookup rfd = some (name, pos + ((c.drop pos).take (sizebuf - 1)).length) ∧
      d1.content name = some c := by
  obtain ⟨d1, r1, r2, r3⟩ := Read_file rfd (sizebuf - 1) d s name pos c h1 h2
  have hl : 0 < ((c.drop pos).take (sizebuf - 1)).length := List.length_pos.mpr hne
  refine ⟨d1, ?_, r2, r3⟩
  unfold readfd_writesocket
  simp only [readfd_writesocket.loop, FRun.bind_run, r1, hl, if_true, FRun.lift_apply,
    mysckwrite_all sockfd _ s hne, FRun.pure_run]

/-- One call of `readfd_writesocket` on a file that has no byte left: nothing
    is sent and the value `total_sent` held on entry is returned. -/
theorem readfd_writesocket_end (junk k : Nat) (sockfd : Int) (buf : List Byte)
    (sizebuf : Nat) (rfd : Int) (eofflag : Int) (d : Disk) (s : Sys) (name : List Byte)
    (pos : Nat) (c : List Byte) (h1 : d.lookup rfd = some (name, pos))
    (h2 : d.content name = some c) (hnil : (c.drop pos).take (sizebuf - 1) = []) :
    ∃ d1, readfd_writesocket junk (k + 1) sockfd buf sizebuf rfd eofflag d s =
        Outcome.ret (some (junk, buf), d1) s ∧
      d1.lookup rfd = some (name, pos) ∧ d1.content name = some c := by
  obtain ⟨d1, r1, r2, r3⟩ := Read_file rfd (sizebuf - 1) d s name pos c h1 h2
  rw [hnil] at r1 r2
  refine ⟨d1, ?_, by simpa using r2, r3⟩
  unfold readfd_writesocket
  simp only [readfd_writesocket.loop, FRun.bind_run, r1, List.length_nil, Nat.lt_irrefl,
    if_false, FRun.pure_run]

/-- The streaming of a file whose bytes left make `n` full blocks and a last
    one of `r` bytes, 0 < r < 4095: it ends, all of them sent in order. -/
theorem sendfile_tosocket_sends (junk : Nat) (name : List Byte) (c : List Byte) (r : Nat)
    (h0 : 0 < r) (hr : r < NETREADMAX - 1) (n : Nat) :
    ∀ (fuel : Nat) (io : MyIO) (d : Disk) (s : Sys) (pos : Nat),
      d.lookup io.readfd = some (name, pos) → d.content name = some c →
      (c.drop pos).length = (NETREADMAX - 1) * n + r → n + 1 ≤ fuel →
      ∃ d1 buf1, sendfile_tosocket junk fuel io d s =
          Outcome.ret (some { io with buf := buf1 }, d1)
            { s with output := s.output ++ tagged io.sockfd (c.drop pos) } ∧
        d1.content name = some c ∧ buf1.length = io.buf.length := by
  have hN : NETREADMAX - 1 = 4095 := rfl
  induction n with
  | zero =>
    intro fuel io d s pos hl hc hlen hfuel
    obtain ⟨k, rfl⟩ : ∃ k, fuel = k + 1 := ⟨fuel - 1, by omega⟩
    simp only [Nat.mul_zero, Nat.zero_add] at hlen
    have htake : (c.drop pos).take (NETREADMAX - 1) = c.drop pos :=
      List.take_of_length_le (by omega)
    have hne : (c.drop pos).take (NETREADMAX - 1) ≠ [] := by
      rw [htake]
      intro e
      rw [e] at hlen
      simp at hlen
      omega
    obtain ⟨d1, r1, _, r3⟩ := readfd_writesocket_block junk k io.sockfd io.buf NETREADMAX
      io.readfd d s name pos c hl hc hne
    rw [htake] at r1
    have hnot : ¬ (c.drop pos).length = NETREADMAX - 1 := by omega
    refine ⟨d1, store io.buf 0 (c.drop pos), ?_, r3, store_length _ _ _⟩
    unfold sendfile_tosocket
    simp only [FRun.bind_run, r1, hnot, if_false, FRun.pure_run]
  | succ n ih =>
    intro fuel io d s pos hl hc hlen hfuel
    obtain ⟨k, rfl⟩ : ∃ k, fuel = k + 1 := ⟨fuel - 1, by omega⟩
    have hbig : NETREADMAX - 1 ≤ (c.drop pos).length := by
      rw [hlen, Nat.mul_succ]; omega
    have htl : ((c.drop pos).take (NETREADMAX - 1)).length = NETREADMAX - 1 := by
      rw [List.length_take]; omega
    have hne : (c.drop pos).take (NETREADMAX - 1) ≠ [] := by
      intro e
      rw [e] at htl
      simp at htl
      omega
    obtain ⟨d1, r1, r2, r3⟩ := readfd_writesocket_block junk k io.sockfd io.buf NETREADMAX
      io.readfd d s name pos c hl hc hne
    rw [htl] at r1 r2
    obtain ⟨d2, buf2, b1, b2, b3⟩ := ih k
      { io with buf := store io.buf 0 ((c.drop pos).take (NETREADMAX - 1)) } d1
      { s with output := s.output ++ tagged io.sockfd ((c.drop pos).take (NETREADMAX - 1)) }
      (pos + (NETREADMAX - 1)) r2 r3
      (by rw [List.length_drop] at hlen ⊢; rw [Nat.mul_succ] at hlen; omega) (by omega)
    refine ⟨d2, buf2, ?_, b2, by rw [b3]; exact store_length _ _ _⟩
    unfold sendfile_tosocket
    simp only [FRun.bind_run, r1, if_true]
    rw [b1]
    have e : tagged io.sockfd ((c.drop pos).take (NETREADMAX - 1)) ++
        tagged io.sockfd (c.drop (pos + (NETREADMAX - 1))) = tagged io.sockfd (c.drop pos) := by
      unfold tagged
      rw [← List.map_append]
      congr 1
      rw [← List.drop_drop]
      exact List.take_append_drop _ _
    simp only [List.append_assoc, e]

/-- With 4095 in `total_sent` on entry, the streaming of a file that has no
    byte left goes round for ever: after any number of rounds it is still
    running, and it sends nothing. -/
theorem sendfile_tosocket_stuck (name : List Byte) (c : List Byte) (fuel : Nat) :
    ∀ (io : MyIO) (d : Disk) (s : Sys) (pos : Nat),
      d.lookup io.readfd = some (name, pos) → d.content name = some c → c.drop pos = [] →
      ∃ d1, sendfile_tosocket (NETREADMAX - 1) fuel io d s = Outcome.ret (none, d1) s := by
  induction fuel with
  | zero =>
    intro io d s pos _ _ _
    exact ⟨d, rfl⟩
  | succ k ih =>
    intro io d s pos hl hc hnil
    obtain ⟨d1, r1, r2, r3⟩ := readfd_writesocket_end (NETREADMAX - 1) k io.sockfd io.buf
      NETREADMAX io.readfd 0 d s name pos c hl hc (by rw [hnil]; rfl)
    obtain ⟨d2, b1⟩ := ih { io with buf := io.buf } d1 s pos r2 r3 hnil
    refine ⟨d2, ?_⟩
    unfold sendfile_tosocket
    simp only [FRun.bind_run, r1, if_true]
    exact b1

/-- With 4095 in `total_sent` on entry, the streaming of a file whose bytes
    left make `n` full blocks and nothing more never returns; after `n` rounds
    all of them are sent. -/
theorem sendfile_tosocket_multiple (name : List Byte) (c : List Byte) (n : Nat) :
    ∀ (fuel : Nat) (io : MyIO) (d : Disk) (s : Sys) (pos : Nat),
      d.lookup io.readfd = some (name, pos) → d.content name = some c →
      (c.drop pos).length = (NETREADMAX - 1) * n →
      ∃ d1, sendfile_tosocket (NETREADMAX - 1) (n + fuel) io d s =
          Outcome.ret (none, d1)
            { s with output := s.output ++ tagged io.sockfd (c.drop pos) } := by
  have hN : NETREADMAX - 1 = 4095 := rfl
  induction n with
  | zero =>
    intro fuel io d s pos hl hc hlen
    have hnil : c.drop pos = [] := by
      apply List.eq_nil_of_length_eq_zero
      rw [hlen, Nat.mul_zero]
    obtain ⟨d1, h1⟩ := sendfile_tosocket_stuck name c (0 + fuel) io d s pos hl hc hnil
    refine ⟨d1, ?_⟩
    rw [h1, hnil]
    simp [tagged]
  | succ n ih =>
    intro fuel io d s pos hl hc hlen
    have hbig : NETREADMAX - 1 ≤ (c.drop pos).length := by
      rw [hlen, Nat.mul_succ]; omega
    have htl : ((c.drop pos).take (NETREADMAX - 1)).length = NETREADMAX - 1 := by
      rw [List.length_take]; omega
    have hne : (c.drop pos).take (NETREADMAX - 1) ≠ [] := by
      intro e
      rw [e] at htl
      simp at htl
      omega
    obtain ⟨d1, r1, r2, r3⟩ := readfd_writesocket_block (NETREADMAX - 1) (n + fuel) io.sockfd
      io.buf NETREADMAX io.readfd d s name pos c hl hc hne
    rw [htl] at r1 r2
    obtain ⟨d2, b1⟩ := ih fuel
      { io with buf := store io.buf 0 ((c.drop pos).take (NETREADMAX - 1)) } d1
      { s with output := s.output ++ tagged io.sockfd ((c.drop pos).take (NETREADMAX - 1)) }
      (pos + (NETREADMAX - 1)) r2 r3
      (by rw [List.length_drop] at hlen ⊢; rw [Nat.mul_succ] at hlen; omega)
    refine ⟨d2, ?_⟩
    have hf : n + 1 + fuel = (n + fuel) + 1 := by omega
    rw [hf]
    unfold sendfile_tosocket
    simp only [FRun.bind_run, r1, if_true]
    rw [b1]
    have e : tagged io.sockfd ((c.drop pos).take (NETREADMAX - 1)) ++
        tagged io.sockfd (c.drop (pos + (NETREADMAX - 1))) = tagged io.sockfd (c.drop pos) := by
      unfold tagged
      rw [← List.map_append]
      congr 1
      rw [← List.drop_drop]
      exact List.take_append_drop _ _
    simp only [List.append_assoc, e]

/-- C17, the code at a failing input: a file of 4095 bytes, open at its start,
    and 4095 left in `total_sent` by the call before.  After any number of
    rounds, one or more, `sendfile_tosocket` has written the 4095 bytes to the
    socket and is still running: the call that finds no byte left returns
    `total_sent` as it found it, which sends the loop round again. -/
theorem sendfile_tosocket_block_file (fuel : Nat) :
    ∃ d1 s1, sendfile_tosocket 4095 (1 + fuel) { server_io with readfd := 5 } block_disk
        (example_sys []) = Outcome.ret (none, d1) s1 ∧
      s1.written 4 = List.replicate 4095 97 := by
  obtain ⟨d1, h1⟩ := sendfile_tosocket_multiple (ascii "b.bin") (List.replicate 4095 97) 1 fuel
    { server_io with readfd := 5 } block_disk (example_sys []) 0 rfl rfl
    (by rw [List.drop_zero, List.length_replicate]; rfl)
  refine ⟨d1, _, h1, ?_⟩
  unfold Sys.written
  simp only [List.drop_zero]
  have : (example_sys []).output = [] := rfl
  rw [this, List.nil_append]
  exact bytes_to_tagged_same _ _

/-! ### The handlers of get and put -/

theorem filename_prompt_bytes :
    myfprintf.bytes false (ascii "filename: ") [] = ascii "filename: " := by decide

theorem put_log_bytes :
    myfprintf.bytes false (ascii "client:: put\n") [] = ascii "client:: put\n" := by decide

theorem get_log_bytes :
    myfprintf.bytes false (ascii "client:: get\n") [] = ascii "client:: get\n" := by decide

theorem fresh_ne_minus_one (d : Disk) : d.fresh ≠ -1 := by
  unfold Disk.fresh
  omega

/-- What `open` does with a name that has a file, or under `O_CREAT` with a
    name the directory can hold, and without `O_TRUNC`: the new descriptor is
    at the start of the file, which holds what it held, nothing if it was not
    there. -/
theorem sys_open_spec (line : List Byte) (flags : Nat) (d : Disk) (s : Sys)
    (ht : has_flag flags O_TRUNC = false)
    (hc : (has_flag flags O_CREAT = true ∧ d.can_create (cstr line) = true) ∨
      d.content (cstr line) ≠ none) :
    ∃ d1, sys_open line flags d s = Outcome.ret (d.fresh, d1) s ∧
      d1.lookup d.fresh = some (cstr line, 0) ∧
      d1.content (cstr line) = some ((d.content (cstr line)).getD []) := by
  cases hcont : d.content (cstr line) with
  | some c =>
    have ho : sys_open line flags d s = Outcome.ret (d.fresh,
        { d with
          files := d.files,
          opened := (d.fresh, cstr line, 0) :: d.opened }) s := by
      unfold sys_open
      simp only [hcont, ht, Bool.false_eq_true, if_false]
    refine ⟨_, ho, lookup_cons d _ _ _, ?_⟩
    simpa [Disk.content] using hcont
  | none =>
    have hcr : has_flag flags O_CREAT = true ∧ d.can_create (cstr line) = true := by
      rcases hc with x | x
      · exact x
      · exact absurd hcont x
    have ho : sys_open line flags d s = Outcome.ret (d.fresh,
        { d with
          files := (cstr line, []) :: d.files,
          opened := (d.fresh, cstr line, 0) :: d.opened }) s := by
      unfold sys_open
      simp only [hcont, hcr.1, hcr.2, and_self, if_true]
    exact ⟨_, ho, lookup_cons d _ _ _, content_cons d _ _ _⟩

/-- What `openfile_getfd_fromclient` does when a read delivers the name and a
    newline: the prompt is sent, the name is left in the buffer and the file
    is opened. -/
theorem openfile_getfd_spec (io : MyIO) (flags mode : Nat) (f : List Byte)
    (rest : List (List Byte)) (d : Disk) (s : Sys)
    (hg : s.getc = none) (hin : s.input = (f ++ [10]) :: rest)
    (hf : ∀ b ∈ f, b ≠ 255) (hf0 : (0 : Byte) ∉ f) (_hfne : f ≠ [])
    (h1 : f.length + 1 ≤ GETCHAR_BUFSIZE) (h2 : f.length + 1 ≤ io.bufsize - 1 - 1)
    (h3 : f.length + 1 ≤ io.buf.length)
    (ht : has_flag flags O_TRUNC = false)
    (hc : (has_flag flags O_CREAT = true ∧ d.can_create f = true) ∨ d.content f ≠ none) :
    ∃ d1, openfile_getfd_fromclient io flags mode d s =
        Outcome.ret ((d.fresh, { io with buf := f ++ 0 :: io.buf.drop (f.length + 1) }), d1)
          { s with input := rest, getc := none,
                   output := s.output ++ tagged io.sockfd (ascii "filename: ") } ∧
      d1.lookup d.fresh = some (f, 0) ∧ d1.content f = some ((d.content f).getD []) := by
  have hne : ∀ b : Byte, b ≠ 255 → charval b ≠ EOF := by
    intro b hb e
    apply hb
    apply charval_injective
    rw [e]
    decide
  have hline := myreadline_chunk io.sockfd io.buf (io.bufsize - 1) f 10 rest
    { s with output := s.output ++ tagged io.sockfd (ascii "filename: ") } hg hin h1 h2 h3
    (by
      intro b hb
      rcases List.mem_append.mp hb with x | x
      · exact hne b (hf b x)
      · rw [List.mem_singleton.mp x]; exact hne _ (by decide))
  have hcs : cstr (f ++ 0 :: io.buf.drop (f.length + 1)) = f := cstr_at f _ hf0
  obtain ⟨d1, o1, o2, o3⟩ := sys_open_spec (f ++ 0 :: io.buf.drop (f.length + 1)) flags d
    { s with input := rest, getc := none,
             output := s.output ++ tagged io.sockfd (ascii "filename: ") }
    ht (by rw [hcs]; exact hc)
  rw [hcs] at o2 o3
  refine ⟨d1, ?_, o2, o3⟩
  have hfr := fresh_ne_minus_one d
  unfold openfile_getfd_fromclient
  by_cases hm : mode = 0
  · simp only [FRun.bind_run, FRun.lift_apply, myfprintf, sys_write, filename_prompt_bytes,
      do_poll, Run.pure_apply, hline, hm, if_true, myopenfile, o1, hfr, if_false,
      FRun.pure_run]
  · simp only [FRun.bind_run, FRun.lift_apply, myfprintf, sys_write, filename_prompt_bytes,
      do_poll, Run.pure_apply, hline, hm, if_false, myopen, o1, hfr, FRun.pure_run]

theorem mysckwrite_done (sck : Int) (s : Sys) :
    mysckwrite sck [10, 0] 2 s =
      Outcome.ret 2 { s with output := s.output ++ tagged sck [10, 0] } := by
  unfold mysckwrite sys_write
  simp only [Nat.lt_add_one, Nat.ofNat_pos, if_true, Run.bind_apply, Run.pure_apply]
  rfl

/-- What `serverhandleput` does when a read delivers the name and a newline,
    the name is that of a file or one under which a file can be made, the payload
    follows in reads that each deliver something and then two reads deliver
    nothing, for a payload of `n` full blocks and a last one of `r` bytes,
    0 < r < 4095: it returns, and the file holds the payload from its start
    on, followed by what it held beyond the length of the payload. -/
theorem serverhandleput_spec (junk fuel : Nat) (io : MyIO) (f : List Byte)
    (cs tail : List (List Byte)) (n r : Nat) (d : Disk) (s : Sys)
    (hg : s.getc = none) (hin : s.input = (f ++ [10]) :: (cs ++ [] :: [] :: tail))
    (hf : ∀ b ∈ f, b ≠ 255) (hf0 : (0 : Byte) ∉ f) (hfne : f ≠ [])
    (h1 : f.length + 1 ≤ GETCHAR_BUFSIZE) (hsize : io.bufsize = NETREADMAX)
    (h3 : f.length + 1 ≤ io.buf.length)
    (hch : Chunks cs) (hlen : cs.flatten.length = (NETREADMAX - 1) * n + r)
    (h0 : 0 < r) (hr : r < NETREADMAX - 1) (hfuel : n + 2 ≤ fuel)
    (hcr : d.can_create f = true ∨ d.content f ≠ none) :
    ∃ d1 buf1, serverhandleput junk fuel io d s =
        Outcome.ret (some { io with buf := buf1 }, d1)
          { s with input := tail, getc := none,
                   output := ((s.output ++ tagged io.writefd (ascii "client:: put\n")) ++
                     tagged io.sockfd (ascii "filename: ")) ++ tagged io.sockfd [10, 0],
                   closed := s.closed ++ [d.fresh] } ∧
      d1.content f = some (overwrite ((d.content f).getD []) 0 cs.flatten) ∧
      d1.lookup d.fresh = none ∧ buf1.length = io.buf.length := by
  have hN : NETREADMAX = 4096 := rfl
  have hG : GETCHAR_BUFSIZE = 1024 := rfl
  obtain ⟨k, rfl⟩ : ∃ k, fuel = k + 1 := ⟨fuel - 1, by omega⟩
  obtain ⟨d1, o1, o2, o3⟩ := openfile_getfd_spec io (O_CREAT + O_RDWR) mode_rw_all f
    (cs ++ [] :: [] :: tail) d
    { s with output := s.output ++ tagged io.writefd (ascii "client:: put\n") } hg hin hf hf0
    hfne h1 (by rw [hsize]; omega) h3 (by decide) (hcr.imp (fun h => ⟨by decide, h⟩) id)
  obtain ⟨d2, buf2, b1, b2, b3, b4⟩ := readsocket_loop_spec io.sockfd io.bufsize d.fresh f r h0
    (by rw [hsize]; exact hr) n cs junk (f ++ 0 :: io.buf.drop (f.length + 1)) (k + 1) d1
    { s with input := cs ++ [] :: [] :: tail, getc := none,
             output := (s.output ++ tagged io.writefd (ascii "client:: put\n")) ++
               tagged io.sockfd (ascii "filename: ") }
    0 ((d.content f).getD []) tail hch rfl (by rw [hsize]; exact hlen) o2 o3 (Nat.zero_le _)
    hfuel
  have hrne : ¬ r = NETREADMAX - 1 := by omega
  have hbl : (f ++ 0 :: io.buf.drop (f.length + 1)).length = io.buf.length := by
    simp only [List.length_append, List.length_cons, List.length_drop]
    omega
  refine ⟨{ d2 with opened := d2.opened.filter (fun e => e.1 ≠ d.fresh) }, buf2, ?_, ?_, ?_,
    by rw [b4, hbl]⟩
  · unfold serverhandleput
    simp only [FRun.bind_run, FRun.lift_apply, myfprintf, sys_write, put_log_bytes, o1,
      readbytes_fromsocket, do_poll, Run.pure_apply, readsocket_writefd, b1, hrne, if_false,
      mysckwrite_done, closewritefd_restoreoldfd, close_file, FRun.pure_run]
  · simpa [Disk.content] using b3
  · unfold Disk.lookup
    rw [Option.map_eq_none', List.find?_eq_none]
    intro e he
    have := (List.mem_filter.mp he).2
    simpa using this

/-- What `serverhandleget` does when a read delivers the name and a newline
    and, after the file is sent, another one the two bytes of the client's
    confirmation, for a file of `n` full blocks and a last one of `r` bytes,
    0 < r < 4095: it returns, having sent the prompt and then the content of
    the file to the socket. -/
theorem serverhandleget_spec (junk fuel : Nat) (io : MyIO) (f c : List Byte)
    (tail : List (List Byte)) (n r : Nat) (d : Disk) (s : Sys)
    (hg : s.getc = none) (hin : s.input = (f ++ [10]) :: [10, 0] :: tail)
    (hf : ∀ b ∈ f, b ≠ 255) (hf0 : (0 : Byte) ∉ f) (hfne : f ≠ [])
    (h1 : f.length + 1 ≤ GETCHAR_BUFSIZE) (hsize : io.bufsize = NETREADMAX)
    (h3 : f.length + 1 ≤ io.buf.length)
    (hc : d.content f = some c) (hlen : c.length = (NETREADMAX - 1) * n + r)
    (h0 : 0 < r) (hr : r < NETREADMAX - 1) (hfuel : n + 1 ≤ fuel) :
    ∃ d1 buf1, serverhandleget junk fuel io d s =
        Outcome.ret (some { io with buf := buf1 }, d1)
          { s with input := tail, getc := none,
                   output := ((s.output ++ tagged io.writefd (ascii "client:: get\n")) ++
                     tagged io.sockfd (ascii "filename: ")) ++ tagged io.sockfd c,
                   closed := s.closed ++ [d.fresh] } ∧
      d1.content f = some c ∧ buf1.length = io.buf.length := by
  have hN : NETREADMAX = 4096 := rfl
  have hG : GETCHAR_BUFSIZE = 1024 := rfl
  have hne : ∀ b : Byte, b ≠ 255 → charval b ≠ EOF := by
    intro b hb e
    apply hb
    apply charval_injective
    rw [e]
    decide
  obtain ⟨d1, o1, o2, o3⟩ := openfile_getfd_spec io O_RDONLY 0 f ([10, 0] :: tail) d
    { s with output := s.output ++ tagged io.writefd (ascii "client:: get\n") } hg hin hf hf0
    hfne h1 (by rw [hsize]; omega) h3 (by decide) (Or.inr (by rw [hc]; simp))
  rw [hc, Option.getD_some] at o3
  have hbl : (f ++ 0 :: io.buf.drop (f.length + 1)).length = io.buf.length := by
    simp only [List.length_append, List.length_cons, List.length_drop]
    omega
  obtain ⟨d2, buf2, b1, b2, b3⟩ := sendfile_tosocket_sends junk f c r h0 hr n fuel
    { io with buf := f ++ 0 :: io.buf.drop (f.length + 1), readfd := d.fresh } d1
    { s with input := [10, 0] :: tail, getc := none,
             output := (s.output ++ tagged io.writefd (ascii "client:: get\n")) ++
               tagged io.sockfd (ascii "filename: ") }
    0 o2 o3 (by rw [List.drop_zero]; exact hlen) hfuel
  rw [List.drop_zero] at b1
  have hb2 : buf2.length = io.buf.length := b3.trans hbl
  have hfl : 0 < f.length := List.length_pos.mpr hfne
  have hline := myreadline_chunk io.sockfd buf2 (io.bufsize - 1) [10] 0 tail
    { s with input := [10, 0] :: tail, getc := none,
             output := ((s.output ++ tagged io.writefd (ascii "client:: get\n")) ++
               tagged io.sockfd (ascii "filename: ")) ++ tagged io.sockfd c }
    rfl rfl (by rw [hG]; decide) (by rw [hsize, hN]; decide)
    (by rw [hb2]; simp only [List.length_singleton]; omega)
    (by
      intro b hb
      simp only [List.singleton_append, List.mem_cons, List.mem_singleton, List.not_mem_nil,
        or_false] at hb
      rcases hb with x | x
      · rw [x]; exact hne _ (by decide)
      · rw [x]; exact hne _ (by decide))
  refine ⟨{ d2 with opened := d2.opened.filter (fun e => e.1 ≠ d.fresh) },
    [10] ++ 0 :: buf2.drop ([10].length + 1), ?_, ?_, ?_⟩
  · unfold serverhandleget
    simp only [FRun.bind_run, FRun.lift_apply, myfprintf, sys_write, get_log_bytes, o1, b1,
      hline, closereadfd_restoreoldfd, close_file, FRun.pure_run]
    rfl
  · simpa [Disk.content] using b2
  · simp only [List.length_append, List.length_cons, List.length_drop, List.length_nil]
    omega

/-! ### C18: the descriptors of the context -/

theorem FRun.bind_ret {α β : Type} (m : FRun α) (f : α → FRun β) (d : Disk) (s : Sys)
    (r : β × Disk) (s2 : Sys) (h : (m >>= f) d s = Outcome.ret r s2) :
    ∃ a d1 s1, m d s = Outcome.ret (a, d1) s1 ∧ f a d1 s1 = Outcome.ret r s2 := by
  rw [FRun.bind_run] at h
  cases hm : m d s with
  | ret p s1 =>
    rw [hm] at h
    exact ⟨p.1, p.2, s1, rfl, h⟩
  | exit c s1 =>
    rw [hm] at h
    cases h

theorem same_descriptors_refl (a : MyIO) : a.same_descriptors a := ⟨rfl, rfl, rfl, rfl⟩

theorem same_descriptors_trans {a b c : MyIO} (h1 : a.same_descriptors b)
    (h2 : b.same_descriptors c) : a.same_descriptors c :=
  ⟨h1.1.trans h2.1, h1.2.1.trans h2.2.1, h1.2.2.1.trans h2.2.2.1, h1.2.2.2.trans h2.2.2.2⟩

/-- `openfile_getfd_fromclient` changes the buffer of the context only. -/
theorem openfile_getfd_frame (io : MyIO) (flags mode : Nat) (d : Disk) (s : Sys) (fd : Int)
    (io1 : MyIO) (d1 : Disk) (s1 : Sys)
    (h : openfile_getfd_fromclient io flags mode d s = Outcome.ret ((fd, io1), d1) s1) :
    io1.same_descriptors io := by
  unfold openfile_getfd_fromclient at h
  obtain ⟨_, _, _, _, h⟩ := FRun.bind_ret _ _ _ _ _ _ h
  obtain ⟨_, _, _, _, h⟩ := FRun.bind_ret _ _ _ _ _ _ h
  obtain ⟨⟨_, line⟩, _, _, _, h⟩ := FRun.bind_ret _ _ _ _ _ _ h
  simp only [] at h
  by_cases hm : mode = 0
  · rw [if_pos hm] at h
    obtain ⟨_, _, _, _, h⟩ := FRun.bind_ret _ _ _ _ _ _ h
    simp only [FRun.pure_run] at h
    injection h with h _
    injection h with h _
    injection h with _ h
    rw [← h]
    exact ⟨rfl, rfl, rfl, rfl⟩
  · rw [if_neg hm] at h
    obtain ⟨_, _, _, _, h⟩ := FRun.bind_ret _ _ _ _ _ _ h
    simp only [FRun.pure_run] at h
    injection h with h _
    injection h with h _
    injection h with _ h
    rw [← h]
    exact ⟨rfl, rfl, rfl, rfl⟩

/-- `sendfile_tosocket` changes the buffer of the context only. -/
theorem sendfile_tosocket_frame (junk : Nat) (fuel : Nat) :
    ∀ (io : MyIO) (d : Disk) (s : Sys) (io1 : MyIO) (d1 : Disk) (s1 : Sys),
      sendfile_tosocket junk fuel io d s = Outcome.ret (some io1, d1) s1 →
      io1.same_descriptors io := by
  induction fuel with
  | zero =>
    intro io d s io1 d1 s1 h
    simp only [sendfile_tosocket, FRun.pure_run] at h
    injection h with h _
    injection h with h _
    cases h
  | succ k ih =>
    intro io d s io1 d1 s1 h
    unfold sendfile_tosocket at h
    obtain ⟨r, d2, s2, _, h⟩ := FRun.bind_ret _ _ _ _ _ _ h
    cases r with
    | none =>
      simp only [FRun.pure_run] at h
      injection h with h _
      injection h with h _
      cases h
    | some p =>
      obtain ⟨nread, buf1⟩ := p
      simp only [] at h
      by_cases hn : nread = NETREADMAX - 1
      · rw [if_pos hn] at h
        exact same_descriptors_trans (ih _ _ _ _ _ _ h) ⟨rfl, rfl, rfl, rfl⟩
      · rw [if_neg hn] at h
        simp only [FRun.pure_run] at h
        injection h with h _
        injection h with h _
        injection h with h
        rw [← h]
        exact ⟨rfl, rfl, rfl, rfl⟩

/-- `readbytes_fromsocket` changes the buffer of the context only. -/
theorem readbytes_fromsocket_frame (junk szmax : Nat) (fuel : Nat) :
    ∀ (io : MyIO) (d : Disk) (s : Sys) (io1 : MyIO) (d1 : Disk) (s1 : Sys),
      readbytes_fromsocket junk szmax fuel io d s = Outcome.ret (some io1, d1) s1 →
      io1.same_descriptors io := by
  induction fuel with
  | zero =>
    intro io d s io1 d1 s1 h
    simp only [readbytes_fromsocket, FRun.pure_run] at h
    injection h with h _
    injection h with h _
    cases h
  | succ k ih =>
    intro io d s io1 d1 s1 h
    unfold readbytes_fromsocket at h
    obtain ⟨_, _, _, _, h⟩ := FRun.bind_ret _ _ _ _ _ _ h
    obtain ⟨r, d2, s2, _, h⟩ := FRun.bind_ret _ _ _ _ _ _ h
    cases r with
    | none =>
      simp only [FRun.pure_run] at h
      injection h with h _
      injection h with h _
      cases h
    | some p =>
      obtain ⟨bytesread, buf1⟩ := p
      simp only [] at h
      by_cases hn : bytesread = szmax
      · rw [if_pos hn] at h
        exact same_descriptors_trans (ih _ _ _ _ _ _ h) ⟨rfl, rfl, rfl, rfl⟩
      · rw [if_neg hn] at h
        obtain ⟨_, _, _, _, h⟩ := FRun.bind_ret _ _ _ _ _ _ h
        simp only [FRun.pure_run] at h
        injection h with h _
        injection h with h _
        injection h with h
        rw [← h]
        exact ⟨rfl, rfl, rfl, rfl⟩

/-- When `serverhandleget` returns, the context has the descriptors and the
    capacity it had on entry. -/
theorem serverhandleget_frame (junk fuel : Nat) (io : MyIO) (d : Disk) (s : Sys) (io1 : MyIO)
    (d1 : Disk) (s1 : Sys)
    (h : serverhandleget junk fuel io d s = Outcome.ret (some io1, d1) s1) :
    io1.same_descriptors io := by
  unfold serverhandleget at h
  obtain ⟨_, _, _, _, h⟩ := FRun.bind_ret _ _ _ _ _ _ h
  obtain ⟨⟨fd, ioa⟩, _, _, ha, h⟩ := FRun.bind_ret _ _ _ _ _ _ h
  simp only [] at h
  obtain ⟨r, _, _, hb, h⟩ := FRun.bind_ret _ _ _ _ _ _ h
  obtain ⟨a1, a2, a3, a4⟩ := openfile_getfd_frame _ _ _ _ _ _ _ _ _ ha
  cases r with
  | none =>
    simp only [FRun.pure_run] at h
    injection h with h _
    injection h with h _
    cases h
  | some iob =>
    obtain ⟨b1, b2, b3, b4⟩ := sendfile_tosocket_frame _ _ _ _ _ _ _ _ hb
    simp only [] at h
    obtain ⟨⟨_, line⟩, _, _, _, h⟩ := FRun.bind_ret _ _ _ _ _ _ h
    simp only [] at h
    obtain ⟨ioc, _, _, hc, h⟩ := FRun.bind_ret _ _ _ _ _ _ h
    unfold closereadfd_restoreoldfd at hc
    obtain ⟨_, _, _, _, hc⟩ := FRun.bind_ret _ _ _ _ _ _ hc
    simp only [FRun.pure_run] at hc h
    injection hc with hc _
    injection hc with hc _
    injection h with h _
    injection h with h _
    injection h with h
    rw [← h, ← hc]
    exact ⟨b1.trans a1, rfl, b3.trans a3, b4.trans a4⟩

/-- When `serverhandleput` returns, the context has the descriptors and the
    capacity it had on entry. -/
theorem serverhandleput_frame (junk fuel : Nat) (io : MyIO) (d : Disk) (s : Sys) (io1 : MyIO)
    (d1 : Disk) (s1 : Sys)
    (h : serverhandleput junk fuel io d s = Outcome.ret (some io1, d1) s1) :
    io1.same_descriptors io := by
  unfold serverhandleput at h
  obtain ⟨_, _, _, _, h⟩ := FRun.bind_ret _ _ _ _ _ _ h
  obtain ⟨⟨fd, ioa⟩, _, _, ha, h⟩ := FRun.bind_ret _ _ _ _ _ _ h
  simp only [] at h
  obtain ⟨r, _, _, hb, h⟩ := FRun.bind_ret _ _ _ _ _ _ h
  obtain ⟨a1, a2, a3, a4⟩ := openfile_getfd_frame _ _ _ _ _ _ _ _ _ ha
  cases r with
  | none =>
    simp only [FRun.pure_run] at h
    injection h with h _
    injection h with h _
    cases h
  | some iob =>
    obtain ⟨b1, b2, b3, b4⟩ := readbytes_fromsocket_frame _ _ _ _ _ _ _ _ _ hb
    simp only [] at h
    obtain ⟨ioc, _, _, hc, h⟩ := FRun.bind_ret _ _ _ _ _ _ h
    unfold closewritefd_restoreoldfd at hc
    obtain ⟨_, _, _, _, hc⟩ := FRun.bind_ret _ _ _ _ _ _ hc
    simp only [FRun.pure_run] at hc h
    injection hc with hc _
    injection hc with hc _
    injection h with h _
    injection h with h _
    injection h with h
    rw [← h, ← hc]
    exact ⟨b1.trans a1, b2.trans a2, rfl, b4.trans a4⟩

/-- C18. For every I/O context: when `serverhandleget` returns, `io.readfd`
    has the value it had on entry, and when `serverhandleput` returns,
    `io.writefd` has the value it had on entry; in both cases `io.sockfd`,
    `io.bufsize` and the other descriptor are unchanged. -/
theorem serverhandle_descriptors_restored (junk fuel : Nat) (io ioget ioput : MyIO)
    (d0 d1 dg dp : Disk) (s0 s1 sg sp : Sys)
    (hget : serverhandleget junk fuel io d0 s0 = Outcome.ret (some ioget, dg) sg)
    (hput : serverhandleput junk fuel io d1 s1 = Outcome.ret (some ioput, dp) sp) :
    (ioget.readfd = io.readfd ∧ ioget.sockfd = io.sockfd ∧ ioget.bufsize = io.bufsize ∧
      ioget.writefd = io.writefd) ∧
    (ioput.writefd = io.writefd ∧ ioput.sockfd = io.sockfd ∧ ioput.bufsize = io.bufsize ∧
      ioput.readfd = io.readfd) := by
  obtain ⟨a1, a2, a3, a4⟩ := serverhandleget_frame junk fuel io d0 s0 ioget dg sg hget
  obtain ⟨b1, b2, b3, b4⟩ := serverhandleput_frame junk fuel io d1 s1 ioput dp sp hput
  exact ⟨⟨a2, a1, a4, a3⟩, ⟨b3, b1, b4, b2⟩⟩

theorem server_io_length : server_io.buf.length = 4096 := by
  unfold server_io initiostruct
  simp only [mymemset_length, List.length_replicate]

/-- Witness for C18: a get of the file `old.txt` and a put of `hello` under the
    name `new.txt`, in the context of a worker; both return. -/
theorem serverhandle_descriptors_restored_witness :
    ∃ (ioget ioput : MyIO) (dg dp : Disk) (sg sp : Sys),
      serverhandleget 0 3 server_io example_disk (example_sys [ascii "old.txt\n", [10, 0]]) =
        Outcome.ret (some ioget, dg) sg ∧
      serverhandleput 0 3 server_io example_disk
        (example_sys [ascii "new.txt\n", ascii "hello", [], []]) =
        Outcome.ret (some ioput, dp) sp ∧
      (ioget.readfd = server_io.readfd ∧ ioget.sockfd = server_io.sockfd ∧
        ioget.bufsize = server_io.bufsize ∧ ioget.writefd = server_io.writefd) ∧
      (ioput.writefd = server_io.writefd ∧ ioput.sockfd = server_io.sockfd ∧
        ioput.bufsize = server_io.bufsize ∧ ioput.readfd = server_io.readfd) := by
  obtain ⟨dg, bg, hg, _⟩ := serverhandleget_spec 0 3 server_io (ascii "old.txt")
    (ascii "0123456789") [] 0 10 example_disk (example_sys [ascii "old.txt\n", [10, 0]])
    rfl (by decide) (by decide) (by decide) (by decide) (by decide) rfl
    (by rw [server_io_length]; decide) (by decide) (by decide) (by decide) (by decide)
    (by decide)
  obtain ⟨dp, bp, hp, _⟩ := serverhandleput_spec 0 3 server_io (ascii "new.txt")
    [ascii "hello"] [] 0 5 example_disk
    (example_sys [ascii "new.txt\n", ascii "hello", [], []])
    rfl (by decide) (by decide) (by decide) (by decide) (by decide) rfl
    (by rw [server_io_length]; decide) (by intro c hc; simp at hc; rw [hc]; decide)
    (by decide) (by decide) (by decide) (by decide) (Or.inl (by decide))
  exact ⟨_, _, _, _, _, _, hg, hp,
    serverhandle_descriptors_restored 0 3 server_io _ _ example_disk example_disk _ _ _ _ _ _
      hg hp⟩

/-! ### C15, C16: put and get -/

/-- A put under a name the directory cannot hold, `nodir/x.txt` or `.`: `open`
    fails, and `serverhandleput` leaves the process through `open() error`
    and returns nothing. -/
theorem serverhandleput_refused_name :
    (serverhandleput 0 3 server_io example_disk
        (example_sys [ascii "nodir/x.txt\n", ascii "hello", [], []])).result? = none ∧
      (serverhandleput 0 3 server_io example_disk
        (example_sys [ascii "nodir/x.txt\n", ascii "hello", [], []])).sys.written sys_stderr =
        ascii "open() error\n" ∧
      (serverhandleput 0 3 server_io example_disk
        (example_sys [ascii ".\n", ascii "hello", [], []])).result? = none := by
  decide!

theorem charval_of_lt (b : Byte) (h : b.toNat < 128) : charval b = (b.toNat : Int) := by
  unfold charval; rw [if_pos h]

theorem toNat_ne_of_ne {a b : Byte} (h : a ≠ b) : a.toNat ≠ b.toNat := by
  intro e; apply h
  apply UInt8.ext
  exact e

/-- The sign of the difference of two distinct 7-bit bytes is their order. -/
theorem sign_char_diff (a b : Byte) (ha : a.toNat < 128) (hb : b.toNat < 128) (h : a ≠ b) :
    Int.sign (charval a - charval b) = if a.toNat < b.toNat then -1 else 1 := by
  rw [charval_of_lt a ha, charval_of_lt b hb]
  have hne := toNat_ne_of_ne h
  by_cases hlt : a.toNat < b.toNat
  · rw [if_pos hlt]; apply Int.sign_eq_neg_one_of_neg; omega
  · rw [if_neg hlt]; apply Int.sign_eq_one_of_pos; omega

/-- On strings of 7-bit bytes the sign of `mystrcmp` is that of `strcmp`. -/
theorem mystrcmp_sign_ascii (s t : List Byte) (hs : ∀ b ∈ s, b.toNat < 128)
    (ht : ∀ b ∈ t, b.toNat < 128) : Int.sign (mystrcmp s t) = strcmp_spec s t := by
  induction s generalizing t with
  | nil =>
    cases t with
    | nil => simp [mystrcmp, strcmp_spec]
    | cons b t =>
      have hb := ht b (List.mem_cons_self _ _)
      by_cases h0 : b = 0
      · subst h0; simp [mystrcmp, strcmp_spec]
      · have h0b : (0 : Byte) ≠ b := fun e => h0 e.symm
        have := sign_char_diff 0 b (by decide) hb h0b
        have hpos : (0 : Byte).toNat < b.toNat := by
          have := toNat_ne_of_ne h0b
          have hz : (0 : Byte).toNat = 0 := rfl
          omega
        simp only [mystrcmp, strcmp_spec, if_neg h0b, if_neg h0, this, if_pos hpos]
  | cons a s ih =>
    have ha := hs a (List.mem_cons_self _ _)
    cases t with
    | nil =>
      by_cases h0 : a = 0
      · subst h0; simp [mystrcmp, strcmp_spec]
      · have := sign_char_diff a 0 ha (by decide) h0
        have hpos : ¬ a.toNat < (0 : Byte).toNat := by
          have hz : (0 : Byte).toNat = 0 := rfl
          omega
        simp only [mystrcmp, strcmp_spec, if_neg h0, this, if_neg hpos]
    | cons b t =>
      have hb := ht b (List.mem_cons_self _ _)
      by_cases hab : a = b
      · subst hab
        by_cases h0 : a = 0
        · subst h0; simp [mystrcmp, strcmp_spec]
        · simp only [mystrcmp, strcmp_spec, if_true, if_neg h0]
          exact ih t (fun x hx => hs x (List.mem_cons_of_mem _ hx))
            (fun x hx => ht x (List.mem_cons_of_mem _ hx))
      · simp only [mystrcmp, strcmp_spec, if_neg hab]
        exact sign_char_diff a b ha hb hab

/-- C27, where the code departs from the claim: on the one-byte string 0x80
    and the string "a", `mystrcmp` returns -225, a negative value, because the
    bytes are subtracted as signed `char`; standard `strcmp` compares them as
    `unsigned char`, 128 above 97, and returns a positive value. -/
theorem mystrcmp_high_byte :
    mystrcmp [128] (ascii "a") = -225 ∧ strcmp_spec [128] (ascii "a") = 1 := by
  decide

/-- C28, where the code departs from the claim: for `n = 0` the counter wraps
    around at `--n` and the strings "a" and "b" are compared in full,
    `mystrncmp` returns -1; standard `strncmp` compares no byte and returns 0. -/
theorem mystrncmp_zero_count :
    mystrncmp (ascii "a") (ascii "b") 0 = -1 ∧ strncmp_spec (ascii "a") (ascii "b") 0 = 0 := by
  decide

/-- C30, where the code departs from the claim: for `INT_MIN` the negation
    wraps around to `INT_MIN`, the remainders are negative, and `myitoa` leaves
    the bytes `-./,),(-*,(` where the decimal representation is
    `-2147483648`; read back, they do not give the number. -/
theorem myitoa_int_min :
    myitoa INT_MIN = ascii "-./,),(-*,(" ∧ itoa_spec INT_MIN = ascii "-2147483648" ∧
      read_decimal (myitoa INT_MIN) ≠ INT_MIN := by
  decide

/-- C26, where the code departs from the claim: started with an address and a
    port, `initclient` passes the defaults to `do_connect_server`; started with
    an address alone, it passes the address and, for the port, `argv[2]`, which
    is NULL. -/
theorem initclient_address_two_arguments :
    initclient.address 3 (main_argv ["client", "10.0.0.5", "4321"]) =
        (some DEFAULT_IP, some DEFAULT_PORT) ∧
      initclient.address 2 (main_argv ["client", "10.0.0.5"]) =
        (some (ascii "10.0.0.5"), none) := by
  decide

/-- The stores of `parse_pipeline` stay within the number of tokens. -/
theorem parse_pipeline_stores_bound (toks : List (List Byte)) (c a : Nat) :
    ∀ w ∈ parse_pipeline.stores toks c a, w.1 ≤ c + toks.length ∧ w.2 ≤ a + toks.length := by
  induction toks generalizing c a with
  | nil => intro w hw; simp [parse_pipeline.stores] at hw; subst hw; simp
  | cons tok rest ih =>
    intro w hw
    unfold parse_pipeline.stores at hw
    split at hw
    · rcases List.mem_cons.mp hw with h | h
      · subst h; simp
      · have := ih (c + 1) 0 w h
        simp only [List.length_cons]; omega
    · rcases List.mem_cons.mp hw with h | h
      · subst h; simp
      · have := ih c (a + 1) w h
        simp only [List.length_cons]; omega

/-- With fewer than 16 tokens every store of `parse_pipeline` is inside the
    arrays. -/
theorem parse_pipeline_stores_in_bounds (toks : List (List Byte))
    (h : toks.length < MAX_NUM_ARGS) :
    (parse_pipeline.stores toks 0 0).all in_bounds = true := by
  rw [List.all_eq_true]
  intro w hw
  have := parse_pipeline_stores_bound toks 0 0 w hw
  simp only [in_bounds, Bool.and_eq_true, decide_eq_true_eq]
  omega

/-- C29, where the code departs from the claim: a command line of 16 words
    gives 16 tokens, and `parse_pipeline` stores the NULL that ends the stage
    at `pipe[0].argv[16]`, past the 16 slots; a command line of 16 bars makes
    it store at `pipe[16].argv[0]`, past the 16 stages, and return 17. -/
theorem parse_pipeline_store_outside :
    (tokens_of (parse_commandline example_argv
        (ascii "a a a a a a a a a a a a a a a a" ++ [0, 0]))).length = 16 ∧
      (0, 16) ∈ parse_pipeline.stores (tokens_of (parse_commandline example_argv
        (ascii "a a a a a a a a a a a a a a a a" ++ [0, 0]))) 0 0 ∧
      (16, 0) ∈ parse_pipeline.stores (tokens_of (parse_commandline example_argv
        (ascii "| | | | | | | | | | | | | | | |" ++ [0, 0]))) 0 0 ∧
      (parse_pipeline (init_pipelines 4) 16 (tokens_of (parse_commandline example_argv
        (ascii "| | | | | | | | | | | | | | | |" ++ [0, 0])))).2 = 17 := by
  decide

/-! ### The socket loops against every behaviour of `read` and `write` -/

theorem syserrorexit_apply {α : Type} (err : List Byte) (sck : Int) (errnum : Int) (s : Sys) :
    ∃ s1, (syserrorexit err sck errnum : Run α) s = Outcome.exit errnum s1 := by
  unfold syserrorexit
  by_cases h : sck ≠ -1
  · rw [if_pos h]; exact ⟨_, rfl⟩
  · rw [if_neg h]; exact ⟨_, rfl⟩

/-- When every `write` takes at least one byte of what it is handed, the loop
    of `mysckwrite` writes what is left of the `count` bytes and returns
    `count`. -/
theorem mysckwrite_loop_spec (w : Nat → Nat → Option Nat) (sck : Int) (buf : List Byte)
    (count : Nat) (hw : ∀ k r, 0 < r → ∃ m, w k r = some m ∧ 1 ≤ m ∧ m ≤ r) :
    ∀ (fuel k total : Nat) (s : Sys), total ≤ count → count - total < fuel →
      mysckwrite.loop w sck buf count fuel k total s =
        Outcome.ret count
          { s with output := s.output ++ tagged sck ((buf.drop total).take (count - total)) } := by
  intro fuel
  induction fuel with
  | zero => intro k total s _ h; omega
  | succ fuel ih =>
    intro k total s h1 h2
    by_cases hlt : total < count
    · obtain ⟨m, e1, e2, e3⟩ := hw k (count - total) (by omega)
      have hmin : min m (count - total) = m := Nat.min_eq_left e3
      have hm0 : ¬ m = 0 := by omega
      simp only [mysckwrite.loop, hlt, if_true, e1, Run.bind_apply, sys_write_some, hmin, hm0,
        if_false]
      rw [ih (k + 1) (total + m) _ (by omega) (by omega)]
      congr 1
      simp only [List.append_assoc]
      congr 2
      unfold tagged
      rw [← List.map_append]
      congr 1
      have e4 : count - total = m + (count - (total + m)) := by omega
      rw [List.take_take, Nat.min_eq_left e3]
      conv => rhs; rw [e4, List.take_add]
      rw [List.drop_drop]
    · have e : total = count := by omega
      subst e
      simp only [mysckwrite.loop, hlt, if_false, Run.pure_apply, Nat.sub_self, List.take_zero,
        tagged, List.map_nil, List.append_nil]

/-- On a descriptor that takes all it is handed, the loop is the single
    `write` of `mysckwrite`. -/
theorem mysckwrite_with_all (sck : Int) (buf : List Byte) (count : Nat) (s : Sys) :
    mysckwrite.with_writes (fun _ r => some r) sck buf count s = mysckwrite sck buf count s := by
  unfold mysckwrite.with_writes
  rw [mysckwrite_loop_spec (fun _ r => some r) sck buf count
    (fun k r h => ⟨r, rfl, h, Nat.le_refl r⟩) (count + 1) 0 0 s (Nat.zero_le _) (by omega)]
  unfold mysckwrite sys_write
  by_cases h : 0 < count
  · simp only [h, if_true, Run.bind_apply, Run.pure_apply, List.drop_zero, Nat.sub_zero]
  · have e : count = 0 := by omega
    subst e
    simp only [Nat.lt_irrefl, if_false, Run.pure_apply, Nat.sub_zero, List.take_zero, tagged,
      List.map_nil, List.append_nil]

/-- C24: for every buffer of `n` bytes and every behaviour `w` of the
    underlying `write` in which each call takes at least one byte and at most
    the bytes it is handed, `mysckwrite` returns `n`, and the bytes handed to
    the descriptor over the calls are, in order, the `n` bytes of the buffer. -/
theorem mysckwrite_writes_all (w : Nat → Nat → Option Nat) (sck : Int) (buf : List Byte)
    (n : Nat) (s : Sys) (hbuf : buf.length = n)
    (hw : ∀ k r, 0 < r → ∃ m, w k r = some m ∧ 1 ≤ m ∧ m ≤ r) :
    mysckwrite.with_writes w sck buf n s =
      Outcome.ret n { s with output := s.output ++ tagged sck buf } := by
  unfold mysckwrite.with_writes
  rw [mysckwrite_loop_spec w sck buf n hw (n + 1) 0 0 s (Nat.zero_le _) (by omega)]
  rw [List.drop_zero, Nat.sub_zero, List.take_of_length_le (by omega)]

theorem mysckwrite_writes_all_witness :
    mysckwrite.with_writes (fun _ _ => some 1) 4 (ascii "data") 4 (example_sys []) =
      Outcome.ret 4
        { example_sys [] with output := (example_sys []).output ++ tagged 4 (ascii "data") } :=
  mysckwrite_writes_all (fun _ _ => some 1) 4 (ascii "data") 4 (example_sys []) (by decide)
    (fun _ r h => ⟨1, rfl, Nat.le_refl 1, h⟩)

/-- With less than `count` bytes on their way and then the end of the input,
    `mysckread` takes them all. -/
theorem mysckread_loop_short_end (sck : Int) (count : Nat) (cs : List (List Byte)) :
    ∀ (acc : List Byte) (k : Nat) (s : Sys), Chunks cs →
      s.input = cs → cs.flatten.length + acc.length < count →
      count + 1 ≤ k + acc.length →
      mysckread.loop sck count k acc s =
        Outcome.ret (acc ++ cs.flatten) { s with input := [] } := by
  induction cs with
  | nil =>
    intro acc k s _ hin h1 hk
    simp only [List.flatten_nil, List.length_nil, Nat.zero_add] at h1
    obtain ⟨k1, rfl⟩ : ∃ k1, k = k1 + 1 := ⟨k - 1, by omega⟩
    have hs : { s with input := [] } = s := by rw [← hin]
    have hr : myread sck (count - acc.length) s = Outcome.ret [] s := by
      unfold myread; rw [hin]
    simp only [mysckread.loop, h1, if_true, Run.bind_apply, hr, List.length_nil, Run.pure_apply,
      List.flatten_nil, List.append_nil, hs]
  | cons c cs ih =>
    intro acc k s hch hin h1 hk
    have hc : c ≠ [] := hch c (List.mem_cons_self _ _)
    have hcl : 0 < c.length := List.length_pos.mpr hc
    have hch1 : Chunks cs := fun x hx => hch x (List.mem_cons_of_mem _ hx)
    simp only [List.flatten_cons, List.length_append] at h1
    have hfull : acc.length < count := by omega
    obtain ⟨k1, rfl⟩ : ∃ k1, k = k1 + 1 := ⟨k - 1, by omega⟩
    have hfit : c.length ≤ count - acc.length := by omega
    have hgot : ¬ c.length = 0 := by omega
    simp only [mysckread.loop, hfull, if_true, Run.bind_apply,
      myread_cons sck _ s c _ hin, hfit, hgot, if_false]
    rw [ih (acc ++ c) k1 { s with input := cs } hch1 rfl
      (by simp only [List.length_append]; omega)
      (by simp only [List.length_append]; omega)]
    simp only [List.flatten_cons, List.append_assoc]

theorem chunks_takeWhile (input : List (List Byte)) :
    Chunks (input.takeWhile (fun c => !c.isEmpty)) := by
  intro c hc
  have := List.mem_takeWhile_imp hc
  intro e
  subst e
  simp at this

/-- What stops the leading reads that deliver something is a read that
    delivers nothing, or the end of the input. -/
theorem dropWhile_chunks (input : List (List Byte)) :
    input.dropWhile (fun c => !c.isEmpty) = [] ∨
      ∃ rest, input.dropWhile (fun c => !c.isEmpty) = [] :: rest := by
  induction input with
  | nil => left; rfl
  | cons c cs ih =>
    cases c with
    | nil => right; exact ⟨cs, by simp [List.dropWhile_cons]⟩
    | cons b bs => simpa [List.dropWhile_cons] using ih

/-- C25: for every request of `count` bytes and every sequence `s.input` of
    results of the underlying `read`, `mysckread` returns, and what it leaves
    in the buffer are, in the order of arrival, the bytes the reads delivered
    before `count` was reached, the descriptor had nothing (it would block) or
    the input was at its end; their number is the smaller of `count` and the
    number of bytes delivered, so it never exceeds `count`; and when the first
    read has exactly `count` bytes, the buffer holds those bytes. -/
theorem mysckread_total (sck : Int) (count : Nat) (s : Sys) :
    ∃ rest, mysckread sck count s =
        Outcome.ret ((delivered s.input).take count) { s with input := rest } ∧
      ((delivered s.input).take count).length = min count (delivered s.input).length ∧
      ((delivered s.input).take count).length ≤ count ∧
      (∀ data more, s.input = data :: more → data.length = count →
        (delivered s.input).take count = data) := by
  have hsplit : s.input = s.input.takeWhile (fun c => !c.isEmpty) ++
      s.input.dropWhile (fun c => !c.isEmpty) := (List.takeWhile_append_dropWhile _ _).symm
  have hch := chunks_takeWhile s.input
  have hrun : ∃ rest, mysckread sck count s =
      Outcome.ret ((delivered s.input).take count) { s with input := rest } := by
    unfold mysckread delivered
    by_cases hc : count ≤ (s.input.takeWhile (fun c => !c.isEmpty)).flatten.length
    · obtain ⟨cs1, _, _, a3⟩ := mysckread_loop_full sck count _ [] (count + 1) _ s hch hsplit
        (by simpa using hc) (Nat.zero_le _) (by simp)
      exact ⟨cs1 ++ s.input.dropWhile (fun c => !c.isEmpty), by rw [a3]; simp⟩
    · rcases dropWhile_chunks s.input with e | ⟨rest, e⟩
      · rw [e, List.append_nil] at hsplit
        refine ⟨[], ?_⟩
        rw [mysckread_loop_short_end sck count _ [] (count + 1) s hch hsplit
          (by simp only [List.length_nil]; omega) (by simp)]
        rw [List.nil_append, List.take_of_length_le (by omega)]
      · rw [e] at hsplit
        refine ⟨rest, ?_⟩
        rw [mysckread_loop_short sck count _ [] (count + 1) rest s hch hsplit
          (by simp only [List.length_nil]; omega) (by simp)]
        rw [List.nil_append, List.take_of_length_le (by omega)]
  obtain ⟨rest, hr⟩ := hrun
  refine ⟨rest, hr, List.length_take _ _, ?_, ?_⟩
  · rw [List.length_take]; exact Nat.min_le_left _ _
  · intro data more hin hlen
    unfold delivered
    rw [hin]
    cases data with
    | nil =>
      simp only [List.length_nil] at hlen
      rw [← hlen]; rfl
    | cons b bs =>
      simp only [List.takeWhile_cons, List.isEmpty_cons, Bool.not_false, if_true,
        List.flatten_cons]
      rw [List.take_append_of_le_length (by omega), List.take_of_length_le (by omega)]

theorem mysckread_total_witness :
    ∃ rest, mysckread 4 4 (example_sys [ascii "data"]) =
      Outcome.ret (ascii "data") { example_sys [ascii "data"] with input := rest } := by
  obtain ⟨rest, h, _, _, h4⟩ := mysckread_total 4 4 (example_sys [ascii "data"])
  rw [h4 (ascii "data") [] rfl rfl] at h
  exact ⟨rest, h⟩

/-! ### Loading the credentials -/

/-- A file of two well-formed lines is loaded as its two records. -/
theorem load_credentials_two_lines :
    (loaded_from (credential_line (ascii "alice") (ascii "pw1") ++
        credential_line (ascii "bob") (ascii "pw2"))).map Loaded.store =
      some [⟨ascii "alice", ascii "pw1"⟩, ⟨ascii "bob", ascii "pw2"⟩] := by
  decide

/-- C21, where the code departs from the claim: a file of two lines with
    fields of 255 bytes (`a`s and `b`s, then `c`s and `d`s) has 1024 bytes and
    takes two reads of 1014 bytes; the second read starts again at record 0,
    and `load_credentials` leaves one record, nine `d`s with the password of
    the first line, so `verifyuser` does not find the pair of the second line
    (it returns -1, not the index 1). -/
theorem load_credentials_second_read :
    (loaded_from (credential_line (List.replicate 255 97) (List.replicate 255 98) ++
        credential_line (List.replicate 255 99) (List.replicate 255 100))).map Loaded.store =
        some [⟨List.replicate 9 100, List.replicate 255 98⟩] ∧
      verifyuser [⟨List.replicate 9 100, List.replicate 255 98⟩]
        (List.replicate 255 99) (List.replicate 255 100) = -1 := by
  decide!

/-- C22, where the code departs from the claim: with a third field on the
    first line, `load_credentials` leaves three records, `alice pw1`, then
    `extra` with the password `bob`, then `pw2` with an empty password; the
    file without the third field gives the two records `alice pw1` and
    `bob pw2`. -/
theorem load_credentials_extra_field :
    (loaded_from (ascii "alice pw1 extra\nbob pw2\n")).map Loaded.store =
        some [⟨ascii "alice", ascii "pw1"⟩, ⟨ascii "extra", ascii "bob"⟩, ⟨ascii "pw2", []⟩] ∧
      (loaded_from (ascii "alice pw1\nbob pw2\n")).map Loaded.store =
        some [⟨ascii "alice", ascii "pw1"⟩, ⟨ascii "bob", ascii "pw2"⟩] := by
  decide

/-- C23, where the code departs from the claim: with an empty line between
    the two records, and also with a space at the end of the first line,
    `load_credentials` leaves three records, `alice pw1`, then an empty user
    name with the password `bob`, then `pw2` with an empty password; the file
    without them gives the two records `alice pw1` and `bob pw2`. -/
theorem load_credentials_blank_line :
    (loaded_from (ascii "alice pw1\n\nbob pw2\n")).map Loaded.store =
        some [⟨ascii "alice", ascii "pw1"⟩, ⟨[], ascii "bob"⟩, ⟨ascii "pw2", []⟩] ∧
      (loaded_from (ascii "alice pw1 \nbob pw2\n")).map Loaded.store =
        some [⟨ascii "alice", ascii "pw1"⟩, ⟨[], ascii "bob"⟩, ⟨ascii "pw2", []⟩] ∧
      (loaded_from (ascii "alice pw1\nbob pw2\n")).map Loaded.store ≠
        some [⟨ascii "alice", ascii "pw1"⟩, ⟨[], ascii "bob"⟩, ⟨ascii "pw2", []⟩] := by
  decide

/-- For a count of at least 1 the sign of `mystrncmp` on strings of 7-bit
    bytes is that of `strncmp`. -/
theorem mystrncmp_sign_ascii (s : List Byte) :
    ∀ (t : List Byte) (n : Nat), 0 < n → n < 2 ^ 64 → (∀ b ∈ s, b.toNat < 128) →
      (∀ b ∈ t, b.toNat < 128) → Int.sign (mystrncmp s t n) = strncmp_spec s t n := by
  induction s with
  | nil =>
    intro t n hn _ _ ht
    obtain ⟨m, rfl⟩ : ∃ m, n = m + 1 := ⟨n - 1, by omega⟩
    cases t with
    | nil => simp [mystrncmp, strncmp_spec]
    | cons b t =>
      have hb := ht b (List.mem_cons_self _ _)
      by_cases h0 : b = 0
      · subst h0; simp [mystrncmp, strncmp_spec]
      · have h0b : (0 : Byte) ≠ b := fun e => h0 e.symm
        have hpos : (0 : Byte).toNat < b.toNat := by
          have := toNat_ne_of_ne h0b
          have hz : (0 : Byte).toNat = 0 := rfl
          omega
        simp only [mystrncmp, strncmp_spec, if_neg h0,
          sign_char_diff 0 b (by decide) hb h0b, if_pos hpos]
  | cons a s ih =>
    intro t n hn hn2 hs ht
    obtain ⟨m, rfl⟩ : ∃ m, n = m + 1 := ⟨n - 1, by omega⟩
    have ha := hs a (List.mem_cons_self _ _)
    have hm : (m + 1 + 2 ^ 64 - 1) % 2 ^ 64 = m := by
      have e : m + 1 + 2 ^ 64 - 1 = m + 2 ^ 64 := by omega
      rw [e, Nat.add_mod_right, Nat.mod_eq_of_lt (by omega)]
    cases t with
    | nil =>
      by_cases h0 : a = 0
      · subst h0; simp [mystrncmp, strncmp_spec]
      · have hpos : ¬ a.toNat < (0 : Byte).toNat := by
          have hz : (0 : Byte).toNat = 0 := rfl
          omega
        simp only [mystrncmp, strncmp_spec, if_neg h0,
          sign_char_diff a 0 ha (by decide) h0, if_neg hpos]
    | cons b t =>
      have hb := ht b (List.mem_cons_self _ _)
      rw [mystrncmp, strncmp_spec, hm]
      by_cases hab : a = b
      · subst hab
        by_cases h0 : a = 0
        · subst h0; simp
        · by_cases hm0 : 0 < m
          · rw [if_pos ⟨hm0, h0, h0, rfl⟩, if_pos rfl, if_neg h0]
            exact ih t m hm0 (by omega) (fun x hx => hs x (List.mem_cons_of_mem _ hx))
              (fun x hx => ht x (List.mem_cons_of_mem _ hx))
          · have e : m = 0 := by omega
            subst e
            rw [if_neg (by simp), if_pos rfl, if_neg h0]
            simp [strncmp_spec]
      · rw [if_neg (fun h => hab h.2.2.2), if_neg hab]
        exact sign_char_diff a b ha hb hab

/-! ### `myitoa` away from `INT_MIN` -/

theorem digitChar_byte (m : Nat) (h : m < 10) :
    (Nat.digitChar m).toNat.toUInt8 = toChar ((m : Int) + 48) ∧
      (Nat.digitChar m).toNat.toUInt8.toNat - 48 = m ∧
      (Nat.digitChar m).toNat.toUInt8 ≠ 45 := by
  interval_cases m <;> decide

/-- The digit loop of `myitoa` on a positive number gives the digits of
    `Nat.toDigits`, least significant first. -/
theorem toDigitsCore_digits :
    ∀ (fuel n : Nat) (ds : List Char) (k : Nat), n < fuel → 0 < n → n < 10 ^ k →
      (Nat.toDigitsCore 10 fuel n ds).map (fun c => c.toNat.toUInt8) =
        (myitoa.digits k (n : Int)).reverse ++ ds.map (fun c => c.toNat.toUInt8) := by
  intro fuel
  induction fuel with
  | zero => intro n ds k h; omega
  | succ fuel ih =>
    intro n ds k h1 h2 h3
    obtain ⟨k1, rfl⟩ : ∃ k1, k = k1 + 1 := by
      cases k with
      | zero => simp at h3; omega
      | succ k1 => exact ⟨k1, rfl⟩
    have hne : (n : Int) ≠ 0 := by omega
    have hmod : Int.tmod (n : Int) 10 = ((n % 10 : Nat) : Int) := rfl
    have hdiv : Int.tdiv (n : Int) 10 = ((n / 10 : Nat) : Int) := rfl
    have hlt : n % 10 < 10 := Nat.mod_lt _ (by decide)
    have hrem : ¬ ((n % 10 : Nat) : Int) > 9 := by omega
    have hd := (digitChar_byte (n % 10) hlt).1
    simp only [Nat.toDigitsCore, myitoa.digits, hne, ne_eq, not_false_eq_true, if_true, hmod,
      hdiv, hrem, if_false, List.reverse_cons]
    by_cases h0 : n / 10 = 0
    · rw [if_pos h0, h0]
      have hz : myitoa.digits k1 ((0 : Nat) : Int) = [] := by
        cases k1 <;> simp [myitoa.digits]
      rw [hz]
      simp only [List.map_cons, List.reverse_nil, List.nil_append, List.singleton_append]
      rw [hd]
    · rw [if_neg h0]
      have hk : n / 10 < 10 ^ k1 := by
        rw [Nat.div_lt_iff_lt_mul (by decide)]
        rw [Nat.pow_succ] at h3
        exact h3
      rw [ih (n / 10) _ k1 (by omega) (by omega) hk]
      simp only [List.map_cons, List.append_assoc, List.singleton_append]
      rw [hd]

/-- Reading the digits of `Nat.toDigits` back gives the number. -/
theorem read_toDigitsCore :
    ∀ (fuel n : Nat) (ds : List Char), n < fuel →
      List.foldl (fun acc (b : Byte) => 10 * acc + (b.toNat - 48)) 0
          ((Nat.toDigitsCore 10 fuel n ds).map (fun c => c.toNat.toUInt8)) =
        List.foldl (fun acc (b : Byte) => 10 * acc + (b.toNat - 48)) n
          (ds.map (fun c => c.toNat.toUInt8)) := by
  intro fuel
  induction fuel with
  | zero => intro n ds h; omega
  | succ fuel ih =>
    intro n ds h1
    have hlt : n % 10 < 10 := Nat.mod_lt _ (by decide)
    have hd := (digitChar_byte (n % 10) hlt).2.1
    simp only [Nat.toDigitsCore]
    by_cases h0 : n / 10 = 0
    · rw [if_pos h0]
      simp only [List.map_cons, List.foldl_cons, hd]
      congr 1
      omega
    · rw [if_neg h0, ih (n / 10) _ (by omega)]
      simp only [List.map_cons, List.foldl_cons, hd]
      congr 1
      omega

theorem read_digits_decimal (n : Nat) : read_digits (decimal n) = n := by
  unfold read_digits decimal Nat.toDigits
  rw [read_toDigitsCore (n + 1) n [] (by omega)]
  rfl

/-- The first byte of the digits of a number is not a minus sign. -/
theorem decimal_head (n : Nat) : ∀ s, decimal n ≠ 45 :: s := by
  intro s e
  have key : ∀ (fuel m : Nat) (ds : List Char),
      (∀ t, ds.map (fun c => c.toNat.toUInt8) ≠ 45 :: t) → ∀ t,
      (Nat.toDigitsCore 10 fuel m ds).map (fun c => c.toNat.toUInt8) ≠ 45 :: t := by
    intro fuel
    induction fuel with
    | zero => intro m ds h t; simpa [Nat.toDigitsCore] using h t
    | succ fuel ih =>
      intro m ds _ t
      have hlt : m % 10 < 10 := Nat.mod_lt _ (by decide)
      have hd := (digitChar_byte (m % 10) hlt).2.2
      simp only [Nat.toDigitsCore]
      by_cases h0 : m / 10 = 0
      · rw [if_pos h0]
        intro e1
        simp only [List.map_cons, List.cons.injEq] at e1
        exact hd e1.1
      · rw [if_neg h0]
        apply ih
        intro t1 e1
        simp only [List.map_cons, List.cons.injEq] at e1
        exact hd e1.1
  unfold decimal Nat.toDigits at e
  cases n with
  | zero =>
    have e0 : (Nat.toDigitsCore 10 (0 + 1) 0 []).map (fun c => c.toNat.toUInt8) = [48] := by
      decide
    rw [e0] at e
    simp only [List.cons.injEq] at e
    exact absurd e.1 (by decide)
  | succ m =>
    have hlt : (m + 1) % 10 < 10 := Nat.mod_lt _ (by decide)
    have hd := (digitChar_byte ((m + 1) % 10) hlt).2.2
    rw [Nat.toDigitsCore] at e
    by_cases h0 : (m + 1) / 10 = 0
    · simp only [h0, if_true, List.map_cons, List.cons.injEq] at e
      exact hd e.1
    · simp only [h0, if_false] at e
      refine key _ _ _ ?_ s e
      intro t1 e1
      simp only [List.map_cons, List.cons.injEq] at e1
      exact hd e1.1

/-- Reading the decimal representation of an integer back gives the integer. -/
theorem read_decimal_itoa_spec (num : Int) : read_decimal (itoa_spec num) = num := by
  unfold itoa_spec
  by_cases h : num < 0
  · rw [if_pos h]
    simp only [read_decimal, read_digits_decimal]
    omega
  · rw [if_neg h]
    have hr : read_decimal (decimal num.natAbs) = (read_digits (decimal num.natAbs) : Int) := by
      generalize hs : decimal num.natAbs = s
      cases s with
      | nil => rfl
      | cons b t =>
        by_cases hb : b = 45
        · subst hb; exact absurd hs (decimal_head _ t)
        · unfold read_decimal
          split
          · rename_i heq
            simp only [List.cons.injEq] at heq
            exact absurd heq.1 hb
          · rfl
    rw [hr, read_digits_decimal]
    omega

/-- Away from `INT_MIN`, `myitoa` leaves the decimal representation of a
    32-bit number, and reading it back gives the number. -/
theorem myitoa_decimal (num : Int) (h1 : INT_MIN < num) (h2 : num < 2147483648) :
    myitoa num = itoa_spec num ∧ read_decimal (myitoa num) = num := by
  have key : myitoa num = itoa_spec num := by
    unfold INT_MIN at h1
    unfold myitoa itoa_spec
    by_cases h0 : num = 0
    · subst h0; decide
    · rw [if_neg h0]
      have hd : ∀ n : Nat, 0 < n → n < 2147483648 →
          (myitoa.digits 10 (n : Int)).reverse = decimal n := by
        intro n hn hlt
        unfold decimal Nat.toDigits
        rw [toDigitsCore_digits (n + 1) n [] 10 (by omega) hn (by omega)]
        simp
      by_cases hneg : num < 0
      · have hw : wrap32 (-num) = ((num.natAbs : Nat) : Int) := by
          unfold wrap32; omega
        simp only [hneg, if_true, decide_True, hw, List.reverse_append, List.reverse_cons,
          List.reverse_nil, List.nil_append, List.singleton_append]
        rw [hd num.natAbs (by omega) (by omega)]
      · have hw : num = ((num.natAbs : Nat) : Int) := by omega
        simp only [hneg, if_false, decide_False]
        rw [← hd num.natAbs (by omega) (by omega), ← hw]
        rfl
  exact ⟨key, by rw [key]; exact read_decimal_itoa_spec num⟩

/-! ### A credential file that fits one read -/

theorem scan_delim (delim : Byte) (tok : List Byte) (c : Byte) (y : List Byte)
    (h0 : (0 : Byte) ∉ tok) (hd : delim ∉ tok) (hc : c = 0 ∨ c = delim) :
    mystrtok.scan delim (tok ++ c :: y) = tok.length := by
  induction tok with
  | nil =>
    have : ¬ (c ≠ 0 ∧ c ≠ delim) := by
      rintro ⟨h1, h2⟩
      rcases hc with h | h
      · exact h1 h
      · exact h2 h
    simp only [List.nil_append, mystrtok.scan, if_neg this, List.length_nil]
  | cons b tok ih =>
    have hb : b ≠ 0 ∧ b ≠ delim :=
      ⟨fun h => h0 (h ▸ List.mem_cons_self _ _), fun h => hd (h ▸ List.mem_cons_self _ _)⟩
    have ih2 := ih (fun h => h0 (List.mem_cons_of_mem _ h))
      (fun h => hd (List.mem_cons_of_mem _ h))
    rw [List.cons_append]
    simp only [mystrtok.scan, if_pos hb, List.length_cons, ih2]

/-- The first two steps of `mystrtok` at the start of a token that does not
    begin with a space or a tab: nothing is skipped, and the scan stops at the
    byte `c` after the token, a NUL or the delimiter. -/
theorem mystrtok_steps (delim : Byte) (pre tok : List Byte) (c : Byte) (y : List Byte)
    (h0 : (0 : Byte) ∉ tok) (hd : delim ∉ tok)
    (hhead : ∃ a t, tok = a :: t ∧ a ≠ 32 ∧ a ≠ 9) (hc : c = 0 ∨ c = delim) :
    remove_whitespace (pre ++ (tok ++ c :: y)) pre.length = pre.length ∧
    pre.length + mystrtok.scan delim ((pre ++ (tok ++ c :: y)).drop pre.length) =
      (pre ++ tok).length := by
  obtain ⟨a, t, rfl, ha1, ha2⟩ := hhead
  have h1 : remove_whitespace (pre ++ (a :: t ++ c :: y)) pre.length = pre.length := by
    unfold remove_whitespace
    rw [drop_at]
    have := skip_append [] a (t ++ c :: y) (by simp) ⟨ha1, ha2⟩
    simp only [List.nil_append, List.length_nil] at this
    rw [List.cons_append, this]
    rfl
  refine ⟨h1, ?_⟩
  rw [drop_at, scan_delim delim (a :: t) c y h0 hd hc, List.length_append]

/-- The call `mystrtok(.., '\n')` on a line that ends in a newline: the line
    is returned, a NUL is written over the newline and `next_token` is left
    after it. -/
theorem mystrtok_line (pre tok y : List Byte) (nt str : Option Nat)
    (hp : (match str with
      | some p => some p
      | none => nt) = some pre.length)
    (h0 : (0 : Byte) ∉ tok) (hd : (10 : Byte) ∉ tok)
    (hhead : ∃ a t, tok = a :: t ∧ a ≠ 32 ∧ a ≠ 9) :
    mystrtok { buf := pre ++ (tok ++ 10 :: y), next_token := nt } str 10 =
      (some pre.length,
        { buf := pre ++ (tok ++ 0 :: y), next_token := some ((pre ++ tok).length + 1) }) := by
  obtain ⟨h1, h2⟩ := mystrtok_steps 10 pre tok 10 y h0 hd hhead (Or.inr rfl)
  have h3 : peek (pre ++ (tok ++ 10 :: y)) (pre ++ tok).length = 10 := by
    have := peek_at (pre ++ tok) 10 y
    simpa using this
  have h4 : poke (pre ++ (tok ++ 10 :: y)) (pre ++ tok).length 0 = pre ++ (tok ++ 0 :: y) := by
    have := poke_at (pre ++ tok) 10 0 y
    simpa using this
  have h6 : ¬ ((10 : Byte) = 0) := by decide
  unfold mystrtok
  simp only [hp, h1, h2, h3, h4, ne_eq, h6, not_false_eq_true, if_true]

/-- The call `mystrtok(NULL, ' ')` on the last token of a line, which ends at
    the NUL written over the newline: the token is returned, and `next_token`
    is left after the NUL when the byte there is not NUL, and set to NULL when
    it is. -/
theorem mystrtok_last (pre tok : List Byte) (d : Byte) (y : List Byte) (nt str : Option Nat)
    (hp : (match str with
      | some p => some p
      | none => nt) = some pre.length)
    (h0 : (0 : Byte) ∉ tok) (hd : (32 : Byte) ∉ tok)
    (hhead : ∃ a t, tok = a :: t ∧ a ≠ 32 ∧ a ≠ 9) :
    mystrtok { buf := pre ++ (tok ++ 0 :: d :: y), next_token := nt } str 32 =
      (some pre.length,
        { buf := pre ++ (tok ++ 0 :: d :: y),
          next_token := if d = 0 then none else some ((pre ++ tok).length + 1) }) := by
  by_cases hd0 : d = 0
  · subst hd0
    obtain ⟨h1, h2⟩ := mystrtok_steps 32 pre tok 0 (0 :: y) h0 hd hhead (Or.inl rfl)
    have h3 : peek (pre ++ (tok ++ 0 :: 0 :: y)) (pre ++ tok).length = 0 := by
      have := peek_at (pre ++ tok) 0 (0 :: y)
      simpa using this
    have h4 : peek (pre ++ (tok ++ 0 :: 0 :: y)) ((pre ++ tok).length + 1) = 0 := by
      have := peek_at_succ (pre ++ tok) 0 0 y
      simpa using this
    unfold mystrtok
    simp only [hp, h1, h2, h3, h4, ne_eq, not_true_eq_false, if_false, if_true]
  · obtain ⟨h1, h2⟩ := mystrtok_steps 32 pre tok 0 (d :: y) h0 hd hhead (Or.inl rfl)
    have h3 : peek (pre ++ (tok ++ 0 :: d :: y)) (pre ++ tok).length = 0 := by
      have := peek_at (pre ++ tok) 0 (d :: y)
      simpa using this
    have h4 : peek (pre ++ (tok ++ 0 :: d :: y)) ((pre ++ tok).length + 1) = d := by
      have := peek_at_succ (pre ++ tok) 0 d y
      simpa using this
    unfold mystrtok
    simp only [hp, h1, h2, h3, h4, hd0, ne_eq, not_true_eq_false, if_false]

theorem set_at_length {α : Type} (done : List α) (b c : α) (blanks : List α) :
    (done ++ b :: blanks).set done.length c = done ++ c :: blanks := by
  simp

theorem get_at_length {α : Type} (done : List α) (b : α) (blanks : List α) :
    (done ++ b :: blanks).get? done.length = some b := by
  induction done with
  | nil => rfl
  | cons a done ih => simpa using ih

theorem mystrncpy_token (tok y : List Byte) (n : Nat) (h0 : (0 : Byte) ∉ tok)
    (hn : tok.length ≤ n) : mystrncpy (tok ++ 0 :: y) n = tok := by
  induction tok generalizing n with
  | nil => cases n <;> simp [mystrncpy]
  | cons a tok ih =>
    have ha : a ≠ 0 := fun h => h0 (h ▸ List.mem_cons_self _ _)
    obtain ⟨m, rfl⟩ : ∃ m, n = m + 1 := ⟨n - 1, by simp only [List.length_cons] at hn; omega⟩
    rw [List.cons_append]
    simp only [mystrncpy, if_neg ha]
    rw [ih m (fun h => h0 (List.mem_cons_of_mem _ h))
      (by simp only [List.length_cons] at hn; omega)]

theorem field_head (f : List Byte) (h : Field f) : ∃ a t, f = a :: t ∧ a ≠ 32 ∧ a ≠ 9 := by
  obtain ⟨h1, _, h3⟩ := h
  cases f with
  | nil => exact absurd rfl h1
  | cons a t =>
    have := h3 a (List.mem_cons_self _ _)
    exact ⟨a, t, rfl, this.2.1, this.2.2.1⟩

theorem field_free (f : List Byte) (h : Field f) (c : Byte)
    (hc : c = 0 ∨ c = 32 ∨ c = 9 ∨ c = 10) : c ∉ f := by
  intro hm
  have := h.2.2 c hm
  rcases hc with rfl | rfl | rfl | rfl
  · exact this.1 rfl
  · exact this.2.1 rfl
  · exact this.2.2.1 rfl
  · exact this.2.2.2 rfl

/-- What `load_user_and_password` does on a well-formed line whose newline
    `mystrtok` has overwritten: the record `index` becomes the pair of the
    line, and `next_token` is left at the byte after the line, or is NULL when
    that byte is NUL. -/
theorem load_user_and_password_line (pre u p : List Byte) (d : Byte) (y : List Byte)
    (nt : Option Nat) (done blanks : List Credential) (b : Credential)
    (hu : Field u) (hpw : Field p) :
    load_user_and_password { buf := pre ++ (u ++ 32 :: (p ++ 0 :: d :: y)), next_token := nt }
        (done ++ b :: blanks) pre.length done.length =
      some ({ buf := pre ++ (u ++ 0 :: (p ++ 0 :: d :: y)),
              next_token := if d = 0 then none
                else some ((pre ++ (u ++ 0 :: p)).length + 1) },
        done ++ { username := u, password := p } :: blanks) := by
  have t1 := mystrtok_mid pre [] u (p ++ 0 :: d :: y) nt (some pre.length) rfl (by simp)
    (field_free u hu 0 (Or.inl rfl)) (field_free u hu 32 (Or.inr (Or.inl rfl)))
    (by
      obtain ⟨a, t, e, h1, h2⟩ := field_head u hu
      intro x hx; rw [e] at hx
      simp only [List.head?_cons, Option.some.injEq] at hx
      subst hx; exact ⟨h1, h2⟩) hu.1
  simp only [List.nil_append, List.append_nil] at t1
  have t2 := mystrtok_last (pre ++ (u ++ [0])) p d y
    (some (pre ++ (u ++ [0])).length) none rfl
    (field_free p hpw 0 (Or.inl rfl)) (field_free p hpw 32 (Or.inr (Or.inl rfl)))
    (field_head p hpw)
  have e1 : pre ++ (u ++ [0]) ++ (p ++ 0 :: d :: y) = pre ++ (u ++ 0 :: (p ++ 0 :: d :: y)) := by
    simp
  have e2 : (pre ++ (u ++ [0]) ++ p).length = (pre ++ (u ++ 0 :: p)).length := by simp
  rw [e1, e2] at t2
  have c1 : mystrncpy ((pre ++ (u ++ 0 :: (p ++ 0 :: d :: y))).drop pre.length) (MAXREAD - 1)
      = u := by
    rw [drop_at, mystrncpy_token u _ _ (field_free u hu 0 (Or.inl rfl))
      (by have := hu.2.1; unfold CREDENTIAL_LEN at this; unfold MAXREAD; omega)]
  have c2 : mystrncpy ((pre ++ (u ++ 0 :: (p ++ 0 :: d :: y))).drop (pre ++ (u ++ [0])).length)
      (MAXREAD - 1) = p := by
    rw [← e1, drop_at, mystrncpy_token p _ _ (field_free p hpw 0 (Or.inl rfl))
      (by have := hpw.2.1; unfold CREDENTIAL_LEN at this; unfold MAXREAD; omega)]
  have l1 : ¬ CREDENTIAL_LEN ≤ u.length := by have := hu.2.1; omega
  have l2 : ¬ CREDENTIAL_LEN ≤ p.length := by have := hpw.2.1; omega
  have s1 : set_username (done ++ b :: blanks) done.length u =
      done ++ { b with username := u } :: blanks := by
    unfold set_username
    rw [get_at_length]
    exact set_at_length done b _ blanks
  have s2 : set_password (done ++ { b with username := u } :: blanks) done.length p =
      done ++ { username := u, password := p } :: blanks := by
    unfold set_password
    rw [get_at_length]
    exact set_at_length done _ _ blanks
  unfold load_user_and_password
  simp only [t1, t2, c1, c2, l1, l2, if_false, s1, s2]

theorem credential_file_cons (c : Credential) (rs : List Credential) :
    credential_file (c :: rs) =
      c.username ++ 32 :: (c.password ++ 10 :: credential_file rs) := by
  simp [credential_file, credential_line]

theorem credential_file_nil : credential_file [] = [] := rfl

/-- The loop over the lines of the buffer, from a well-formed line whose
    newline `mystrtok` has overwritten, followed by the lines of `recs` and at
    least two NUL bytes: every line is loaded into the next record. -/
theorem load_credentials_lines_spec (recs : List Credential) :
    ∀ (pre u p : List Byte) (m : Nat) (nt : Option Nat) (done blanks : List Credential)
      (k : Nat), Field u → Field p → (∀ c ∈ recs, Field c.username ∧ Field c.password) →
      recs.length + 1 ≤ blanks.length → recs.length + 1 ≤ k →
      ∃ st1, load_credentials.lines k
          { buf := pre ++ (u ++ 32 :: (p ++ 0 :: (credential_file recs ++
              List.replicate (m + 2) 0))),
            next_token := nt }
          (some pre.length) done.length (done ++ blanks) =
        .ok (st1, done.length + 1 + recs.length,
          done ++ ({ username := u, password := p } :: recs ++
            blanks.drop (recs.length + 1))) := by
  induction recs with
  | nil =>
    intro pre u p m nt done blanks k hu hp _ hb hk
    obtain ⟨b, blanks1, rfl⟩ : ∃ b bl, blanks = b :: bl := by
      cases blanks with
      | nil => simp at hb
      | cons b bl => exact ⟨b, bl, rfl⟩
    obtain ⟨k1, rfl⟩ : ∃ k1, k = k1 + 1 := ⟨k - 1, by simp at hk; omega⟩
    have hl := load_user_and_password_line pre u p 0 (0 :: List.replicate m 0) nt done blanks1 b
      hu hp
    have hz : credential_file [] ++ List.replicate (m + 2) 0 = 0 :: 0 :: List.replicate m 0 := by
      rfl
    rw [hz]
    rw [if_pos rfl] at hl
    refine ⟨{ buf := pre ++ (u ++ 0 :: (p ++ 0 :: 0 :: 0 :: List.replicate m 0)),
              next_token := none }, ?_⟩
    rw [load_credentials.lines, hl]
    simp only []
    have hn : ∀ st : Strtok, st.next_token = none → mystrtok st none 10 = (none, st) := by
      intro st h
      unfold mystrtok
      rw [h]
    rw [hn _ rfl]
    cases k1 <;> simp [load_credentials.lines]
  | cons c rs ih =>
    intro pre u p m nt done blanks k hu hp hrec hb hk
    obtain ⟨b, blanks1, rfl⟩ : ∃ b bl, blanks = b :: bl := by
      cases blanks with
      | nil => simp at hb
      | cons b bl => exact ⟨b, bl, rfl⟩
    obtain ⟨k1, rfl⟩ : ∃ k1, k = k1 + 1 := ⟨k - 1, by simp at hk; omega⟩
    have hc := hrec c (List.mem_cons_self _ _)
    obtain ⟨a, t, hat, ha1, ha2⟩ := field_head c.username hc.1
    have ha0 : a ≠ 0 := by
      have := hc.1.2.2 a (by rw [hat]; exact List.mem_cons_self _ _)
      exact this.1
    have hfile : credential_file (c :: rs) ++ List.replicate (m + 2) 0 =
        a :: (t ++ 32 :: (c.password ++ 10 :: (credential_file rs ++
          List.replicate (m + 2) 0))) := by
      rw [credential_file_cons, hat]
      simp
    have hl := load_user_and_password_line pre u p a
      (t ++ 32 :: (c.password ++ 10 :: (credential_file rs ++ List.replicate (m + 2) 0)))
      nt done blanks1 b hu hp
    rw [if_neg ha0] at hl
    rw [hfile, load_credentials.lines, hl]
    simp only []
    have hbuf : pre ++ (u ++ 0 :: (p ++ 0 :: a :: (t ++ 32 :: (c.password ++ 10 ::
        (credential_file rs ++ List.replicate (m + 2) 0))))) =
        (pre ++ (u ++ 0 :: (p ++ [0]))) ++ ((c.username ++ 32 :: c.password) ++ 10 ::
          (credential_file rs ++ List.replicate (m + 2) 0)) := by
      rw [hat]
      simp
    have hlen : (pre ++ (u ++ 0 :: p)).length + 1 = (pre ++ (u ++ 0 :: (p ++ [0]))).length := by
      simp only [List.length_append, List.length_cons, List.length_nil]
      omega
    have h0 : (0 : Byte) ∉ c.username ++ 32 :: c.password := by
      intro h
      rcases List.mem_append.mp h with h | h
      · exact field_free _ hc.1 0 (Or.inl rfl) h
      · rcases List.mem_cons.mp h with h | h
        · exact absurd h (by decide)
        · exact field_free _ hc.2 0 (Or.inl rfl) h
    have h10 : (10 : Byte) ∉ c.username ++ 32 :: c.password := by
      intro h
      rcases List.mem_append.mp h with h | h
      · exact field_free _ hc.1 10 (Or.inr (Or.inr (Or.inr rfl))) h
      · rcases List.mem_cons.mp h with h | h
        · exact absurd h (by decide)
        · exact field_free _ hc.2 10 (Or.inr (Or.inr (Or.inr rfl))) h
    have hline := mystrtok_line (pre ++ (u ++ 0 :: (p ++ [0]))) (c.username ++ 32 :: c.password)
      (credential_file rs ++ List.replicate (m + 2) 0)
      (some (pre ++ (u ++ 0 :: (p ++ [0]))).length) none rfl h0 h10
      ⟨a, t ++ 32 :: c.password, by rw [hat]; rfl, ha1, ha2⟩
    rw [hbuf, hlen, hline]
    simp only []
    have hshape : (pre ++ (u ++ 0 :: (p ++ [0]))) ++ ((c.username ++ 32 :: c.password) ++ 0 ::
          (credential_file rs ++ List.replicate (m + 2) 0)) =
        (pre ++ (u ++ 0 :: (p ++ [0]))) ++ (c.username ++ 32 :: (c.password ++ 0 ::
          (credential_file rs ++ List.replicate (m + 2) 0))) := by
      simp
    have hdone : done.length + 1 = (done ++ [(⟨u, p⟩ : Credential)]).length := by
      simp
    have hcreds : done ++ (⟨u, p⟩ : Credential) :: blanks1 =
        (done ++ [(⟨u, p⟩ : Credential)]) ++ blanks1 := by
      simp
    rw [hshape, hdone, hcreds]
    obtain ⟨st1, e⟩ := ih (pre ++ (u ++ 0 :: (p ++ [0]))) c.username c.password m
      (some ((pre ++ (u ++ 0 :: (p ++ [0])) ++ (c.username ++ 32 :: c.password)).length + 1))
      (done ++ [(⟨u, p⟩ : Credential)]) blanks1 k1 hc.1 hc.2
      (fun x hx => hrec x (List.mem_cons_of_mem _ hx))
      (by simp only [List.length_cons] at hb; omega)
      (by simp only [List.length_cons] at hk; omega)
    refine ⟨st1, ?_⟩
    rw [e]
    have eta : ({ username := c.username, password := c.password } : Credential) = c := rfl
    simp only [eta, List.length_append, List.length_cons, List.length_nil, List.append_assoc,
      List.cons_append, List.nil_append, List.drop_succ_cons]
    have ei : done.length + (0 + 1) + 1 + rs.length = done.length + (0 + 1) + (rs.length + 1) := by
      omega
    rw [ei]

theorem credential_file_length (recs : List Credential)
    (hf : ∀ c ∈ recs, Field c.username ∧ Field c.password) :
    4 * recs.length ≤ (credential_file recs).length := by
  induction recs with
  | nil => simp [credential_file]
  | cons c rs ih =>
    have hc := hf c (List.mem_cons_self _ _)
    have h1 : 0 < c.username.length := List.length_pos.mpr hc.1.1
    have h2 : 0 < c.password.length := List.length_pos.mpr hc.2.1
    have := ih (fun x hx => hf x (List.mem_cons_of_mem _ hx))
    rw [credential_file_cons]
    simp only [List.length_append, List.length_cons]
    omega

/-- The buffer of `load_credentials` after a read that delivers `content`. -/
theorem buffer_after_read (content : List Byte) (h : content.length ≤ MAXREAD - 10) :
    poke (overwrite (List.replicate MAXREAD 0) 0 content) content.length 0 =
      content ++ List.replicate (MAXREAD - 2 - content.length + 2) 0 := by
  unfold MAXREAD at h ⊢
  have e1 : overwrite (List.replicate 1024 0) 0 content =
      content ++ (0 : Byte) :: List.replicate (1024 - 2 - content.length + 1) 0 := by
    unfold overwrite
    rw [List.take_zero, List.nil_append, Nat.zero_add, List.drop_replicate,
      ← List.replicate_succ]
    congr 2
    omega
  rw [e1, poke_at, ← List.replicate_succ]

/-- The `while` loop of `load_credentials` on a descriptor at the start of a
    well-formed credential file that fits one read: it returns, with the
    records of the file in the array, in the order of the lines, and their
    number in `__ncredentials`. -/
theorem load_credentials_chunks_spec (fd : Int) (fuel : Nat) (nt : Option Nat) (i0 : Int)
    (recs : List Credential) (name : List Byte) (d : Disk) (s : Sys) (hne : recs ≠ [])
    (hf : ∀ c ∈ recs, Field c.username ∧ Field c.password)
    (hlen : (credential_file recs).length ≤ MAXREAD - 10)
    (h1 : d.lookup fd = some (name, 0)) (h2 : d.content name = some (credential_file recs))
    (hfuel : 2 ≤ fuel) :
    ∃ d1 creds, load_credentials.chunks fd fuel
          { buf := List.replicate MAXREAD 0, next_token := nt } i0
          (List.replicate USER_MAX { username := [], password := [] }) d s =
        Outcome.ret (Loaded.ok creds (recs.length : Int), d1)
          { s with closed := s.closed ++ [fd] } ∧
      creds.take recs.length = recs := by
  obtain ⟨c, rs, rfl⟩ : ∃ c rs, recs = c :: rs := by
    cases recs with
    | nil => exact absurd rfl hne
    | cons c rs => exact ⟨c, rs, rfl⟩
  obtain ⟨f2, rfl⟩ : ∃ f2, fuel = f2 + 1 + 1 := ⟨fuel - 2, by omega⟩
  have hc := hf c (List.mem_cons_self _ _)
  have hsize := credential_file_length (c :: rs) hf
  have hpos : 0 < (credential_file (c :: rs)).length := by
    simp only [List.length_cons] at hsize; omega
  have hmax : MAXREAD = 1024 := rfl
  have huser : USER_MAX = 1000 := rfl
  -- the first read delivers the file
  obtain ⟨d2, r1, r2, r3⟩ := Read_file fd (MAXREAD - 10) d s name 0 _ h1 h2
  have hgot : ((credential_file (c :: rs)).drop 0).take (MAXREAD - 10) =
      credential_file (c :: rs) := by
    rw [List.drop_zero, List.take_of_length_le hlen]
  rw [hgot] at r1 r2
  -- the second read delivers nothing
  obtain ⟨d3, q1, _, _⟩ := Read_file fd (MAXREAD - 10) d2 s name _ _ r2 r3
  have hnone : ((credential_file (c :: rs)).drop (0 + (credential_file (c :: rs)).length)).take
      (MAXREAD - 10) = [] := by
    rw [Nat.zero_add, List.drop_length, List.take_nil]
  rw [hnone] at q1
  -- the lines of the buffer
  obtain ⟨a, t, hat, ha1, ha2⟩ := field_head c.username hc.1
  have h0 : (0 : Byte) ∉ c.username ++ 32 :: c.password := by
    intro h
    rcases List.mem_append.mp h with h | h
    · exact field_free _ hc.1 0 (Or.inl rfl) h
    · rcases List.mem_cons.mp h with h | h
      · exact absurd h (by decide)
      · exact field_free _ hc.2 0 (Or.inl rfl) h
  have h10 : (10 : Byte) ∉ c.username ++ 32 :: c.password := by
    intro h
    rcases List.mem_append.mp h with h | h
    · exact field_free _ hc.1 10 (Or.inr (Or.inr (Or.inr rfl))) h
    · rcases List.mem_cons.mp h with h | h
      · exact absurd h (by decide)
      · exact field_free _ hc.2 10 (Or.inr (Or.inr (Or.inr rfl))) h
  have hbuf : credential_file (c :: rs) ++
        List.replicate (MAXREAD - 2 - (credential_file (c :: rs)).length + 2) 0 =
      [] ++ ((c.username ++ 32 :: c.password) ++ 10 :: (credential_file rs ++
        List.replicate (MAXREAD - 2 - (credential_file (c :: rs)).length + 2) 0)) := by
    rw [credential_file_cons]
    simp
  have hline := mystrtok_line [] (c.username ++ 32 :: c.password)
    (credential_file rs ++
      List.replicate (MAXREAD - 2 - (credential_file (c :: rs)).length + 2) 0)
    nt (some 0) rfl h0 h10 ⟨a, t ++ 32 :: c.password, by rw [hat]; rfl, ha1, ha2⟩
  have hshape : ([] : List Byte) ++ ((c.username ++ 32 :: c.password) ++ 0 ::
        (credential_file rs ++
          List.replicate (MAXREAD - 2 - (credential_file (c :: rs)).length + 2) 0)) =
      [] ++ (c.username ++ 32 :: (c.password ++ 0 :: (credential_file rs ++
        List.replicate (MAXREAD - 2 - (credential_file (c :: rs)).length + 2) 0))) := by
    simp
  rw [hshape] at hline
  obtain ⟨st1, hl⟩ := load_credentials_lines_spec rs [] c.username c.password
    (MAXREAD - 2 - (credential_file (c :: rs)).length)
    (some ((([] : List Byte) ++ (c.username ++ 32 :: c.password)).length + 1)) []
    (List.replicate USER_MAX { username := [], password := [] }) USER_MAX hc.1 hc.2
    (fun x hx => hf x (List.mem_cons_of_mem _ hx))
    (by rw [List.length_replicate, huser]; simp only [List.length_cons] at hsize; omega)
    (by rw [huser]; simp only [List.length_cons] at hsize; omega)
  refine ⟨{ d3 with opened := d3.opened.filter (fun e => e.1 ≠ fd) }, c :: rs ++ List.drop (rs.length + 1)
    (List.replicate USER_MAX ({ username := [], password := [] } : Credential)), ?_, ?_⟩
  · rw [load_credentials.chunks]
    simp only [FRun.bind_run, r1, hpos, if_true, buffer_after_read _ hlen, hbuf, hline]
    simp only [List.length_nil, List.nil_append] at hl ⊢
    rw [hl]
    simp only []
    rw [load_credentials.chunks]
    simp only [FRun.bind_run, q1, List.length_nil, Nat.lt_irrefl, if_false, close_file,
      FRun.pure_run]
    have ei : 0 + 1 + rs.length = (c :: rs).length := by
      simp only [List.length_cons]; omega
    rw [ei]
  · have eta : ({ username := c.username, password := c.password } : Credential) = c := rfl
    simp

/-- A well-formed credential file that fits one read of `load_credentials`
    (at most 1014 bytes), with at least one line: `load_credentials` returns and
    the store holds the records of the lines, in their order. -/
theorem load_credentials_one_read (recs : List Credential) (hne : recs ≠ [])
    (hf : ∀ c ∈ recs, Field c.username ∧ Field c.password)
    (hlen : (credential_file recs).length ≤ MAXREAD - 10) :
    (loaded_from (credential_file recs)).map Loaded.store = some recs := by
  have hsize := credential_file_length recs hf
  have hpos : 0 < recs.length := List.length_pos.mpr hne
  have hname : cstr (ascii "credentials.txt") = ascii "credentials.txt" := by decide
  have hcont : (creds_disk (credential_file recs)).content (cstr (ascii "credentials.txt")) =
      some (credential_file recs) := by
    rw [hname]; rfl
  obtain ⟨d1, o1, o2, o3⟩ := sys_open_spec (ascii "credentials.txt") O_RDONLY
    (creds_disk (credential_file recs)) (example_sys []) (by decide)
    (Or.inr (by rw [hcont]; exact Option.some_ne_none _))
  rw [hcont, Option.getD_some] at o3
  have hbuf : mymemset (List.replicate (MAXREAD - 1) 0 ++ [0]) 0 (MAXREAD - 1) =
      List.replicate MAXREAD 0 := by
    unfold mymemset
    rw [List.take_left' (by simp), List.drop_left' (by simp)]
    simp only [List.map_replicate]
    show List.replicate 1023 (0 : Byte) ++ [0] = List.replicate (1023 + 1) 0
    exact (List.replicate_succ' 1023 (0 : Byte)).symm
  obtain ⟨d2, creds, c1, c2⟩ := load_credentials_chunks_spec
    (creds_disk (credential_file recs)).fresh ((credential_file recs).length + 1) none 0 recs
    (cstr (ascii "credentials.txt")) d1 (example_sys []) hne hf hlen o2 o3 (by omega)
  have hrun : load_credentials 0 0 ((credential_file recs).length + 1) (ascii "credentials.txt")
      (creds_disk (credential_file recs)) (example_sys []) =
      Outcome.ret (Loaded.ok creds (recs.length : Int), d2)
        { example_sys [] with
          closed := (example_sys []).closed ++ [(creds_disk (credential_file recs)).fresh] } := by
    unfold load_credentials myopen
    simp only [FRun.bind_run, o1, fresh_ne_minus_one, if_false, FRun.pure_run, hbuf]
    exact c1
  unfold loaded_from
  rw [hrun]
  simp only [Option.map_some', Loaded.store, Int.toNat_ofNat, c2]

/-- In a store that holds the records `recs`, `verifyuser` on the pair of
    record `i` returns the index of the first record that holds that pair. -/
theorem verifyuser_loaded (recs : List Credential) (i : Nat) (c : Credential)
    (h : recs.get? i = some c) :
    ∃ j : Nat, j ≤ i ∧ verifyuser recs c.username c.password = (j : Int) ∧
      (∃ c1, recs.get? j = some c1 ∧ c1.holds c.username c.password) ∧
      ∀ k < j, ∀ c1, recs.get? k = some c1 → ¬ c1.holds c.username c.password := by
  obtain ⟨h1, h2⟩ := verifyuser_loop_spec c.username c.password recs 0 (le_refl _)
  have hmem : c ∈ recs := List.get?_mem h
  have hne : verifyuser.loop c.username c.password recs 0 ≠ -1 := by
    intro e
    exact (h1.mp e) c hmem ⟨rfl, rfl⟩
  obtain ⟨j, e1, _, e3, e4⟩ := h2 hne
  refine ⟨j, ?_, by unfold verifyuser; rw [e1]; simp, e3, e4⟩
  by_contra hji
  exact e4 i (by omega) c h ⟨rfl, rfl⟩

end ShellServe
